import Mathlib

/-!
Box-blur approximation of a Gaussian blur (`tajtiattila/blur`)

A shallow embedding of `blur.go` and a verification of its specification.

Modelling conventions:

* A `*image.RGBA` is an index into a heap of `RGBA` objects; two pointers alias
  exactly when they are the same index.  Every object owns its `Pix` bytes.
* Statements are heap transformers that either return a value or panic; the
  heap reached is kept in both cases (`Exec`).
* Go `int` is embedded as `Int`.  Every index the code forms is bounded by the
  length of a `Pix` slice and every accumulator by `255 * (2 * radius + 1)`, so
  for any buffer a process can address no 64-bit wrap-around occurs.  The one
  narrowing conversion, `uint8(v)`, is embedded as `v % 256`.  In
  `determineBoxes64`, where the operands grow with the square of the radius,
  the wrap-around is explicit.
* Bytes are natural numbers; "every byte is below 256" is part of
  well-formedness (`RGBA.bytesOK`).
* `determineBoxes` is embedded twice.  `determineBoxes64` follows the code in
  machine arithmetic: every `float64` operation is the exact rational result
  rounded to the nearest binary64 value, ties to even (`round64`, `sqrt64`),
  every `int` operation wraps around at 64 bits (`wrap64`), and a conversion
  from `float64` to `int` of a value out of range yields `-2 ^ 63`
  (`toInt64`), as the code compiled for amd64 does, where no multiplication is
  fused with an addition.  `determineBoxes` is the same function in exact
  rational arithmetic, with `math.Floor(math.Sqrt(x))` as the integer square
  root of `⌊x⌋`; it is the solver called by the model of `gaussianBlur`.  For
  every integer radius from 0 to 54794158 the two return the same widths
  (`gaussBoxes64_eq_determineBoxes`): the products, the quotients and the
  `int` operations are exact there, and the rounding of the sum under the
  square root and of the square root is discarded by `math.Floor`.  At the
  radius 54794159 the two differ.
* A Go loop `for ; x < hi; x++ { body }` whose body assigns neither `x` nor
  `hi` is embedded as `(hi - x).toNat` iterations of the body (`forTo`).
-/

namespace Blur

/-! ## Data model -/

/-- Run-time panics of the embedded code. -/
inductive Panic where
  /-- nil pointer dereference -/
  | nilDeref
  /-- index out of range -/
  | index
  /-- slice bounds out of range -/
  | slice
  /-- the explicit panic of `boxBlur3`: scratch must differ from src and dst -/
  | scratchAlias
  /-- the panic of `image.NewRGBA` on negative dimensions -/
  | hugeRect
  deriving DecidableEq, Repr

/-- The type `image.Rectangle`, with the two corner points flattened. -/
structure Rectangle where
  MinX : Int
  MinY : Int
  MaxX : Int
  MaxY : Int
  deriving DecidableEq, Repr

/-- The method `Rectangle.Dx`. -/
def Rectangle.Dx (r : Rectangle) : Int := r.MaxX - r.MinX

/-- The method `Rectangle.Dy`. -/
def Rectangle.Dy (r : Rectangle) : Int := r.MaxY - r.MinY

/-- The type `image.RGBA`: the pixel bytes, the row stride and the bounds. -/
structure RGBA where
  Pix : List Nat
  Stride : Int
  Rect : Rectangle
  deriving DecidableEq, Repr

/-- The method `(*RGBA).Bounds`. -/
def RGBA.Bounds (p : RGBA) : Rectangle := p.Rect

/-- The method `(*RGBA).PixOffset`. -/
def RGBA.PixOffset (p : RGBA) (x y : Int) : Int :=
  (y - p.Rect.MinY) * p.Stride + (x - p.Rect.MinX) * 4

deriving instance DecidableEq for Except

/-- The heap: the `image.RGBA` objects allocated so far; a pointer is an index. -/
abbrev Heap := List RGBA

/-- A statement: from a heap to a value or a panic, and the heap reached. -/
def Exec (α : Type) : Type := Heap → Except Panic α × Heap

instance : Monad Exec where
  pure a := fun hp => (Except.ok a, hp)
  bind m f := fun hp =>
    match m hp with
    | (Except.ok a, hp1) => f a hp1
    | (Except.error e, hp1) => (Except.error e, hp1)

/-- Raise a panic. -/
def throwPanic {α : Type} (e : Panic) : Exec α := fun hp => (Except.error e, hp)

/-- Dereference a `*image.RGBA`. -/
def deref (p : Nat) : Exec RGBA := fun hp =>
  match hp[p]? with
  | some o => (Except.ok o, hp)
  | none => (Except.error Panic.nilDeref, hp)

/-- The expression `int(p.Pix[i])`. -/
def readPix (p : Nat) (i : Int) : Exec Int := fun hp =>
  match hp[p]? with
  | none => (Except.error Panic.nilDeref, hp)
  | some o =>
    if 0 ≤ i then
      match o.Pix[i.toNat]? with
      | some b => (Except.ok (b : Int), hp)
      | none => (Except.error Panic.index, hp)
    else (Except.error Panic.index, hp)

/-- The conversion `uint8(v)` of an `int`. -/
def uint8 (v : Int) : Nat := (v % 256).toNat

/-- The statement `p.Pix[i] = uint8(v)`. -/
def writePix (p : Nat) (i : Int) (v : Int) : Exec Unit := fun hp =>
  match hp[p]? with
  | none => (Except.error Panic.nilDeref, hp)
  | some o =>
    if 0 ≤ i ∧ i.toNat < o.Pix.length then
      (Except.ok (), hp.set p { o with Pix := o.Pix.set i.toNat (uint8 v) })
    else (Except.error Panic.index, hp)

/-- The slice expression `p.Pix[lo:]`; the slice is represented by its offset
`lo` into `p.Pix`, with which it shares its bytes. -/
def sliceFrom (p : Nat) (lo : Int) : Exec Int := fun hp =>
  match hp[p]? with
  | none => (Except.error Panic.nilDeref, hp)
  | some o =>
    if 0 ≤ lo ∧ lo.toNat ≤ o.Pix.length then (Except.ok lo, hp)
    else (Except.error Panic.slice, hp)

/-- The expression `int(sl[i])` for a slice `sl = p.Pix[lo:]`. -/
def readSlice (p : Nat) (lo : Int) (i : Int) : Exec Int := fun hp =>
  match hp[p]? with
  | none => (Except.error Panic.nilDeref, hp)
  | some o =>
    if 0 ≤ i then
      match o.Pix[(lo + i).toNat]? with
      | some b => (Except.ok (b : Int), hp)
      | none => (Except.error Panic.index, hp)
    else (Except.error Panic.index, hp)

/-! ## Loops -/

/-- Run `body` `n` times, threading the loop state. -/
def iterate {σ : Type} (n : Nat) (body : σ → Exec σ) (s : σ) : Exec σ :=
  match n with
  | 0 => pure s
  | k + 1 => do
    let s1 ← body s
    iterate k body s1

/-- The loop `for ; x < hi; x++ { body }`; returns the final `x` and state. -/
def forTo {σ : Type} (x hi : Int) (body : σ → Exec σ) (s : σ) : Exec (Int × σ) := do
  let s1 ← iterate (hi - x).toNat body s
  pure (max x hi, s1)

/-- The constant `nRGBAchan`. -/
def nRGBAchan : Int := 4

/-- The loop `for i := 0; i < nRGBAchan; i++ { body }`. -/
def forChan {σ : Type} (body : Nat → σ → Exec σ) (s : σ) : Exec σ := do
  let s ← body 0 s
  let s ← body 1 s
  let s ← body 2 s
  body 3 s

/-- The accumulator `var val [nRGBAchan]int`. -/
abbrev Val := Nat → Int

/-- The assignment `val[i] = v`. -/
def Val.set (val : Val) (i : Nat) (v : Int) : Val := fun j => if j = i then v else val j

/-! ## The blur passes -/

/-- The function `boxBlurH`. -/
def boxBlurH (dst src : Nat) (radius : Int) : Exec Unit := do
  let s ← deref src
  let d ← deref dst
  let so := s.PixOffset s.Bounds.MinX s.Bounds.MinY
  let dO := d.PixOffset d.Bounds.MinX d.Bounds.MinY
  let w := d.Bounds.Dx
  let h := d.Bounds.Dy
  let r2 := 2 * radius + 1
  let _ ← forTo 0 h (fun ((val, so, dO) : Val × Int × Int) => do
    let fv ← sliceFrom src so
    let lv ← sliceFrom src (so + (w - 1) * nRGBAchan)
    let val ← forChan (fun i (val : Val) => do
      let f ← readSlice src fv i
      pure (val.set i ((radius + 1) * f))) val
    let rp := so
    let (_, val, rp) ← forTo 0 radius (fun ((val, rp) : Val × Int) =>
      forChan (fun i ((val, rp) : Val × Int) => do
        let a ← readPix src rp
        pure (val.set i (val i + a), rp + 1)) (val, rp)) (val, rp)
    let lp := so
    let dp := dO
    let (x, val, rp, dp) ← forTo 0 (radius + 1) (fun ((val, rp, dp) : Val × Int × Int) =>
      forChan (fun i ((val, rp, dp) : Val × Int × Int) => do
        let a ← readPix src rp
        let f ← readSlice src fv i
        let v := val i + (a - f)
        writePix dst dp (v.tdiv r2)
        pure (val.set i v, rp + 1, dp + 1)) (val, rp, dp)) (val, rp, dp)
    let (x, val, lp, _, dp) ← forTo x (w - radius)
      (fun ((val, lp, rp, dp) : Val × Int × Int × Int) =>
        forChan (fun i ((val, lp, rp, dp) : Val × Int × Int × Int) => do
          let a ← readPix src rp
          let b ← readPix src lp
          let v := val i + (a - b)
          writePix dst dp (v.tdiv r2)
          pure (val.set i v, lp + 1, rp + 1, dp + 1)) (val, lp, rp, dp)) (val, lp, rp, dp)
    let (_, val, _, _) ← forTo x w (fun ((val, lp, dp) : Val × Int × Int) =>
      forChan (fun i ((val, lp, dp) : Val × Int × Int) => do
        let a ← readSlice src lv i
        let b ← readPix src lp
        let v := val i + (a - b)
        writePix dst dp (v.tdiv r2)
        pure (val.set i v, lp + 1, dp + 1)) (val, lp, dp)) (val, lp, dp)
    pure (val, so + s.Stride, dO + d.Stride)) ((fun _ => 0), so, dO)
  pure ()

/-- The function `boxBlurV`. -/
def boxBlurV (dst src : Nat) (radius : Int) : Exec Unit := do
  let s ← deref src
  let d ← deref dst
  let so := s.PixOffset s.Bounds.MinX s.Bounds.MinY
  let dO := d.PixOffset d.Bounds.MinX d.Bounds.MinY
  let w := d.Bounds.Dx
  let h := d.Bounds.Dy
  let r2 := 2 * radius + 1
  let _ ← forTo 0 w (fun ((val, so, dO) : Val × Int × Int) => do
    let fv ← sliceFrom src so
    let lv ← sliceFrom src (so + (h - 1) * s.Stride)
    let val ← forChan (fun i (val : Val) => do
      let f ← readSlice src fv i
      pure (val.set i ((radius + 1) * f))) val
    let rp := so
    let (_, val, rp) ← forTo 0 radius (fun ((val, rp) : Val × Int) => do
      let val ← forChan (fun i (val : Val) => do
        let a ← readPix src (rp + i)
        pure (val.set i (val i + a))) val
      pure (val, rp + s.Stride)) (val, rp)
    let lp := so
    let dp := dO
    let (y, val, rp, dp) ← forTo 0 (radius + 1) (fun ((val, rp, dp) : Val × Int × Int) => do
      let val ← forChan (fun i (val : Val) => do
        let a ← readPix src (rp + i)
        let f ← readSlice src fv i
        let v := val i + (a - f)
        writePix dst (dp + i) (v.tdiv r2)
        pure (val.set i v)) val
      pure (val, rp + s.Stride, dp + d.Stride)) (val, rp, dp)
    let (y, val, lp, _, dp) ← forTo y (h - radius)
      (fun ((val, lp, rp, dp) : Val × Int × Int × Int) => do
        let val ← forChan (fun i (val : Val) => do
          let a ← readPix src (rp + i)
          let b ← readPix src (lp + i)
          let v := val i + (a - b)
          writePix dst (dp + i) (v.tdiv r2)
          pure (val.set i v)) val
        pure (val, lp + s.Stride, rp + s.Stride, dp + d.Stride)) (val, lp, rp, dp)
    let (_, val, _, _) ← forTo y h (fun ((val, lp, dp) : Val × Int × Int) => do
      let val ← forChan (fun i (val : Val) => do
        let a ← readSlice src lv i
        let b ← readPix src (lp + i)
        let v := val i + (a - b)
        writePix dst (dp + i) (v.tdiv r2)
        pure (val.set i v)) val
      pure (val, lp + s.Stride, dp + d.Stride)) (val, lp, dp)
    pure (val, so + nRGBAchan, dO + nRGBAchan)) ((fun _ => 0), so, dO)
  pure ()

/-- The function `boxBlur3`. -/
def boxBlur3 (dst scratch src : Nat) (radius : Int) : Exec Unit := do
  if src = scratch ∨ dst = scratch then
    throwPanic Panic.scratchAlias
  else do
    boxBlurH scratch src radius
    boxBlurV dst scratch radius

/-! ## The box-size solver -/

/-- The expression `math.Floor(math.Sqrt(x))` in exact arithmetic. -/
def floorSqrt (x : ℚ) : Int := (Nat.sqrt ⌊x⌋.toNat : Int)

/-- The function `determineBoxes`, in exact arithmetic.  The function in
machine arithmetic is `determineBoxes64`; the two agree at `float64(radius)`
for every integer radius from 0 to 54794158. -/
def determineBoxes (sigma : ℚ) (nbox : Nat) : List Int :=
  let wlo0 : Int := floorSqrt (12 * sigma * sigma / (nbox : ℚ) + 1)
  let wlo : Int := if wlo0.tmod 2 = 0 then wlo0 - 1 else wlo0
  let wup : Int := wlo + 2
  let idealMedian : ℚ :=
    (12 * sigma * sigma - (((nbox : Int) * wlo * wlo + 4 * (nbox : Int) * wlo + 3 * (nbox : Int) : Int) : ℚ))
      / (-4 * (wlo : ℚ) - 4)
  let median : Int := ⌊idealMedian + 1 / 2⌋
  (List.range nbox).map (fun (i : Nat) => if (i : Int) < median then wlo else wup)

/-! ## The orchestrator and the buffer policy -/

/-- The function `image.NewRGBA` of the standard library: a zeroed, tightly
packed buffer for the rectangle `r`, at a fresh address. -/
def NewRGBA (r : Rectangle) : Exec Nat := fun hp =>
  if r.Dx < 0 ∨ r.Dy < 0 then (Except.error Panic.hugeRect, hp)
  else
    (Except.ok hp.length,
      hp ++ [{ Pix := List.replicate (4 * r.Dx * r.Dy).toNat 0, Stride := 4 * r.Dx, Rect := r }])

/-- The function `gaussianBlur`. -/
def gaussianBlur (dst src : Nat) (radius : Int) : Exec Unit := do
  let boxes := determineBoxes (radius : ℚ) 3
  let d ← deref dst
  let tmp ← NewRGBA d.Bounds
  boxBlur3 dst tmp src ((boxes.getD 0 0 - 1).tdiv 2)
  boxBlur3 dst tmp dst ((boxes.getD 1 0 - 1).tdiv 2)
  boxBlur3 dst tmp dst ((boxes.getD 2 0 - 1).tdiv 2)

/-- The type `Option` of the package. -/
inductive BlurOption where
  | KeepSrc
  | ReuseSrc
  deriving DecidableEq, Repr

/-- A value of the interface type `image.Image`: a `*image.RGBA`, or an image of
any other type, given by its bounds and, for each point and channel, the 8-bit
sample `draw.Draw` stores for it. -/
inductive Image where
  | rgba (p : Nat)
  | other (bounds : Rectangle) (px : Int → Int → Nat → Nat)

/-- The method `Image.Bounds`. -/
def Image.Bounds (im : Image) : Exec Rectangle :=
  match im with
  | Image.rgba p => do
    let o ← deref p
    pure o.Bounds
  | Image.other b _ => pure b

/-- The slice expression `p.Pix[lo : lo+n]` read as a value (source of `copy`). -/
def loadRow (p : Nat) (lo n : Int) : Exec (List Nat) := fun hp =>
  match hp[p]? with
  | none => (Except.error Panic.nilDeref, hp)
  | some o =>
    if 0 ≤ lo ∧ 0 ≤ n ∧ (lo + n).toNat ≤ o.Pix.length then
      (Except.ok ((o.Pix.drop lo.toNat).take n.toNat), hp)
    else (Except.error Panic.slice, hp)

/-- The statement `copy(p.Pix[lo : lo+len(row)], row)`. -/
def storeRow (p : Nat) (lo : Int) (row : List Nat) : Exec Unit := fun hp =>
  match hp[p]? with
  | none => (Except.error Panic.nilDeref, hp)
  | some o =>
    if 0 ≤ lo ∧ lo.toNat + row.length ≤ o.Pix.length then
      (Except.ok (), hp.set p
        { o with Pix := o.Pix.take lo.toNat ++ row ++ o.Pix.drop (lo.toNat + row.length) })
    else (Except.error Panic.slice, hp)

/-- The call `draw.Draw(dst, dst.Bounds(), im, im.Bounds().Min, draw.Src)` of the
standard library, for a destination that has the bounds of `im`: nothing for an
empty rectangle, else the rows are copied top-down (`drawCopySrc` for an RGBA
source, the per-pixel conversion otherwise). -/
def drawSrc (dst : Nat) (im : Image) : Exec Unit := do
  let d ← deref dst
  let w := d.Bounds.Dx
  let h := d.Bounds.Dy
  if w ≤ 0 ∨ h ≤ 0 then
    pure ()
  else
    match im with
    | Image.rgba p => do
      let s ← deref p
      let _ ← forTo 0 h (fun ((d0, s0) : Int × Int) => do
        let row ← loadRow p s0 (4 * w)
        storeRow dst d0 row
        pure (d0 + d.Stride, s0 + s.Stride)) (0, 0)
      pure ()
    | Image.other b px => do
      let _ ← forTo 0 h (fun ((d0, y) : Int × Int) => do
        storeRow dst d0
          ((List.range (4 * w).toNat).map (fun k => px (b.MinX + (k / 4 : Nat)) y (k % 4) % 256))
        pure (d0 + d.Stride, y + 1)) (0, b.MinY)
      pure ()

/-- The function `Gaussian`. -/
def Gaussian (im : Image) (radius : Int) (option : BlurOption) : Exec Nat := do
  let rgba ←
    match im, option with
    | Image.rgba p, BlurOption.ReuseSrc => pure p
    | _, _ => do
      let b ← im.Bounds
      let rgba ← NewRGBA b
      drawSrc rgba im
      pure rgba
  gaussianBlur rgba rgba radius
  pure rgba

/-! ## Proof devices -/

/-- The body of the loop that seeds the window with the first `radius` pixels. -/
def fillStep (src : Nat) (sElem : Int) : Val × Int → Exec (Val × Int) :=
  fun ((val, rp) : Val × Int) => do
    let val ← forChan (fun i (val : Val) => do
      let a ← readPix src (rp + i)
      pure (val.set i (val i + a))) val
    pure (val, rp + sElem)

/-- The body of the loop over the left margin: the pixel leaving the window is
the first pixel of the line. -/
def leftStep (dst src : Nat) (r2 sElem dElem fv : Int) : Val × Int × Int → Exec (Val × Int × Int) :=
  fun ((val, rp, dp) : Val × Int × Int) => do
    let val ← forChan (fun i (val : Val) => do
      let a ← readPix src (rp + i)
      let f ← readSlice src fv i
      let v := val i + (a - f)
      writePix dst (dp + i) (v.tdiv r2)
      pure (val.set i v)) val
    pure (val, rp + sElem, dp + dElem)

/-- The body of the loop over the interior of the line. -/
def midStep (dst src : Nat) (r2 sElem dElem : Int) :
    Val × Int × Int × Int → Exec (Val × Int × Int × Int) :=
  fun ((val, lp, rp, dp) : Val × Int × Int × Int) => do
    let val ← forChan (fun i (val : Val) => do
      let a ← readPix src (rp + i)
      let b ← readPix src (lp + i)
      let v := val i + (a - b)
      writePix dst (dp + i) (v.tdiv r2)
      pure (val.set i v)) val
    pure (val, lp + sElem, rp + sElem, dp + dElem)

/-- The body of the loop over the right margin: the pixel entering the window
is the last pixel of the line. -/
def rightStep (dst src : Nat) (r2 sElem dElem lv : Int) : Val × Int × Int → Exec (Val × Int × Int) :=
  fun ((val, lp, dp) : Val × Int × Int) => do
    let val ← forChan (fun i (val : Val) => do
      let a ← readSlice src lv i
      let b ← readPix src (lp + i)
      let v := val i + (a - b)
      writePix dst (dp + i) (v.tdiv r2)
      pure (val.set i v)) val
    pure (val, lp + sElem, dp + dElem)

/-- One line of the common pass: the body of the outer loop of `boxBlurV`, with
the strides made parameters and its four inner loop bodies named. -/
def line1D (dst src : Nat) (radius nElems sLine sElem dLine dElem : Int) :
    Val × Int × Int → Exec (Val × Int × Int) :=
  fun ((val, so, dO) : Val × Int × Int) => do
    let r2 := 2 * radius + 1
    let fv ← sliceFrom src so
    let lv ← sliceFrom src (so + (nElems - 1) * sElem)
    let val ← forChan (fun i (val : Val) => do
      let f ← readSlice src fv i
      pure (val.set i ((radius + 1) * f))) val
    let rp := so
    let (_, val, rp) ← forTo 0 radius (fillStep src sElem) (val, rp)
    let lp := so
    let dp := dO
    let (y, val, rp, dp) ← forTo 0 (radius + 1) (leftStep dst src r2 sElem dElem fv) (val, rp, dp)
    let (y, val, lp, _, dp) ← forTo y (nElems - radius) (midStep dst src r2 sElem dElem)
      (val, lp, rp, dp)
    let (_, val, _, _) ← forTo y nElems (rightStep dst src r2 sElem dElem lv) (val, lp, dp)
    pure (val, so + sLine, dO + dLine)

/-- The common shape of `boxBlurH` and `boxBlurV`: a sliding-window pass over
`nLines` lines of `nElems` pixels, with separate line and element steps for the
source and the destination. -/
def pass1D (dst src : Nat) (radius nLines nElems sLine sElem dLine dElem so dO : Int) :
    Exec Unit := do
  let _ ← forTo 0 nLines (line1D dst src radius nElems sLine sElem dLine dElem)
    ((fun _ => 0), so, dO)
  pure ()

/-- The heap `hp` with the pixel bytes of the object at `dst` replaced by `P`. -/
def withPix (hp : Heap) (dst : Nat) (d : RGBA) (P : List Nat) : Heap :=
  hp.set dst { d with Pix := P }

/-- The byte of `s.Pix` at the (integer) index `i`, as an `int`. -/
def srcByte (s : RGBA) (i : Int) : Int := ((s.Pix.getD i.toNat 0 : Nat) : Int)

/-- The setting of a pass: a source object and a different destination object. -/
structure Frame (hp : Heap) (dst src : Nat) (d s : RGBA) : Prop where
  hs : hp[src]? = some s
  hd : hp[dst]? = some d
  hne : src ≠ dst

/-- The list `P` with the four bytes from index `a` replaced by `f 0 .. f 3`. -/
def write4 (P : List Nat) (a : Nat) (f : Nat → Nat) : List Nat :=
  (((P.set a (f 0)).set (a + 1) (f 1)).set (a + 2) (f 2)).set (a + 3) (f 3)

/-- The accumulator `val` with its four entries replaced by `f 0 .. f 3`. -/
def set4 (val : Val) (f : Nat → Int) : Val :=
  (((val.set 0 (f 0)).set 1 (f 1)).set 2 (f 2)).set 3 (f 3)

/-- The index `j` clamped to the line `0 .. n-1` (edge-clamped extension). -/
def clampIdx (n : Nat) (j : Int) : Nat := min j.toNat (n - 1)

/-- The sum of the `2r+1` samples of the line `a` (of length `n`) around `x`,
the line being extended by repeating its first and last sample. -/
def winSum (a : Nat → Int) (r n : Nat) (x : Int) : Int :=
  ∑ k in Finset.range (2 * r + 1), a (clampIdx n (x + (k : Int) - (r : Int)))

/-- The list `P` after the first `k` pixels of a line were written: pixel `e`
goes to the four bytes from `addr e` and holds `out e 0 .. out e 3`. -/
def lineWrite (P : List Nat) (addr : Nat → Nat) (out : Nat → Nat → Nat) : Nat → List Nat
  | 0 => P
  | k + 1 => write4 (lineWrite P addr out k) (addr k) (out k)

/-- The samples of channel `c` along a source line that starts at `so` and
steps by `es`. -/
def lineSrc (s : RGBA) (so es : Int) (c : Nat) : Nat → Int :=
  fun j => srcByte s (so + (j : Int) * es + (c : Int))

/-- The index in the destination bytes of pixel `e` of a line that starts at
`dO` and steps by `ds`. -/
def lineAddr (dO ds : Int) : Nat → Nat := fun e => (dO + (e : Int) * ds).toNat

/-- The byte the pass stores for channel `c` of pixel `e` of a line. -/
def lineOut (s : RGBA) (so es : Int) (r n : Nat) : Nat → Nat → Nat :=
  fun e c => uint8 ((winSum (lineSrc s so es c) r n (e : Int)).tdiv (2 * (r : Int) + 1))

/-- The list `P` after the first `L` lines of `n` pixels were written. -/
def gridWrite (P : List Nat) (addr : Nat → Nat → Nat) (out : Nat → Nat → Nat → Nat) (n : Nat) :
    Nat → List Nat
  | 0 => P
  | L + 1 => lineWrite (gridWrite P addr out n L) (addr L) (out L) n

/-! ## Specification vocabulary -/

/-- The sample of channel `c` of the pixel `x` columns right of and `y` rows
below the top-left corner of the bounds of `p` (`0` outside the buffer). -/
def RGBA.sample (p : RGBA) (x y c : Nat) : Nat :=
  p.Pix.getD (p.PixOffset (p.Rect.MinX + (x : Int)) (p.Rect.MinY + (y : Int)) + (c : Int)).toNat 0

/-- The layout of a buffer of `w` by `h` pixels: the bounds have these
dimensions, a row fits in the stride, and the bytes cover every row. -/
structure RGBA.Fits (p : RGBA) (w h : Nat) : Prop where
  dx : p.Rect.Dx = (w : Int)
  dy : p.Rect.Dy = (h : Int)
  stride : 4 * (w : Int) ≤ p.Stride
  len : 0 < h → ((h : Int) - 1) * p.Stride + 4 * (w : Int) ≤ (p.Pix.length : Int)

/-- Every byte of the buffer is a `uint8`. -/
def RGBA.bytesOK (p : RGBA) : Prop := ∀ b ∈ p.Pix, b < 256

instance (p : RGBA) : Decidable p.bytesOK := by
  unfold RGBA.bytesOK
  infer_instance

/-- A well-formed buffer of `w` by `h` pixels. -/
structure RGBA.WF (p : RGBA) (w h : Nat) : Prop where
  fits : p.Fits w h
  bytes : p.bytesOK

/-- The value `i` clamped to the interval `lo .. hi`. -/
def clamp (i lo hi : Int) : Int := max lo (min i hi)

/-- The truncated mean of the `2r+1` samples of row `y` around column `x`, the
row being extended by repeating its first and last column. -/
def boxMeanH (src : RGBA) (r w : Nat) (x y c : Nat) : Nat :=
  (∑ k in Finset.range (2 * r + 1),
    src.sample (clamp ((x : Int) + (k : Int) - (r : Int)) 0 ((w : Int) - 1)).toNat y c) / (2 * r + 1)

/-- The truncated mean of the `2r+1` samples of column `x` around row `y`, the
column being extended by repeating its first and last row. -/
def boxMeanV (src : RGBA) (r h : Nat) (x y c : Nat) : Nat :=
  (∑ k in Finset.range (2 * r + 1),
    src.sample x (clamp ((y : Int) + (k : Int) - (r : Int)) 0 ((h : Int) - 1)).toNat c) / (2 * r + 1)

/-- The bytes of the destination after `boxBlurH` with radius `r` from the
source `s` into a destination of `w` by `h` pixels whose bytes were `d.Pix`. -/
def pixAfterH (d s : RGBA) (r w h : Nat) : List Nat :=
  gridWrite d.Pix (fun L => lineAddr (0 + (L : Int) * d.Stride) 4)
    (fun L => lineOut s (0 + (L : Int) * s.Stride) 4 r w) w h

/-- The bytes of the destination after `boxBlurV` with radius `r` from the
source `s` into a destination of `w` by `h` pixels whose bytes were `d.Pix`. -/
def pixAfterV (d s : RGBA) (r w h : Nat) : List Nat :=
  gridWrite d.Pix (fun L => lineAddr (0 + (L : Int) * 4) d.Stride)
    (fun L => lineOut s (0 + (L : Int) * 4) s.Stride r h) h w

/-- A pixel grid: the sample of channel `c` of the pixel in column `x`, row `y`. -/
abbrev Grid := Nat → Nat → Nat → Nat

/-- The horizontal pass on pixel grids: what `boxBlurH` with radius `r` stores
for a source of width `w` with the samples `g`. -/
def blurH (r w : Nat) (g : Grid) : Grid :=
  fun x y c => uint8 ((winSum (fun j => ((g j y c : Nat) : Int)) r w (x : Int)).tdiv (2 * (r : Int) + 1))

/-- The vertical pass on pixel grids: what `boxBlurV` with radius `r` stores
for a source of height `h` with the samples `g`. -/
def blurV (r h : Nat) (g : Grid) : Grid :=
  fun x y c => uint8 ((winSum (fun j => ((g x j c : Nat) : Int)) r h (y : Int)).tdiv (2 * (r : Int) + 1))

/-! ## Concrete buffers used as witnesses -/

/-- A tightly packed buffer of `w` by `h` pixels whose byte at index `i` is `f i`. -/
def mkRGBA (w h : Nat) (f : Nat → Nat) : RGBA :=
  { Pix := (List.range (4 * w * h)).map f, Stride := 4 * (w : Int), Rect := ⟨0, 0, w, h⟩ }

/-- A heap with a 3 by 3 source at address 0 and a zeroed 3 by 3 destination
at address 1. -/
def heap33 : Heap := [mkRGBA 3 3 (fun i => 7 * i), mkRGBA 3 3 (fun _ => 0)]

/-- The sum of the variances `(w² - 1) / 12` of boxes of the widths `ws`. -/
def boxVariance (ws : List Int) : ℚ := (ws.map (fun (w : Int) => ((w : ℚ) ^ 2 - 1) / 12)).sum

/-- The 4 by 4 image whose 16 pixels are all `(128, 128, 128, 255)`, tightly
packed (stride 16, 64 bytes). -/
def gray44 : RGBA := mkRGBA 4 4 (fun i => if i % 4 = 3 then 255 else 128)

/-- A heap with a source, a scratch and a destination buffer, all one pixel
wide and three pixels high. -/
def heap13 : Heap :=
  [mkRGBA 1 3 (fun i => 20 * i), mkRGBA 1 3 (fun _ => 0), mkRGBA 1 3 (fun _ => 0)]

/-- A heap with a source, a scratch and a destination buffer, all three pixels
wide and one pixel high. -/
def heap31 : Heap :=
  [mkRGBA 3 1 (fun i => 20 * i), mkRGBA 3 1 (fun _ => 0), mkRGBA 3 1 (fun _ => 0)]

/-- The separable box pass `P(r)` of the specification on a buffer `img` with
the scratch buffer `tmp`: `boxBlurH` with radius `r` from `img` into `tmp`,
followed by `boxBlurV` with radius `r` from `tmp` back into `img`. -/
def sepPass (img tmp : Nat) (r : Int) : Exec Unit := do
  boxBlurH tmp img r
  boxBlurV img tmp r

/-- The buffer acquisition policy: the first statement of `Gaussian`. -/
def acquire (im : Image) (option : BlurOption) : Exec Nat :=
  match im, option with
  | Image.rgba p, BlurOption.ReuseSrc => pure p
  | _, _ => do
    let b ← im.Bounds
    let rgba ← NewRGBA b
    drawSrc rgba im
    pure rgba

/-- The radius of pass `i` of `Gaussian`: `(boxes[i] - 1) / 2`. -/
def passRadius (radius : Int) (i : Nat) : Int :=
  ((determineBoxes (radius : ℚ) 3).getD i 0 - 1).tdiv 2

/-- The separable pass on pixel grids: the horizontal pass followed by the
vertical pass. -/
def sepGrid (r w h : Nat) (g : Grid) : Grid := blurV r h (blurH r w g)

/-- The scratch object after a separable pass from the image object `o`. -/
def passTmp (o t : RGBA) (r w h : Nat) : RGBA := { t with Pix := pixAfterH t o r w h }

/-- The image object after a separable pass through the scratch object `t`. -/
def passImg (o t : RGBA) (r w h : Nat) : RGBA :=
  { o with Pix := pixAfterV o (passTmp o t r w h) r w h }

/-- The object allocated by `image.NewRGBA` for the rectangle `b`. -/
def newObj (b : Rectangle) : RGBA :=
  { Pix := List.replicate (4 * b.Dx * b.Dy).toNat 0, Stride := 4 * b.Dx, Rect := b }

/-- The image object and the scratch object after one separable pass. -/
def passPair (ot : RGBA × RGBA) (r w h : Nat) : RGBA × RGBA :=
  (passImg ot.1 ot.2 r w h, passTmp ot.1 ot.2 r w h)

/-- The image object and the scratch object after the three passes of
`gaussianBlur` on the image object `o` with radius `n`: the radii are `n - 1`,
`n - 1` and `n` (all `0` for `n = 0`). -/
def blurPair (o : RGBA) (n w h : Nat) : RGBA × RGBA :=
  passPair (passPair (passPair (o, newObj o.Rect) (n - 1) w h) (n - 1) w h) n w h

/-- The three passes of `Gaussian` with radius `n` on pixel grids. -/
def gaussGrid (n w h : Nat) (g : Grid) : Grid :=
  sepGrid n w h (sepGrid (n - 1) w h (sepGrid (n - 1) w h g))

/-- The heap `hp1` extends `hp` without touching its first `n` objects, and
keeping the bounds, the stride and the number of bytes of every object. -/
def Stable (n : Nat) (hp hp1 : Heap) : Prop :=
  hp.length ≤ hp1.length ∧ (∀ q : Nat, q < n → hp1[q]? = hp[q]?) ∧
    ∀ (q : Nat) (o : RGBA), hp[q]? = some o →
      ∃ o1 : RGBA, hp1[q]? = some o1 ∧ o1.Rect = o.Rect ∧ o1.Stride = o.Stride ∧
        o1.Pix.length = o.Pix.length

/-- The statement `m`, run on a heap of at least `n` objects, leaves the first
`n` objects untouched whether it returns or panics, and returns only values
that satisfy `Q`. -/
def Safe {α : Type} (n : Nat) (m : Exec α) (Q : α → Prop) : Prop :=
  ∀ hp : Heap, n ≤ hp.length → Stable n hp (m hp).2 ∧ ∀ a, (m hp).1 = Except.ok a → Q a

/-- A well-formed image of `w` by `h` pixels: a well-formed RGBA buffer on the
heap, or an image of another type with bounds of these dimensions. -/
def Image.WF (im : Image) (hp : Heap) (w h : Nat) : Prop :=
  match im with
  | Image.rgba p => ∃ o : RGBA, hp[p]? = some o ∧ o.WF w h
  | Image.other b _ => b.Dx = (w : Int) ∧ b.Dy = (h : Int)

/-- The input sample of channel `c` of the pixel `x` columns right of and `y`
rows below the top-left corner of the bounds of `im`. -/
def Image.sampleIn (im : Image) (hp : Heap) (x y c : Nat) : Nat :=
  match im with
  | Image.rgba p =>
    match hp[p]? with
    | some o => o.sample x y c
    | none => 0
  | Image.other b px => px (b.MinX + (x : Int)) (b.MinY + (y : Int)) c % 256

/-- A heap with a 3 by 3 source at address 0 and two zeroed 3 by 3 buffers at
the addresses 1 and 2. -/
def heap333 : Heap :=
  [mkRGBA 3 3 (fun i => 7 * i), mkRGBA 3 3 (fun _ => 0), mkRGBA 3 3 (fun _ => 0)]

/-- The destination object after `boxBlur3` from the source `s` through the
scratch object `t` into a destination whose object was `d`. -/
def box3Dst (d t s : RGBA) (r w h : Nat) : RGBA :=
  { d with Pix := pixAfterV d (passTmp s t r w h) r w h }

/-- The heap after `boxBlur3 dst scratch src r`. -/
def box3Heap (hp : Heap) (dst scratch : Nat) (d t s : RGBA) (r w h : Nat) : Heap :=
  (hp.set scratch (passTmp s t r w h)).set dst (box3Dst d t s r w h)

/-- A heap with one 3 by 3 buffer whose pixels are all `(10, 20, 30, 255)` at
address 0 and a zeroed 3 by 3 buffer at address 1. -/
def heapUni : Heap :=
  [mkRGBA 3 3 (fun i => if i % 4 = 3 then 255 else 10 * (i % 4 + 1)), mkRGBA 3 3 (fun _ => 0)]

/-- The index in `p.Pix` of the sample of channel `c` of the pixel `x` columns
right of and `y` rows below the top-left corner of the bounds of `p`. -/
def RGBA.sampleIndex (p : RGBA) (x y c : Nat) : Nat :=
  (p.PixOffset (p.Rect.MinX + (x : Int)) (p.Rect.MinY + (y : Int)) + (c : Int)).toNat

/-- A heap with a 3 by 3 source at address 0 and, at address 1, a destination
of 3 by 3 pixels with a stride of 5 pixels and one spare row: 80 bytes, all 9. -/
def heapPad : Heap :=
  [mkRGBA 3 3 (fun i => 7 * i),
    { Pix := List.replicate 80 9, Stride := 20, Rect := ⟨0, 0, 3, 3⟩ }]

/-! ## Access traces

The passes instrumented with a ghost variable: the list of the accesses to
pixel bytes made so far.  The instrumented functions are the functions above
with the trace threaded through every loop; each read and each write of a
pixel byte appends one event. -/

/-- An access to the pixel bytes of the buffer at the address `p`. -/
inductive Event where
  /-- the read `int(p.Pix[i])` -/
  | rd (p : Nat) (i : Int)
  /-- the write `p.Pix[i] = uint8(v / r2)`, with `v` the accumulator `val[c]` -/
  | wr (p : Nat) (i : Int) (v : Int)
  deriving DecidableEq, Repr

/-- The accesses made so far, oldest first. -/
abbrev Trace := List Event

/-- The expression `int(p.Pix[i])`, recorded. -/
def readPixT (p : Nat) (i : Int) (tr : Trace) : Exec (Int × Trace) := do
  let a ← readPix p i
  pure (a, tr ++ [Event.rd p i])

/-- The expression `int(sl[i])` for a slice `sl = p.Pix[lo:]`, recorded: it
reads the byte `p.Pix[lo + i]`. -/
def readSliceT (p : Nat) (lo i : Int) (tr : Trace) : Exec (Int × Trace) := do
  let a ← readSlice p lo i
  pure (a, tr ++ [Event.rd p (lo + i)])

/-- The statement `p.Pix[i] = uint8(v / r2)`, recorded. -/
def writeDivT (p : Nat) (i v r2 : Int) (tr : Trace) : Exec Trace := do
  writePix p i (v.tdiv r2)
  pure (tr ++ [Event.wr p i v])

/-- The function `boxBlurH` with its accesses recorded. -/
def boxBlurHT (dst src : Nat) (radius : Int) (tr : Trace) : Exec Trace := do
  let s ← deref src
  let d ← deref dst
  let so := s.PixOffset s.Bounds.MinX s.Bounds.MinY
  let dO := d.PixOffset d.Bounds.MinX d.Bounds.MinY
  let w := d.Bounds.Dx
  let h := d.Bounds.Dy
  let r2 := 2 * radius + 1
  let res ← forTo 0 h (fun ((val, so, dO, tr) : Val × Int × Int × Trace) => do
    let fv ← sliceFrom src so
    let lv ← sliceFrom src (so + (w - 1) * nRGBAchan)
    let (val, tr) ← forChan (fun i ((val, tr) : Val × Trace) => do
      let (f, tr) ← readSliceT src fv i tr
      pure (val.set i ((radius + 1) * f), tr)) (val, tr)
    let rp := so
    let (_, val, rp, tr) ← forTo 0 radius (fun ((val, rp, tr) : Val × Int × Trace) =>
      forChan (fun i ((val, rp, tr) : Val × Int × Trace) => do
        let (a, tr) ← readPixT src rp tr
        pure (val.set i (val i + a), rp + 1, tr)) (val, rp, tr)) (val, rp, tr)
    let lp := so
    let dp := dO
    let (x, val, rp, dp, tr) ← forTo 0 (radius + 1)
      (fun ((val, rp, dp, tr) : Val × Int × Int × Trace) =>
        forChan (fun i ((val, rp, dp, tr) : Val × Int × Int × Trace) => do
          let (a, tr) ← readPixT src rp tr
          let (f, tr) ← readSliceT src fv i tr
          let v := val i + (a - f)
          let tr ← writeDivT dst dp v r2 tr
          pure (val.set i v, rp + 1, dp + 1, tr)) (val, rp, dp, tr)) (val, rp, dp, tr)
    let (x, val, lp, _, dp, tr) ← forTo x (w - radius)
      (fun ((val, lp, rp, dp, tr) : Val × Int × Int × Int × Trace) =>
        forChan (fun i ((val, lp, rp, dp, tr) : Val × Int × Int × Int × Trace) => do
          let (a, tr) ← readPixT src rp tr
          let (b, tr) ← readPixT src lp tr
          let v := val i + (a - b)
          let tr ← writeDivT dst dp v r2 tr
          pure (val.set i v, lp + 1, rp + 1, dp + 1, tr)) (val, lp, rp, dp, tr))
      (val, lp, rp, dp, tr)
    let (_, val, _, _, tr) ← forTo x w (fun ((val, lp, dp, tr) : Val × Int × Int × Trace) =>
      forChan (fun i ((val, lp, dp, tr) : Val × Int × Int × Trace) => do
        let (a, tr) ← readSliceT src lv i tr
        let (b, tr) ← readPixT src lp tr
        let v := val i + (a - b)
        let tr ← writeDivT dst dp v r2 tr
        pure (val.set i v, lp + 1, dp + 1, tr)) (val, lp, dp, tr)) (val, lp, dp, tr)
    pure (val, so + s.Stride, dO + d.Stride, tr)) ((fun _ => 0), so, dO, tr)
  pure res.2.2.2.2

/-- The function `boxBlurV` with its accesses recorded. -/
def boxBlurVT (dst src : Nat) (radius : Int) (tr : Trace) : Exec Trace := do
  let s ← deref src
  let d ← deref dst
  let so := s.PixOffset s.Bounds.MinX s.Bounds.MinY
  let dO := d.PixOffset d.Bounds.MinX d.Bounds.MinY
  let w := d.Bounds.Dx
  let h := d.Bounds.Dy
  let r2 := 2 * radius + 1
  let res ← forTo 0 w (fun ((val, so, dO, tr) : Val × Int × Int × Trace) => do
    let fv ← sliceFrom src so
    let lv ← sliceFrom src (so + (h - 1) * s.Stride)
    let (val, tr) ← forChan (fun i ((val, tr) : Val × Trace) => do
      let (f, tr) ← readSliceT src fv i tr
      pure (val.set i ((radius + 1) * f), tr)) (val, tr)
    let rp := so
    let (_, val, rp, tr) ← forTo 0 radius (fun ((val, rp, tr) : Val × Int × Trace) => do
      let (val, tr) ← forChan (fun i ((val, tr) : Val × Trace) => do
        let (a, tr) ← readPixT src (rp + i) tr
        pure (val.set i (val i + a), tr)) (val, tr)
      pure (val, rp + s.Stride, tr)) (val, rp, tr)
    let lp := so
    let dp := dO
    let (y, val, rp, dp, tr) ← forTo 0 (radius + 1)
      (fun ((val, rp, dp, tr) : Val × Int × Int × Trace) => do
        let (val, tr) ← forChan (fun i ((val, tr) : Val × Trace) => do
          let (a, tr) ← readPixT src (rp + i) tr
          let (f, tr) ← readSliceT src fv i tr
          let v := val i + (a - f)
          let tr ← writeDivT dst (dp + i) v r2 tr
          pure (val.set i v, tr)) (val, tr)
        pure (val, rp + s.Stride, dp + d.Stride, tr)) (val, rp, dp, tr)
    let (y, val, lp, _, dp, tr) ← forTo y (h - radius)
      (fun ((val, lp, rp, dp, tr) : Val × Int × Int × Int × Trace) => do
        let (val, tr) ← forChan (fun i ((val, tr) : Val × Trace) => do
          let (a, tr) ← readPixT src (rp + i) tr
          let (b, tr) ← readPixT src (lp + i) tr
          let v := val i + (a - b)
          let tr ← writeDivT dst (dp + i) v r2 tr
          pure (val.set i v, tr)) (val, tr)
        pure (val, lp + s.Stride, rp + s.Stride, dp + d.Stride, tr)) (val, lp, rp, dp, tr)
    let (_, val, _, _, tr) ← forTo y h (fun ((val, lp, dp, tr) : Val × Int × Int × Trace) => do
      let (val, tr) ← forChan (fun i ((val, tr) : Val × Trace) => do
        let (a, tr) ← readSliceT src lv i tr
        let (b, tr) ← readPixT src (lp + i) tr
        let v := val i + (a - b)
        let tr ← writeDivT dst (dp + i) v r2 tr
        pure (val.set i v, tr)) (val, tr)
      pure (val, lp + s.Stride, dp + d.Stride, tr)) (val, lp, dp, tr)
    pure (val, so + nRGBAchan, dO + nRGBAchan, tr)) ((fun _ => 0), so, dO, tr)
  pure res.2.2.2.2

/-- The body of the seeding loop, recorded. -/
def fillStepT (src : Nat) (sElem : Int) : Val × Int × Trace → Exec (Val × Int × Trace) :=
  fun ((val, rp, tr) : Val × Int × Trace) => do
    let (val, tr) ← forChan (fun i ((val, tr) : Val × Trace) => do
      let (a, tr) ← readPixT src (rp + i) tr
      pure (val.set i (val i + a), tr)) (val, tr)
    pure (val, rp + sElem, tr)

/-- The body of the loop over the left margin, recorded. -/
def leftStepT (dst src : Nat) (r2 sElem dElem fv : Int) :
    Val × Int × Int × Trace → Exec (Val × Int × Int × Trace) :=
  fun ((val, rp, dp, tr) : Val × Int × Int × Trace) => do
    let (val, tr) ← forChan (fun i ((val, tr) : Val × Trace) => do
      let (a, tr) ← readPixT src (rp + i) tr
      let (f, tr) ← readSliceT src fv i tr
      let v := val i + (a - f)
      let tr ← writeDivT dst (dp + i) v r2 tr
      pure (val.set i v, tr)) (val, tr)
    pure (val, rp + sElem, dp + dElem, tr)

/-- The body of the loop over the interior of the line, recorded. -/
def midStepT (dst src : Nat) (r2 sElem dElem : Int) :
    Val × Int × Int × Int × Trace → Exec (Val × Int × Int × Int × Trace) :=
  fun ((val, lp, rp, dp, tr) : Val × Int × Int × Int × Trace) => do
    let (val, tr) ← forChan (fun i ((val, tr) : Val × Trace) => do
      let (a, tr) ← readPixT src (rp + i) tr
      let (b, tr) ← readPixT src (lp + i) tr
      let v := val i + (a - b)
      let tr ← writeDivT dst (dp + i) v r2 tr
      pure (val.set i v, tr)) (val, tr)
    pure (val, lp + sElem, rp + sElem, dp + dElem, tr)

/-- The body of the loop over the right margin, recorded. -/
def rightStepT (dst src : Nat) (r2 sElem dElem lv : Int) :
    Val × Int × Int × Trace → Exec (Val × Int × Int × Trace) :=
  fun ((val, lp, dp, tr) : Val × Int × Int × Trace) => do
    let (val, tr) ← forChan (fun i ((val, tr) : Val × Trace) => do
      let (a, tr) ← readSliceT src lv i tr
      let (b, tr) ← readPixT src (lp + i) tr
      let v := val i + (a - b)
      let tr ← writeDivT dst (dp + i) v r2 tr
      pure (val.set i v, tr)) (val, tr)
    pure (val, lp + sElem, dp + dElem, tr)

/-- One line of the common pass, recorded. -/
def line1DT (dst src : Nat) (radius nElems sLine sElem dLine dElem : Int) :
    Val × Int × Int × Trace → Exec (Val × Int × Int × Trace) :=
  fun ((val, so, dO, tr) : Val × Int × Int × Trace) => do
    let r2 := 2 * radius + 1
    let fv ← sliceFrom src so
    let lv ← sliceFrom src (so + (nElems - 1) * sElem)
    let (val, tr) ← forChan (fun i ((val, tr) : Val × Trace) => do
      let (f, tr) ← readSliceT src fv i tr
      pure (val.set i ((radius + 1) * f), tr)) (val, tr)
    let rp := so
    let (_, val, rp, tr) ← forTo 0 radius (fillStepT src sElem) (val, rp, tr)
    let lp := so
    let dp := dO
    let (y, val, rp, dp, tr) ← forTo 0 (radius + 1) (leftStepT dst src r2 sElem dElem fv)
      (val, rp, dp, tr)
    let (y, val, lp, _, dp, tr) ← forTo y (nElems - radius) (midStepT dst src r2 sElem dElem)
      (val, lp, rp, dp, tr)
    let (_, val, _, _, tr) ← forTo y nElems (rightStepT dst src r2 sElem dElem lv)
      (val, lp, dp, tr)
    pure (val, so + sLine, dO + dLine, tr)

/-- The common shape of `boxBlurHT` and `boxBlurVT`. -/
def pass1DT (dst src : Nat) (radius nLines nElems sLine sElem dLine dElem so dO : Int)
    (tr : Trace) : Exec Trace := do
  let res ← forTo 0 nLines (line1DT dst src radius nElems sLine sElem dLine dElem)
    ((fun _ => 0), so, dO, tr)
  pure res.2.2.2.2

/-- The four reads of the channels of the pixel at `pa`. -/
def readEv (src : Nat) (pa : Int) : Trace :=
  [Event.rd src (pa + ((0 : Nat) : Int)), Event.rd src (pa + ((1 : Nat) : Int)),
    Event.rd src (pa + ((2 : Nat) : Int)), Event.rd src (pa + ((3 : Nat) : Int))]

/-- The accesses that produce channel `c` of one pixel: the read of the sample
entering the window, the read of the sample leaving it, and the write of the
output computed from the accumulator `v c`. -/
def chanEv (src dst : Nat) (pa pb dp : Int) (v : Nat → Int) (c : Nat) : Trace :=
  [Event.rd src (pa + (c : Int)), Event.rd src (pb + (c : Int)),
    Event.wr dst (dp + (c : Int)) (v c)]

/-- The accesses that produce one pixel. -/
def elemEv (src dst : Nat) (pa pb dp : Int) (v : Nat → Int) : Trace :=
  chanEv src dst pa pb dp v 0 ++ chanEv src dst pa pb dp v 1 ++ chanEv src dst pa pb dp v 2
    ++ chanEv src dst pa pb dp v 3

/-- The traces `f 0`, ..., `f (k - 1)` one after the other. -/
def catUpTo (f : Nat → Trace) : Nat → Trace
  | 0 => []
  | k + 1 => catUpTo f k ++ f k

/-- The accesses that produce pixel `x` of a line of `n` pixels: the sample
entering the window is the one at the position `x + r` clamped to the line, the
sample leaving it the one at the clamped position `x - r - 1`, and the
accumulator at the write is the sum of the window of `x`. -/
def lineEv (src dst : Nat) (s : RGBA) (so es dO ds : Int) (r n : Nat) (x : Nat) : Trace :=
  elemEv src dst (so + ((clampIdx n ((x : Int) + (r : Int)) : Nat) : Int) * es)
    (so + ((clampIdx n ((x : Int) - (r : Int) - 1) : Nat) : Int) * es) (dO + (x : Int) * ds)
    (fun c => winSum (lineSrc s so es c) r n (x : Int))

/-- The accesses of the pass along one line: the first pixel is read to seed
the accumulator, the next `r` pixels are read to fill the window, and then
every pixel of the line is produced in turn. -/
def lineTrace (src dst : Nat) (s : RGBA) (so es dO ds : Int) (r n : Nat) : Trace :=
  readEv src so ++ catUpTo (fun k => readEv src (so + (k : Int) * es)) r
    ++ catUpTo (lineEv src dst s so es dO ds r n) n

/-- The accesses of the pass along the first `nL` lines. -/
def gridTrace (src dst : Nat) (s : RGBA) (so0 sL es dO0 dL ds : Int) (r n nL : Nat) : Trace :=
  catUpTo (fun L => lineTrace src dst s (so0 + (L : Int) * sL) es (dO0 + (L : Int) * dL) ds r n)
    nL

/-- The accesses of `boxBlurH` with radius `r` from the source `s` at `src`
into a destination `d` at `dst` of `w` by `h` pixels: row after row. -/
def traceH (src dst : Nat) (s d : RGBA) (r w h : Nat) : Trace :=
  gridTrace src dst s 0 s.Stride 4 0 d.Stride 4 r w h

/-- The accesses of `boxBlurV` with radius `r` from the source `s` at `src`
into a destination `d` at `dst` of `w` by `h` pixels: column after column. -/
def traceV (src dst : Nat) (s d : RGBA) (r w h : Nat) : Trace :=
  gridTrace src dst s 0 4 s.Stride 0 4 d.Stride r h w

/-- The event is a read. -/
def Event.isRead : Event → Bool
  | Event.rd _ _ => true
  | Event.wr _ _ _ => false

/-- The event is a write. -/
def Event.isWrite : Event → Bool
  | Event.rd _ _ => false
  | Event.wr _ _ _ => true

/-- The event is a write of the byte `i` of the buffer at `p`. -/
def Event.isWriteAt (p : Nat) (i : Int) : Event → Bool
  | Event.rd _ _ => false
  | Event.wr q j _ => decide (q = p ∧ j = i)

/-- The accesses of `boxBlurH` along row `y`. -/
def rowTraceH (src dst : Nat) (s d : RGBA) (r w : Nat) (y : Nat) : Trace :=
  lineTrace src dst s (0 + (y : Int) * s.Stride) 4 (0 + (y : Int) * d.Stride) 4 r w

/-- The accesses of `boxBlurV` along column `x`. -/
def colTraceV (src dst : Nat) (s d : RGBA) (r h : Nat) (x : Nat) : Trace :=
  lineTrace src dst s (0 + (x : Int) * 4) s.Stride (0 + (x : Int) * 4) d.Stride r h

/-- The event is an access to a sample of the pixel `(x, y)`: a read of the
source `s` at `src` or a write of the destination `d` at `dst`. -/
def Event.atPixel (src dst : Nat) (s d : RGBA) (x y : Nat) (e : Event) : Prop :=
  (∃ c : Nat, c < 4 ∧ e = Event.rd src ((s.sampleIndex x y c : Nat) : Int)) ∨
  (∃ (c : Nat) (v : Int), c < 4 ∧ e = Event.wr dst ((d.sampleIndex x y c : Nat) : Int) v)

/-! ## The machine arithmetic of `determineBoxes`

`determineBoxes` computes in `float64` and in `int`.  The definitions below
embed that arithmetic as the code compiled for amd64 performs it: a finite `float64`
is the rational number it denotes, every floating-point operation is the exact
operation followed by rounding to the nearest binary64 value, ties to even
(`round64`), operations are not fused, `int` has 64 bits and wraps around
(`wrap64`), and the conversion of a `float64` outside the range of `int`
yields `-2^63` (`toInt64`). -/

/-- The number `⌊log₂ n⌋` for `n ≥ 1` (and `0` for `n = 0`), by repeated
halving; `fuel` bounds the number of steps and `fuel ≥ n` is enough. -/
def nlog2 : Nat → Nat → Nat
  | 0, _ => 0
  | fuel + 1, n => if n < 2 then 0 else nlog2 fuel (n / 2) + 1

/-- The number `⌊log₂ q⌋` for a positive rational `q`: the binary exponent of
`q`. -/
def log2Floor (q : ℚ) : Int :=
  let e0 : Int := (nlog2 q.num.natAbs q.num.natAbs : Int) - (nlog2 q.den q.den : Int)
  if q < (2 : ℚ) ^ e0 then e0 - 1 else e0

/-- Rounding to the nearest integer, ties to the even one. -/
def roundHalfEven (x : ℚ) : Int :=
  let f := ⌊x⌋
  let d := x - (f : ℚ)
  if d < 1 / 2 then f else if 1 / 2 < d then f + 1 else if f % 2 = 0 then f else f + 1

/-- Rounding of a real result to `float64`: the nearest multiple of the unit in
the last place `2^(e-52)` of the binade `2^e ≤ |q| < 2^(e+1)` (`2^-1074` below
the normal range), ties to even.  Overflow to infinity is not represented. -/
def round64 (q : ℚ) : ℚ :=
  if q = 0 then 0
  else
    let u : ℚ := (2 : ℚ) ^ (max (log2Floor |q|) (-1022) - 52)
    (roundHalfEven (q / u) : ℚ) * u

/-- Digit-by-digit integer square root: the largest `s` with `s * s ≤ y` among
`r ≤ s < r + 2^i`. -/
def isqrtAux (y : Nat) : Nat → Nat → Nat
  | 0, r => r
  | i + 1, r => if (r + 2 ^ i) * (r + 2 ^ i) ≤ y then isqrtAux y i (r + 2 ^ i) else isqrtAux y i r

/-- The function `math.Sqrt` on a positive `float64`: the square root rounded to
the nearest binary64 value.  With `2^(2f) ≤ x < 2^(2f+2)` the root lies in the
binade of `2^f`, whose unit in the last place is `u = 2^(f-52)`; the result is
`n * u` or `(n + 1) * u` for `n = ⌊√(x / u²)⌋`. -/
def sqrt64 (x : ℚ) : ℚ :=
  if x ≤ 0 then 0
  else
    let f : Int := log2Floor x / 2
    let u : ℚ := (2 : ℚ) ^ (f - 52)
    let y : ℚ := x / (u * u)
    let n : Nat := isqrtAux ⌊y⌋.toNat 53 0
    let h : ℚ := (n : ℚ) + 1 / 2
    if y < h * h then (n : ℚ) * u
    else if h * h < y then ((n : ℚ) + 1) * u
    else if n % 2 = 0 then (n : ℚ) * u else ((n : ℚ) + 1) * u

/-- The result of an `int` operation whose exact value is `z`: 64-bit
two's-complement wrap-around. -/
def wrap64 (z : Int) : Int := (z + 2 ^ 63) % 2 ^ 64 - 2 ^ 63

/-- The conversion `int(x)` of a `float64`: truncation toward zero, and `-2^63`
when the value is outside the range of `int` (the result of the amd64
conversion instruction; Go leaves this case to the implementation). -/
def toInt64 (x : ℚ) : Int :=
  if -(2 : ℚ) ^ 63 ≤ x ∧ x < (2 : ℚ) ^ 63 then (if 0 ≤ x then ⌊x⌋ else ⌈x⌉) else -2 ^ 63

/-- The variable `idealWeight` of `determineBoxes`. -/
def idealWeight64 (sigma : ℚ) (nbox : Nat) : ℚ :=
  sqrt64 (round64 (round64 (round64 (round64 (12 * sigma) * sigma) / round64 (nbox : ℚ)) + 1))

/-- The variable `wlo` of `determineBoxes`, after the parity adjustment. -/
def boxWlo64 (sigma : ℚ) (nbox : Nat) : Int :=
  let wlo : Int := toInt64 ((⌊idealWeight64 sigma nbox⌋ : Int) : ℚ)
  if wlo.tmod 2 = 0 then wrap64 (wlo - 1) else wlo

/-- The variable `wup` of `determineBoxes`. -/
def boxWup64 (sigma : ℚ) (nbox : Nat) : Int := wrap64 (boxWlo64 sigma nbox + 2)

/-- The variable `idealMedian` of `determineBoxes`. -/
def idealMedian64 (sigma : ℚ) (nbox : Nat) : ℚ :=
  let wlo : Int := boxWlo64 sigma nbox
  let n : Int := (nbox : Int)
  round64 (round64 (round64 (round64 (12 * sigma) * sigma)
      - round64 ((wrap64 (wrap64 (wrap64 (wrap64 (n * wlo) * wlo) + wrap64 (wrap64 (4 * n) * wlo))
          + wrap64 (3 * n)) : Int) : ℚ))
    / round64 (round64 (-4 * round64 (wlo : ℚ)) - 4))

/-- The variable `median` of `determineBoxes`: the split point. -/
def boxMedian64 (sigma : ℚ) (nbox : Nat) : Int :=
  toInt64 ((⌊round64 (idealMedian64 sigma nbox + 1 / 2)⌋ : Int) : ℚ)

/-- The function `determineBoxes` in machine arithmetic, for a `float64`
argument `sigma` below `2^500` in magnitude.  Beyond that the squares overflow
to infinity, which the embedding does not represent: the result is `none`. -/
def determineBoxes64 (sigma : ℚ) (nbox : Nat) : Option (List Int) :=
  if |sigma| < (2 : ℚ) ^ 500 then
    some ((List.range nbox).map (fun (i : Nat) =>
      if (i : Int) < boxMedian64 sigma nbox then boxWlo64 sigma nbox else boxWup64 sigma nbox))
  else none

/-- The conversion `float64(radius)` of an `int`. -/
def float64OfInt (z : Int) : ℚ := round64 (z : ℚ)

/-- The call `determineBoxes(float64(radius), 3)` of `gaussianBlur`, in machine
arithmetic. -/
def gaussBoxes64 (radius : Int) : Option (List Int) := determineBoxes64 (float64OfInt radius) 3

/-! # Theorems -/

/-! ## The statement monad -/

theorem Exec.bind_apply {α β : Type} (m : Exec α) (f : α → Exec β) (hp : Heap) :
    (m >>= f) hp =
      (match m hp with
       | (Except.ok a, hp1) => f a hp1
       | (Except.error e, hp1) => (Except.error e, hp1)) := rfl

theorem Exec.pure_apply {α : Type} (a : α) (hp : Heap) :
    (pure a : Exec α) hp = (Except.ok a, hp) := rfl

theorem Exec.bind_ok {α β : Type} {m : Exec α} {f : α → Exec β} {hp hp1 : Heap} {a : α}
    (h : m hp = (Except.ok a, hp1)) : (m >>= f) hp = f a hp1 := by
  rw [Exec.bind_apply, h]

theorem Exec.bind_error {α β : Type} {m : Exec α} {f : α → Exec β} {hp hp1 : Heap} {e : Panic}
    (h : m hp = (Except.error e, hp1)) : (m >>= f) hp = (Except.error e, hp1) := by
  rw [Exec.bind_apply, h]

theorem Exec.id_map_eq {α : Type} (x : Exec α) : id <$> x = x := by
  funext hp
  show (x >>= fun a => pure (id a)) hp = x hp
  rw [Exec.bind_apply]
  rcases hx : x hp with ⟨_ | _, _⟩ <;> rfl

theorem Exec.pure_bind_eq {α β : Type} (x : α) (f : α → Exec β) : pure x >>= f = f x := rfl

theorem Exec.bind_assoc_eq {α β γ : Type} (x : Exec α) (f : α → Exec β) (g : β → Exec γ) :
    x >>= f >>= g = x >>= fun a => f a >>= g := by
  funext hp
  simp only [Exec.bind_apply]
  rcases hx : x hp with ⟨_ | _, _⟩ <;> rfl

instance : LawfulMonad Exec :=
  LawfulMonad.mk' Exec Exec.id_map_eq Exec.pure_bind_eq Exec.bind_assoc_eq

/-! ## The two passes are instances of the common pass -/

theorem boxBlurV_eq (dst src : Nat) (radius : Int) :
    boxBlurV dst src radius = (do
      let s ← deref src
      let d ← deref dst
      pass1D dst src radius d.Bounds.Dx d.Bounds.Dy 4 s.Stride 4 d.Stride
        (s.PixOffset s.Bounds.MinX s.Bounds.MinY) (d.PixOffset d.Bounds.MinX d.Bounds.MinY)) := rfl

theorem boxBlurH_eq (dst src : Nat) (radius : Int) :
    boxBlurH dst src radius = (do
      let s ← deref src
      let d ← deref dst
      pass1D dst src radius d.Bounds.Dy d.Bounds.Dx s.Stride 4 d.Stride 4
        (s.PixOffset s.Bounds.MinX s.Bounds.MinY) (d.PixOffset d.Bounds.MinX d.Bounds.MinY)) := by
  unfold boxBlurH pass1D line1D fillStep leftStep midStep rightStep
  simp only [forChan, bind_assoc, pure_bind, nRGBAchan]
  simp [add_assoc]

/-! ## Primitive statements on a heap with a source and a destination -/

theorem Frame.get_src {hp : Heap} {dst src : Nat} {d s : RGBA} (F : Frame hp dst src d s)
    (P : List Nat) : (withPix hp dst d P)[src]? = some s := by
  unfold withPix
  rw [List.getElem?_set_ne (Ne.symm F.hne)]
  exact F.hs

theorem Frame.dst_lt {hp : Heap} {dst src : Nat} {d s : RGBA} (F : Frame hp dst src d s) :
    dst < hp.length := by
  have h := F.hd
  rcases Nat.lt_or_ge dst hp.length with h1 | h1
  · exact h1
  · rw [List.getElem?_eq_none h1] at h; cases h

theorem Frame.get_dst {hp : Heap} {dst src : Nat} {d s : RGBA} (F : Frame hp dst src d s)
    (P : List Nat) : (withPix hp dst d P)[dst]? = some { d with Pix := P } := by
  unfold withPix
  rw [List.getElem?_set_self F.dst_lt]

theorem withPix_set (hp : Heap) (dst : Nat) (d : RGBA) (P Q : List Nat) :
    (withPix hp dst d P).set dst { d with Pix := Q } = withPix hp dst d Q := by
  unfold withPix
  rw [List.set_set]

theorem Frame.withPix_self {hp : Heap} {dst src : Nat} {d s : RGBA} (F : Frame hp dst src d s) :
    withPix hp dst d d.Pix = hp := by
  unfold withPix
  apply List.ext_getElem?
  intro i
  by_cases h : dst = i
  · subst h; rw [List.getElem?_set_self F.dst_lt, F.hd]
  · rw [List.getElem?_set_ne h]

theorem Frame.readPix_eq {hp : Heap} {dst src : Nat} {d s : RGBA} (F : Frame hp dst src d s)
    (P : List Nat) (i : Int) (h0 : 0 ≤ i) (h1 : i.toNat < s.Pix.length) :
    readPix src i (withPix hp dst d P) = (Except.ok (srcByte s i), withPix hp dst d P) := by
  unfold Blur.readPix srcByte
  simp only [F.get_src P, h0, if_true]
  rw [List.getElem?_eq_getElem h1, List.getD_eq_getElem?_getD, List.getElem?_eq_getElem h1]
  rfl

theorem Frame.readSlice_eq {hp : Heap} {dst src : Nat} {d s : RGBA} (F : Frame hp dst src d s)
    (P : List Nat) (lo i : Int) (h0 : 0 ≤ i) (h1 : (lo + i).toNat < s.Pix.length) :
    readSlice src lo i (withPix hp dst d P)
      = (Except.ok (srcByte s (lo + i)), withPix hp dst d P) := by
  unfold Blur.readSlice srcByte
  simp only [F.get_src P, h0, if_true]
  rw [List.getElem?_eq_getElem h1, List.getD_eq_getElem?_getD, List.getElem?_eq_getElem h1]
  rfl

theorem Frame.sliceFrom_eq {hp : Heap} {dst src : Nat} {d s : RGBA} (F : Frame hp dst src d s)
    (P : List Nat) (lo : Int) (h0 : 0 ≤ lo) (h1 : lo.toNat ≤ s.Pix.length) :
    sliceFrom src lo (withPix hp dst d P) = (Except.ok lo, withPix hp dst d P) := by
  unfold Blur.sliceFrom
  simp only [F.get_src P, h0, h1, and_self, if_true]

theorem Frame.writePix_eq {hp : Heap} {dst src : Nat} {d s : RGBA} (F : Frame hp dst src d s)
    (P : List Nat) (i v : Int) (h0 : 0 ≤ i) (h1 : i.toNat < P.length) :
    writePix dst i v (withPix hp dst d P)
      = (Except.ok (), withPix hp dst d (P.set i.toNat (uint8 v))) := by
  unfold Blur.writePix
  simp only [F.get_dst P, h0, h1, and_self, if_true, withPix_set]

/-! ## The channel loops -/

theorem set4_apply (val : Val) (f : Nat → Int) (c : Nat) (hc : c < 4) : set4 val f c = f c := by
  interval_cases c <;> simp [set4, Val.set]

theorem write4_length (P : List Nat) (a : Nat) (f : Nat → Nat) :
    (write4 P a f).length = P.length := by
  simp [write4]

theorem write4_get_in (P : List Nat) (a : Nat) (f : Nat → Nat) (h : a + 4 ≤ P.length)
    (c : Nat) (hc : c < 4) : (write4 P a f)[a + c]? = some (f c) := by
  unfold write4
  interval_cases c <;> simp [List.getElem?_set] <;> omega

theorem write4_get_out (P : List Nat) (a : Nat) (f : Nat → Nat) (j : Nat)
    (h : j < a ∨ a + 4 ≤ j) : (write4 P a f)[j]? = P[j]? := by
  unfold write4
  rw [List.getElem?_set_ne (by omega), List.getElem?_set_ne (by omega),
    List.getElem?_set_ne (by omega), List.getElem?_set_ne (by omega)]

theorem readSlice_eq_readPix (p : Nat) (lo : Int) (h : 0 ≤ lo) (i : Nat) :
    readSlice p lo (i : Int) = readPix p (lo + (i : Int)) := by
  funext hp
  unfold readSlice readPix
  have h1 : (0 : Int) ≤ (i : Int) := Int.ofNat_nonneg i
  have h2 : (0 : Int) ≤ lo + (i : Int) := by omega
  simp only [h1, h2, if_true]

theorem Frame.initChan {hp : Heap} {dst src : Nat} {d s : RGBA} (F : Frame hp dst src d s)
    (P : List Nat) (radius fv : Int) (val : Val)
    (hfv : ∀ c : Nat, c < 4 → 0 ≤ fv + c ∧ (fv + c).toNat < s.Pix.length) :
    forChan (fun i (val : Val) => do
        let f ← readSlice src fv i
        pure (val.set i ((radius + 1) * f))) val (withPix hp dst d P)
      = (Except.ok (set4 val (fun c => (radius + 1) * srcByte s (fv + c))),
          withPix hp dst d P) := by
  have e0 := hfv 0 (by omega)
  have e1 := hfv 1 (by omega)
  have e2 := hfv 2 (by omega)
  have e3 := hfv 3 (by omega)
  unfold forChan
  simp only [Exec.bind_apply, Exec.pure_apply,
    F.readSlice_eq P fv _ (Int.ofNat_nonneg _) e0.2, F.readSlice_eq P fv _ (Int.ofNat_nonneg _) e1.2,
    F.readSlice_eq P fv _ (Int.ofNat_nonneg _) e2.2, F.readSlice_eq P fv _ (Int.ofNat_nonneg _) e3.2]
  rfl

theorem Frame.accChan {hp : Heap} {dst src : Nat} {d s : RGBA} (F : Frame hp dst src d s)
    (P : List Nat) (rp : Int) (val : Val)
    (hrp : ∀ c : Nat, c < 4 → 0 ≤ rp + c ∧ (rp + c).toNat < s.Pix.length) :
    forChan (fun i (val : Val) => do
        let a ← readPix src (rp + i)
        pure (val.set i (val i + a))) val (withPix hp dst d P)
      = (Except.ok (set4 val (fun c => val c + srcByte s (rp + c))), withPix hp dst d P) := by
  have e0 := hrp 0 (by omega)
  have e1 := hrp 1 (by omega)
  have e2 := hrp 2 (by omega)
  have e3 := hrp 3 (by omega)
  unfold forChan
  simp only [Exec.bind_apply, Exec.pure_apply,
    F.readPix_eq P _ e0.1 e0.2, F.readPix_eq P _ e1.1 e1.2, F.readPix_eq P _ e2.1 e2.2,
    F.readPix_eq P _ e3.1 e3.2]
  rfl

theorem Frame.updChan {hp : Heap} {dst src : Nat} {d s : RGBA} (F : Frame hp dst src d s)
    (P : List Nat) (r2 pa pb dp : Int) (val : Val)
    (hpa : ∀ c : Nat, c < 4 → 0 ≤ pa + c ∧ (pa + c).toNat < s.Pix.length)
    (hpb : ∀ c : Nat, c < 4 → 0 ≤ pb + c ∧ (pb + c).toNat < s.Pix.length)
    (hdp0 : 0 ≤ dp) (hdp : dp.toNat + 4 ≤ P.length) :
    forChan (fun i (val : Val) => do
        let a ← readPix src (pa + i)
        let b ← readPix src (pb + i)
        let v := val i + (a - b)
        writePix dst (dp + i) (v.tdiv r2)
        pure (val.set i v)) val (withPix hp dst d P)
      = (Except.ok (set4 val (fun c => val c + (srcByte s (pa + c) - srcByte s (pb + c)))),
          withPix hp dst d (write4 P dp.toNat
            (fun c => uint8 ((val c + (srcByte s (pa + c) - srcByte s (pb + c))).tdiv r2)))) := by
  have a0 := hpa 0 (by omega)
  have a1 := hpa 1 (by omega)
  have a2 := hpa 2 (by omega)
  have a3 := hpa 3 (by omega)
  have b0 := hpb 0 (by omega)
  have b1 := hpb 1 (by omega)
  have b2 := hpb 2 (by omega)
  have b3 := hpb 3 (by omega)
  have t0 : (dp + ((0 : Nat) : Int)).toNat = dp.toNat := by omega
  have t1 : (dp + ((1 : Nat) : Int)).toNat = dp.toNat + 1 := by omega
  have t2 : (dp + ((2 : Nat) : Int)).toNat = dp.toNat + 2 := by omega
  have t3 : (dp + ((3 : Nat) : Int)).toNat = dp.toNat + 3 := by omega
  have R : ∀ (Q : List Nat) (i : Int) (h0 : 0 ≤ i) (h1 : i.toNat < s.Pix.length),
      readPix src i (withPix hp dst d Q) = (Except.ok (srcByte s i), withPix hp dst d Q) :=
    fun Q i h0 h1 => F.readPix_eq Q i h0 h1
  unfold forChan
  simp only [Exec.bind_apply, Exec.pure_apply, R _ _ a0.1 a0.2, R _ _ b0.1 b0.2]
  rw [F.writePix_eq P _ _ (by omega) (by omega)]
  simp only [Exec.bind_apply, Exec.pure_apply, R _ _ a1.1 a1.2, R _ _ b1.1 b1.2]
  rw [F.writePix_eq _ _ _ (by omega) (by rw [List.length_set]; omega)]
  simp only [Exec.bind_apply, Exec.pure_apply, R _ _ a2.1 a2.2, R _ _ b2.1 b2.2]
  rw [F.writePix_eq _ _ _ (by omega) (by rw [List.length_set, List.length_set]; omega)]
  simp only [Exec.bind_apply, Exec.pure_apply, R _ _ a3.1 a3.2, R _ _ b3.1 b3.2]
  rw [F.writePix_eq _ _ _ (by omega)
    (by rw [List.length_set, List.length_set, List.length_set]; omega)]
  simp only [t0, t1, t2, t3]
  rfl

/-! ## Loops -/

theorem iterate_inv {σ : Type} (hp : Heap) (dst : Nat) (d : RGBA) (body : σ → Exec σ) (n : Nat) :
    ∀ (Inv : Nat → σ → List Nat → Prop),
    (∀ k, k < n → ∀ st P, Inv k st P →
      ∃ st1 P1, body st (withPix hp dst d P) = (Except.ok st1, withPix hp dst d P1) ∧
        Inv (k + 1) st1 P1) →
    ∀ st P, Inv 0 st P →
      ∃ st1 P1, iterate n body st (withPix hp dst d P) = (Except.ok st1, withPix hp dst d P1) ∧
        Inv n st1 P1 := by
  induction n with
  | zero =>
    intro Inv _ st P h0
    exact ⟨st, P, rfl, h0⟩
  | succ n ih =>
    intro Inv hstep st P h0
    obtain ⟨st1, P1, e1, i1⟩ := hstep 0 (Nat.succ_pos n) st P h0
    obtain ⟨st2, P2, e2, i2⟩ := ih (fun k => Inv (k + 1))
      (fun k hk st P hi => hstep (k + 1) (Nat.succ_lt_succ hk) st P hi) st1 P1 i1
    refine ⟨st2, P2, ?_, i2⟩
    show (body st >>= fun s1 => iterate n body s1) (withPix hp dst d P) = _
    rw [Exec.bind_ok e1, e2]

theorem forTo_inv {σ : Type} (hp : Heap) (dst : Nat) (d : RGBA) (body : σ → Exec σ)
    (x hi : Int) (n : Nat) (hn : (hi - x).toNat = n)
    (Inv : Nat → σ → List Nat → Prop)
    (hstep : ∀ k, k < n → ∀ st P, Inv k st P →
      ∃ st1 P1, body st (withPix hp dst d P) = (Except.ok st1, withPix hp dst d P1) ∧
        Inv (k + 1) st1 P1)
    (st : σ) (P : List Nat) (h0 : Inv 0 st P) :
    ∃ st1 P1, forTo x hi body st (withPix hp dst d P)
        = (Except.ok (max x hi, st1), withPix hp dst d P1) ∧ Inv n st1 P1 := by
  obtain ⟨st1, P1, e1, i1⟩ := iterate_inv hp dst d body n Inv hstep st P h0
  refine ⟨st1, P1, ?_, i1⟩
  unfold forTo
  rw [hn, Exec.bind_ok e1]
  rfl

/-! ## Sliding window sums -/

theorem winSum_succ (a : Nat → Int) (r n : Nat) (x : Int) :
    winSum a r n (x + 1)
      = winSum a r n x + (a (clampIdx n (x + 1 + r)) - a (clampIdx n (x - r))) := by
  unfold winSum
  have h1 := Finset.sum_range_succ (fun k : Nat => a (clampIdx n (x + (k : Int) - (r : Int)))) (2 * r + 1)
  have h2 := Finset.sum_range_succ' (fun k : Nat => a (clampIdx n (x + (k : Int) - (r : Int)))) (2 * r + 1)
  rw [h1] at h2
  have e1 : ∀ k : Nat, x + 1 + (k : Int) - (r : Int) = x + ((k + 1 : Nat) : Int) - (r : Int) := by
    intro k; push_cast; ring
  have e2 : x + ((2 * r + 1 : Nat) : Int) - (r : Int) = x + 1 + r := by push_cast; ring
  have e3 : x + ((0 : Nat) : Int) - (r : Int) = x - r := by simp
  simp only [e1]
  rw [e2, e3] at h2
  linarith

theorem winSum_pre (a : Nat → Int) (r n : Nat) (hn : r + 1 ≤ n) :
    winSum a r n (-1) = ((r : Int) + 1) * a 0 + ∑ j in Finset.range r, a j := by
  unfold winSum
  have hsplit : 2 * r + 1 = (r + 1) + r := by omega
  rw [hsplit, Finset.sum_range_add]
  congr 1
  · have hc : ∀ k ∈ Finset.range (r + 1),
        a (clampIdx n (-1 + (k : Int) - (r : Int))) = a 0 := by
      intro k hk
      have : k < r + 1 := Finset.mem_range.mp hk
      have e : clampIdx n (-1 + (k : Int) - (r : Int)) = 0 := by
        unfold clampIdx; omega
      rw [e]
    rw [Finset.sum_congr rfl hc]
    simp
  · apply Finset.sum_congr rfl
    intro j hj
    have : j < r := Finset.mem_range.mp hj
    have e : clampIdx n (-1 + ((r + 1 + j : Nat) : Int) - (r : Int)) = j := by
      unfold clampIdx; omega
    rw [e]

theorem write4_congr (P : List Nat) (a : Nat) (f g : Nat → Nat) (h : ∀ c, c < 4 → f c = g c) :
    write4 P a f = write4 P a g := by
  unfold write4
  rw [h 0 (by omega), h 1 (by omega), h 2 (by omega), h 3 (by omega)]

/-! ## One line of the pass -/

theorem lineWrite_length (P : List Nat) (addr : Nat → Nat) (out : Nat → Nat → Nat) (k : Nat) :
    (lineWrite P addr out k).length = P.length := by
  induction k with
  | zero => rfl
  | succ k ih => simp [lineWrite, write4_length, ih]

theorem Frame.fillStep_eq {hp : Heap} {dst src : Nat} {d s : RGBA} (F : Frame hp dst src d s)
    (P : List Nat) (es rp : Int) (val : Val)
    (hrp : ∀ c : Nat, c < 4 → 0 ≤ rp + c ∧ (rp + c).toNat < s.Pix.length) :
    fillStep src es (val, rp) (withPix hp dst d P)
      = (Except.ok (set4 val (fun c => val c + srcByte s (rp + c)), rp + es),
          withPix hp dst d P) := by
  unfold fillStep
  simp only []
  rw [Exec.bind_ok (F.accChan P rp val hrp)]
  rfl

theorem Frame.leftStep_eq {hp : Heap} {dst src : Nat} {d s : RGBA} (F : Frame hp dst src d s)
    (P : List Nat) (r2 es ds fv rp dp : Int) (val : Val)
    (hfv0 : 0 ≤ fv)
    (hrp : ∀ c : Nat, c < 4 → 0 ≤ rp + c ∧ (rp + c).toNat < s.Pix.length)
    (hfv : ∀ c : Nat, c < 4 → 0 ≤ fv + c ∧ (fv + c).toNat < s.Pix.length)
    (hdp0 : 0 ≤ dp) (hdp : dp.toNat + 4 ≤ P.length) :
    leftStep dst src r2 es ds fv (val, rp, dp) (withPix hp dst d P)
      = (Except.ok (set4 val (fun c => val c + (srcByte s (rp + c) - srcByte s (fv + c))),
            rp + es, dp + ds),
          withPix hp dst d (write4 P dp.toNat
            (fun c => uint8 ((val c + (srcByte s (rp + c) - srcByte s (fv + c))).tdiv r2)))) := by
  unfold leftStep
  simp only [readSlice_eq_readPix src fv hfv0]
  rw [Exec.bind_ok (F.updChan P r2 rp fv dp val hrp hfv hdp0 hdp)]
  rfl

theorem Frame.midStep_eq {hp : Heap} {dst src : Nat} {d s : RGBA} (F : Frame hp dst src d s)
    (P : List Nat) (r2 es ds lp rp dp : Int) (val : Val)
    (hrp : ∀ c : Nat, c < 4 → 0 ≤ rp + c ∧ (rp + c).toNat < s.Pix.length)
    (hlp : ∀ c : Nat, c < 4 → 0 ≤ lp + c ∧ (lp + c).toNat < s.Pix.length)
    (hdp0 : 0 ≤ dp) (hdp : dp.toNat + 4 ≤ P.length) :
    midStep dst src r2 es ds (val, lp, rp, dp) (withPix hp dst d P)
      = (Except.ok (set4 val (fun c => val c + (srcByte s (rp + c) - srcByte s (lp + c))),
            lp + es, rp + es, dp + ds),
          withPix hp dst d (write4 P dp.toNat
            (fun c => uint8 ((val c + (srcByte s (rp + c) - srcByte s (lp + c))).tdiv r2)))) := by
  unfold midStep
  simp only []
  rw [Exec.bind_ok (F.updChan P r2 rp lp dp val hrp hlp hdp0 hdp)]
  rfl

theorem Frame.rightStep_eq {hp : Heap} {dst src : Nat} {d s : RGBA} (F : Frame hp dst src d s)
    (P : List Nat) (r2 es ds lv lp dp : Int) (val : Val)
    (hlv0 : 0 ≤ lv)
    (hlv : ∀ c : Nat, c < 4 → 0 ≤ lv + c ∧ (lv + c).toNat < s.Pix.length)
    (hlp : ∀ c : Nat, c < 4 → 0 ≤ lp + c ∧ (lp + c).toNat < s.Pix.length)
    (hdp0 : 0 ≤ dp) (hdp : dp.toNat + 4 ≤ P.length) :
    rightStep dst src r2 es ds lv (val, lp, dp) (withPix hp dst d P)
      = (Except.ok (set4 val (fun c => val c + (srcByte s (lv + c) - srcByte s (lp + c))),
            lp + es, dp + ds),
          withPix hp dst d (write4 P dp.toNat
            (fun c => uint8 ((val c + (srcByte s (lv + c) - srcByte s (lp + c))).tdiv r2)))) := by
  unfold rightStep
  simp only [readSlice_eq_readPix src lv hlv0]
  rw [Exec.bind_ok (F.updChan P r2 lv lp dp val hlv hlp hdp0 hdp)]
  rfl

theorem Frame.fill_loop {hp : Heap} {dst src : Nat} {d s : RGBA} (F : Frame hp dst src d s)
    (P : List Nat) (r n : Nat) (es so : Int) (val : Val) (hrn : r ≤ n)
    (hS : ∀ e : Nat, e < n → ∀ c : Nat, c < 4 →
      0 ≤ so + (e : Int) * es + c ∧ (so + (e : Int) * es + c).toNat < s.Pix.length) :
    ∃ val1 : Val,
      forTo 0 (r : Int) (fillStep src es) (val, so) (withPix hp dst d P)
        = (Except.ok (max 0 (r : Int), val1, so + (r : Int) * es), withPix hp dst d P) ∧
      ∀ c : Nat, c < 4 → val1 c = val c + ∑ j in Finset.range r, lineSrc s so es c j := by
  obtain ⟨⟨val1, rp1⟩, P1, e1, h1, h2, h3⟩ :=
    forTo_inv hp dst d (fillStep src es) 0 (r : Int) r (by omega)
      (fun k (st : Val × Int) Q => st.2 = so + (k : Int) * es ∧ Q = P ∧
        ∀ c : Nat, c < 4 → st.1 c = val c + ∑ j in Finset.range k, lineSrc s so es c j)
      (by
        rintro k hk ⟨v, rp⟩ Q ⟨hrp, hQ, hv⟩
        simp only at hrp hv
        subst hQ
        subst hrp
        refine ⟨_, _, F.fillStep_eq Q es _ v (hS k (by omega)), ?_, rfl, ?_⟩
        · simp only []; push_cast; ring
        · intro c hc
          simp only []
          rw [set4_apply _ _ c hc, hv c hc, Finset.sum_range_succ, add_assoc]
          rfl)
      (val, so) P ⟨by simp, rfl, by simp⟩
  simp only at h1 h3
  subst h1
  subst h2
  exact ⟨val1, e1, h3⟩

theorem winSum_step (a : Nat → Int) (r n : Nat) (x y : Int) (i o : Nat) (hy : y = x + 1)
    (hi : clampIdx n (x + 1 + r) = i) (ho : clampIdx n (x - r) = o) :
    winSum a r n y = winSum a r n x + (a i - a o) := by
  rw [hy, winSum_succ, hi, ho]

theorem Frame.left_loop {hp : Heap} {dst src : Nat} {d s : RGBA} (F : Frame hp dst src d s)
    (P : List Nat) (r n : Nat) (es ds so dO : Int) (val : Val) (h2r : 2 * r + 1 ≤ n)
    (hS : ∀ e : Nat, e < n → ∀ c : Nat, c < 4 →
      0 ≤ so + (e : Int) * es + c ∧ (so + (e : Int) * es + c).toNat < s.Pix.length)
    (hD : ∀ e : Nat, e < n → 0 ≤ dO + (e : Int) * ds ∧ (dO + (e : Int) * ds).toNat + 4 ≤ P.length)
    (hval : ∀ c : Nat, c < 4 → val c = winSum (lineSrc s so es c) r n (-1)) :
    ∃ val1 : Val,
      forTo 0 ((r : Int) + 1) (leftStep dst src (2 * (r : Int) + 1) es ds so)
          (val, so + (r : Int) * es, dO) (withPix hp dst d P)
        = (Except.ok (max 0 ((r : Int) + 1), val1, so + ((2 * r + 1 : Nat) : Int) * es,
              dO + ((r + 1 : Nat) : Int) * ds),
            withPix hp dst d (lineWrite P (lineAddr dO ds) (lineOut s so es r n) (r + 1))) ∧
      ∀ c : Nat, c < 4 → val1 c = winSum (lineSrc s so es c) r n (r : Int) := by
  have hso : ∀ c : Nat, c < 4 → 0 ≤ so + c ∧ (so + c).toNat < s.Pix.length := by
    intro c hc
    have := hS 0 (by omega) c hc
    simpa using this
  have hso0 : 0 ≤ so := by
    have := (hso 0 (by omega)).1
    simpa using this
  obtain ⟨⟨val1, rp1, dp1⟩, P1, e1, h1, h2, h3, h4⟩ :=
    forTo_inv hp dst d (leftStep dst src (2 * (r : Int) + 1) es ds so) 0 ((r : Int) + 1) (r + 1)
      (by omega)
      (fun k (st : Val × Int × Int) Q =>
        st.2.1 = so + ((r + k : Nat) : Int) * es ∧ st.2.2 = dO + (k : Int) * ds ∧
        Q = lineWrite P (lineAddr dO ds) (lineOut s so es r n) k ∧
        ∀ c : Nat, c < 4 → st.1 c = winSum (lineSrc s so es c) r n ((k : Int) - 1))
      (by
        rintro k hk ⟨v, rp, dp⟩ Q ⟨hrp, hdp, hQ, hv⟩
        simp only at hrp hdp hv
        subst hQ
        subst hrp
        subst hdp
        have hd := hD k (by omega)
        have key : ∀ c : Nat, c < 4 →
            v c + (srcByte s (so + ((r + k : Nat) : Int) * es + c) - srcByte s (so + c))
              = winSum (lineSrc s so es c) r n (k : Int) := by
          intro c hc
          rw [hv c hc, winSum_step (lineSrc s so es c) r n ((k : Int) - 1) (k : Int) (r + k) 0
            (by ring) (by unfold clampIdx; omega) (by unfold clampIdx; omega)]
          simp [lineSrc]
        refine ⟨_, _, F.leftStep_eq _ _ es ds so _ _ v hso0 (hS (r + k) (by omega)) hso hd.1
          (by rw [lineWrite_length]; exact hd.2), ?_, ?_, ?_, ?_⟩
        · simp only []; push_cast; ring
        · simp only []; push_cast; ring
        · show _ = write4 _ _ _
          apply write4_congr
          intro c hc
          show uint8 _ = uint8 _
          rw [key c hc]
        · intro c hc
          simp only []
          rw [set4_apply _ _ c hc, key c hc]
          congr 1
          omega)
      (val, so + (r : Int) * es, dO) P ⟨by simp, by simp, rfl, by simpa using hval⟩
  simp only at h1 h2 h4
  subst h1
  subst h2
  subst h3
  refine ⟨val1, ?_, ?_⟩
  · rw [e1, show r + (r + 1) = 2 * r + 1 by omega]
  · intro c hc
    rw [h4 c hc]
    congr 1
    omega

theorem Frame.mid_loop {hp : Heap} {dst src : Nat} {d s : RGBA} (F : Frame hp dst src d s)
    (P Q0 : List Nat) (r n : Nat) (es ds so dO x0 : Int) (val : Val) (h2r : 2 * r + 1 ≤ n)
    (hx0 : x0 = (r : Int) + 1)
    (hS : ∀ e : Nat, e < n → ∀ c : Nat, c < 4 →
      0 ≤ so + (e : Int) * es + c ∧ (so + (e : Int) * es + c).toNat < s.Pix.length)
    (hD : ∀ e : Nat, e < n → 0 ≤ dO + (e : Int) * ds ∧ (dO + (e : Int) * ds).toNat + 4 ≤ P.length)
    (hQ0 : Q0 = lineWrite P (lineAddr dO ds) (lineOut s so es r n) (r + 1))
    (hval : ∀ c : Nat, c < 4 → val c = winSum (lineSrc s so es c) r n (r : Int)) :
    ∃ val1 rp1,
      forTo x0 ((n : Int) - (r : Int)) (midStep dst src (2 * (r : Int) + 1) es ds)
          (val, so, so + ((2 * r + 1 : Nat) : Int) * es, dO + ((r + 1 : Nat) : Int) * ds)
          (withPix hp dst d Q0)
        = (Except.ok ((n : Int) - (r : Int), val1, so + ((n - (2 * r + 1) : Nat) : Int) * es, rp1,
              dO + ((n - r : Nat) : Int) * ds),
            withPix hp dst d (lineWrite P (lineAddr dO ds) (lineOut s so es r n) (n - r))) ∧
      ∀ c : Nat, c < 4 → val1 c = winSum (lineSrc s so es c) r n (((n - r : Nat) : Int) - 1) := by
  obtain ⟨⟨val1, lp1, rp1, dp1⟩, P1, e1, h1, h2, h3, h4, h5⟩ :=
    forTo_inv hp dst d (midStep dst src (2 * (r : Int) + 1) es ds) x0 ((n : Int) - (r : Int))
      (n - (2 * r + 1)) (by omega)
      (fun k (st : Val × Int × Int × Int) Q =>
        st.2.1 = so + (k : Int) * es ∧ st.2.2.1 = so + ((2 * r + 1 + k : Nat) : Int) * es ∧
        st.2.2.2 = dO + ((r + 1 + k : Nat) : Int) * ds ∧
        Q = lineWrite P (lineAddr dO ds) (lineOut s so es r n) (r + 1 + k) ∧
        ∀ c : Nat, c < 4 → st.1 c = winSum (lineSrc s so es c) r n (((r + 1 + k : Nat) : Int) - 1))
      (by
        rintro k hk ⟨v, lp, rp, dp⟩ Q ⟨hlp, hrp, hdp, hQ, hv⟩
        simp only at hlp hrp hdp hv
        subst hQ
        subst hrp
        subst hdp
        subst hlp
        have hd := hD (r + 1 + k) (by omega)
        have key : ∀ c : Nat, c < 4 →
            v c + (srcByte s (so + ((2 * r + 1 + k : Nat) : Int) * es + c)
              - srcByte s (so + (k : Int) * es + c))
              = winSum (lineSrc s so es c) r n ((r + 1 + k : Nat) : Int) := by
          intro c hc
          rw [hv c hc, winSum_step (lineSrc s so es c) r n (((r + 1 + k : Nat) : Int) - 1)
            ((r + 1 + k : Nat) : Int) (2 * r + 1 + k) k
            (by ring) (by unfold clampIdx; omega) (by unfold clampIdx; omega)]
          rfl
        refine ⟨_, _, F.midStep_eq _ _ es ds _ _ _ v (hS (2 * r + 1 + k) (by omega))
          (hS k (by omega)) hd.1 (by rw [lineWrite_length]; exact hd.2), ?_, ?_, ?_, ?_, ?_⟩
        · simp only []; push_cast; ring
        · simp only []; push_cast; ring
        · simp only []; push_cast; ring
        · show _ = write4 _ _ _
          apply write4_congr
          intro c hc
          show uint8 _ = uint8 _
          rw [key c hc]
          rfl
        · intro c hc
          simp only []
          rw [set4_apply _ _ c hc, key c hc]
          congr 1
          omega)
      (val, so, so + ((2 * r + 1 : Nat) : Int) * es, dO + ((r + 1 : Nat) : Int) * ds) Q0
      ⟨by simp, by simp, by simp, by simpa using hQ0, by
        intro c hc
        simp only []
        rw [hval c hc]
        congr 1
        omega⟩
  simp only at h1 h2 h3 h5
  subst h1
  subst h2
  subst h3
  subst h4
  refine ⟨val1, so + ((2 * r + 1 + (n - (2 * r + 1)) : Nat) : Int) * es, ?_, ?_⟩
  · rw [e1, show r + 1 + (n - (2 * r + 1)) = n - r by omega, show max x0 ((n : Int) - (r : Int)) = (n : Int) - (r : Int) by omega]
  · intro c hc
    rw [h5 c hc, show r + 1 + (n - (2 * r + 1)) = n - r by omega]

theorem Frame.right_loop {hp : Heap} {dst src : Nat} {d s : RGBA} (F : Frame hp dst src d s)
    (P Q0 : List Nat) (r n : Nat) (es ds so dO x0 : Int) (val : Val) (h2r : 2 * r + 1 ≤ n)
    (hx0 : x0 = (n : Int) - (r : Int))
    (hS : ∀ e : Nat, e < n → ∀ c : Nat, c < 4 →
      0 ≤ so + (e : Int) * es + c ∧ (so + (e : Int) * es + c).toNat < s.Pix.length)
    (hD : ∀ e : Nat, e < n → 0 ≤ dO + (e : Int) * ds ∧ (dO + (e : Int) * ds).toNat + 4 ≤ P.length)
    (hQ0 : Q0 = lineWrite P (lineAddr dO ds) (lineOut s so es r n) (n - r))
    (hval : ∀ c : Nat, c < 4 → val c = winSum (lineSrc s so es c) r n (((n - r : Nat) : Int) - 1)) :
    ∃ st1 : Val × Int × Int,
      forTo x0 (n : Int) (rightStep dst src (2 * (r : Int) + 1) es ds (so + ((n : Int) - 1) * es))
          (val, so + ((n - (2 * r + 1) : Nat) : Int) * es, dO + ((n - r : Nat) : Int) * ds)
          (withPix hp dst d Q0)
        = (Except.ok ((n : Int), st1),
            withPix hp dst d (lineWrite P (lineAddr dO ds) (lineOut s so es r n) n)) := by
  have hn1 : ((n : Int) - 1) = ((n - 1 : Nat) : Int) := by omega
  have hlv : ∀ c : Nat, c < 4 → 0 ≤ so + ((n : Int) - 1) * es + c ∧
      (so + ((n : Int) - 1) * es + c).toNat < s.Pix.length := by
    intro c hc
    rw [hn1]
    exact hS (n - 1) (by omega) c hc
  have hlv0 : 0 ≤ so + ((n : Int) - 1) * es := by
    have := (hlv 0 (by omega)).1
    simpa using this
  obtain ⟨⟨val1, lp1, dp1⟩, P1, e1, h1, h2, h3, h4⟩ :=
    forTo_inv hp dst d (rightStep dst src (2 * (r : Int) + 1) es ds (so + ((n : Int) - 1) * es))
      x0 (n : Int) r (by omega)
      (fun k (st : Val × Int × Int) Q =>
        st.2.1 = so + ((n - (2 * r + 1) + k : Nat) : Int) * es ∧
        st.2.2 = dO + ((n - r + k : Nat) : Int) * ds ∧
        Q = lineWrite P (lineAddr dO ds) (lineOut s so es r n) (n - r + k) ∧
        ∀ c : Nat, c < 4 → st.1 c = winSum (lineSrc s so es c) r n (((n - r + k : Nat) : Int) - 1))
      (by
        rintro k hk ⟨v, lp, dp⟩ Q ⟨hlp, hdp, hQ, hv⟩
        simp only at hlp hdp hv
        subst hQ
        subst hdp
        subst hlp
        have hd := hD (n - r + k) (by omega)
        have key : ∀ c : Nat, c < 4 →
            v c + (srcByte s (so + ((n : Int) - 1) * es + c)
              - srcByte s (so + ((n - (2 * r + 1) + k : Nat) : Int) * es + c))
              = winSum (lineSrc s so es c) r n ((n - r + k : Nat) : Int) := by
          intro c hc
          rw [hv c hc, winSum_step (lineSrc s so es c) r n (((n - r + k : Nat) : Int) - 1)
            ((n - r + k : Nat) : Int) (n - 1) (n - (2 * r + 1) + k)
            (by ring) (by unfold clampIdx; omega) (by unfold clampIdx; omega), hn1]
          rfl
        refine ⟨_, _, F.rightStep_eq _ _ es ds _ _ _ v hlv0 hlv
          (hS (n - (2 * r + 1) + k) (by omega)) hd.1 (by rw [lineWrite_length]; exact hd.2),
          ?_, ?_, ?_, ?_⟩
        · simp only []; push_cast; ring
        · simp only []; push_cast; ring
        · show _ = write4 _ _ _
          apply write4_congr
          intro c hc
          show uint8 _ = uint8 _
          rw [key c hc]
          rfl
        · intro c hc
          simp only []
          rw [set4_apply _ _ c hc, key c hc]
          congr 1
          omega)
      (val, so + ((n - (2 * r + 1) : Nat) : Int) * es, dO + ((n - r : Nat) : Int) * ds) Q0
      ⟨by simp, by simp, by simpa using hQ0, by simpa using hval⟩
  subst h3
  refine ⟨(val1, lp1, dp1), ?_⟩
  rw [e1, show n - r + r = n by omega, show max x0 (n : Int) = (n : Int) by omega]

theorem Frame.line1D_spec {hp : Heap} {dst src : Nat} {d s : RGBA} (F : Frame hp dst src d s)
    (P : List Nat) (r n : Nat) (sL es dL ds so dO : Int) (val0 : Val) (h2r : 2 * r + 1 ≤ n)
    (hS : ∀ e : Nat, e < n → ∀ c : Nat, c < 4 →
      0 ≤ so + (e : Int) * es + c ∧ (so + (e : Int) * es + c).toNat < s.Pix.length)
    (hD : ∀ e : Nat, e < n →
      0 ≤ dO + (e : Int) * ds ∧ (dO + (e : Int) * ds).toNat + 4 ≤ P.length) :
    ∃ val1 : Val,
      line1D dst src (r : Int) (n : Int) sL es dL ds (val0, so, dO) (withPix hp dst d P)
        = (Except.ok (val1, so + sL, dO + dL),
            withPix hp dst d (lineWrite P (lineAddr dO ds) (lineOut s so es r n) n)) := by
  have hso : ∀ c : Nat, c < 4 → 0 ≤ so + c ∧ (so + c).toNat < s.Pix.length := by
    intro c hc
    have := hS 0 (by omega) c hc
    simpa using this
  have hso0 : 0 ≤ so := by
    have := (hso 0 (by omega)).1
    simpa using this
  have hn1 : ((n : Int) - 1) = ((n - 1 : Nat) : Int) := by omega
  have hlv := hS (n - 1) (by omega) 0 (by omega)
  rw [← hn1] at hlv
  simp only [Nat.cast_zero, add_zero] at hlv
  obtain ⟨val1, e1, hv1⟩ := F.fill_loop P r n es so
    (set4 val0 (fun c => ((r : Int) + 1) * srcByte s (so + c))) (by omega) hS
  have hv1' : ∀ c : Nat, c < 4 → val1 c = winSum (lineSrc s so es c) r n (-1) := by
    intro c hc
    rw [hv1 c hc, set4_apply _ _ c hc, winSum_pre _ r n (by omega)]
    simp [lineSrc]
  obtain ⟨val2, e2, hv2⟩ := F.left_loop P r n es ds so dO val1 h2r hS hD hv1'
  obtain ⟨val3, rp3, e3, hv3⟩ := F.mid_loop P _ r n es ds so dO (max 0 ((r : Int) + 1)) val2 h2r
    (by omega) hS hD rfl hv2
  obtain ⟨st4, e4⟩ := F.right_loop P _ r n es ds so dO ((n : Int) - (r : Int)) val3 h2r rfl
    hS hD rfl hv3
  refine ⟨st4.1, ?_⟩
  unfold line1D
  simp only []
  have hsl := (hso 0 (by omega)).2
  simp only [Nat.cast_zero, add_zero] at hsl
  rw [Exec.bind_ok (F.sliceFrom_eq P so hso0 (by omega))]
  rw [Exec.bind_ok (F.sliceFrom_eq P _ hlv.1 (by omega))]
  rw [Exec.bind_ok (F.initChan P (r : Int) so val0 hso)]
  rw [Exec.bind_ok e1]
  rw [Exec.bind_ok e2]
  rw [Exec.bind_ok e3]
  rw [Exec.bind_ok e4]
  rfl

/-! ## The whole pass -/

theorem gridWrite_length (P : List Nat) (addr : Nat → Nat → Nat) (out : Nat → Nat → Nat → Nat)
    (n L : Nat) : (gridWrite P addr out n L).length = P.length := by
  induction L with
  | zero => rfl
  | succ L ih => simp [gridWrite, lineWrite_length, ih]

theorem Frame.pass1D_spec {hp : Heap} {dst src : Nat} {d s : RGBA} (F : Frame hp dst src d s)
    (P : List Nat) (r nL n : Nat) (sL es dL ds so0 dO0 : Int) (h2r : 2 * r + 1 ≤ n)
    (hS : ∀ L : Nat, L < nL → ∀ e : Nat, e < n → ∀ c : Nat, c < 4 →
      0 ≤ so0 + (L : Int) * sL + (e : Int) * es + c ∧
        (so0 + (L : Int) * sL + (e : Int) * es + c).toNat < s.Pix.length)
    (hD : ∀ L : Nat, L < nL → ∀ e : Nat, e < n →
      0 ≤ dO0 + (L : Int) * dL + (e : Int) * ds ∧
        (dO0 + (L : Int) * dL + (e : Int) * ds).toNat + 4 ≤ P.length) :
    pass1D dst src (r : Int) (nL : Int) (n : Int) sL es dL ds so0 dO0 (withPix hp dst d P)
      = (Except.ok (),
          withPix hp dst d (gridWrite P (fun L => lineAddr (dO0 + (L : Int) * dL) ds)
            (fun L => lineOut s (so0 + (L : Int) * sL) es r n) n nL)) := by
  obtain ⟨⟨val1, so1, dO1⟩, P1, e1, _, _, h3⟩ :=
    forTo_inv hp dst d (line1D dst src (r : Int) (n : Int) sL es dL ds) 0 (nL : Int) nL (by omega)
      (fun L (st : Val × Int × Int) Q =>
        st.2.1 = so0 + (L : Int) * sL ∧ st.2.2 = dO0 + (L : Int) * dL ∧
        Q = gridWrite P (fun L => lineAddr (dO0 + (L : Int) * dL) ds)
            (fun L => lineOut s (so0 + (L : Int) * sL) es r n) n L)
      (by
        rintro L hL ⟨v, so, dO⟩ Q ⟨hso, hdO, hQ⟩
        simp only at hso hdO
        subst hQ
        subst hso
        subst hdO
        obtain ⟨v1, e⟩ := F.line1D_spec _ r n sL es dL ds _ _ v h2r (hS L hL)
          (fun e he => by rw [gridWrite_length]; exact hD L hL e he)
        refine ⟨_, _, e, ?_, ?_, rfl⟩
        · simp only []; push_cast; ring
        · simp only []; push_cast; ring)
      ((fun _ => 0), so0, dO0) P ⟨by simp, by simp, rfl⟩
  subst h3
  unfold pass1D
  rw [Exec.bind_ok e1]
  rfl

/-! ## Reading the bytes written by a pass -/

theorem lineWrite_get_out (P : List Nat) (addr : Nat → Nat) (out : Nat → Nat → Nat) (k j : Nat)
    (h : ∀ e, e < k → j < addr e ∨ addr e + 4 ≤ j) :
    (lineWrite P addr out k)[j]? = P[j]? := by
  induction k with
  | zero => rfl
  | succ k ih =>
    show (write4 _ _ _)[j]? = _
    rw [write4_get_out _ _ _ _ (h k (by omega))]
    exact ih (fun e he => h e (by omega))

theorem lineWrite_get_in (P : List Nat) (addr : Nat → Nat) (out : Nat → Nat → Nat) (k e c : Nat)
    (he : e < k) (hc : c < 4) (hlen : addr e + 4 ≤ P.length)
    (hdis : ∀ e1, e1 < k → e1 ≠ e → addr e1 + 4 ≤ addr e ∨ addr e + 4 ≤ addr e1) :
    (lineWrite P addr out k)[addr e + c]? = some (out e c) := by
  induction k with
  | zero => omega
  | succ k ih =>
    show (write4 _ _ _)[addr e + c]? = _
    by_cases hek : e = k
    · subst hek
      exact write4_get_in _ _ _ (by rw [lineWrite_length]; exact hlen) c hc
    · have := hdis k (by omega) (Ne.symm hek)
      rw [write4_get_out _ _ _ _ (by omega)]
      exact ih (by omega) (fun e1 h1 h2 => hdis e1 (by omega) h2)

theorem gridWrite_get_out (P : List Nat) (addr : Nat → Nat → Nat) (out : Nat → Nat → Nat → Nat)
    (n nL j : Nat) (h : ∀ L, L < nL → ∀ e, e < n → j < addr L e ∨ addr L e + 4 ≤ j) :
    (gridWrite P addr out n nL)[j]? = P[j]? := by
  induction nL with
  | zero => rfl
  | succ L ih =>
    show (lineWrite _ _ _ _)[j]? = _
    rw [lineWrite_get_out _ _ _ _ _ (h L (by omega))]
    exact ih (fun L1 h1 => h L1 (by omega))

theorem gridWrite_get_in (P : List Nat) (addr : Nat → Nat → Nat) (out : Nat → Nat → Nat → Nat)
    (n nL L e c : Nat) (hL : L < nL) (he : e < n) (hc : c < 4) (hlen : addr L e + 4 ≤ P.length)
    (hdis : ∀ L1, L1 < nL → ∀ e1, e1 < n → (L1 ≠ L ∨ e1 ≠ e) →
      addr L1 e1 + 4 ≤ addr L e ∨ addr L e + 4 ≤ addr L1 e1) :
    (gridWrite P addr out n nL)[addr L e + c]? = some (out L e c) := by
  induction nL with
  | zero => omega
  | succ k ih =>
    show (lineWrite _ _ _ _)[addr L e + c]? = _
    by_cases hLk : L = k
    · subst hLk
      exact lineWrite_get_in _ _ _ _ e c he hc (by rw [gridWrite_length]; exact hlen)
        (fun e1 h1 h2 => hdis L (by omega) e1 h1 (Or.inr h2))
    · rw [lineWrite_get_out _ _ _ _ _ (fun e1 h1 => by
        have := hdis k (by omega) e1 h1 (Or.inl (Ne.symm hLk))
        omega)]
      exact ih (by omega) (fun L1 h1 e1 h2 h3 => hdis L1 (by omega) e1 h2 h3)

/-! ## Arithmetic of the buffer layout -/

theorem RGBA.PixOffset_min (p : RGBA) : p.PixOffset p.Bounds.MinX p.Bounds.MinY = 0 := by
  simp [RGBA.PixOffset, RGBA.Bounds]

theorem RGBA.sample_eq (p : RGBA) (x y c : Nat) :
    p.sample x y c = p.Pix.getD ((y : Int) * p.Stride + (x : Int) * 4 + (c : Int)).toNat 0 := by
  unfold RGBA.sample RGBA.PixOffset
  congr 2
  ring

theorem RGBA.sample_lt (p : RGBA) (hb : p.bytesOK) (x y c : Nat) :
    p.sample x y c < 256 := by
  unfold RGBA.sample
  rw [List.getD_eq_getElem?_getD]
  rcases h : p.Pix[(p.PixOffset (p.Rect.MinX + (x : Int)) (p.Rect.MinY + (y : Int)) + (c : Int)).toNat]? with _ | b
  · simp
  · simp only [Option.getD_some]
    exact hb b (List.getElem?_mem h)

theorem row_bound (st : Int) (y h : Nat) (hst : 0 ≤ st) (hy : y < h) :
    0 ≤ (y : Int) * st ∧ (y : Int) * st ≤ ((h : Int) - 1) * st := by
  constructor
  · exact mul_nonneg (Int.ofNat_nonneg y) hst
  · exact mul_le_mul_of_nonneg_right (by omega) hst

theorem cells_disjoint (st : Int) (w : Nat) (hst : 4 * (w : Int) ≤ st) (x y x1 y1 : Nat)
    (hx : x < w) (hx1 : x1 < w) (hne : y1 ≠ y ∨ x1 ≠ x) :
    (y1 : Int) * st + (x1 : Int) * 4 + 4 ≤ (y : Int) * st + (x : Int) * 4 ∨
      (y : Int) * st + (x : Int) * 4 + 4 ≤ (y1 : Int) * st + (x1 : Int) * 4 := by
  have hst0 : 0 ≤ st := by omega
  rcases Nat.lt_trichotomy y1 y with h | h | h
  · left
    have h1 : ((y1 : Int) + 1) * st ≤ (y : Int) * st :=
      mul_le_mul_of_nonneg_right (by omega) hst0
    have h2 : ((y1 : Int) + 1) * st = (y1 : Int) * st + st := by ring
    omega
  · subst h
    rcases hne with h | h
    · exact absurd rfl h
    · omega
  · right
    have h1 : ((y : Int) + 1) * st ≤ (y1 : Int) * st :=
      mul_le_mul_of_nonneg_right (by omega) hst0
    have h2 : ((y : Int) + 1) * st = (y : Int) * st + st := by ring
    omega

theorem uint8_tdiv_cast (N m : Nat) (h : N / m < 256) :
    uint8 (((N : Int)).tdiv (m : Int)) = N / m := by
  unfold uint8
  rw [← Int.ofNat_tdiv]
  generalize N / m = q at h ⊢
  omega

theorem sum_div_lt (f : Nat → Nat) (m : Nat) (hf : ∀ k, f k < 256) :
    (∑ k in Finset.range (m + 1), f k) / (m + 1) < 256 := by
  have h : ∑ k in Finset.range (m + 1), f k ≤ ∑ _k in Finset.range (m + 1), 255 :=
    Finset.sum_le_sum (fun k _ => by have := hf k; omega)
  simp only [Finset.sum_const, Finset.card_range, smul_eq_mul] at h
  rw [Nat.div_lt_iff_lt_mul (by omega)]
  omega

theorem clampIdx_eq_clamp (n : Nat) (j : Int) (hn : 0 < n) :
    clampIdx n j = (clamp j 0 ((n : Int) - 1)).toNat := by
  unfold clampIdx clamp
  omega

theorem winSum_cast (f : Nat → Nat) (r n : Nat) (x : Int) :
    winSum (fun j => ((f j : Nat) : Int)) r n x
      = ((∑ k in Finset.range (2 * r + 1), f (clampIdx n (x + (k : Int) - (r : Int))) : Nat) : Int) := by
  unfold winSum
  push_cast
  rfl

/-! ## The horizontal and the vertical pass -/

theorem deref_eq (hp : Heap) (p : Nat) (o : RGBA) (h : hp[p]? = some o) :
    deref p hp = (Except.ok o, hp) := by
  unfold deref
  rw [h]

theorem boxBlurH_run (hp : Heap) (dst src : Nat) (d s : RGBA) (r w h : Nat)
    (hs : hp[src]? = some s) (hd : hp[dst]? = some d) (hne : dst ≠ src)
    (wfs : s.Fits w h) (wfd : d.Fits w h) (hw : 2 * r + 1 ≤ w) :
    boxBlurH dst src (r : Int) hp
      = (Except.ok (), withPix hp dst d (pixAfterH d s r w h)) := by
  have F : Frame hp dst src d s := ⟨hs, hd, Ne.symm hne⟩
  have hS : ∀ L : Nat, L < h → ∀ e : Nat, e < w → ∀ c : Nat, c < 4 →
      0 ≤ 0 + (L : Int) * s.Stride + (e : Int) * 4 + c ∧
        (0 + (L : Int) * s.Stride + (e : Int) * 4 + c).toNat < s.Pix.length := by
    intro L hL e he c hc
    have h1 := row_bound s.Stride L h (by have := wfs.stride; omega) hL
    have h2 := wfs.len (by omega)
    generalize (L : Int) * s.Stride = a at h1 ⊢
    generalize ((h : Int) - 1) * s.Stride = b at h1 h2
    omega
  have hD : ∀ L : Nat, L < h → ∀ e : Nat, e < w →
      0 ≤ 0 + (L : Int) * d.Stride + (e : Int) * 4 ∧
        (0 + (L : Int) * d.Stride + (e : Int) * 4).toNat + 4 ≤ d.Pix.length := by
    intro L hL e he
    have h1 := row_bound d.Stride L h (by have := wfd.stride; omega) hL
    have h2 := wfd.len (by omega)
    generalize (L : Int) * d.Stride = a at h1 ⊢
    generalize ((h : Int) - 1) * d.Stride = b at h1 h2
    omega
  have e := F.pass1D_spec d.Pix r h w s.Stride 4 d.Stride 4 0 0 hw hS hD
  rw [F.withPix_self] at e
  rw [boxBlurH_eq, Exec.bind_ok (deref_eq hp src s hs), Exec.bind_ok (deref_eq hp dst d hd),
    RGBA.PixOffset_min, RGBA.PixOffset_min]
  have e1 : d.Bounds.Dy = (h : Int) := wfd.dy
  have e2 : d.Bounds.Dx = (w : Int) := wfd.dx
  rw [e1, e2]
  exact e

theorem boxBlurV_run (hp : Heap) (dst src : Nat) (d s : RGBA) (r w h : Nat)
    (hs : hp[src]? = some s) (hd : hp[dst]? = some d) (hne : dst ≠ src)
    (wfs : s.Fits w h) (wfd : d.Fits w h) (hh : 2 * r + 1 ≤ h) :
    boxBlurV dst src (r : Int) hp
      = (Except.ok (), withPix hp dst d (pixAfterV d s r w h)) := by
  have F : Frame hp dst src d s := ⟨hs, hd, Ne.symm hne⟩
  have hS : ∀ L : Nat, L < w → ∀ e : Nat, e < h → ∀ c : Nat, c < 4 →
      0 ≤ 0 + (L : Int) * 4 + (e : Int) * s.Stride + c ∧
        (0 + (L : Int) * 4 + (e : Int) * s.Stride + c).toNat < s.Pix.length := by
    intro L hL e he c hc
    have h1 := row_bound s.Stride e h (by have := wfs.stride; omega) he
    have h2 := wfs.len (by omega)
    generalize (e : Int) * s.Stride = a at h1 ⊢
    generalize ((h : Int) - 1) * s.Stride = b at h1 h2
    omega
  have hD : ∀ L : Nat, L < w → ∀ e : Nat, e < h →
      0 ≤ 0 + (L : Int) * 4 + (e : Int) * d.Stride ∧
        (0 + (L : Int) * 4 + (e : Int) * d.Stride).toNat + 4 ≤ d.Pix.length := by
    intro L hL e he
    have h1 := row_bound d.Stride e h (by have := wfd.stride; omega) he
    have h2 := wfd.len (by omega)
    generalize (e : Int) * d.Stride = a at h1 ⊢
    generalize ((h : Int) - 1) * d.Stride = b at h1 h2
    omega
  have e := F.pass1D_spec d.Pix r w h 4 s.Stride 4 d.Stride 0 0 hh hS hD
  rw [F.withPix_self] at e
  rw [boxBlurV_eq, Exec.bind_ok (deref_eq hp src s hs), Exec.bind_ok (deref_eq hp dst d hd),
    RGBA.PixOffset_min, RGBA.PixOffset_min]
  have e1 : d.Bounds.Dy = (h : Int) := wfd.dy
  have e2 : d.Bounds.Dx = (w : Int) := wfd.dx
  rw [e1, e2]
  exact e

theorem lineSrc_H (s : RGBA) (y c : Nat) :
    lineSrc s (0 + (y : Int) * s.Stride) 4 c = fun j => ((s.sample j y c : Nat) : Int) := by
  funext j
  unfold lineSrc srcByte
  rw [RGBA.sample_eq]
  congr 3
  ring

theorem lineSrc_V (s : RGBA) (x c : Nat) :
    lineSrc s (0 + (x : Int) * 4) s.Stride c = fun j => ((s.sample x j c : Nat) : Int) := by
  funext j
  unfold lineSrc srcByte
  rw [RGBA.sample_eq]
  congr 3
  ring

theorem pixAfterH_length (d s : RGBA) (r w h : Nat) :
    (pixAfterH d s r w h).length = d.Pix.length := gridWrite_length _ _ _ _ _

theorem pixAfterV_length (d s : RGBA) (r w h : Nat) :
    (pixAfterV d s r w h).length = d.Pix.length := gridWrite_length _ _ _ _ _

theorem pixAfterH_sample (d s : RGBA) (r w h : Nat) (wfd : d.Fits w h) (x y c : Nat)
    (hx : x < w) (hy : y < h) (hc : c < 4) :
    ({ d with Pix := pixAfterH d s r w h } : RGBA).sample x y c = blurH r w s.sample x y c := by
  have hst : 0 ≤ d.Stride := by have := wfd.stride; omega
  have h1 := row_bound d.Stride y h hst hy
  have h2 := wfd.len (by omega)
  have h3 := wfd.stride
  have hidx : ((y : Int) * d.Stride + (x : Int) * 4 + (c : Int)).toNat
      = lineAddr (0 + (y : Int) * d.Stride) 4 x + c := by
    unfold lineAddr
    generalize (y : Int) * d.Stride = a at h1 ⊢
    omega
  rw [RGBA.sample_eq]
  show (pixAfterH d s r w h).getD _ 0 = _
  rw [List.getD_eq_getElem?_getD, hidx]
  unfold pixAfterH
  rw [gridWrite_get_in d.Pix (fun L => lineAddr (0 + (L : Int) * d.Stride) 4) _ w h y x c hy hx hc]
  · show lineOut s (0 + (y : Int) * s.Stride) 4 r w x c = _
    unfold lineOut blurH
    rw [lineSrc_H]
  · show lineAddr _ _ _ + 4 ≤ _
    unfold lineAddr
    generalize (y : Int) * d.Stride = a at h1 ⊢
    generalize ((h : Int) - 1) * d.Stride = b at h1 h2
    omega
  · intro L1 hL1 e1 he1 hne
    show lineAddr _ _ _ + 4 ≤ lineAddr _ _ _ ∨ lineAddr _ _ _ + 4 ≤ lineAddr _ _ _
    unfold lineAddr
    have h4 := cells_disjoint d.Stride w h3 x y e1 L1 hx he1 hne
    have h5 := row_bound d.Stride L1 h hst hL1
    generalize (y : Int) * d.Stride = a at h1 h4 ⊢
    generalize (L1 : Int) * d.Stride = a1 at h5 h4 ⊢
    omega

theorem pixAfterV_sample (d s : RGBA) (r w h : Nat) (wfd : d.Fits w h) (x y c : Nat)
    (hx : x < w) (hy : y < h) (hc : c < 4) :
    ({ d with Pix := pixAfterV d s r w h } : RGBA).sample x y c = blurV r h s.sample x y c := by
  have hst : 0 ≤ d.Stride := by have := wfd.stride; omega
  have h1 := row_bound d.Stride y h hst hy
  have h2 := wfd.len (by omega)
  have h3 := wfd.stride
  have hidx : ((y : Int) * d.Stride + (x : Int) * 4 + (c : Int)).toNat
      = lineAddr (0 + (x : Int) * 4) d.Stride y + c := by
    unfold lineAddr
    generalize (y : Int) * d.Stride = a at h1 ⊢
    omega
  rw [RGBA.sample_eq]
  show (pixAfterV d s r w h).getD _ 0 = _
  rw [List.getD_eq_getElem?_getD, hidx]
  unfold pixAfterV
  rw [gridWrite_get_in d.Pix (fun L => lineAddr (0 + (L : Int) * 4) d.Stride) _ h w x y c hx hy hc]
  · show lineOut s (0 + (x : Int) * 4) s.Stride r h y c = _
    unfold lineOut blurV
    rw [lineSrc_V]
  · show lineAddr _ _ _ + 4 ≤ _
    unfold lineAddr
    generalize (y : Int) * d.Stride = a at h1 ⊢
    generalize ((h : Int) - 1) * d.Stride = b at h1 h2
    omega
  · intro L1 hL1 e1 he1 hne
    show lineAddr _ _ _ + 4 ≤ lineAddr _ _ _ ∨ lineAddr _ _ _ + 4 ≤ lineAddr _ _ _
    unfold lineAddr
    have h4 := cells_disjoint d.Stride w h3 x y L1 e1 hx hL1 (Or.symm hne)
    have h5 := row_bound d.Stride e1 h hst he1
    generalize (y : Int) * d.Stride = a at h1 h4 ⊢
    generalize (e1 : Int) * d.Stride = a1 at h5 h4 ⊢
    omega

theorem blurH_eq_mean (r w : Nat) (g : Grid) (hg : ∀ x y c, g x y c < 256) (hw : 0 < w)
    (x y c : Nat) :
    blurH r w g x y c
      = (∑ k in Finset.range (2 * r + 1),
          g (clamp ((x : Int) + (k : Int) - (r : Int)) 0 ((w : Int) - 1)).toNat y c) / (2 * r + 1) := by
  unfold blurH
  rw [winSum_cast (fun j => g j y c) r w (x : Int)]
  simp only [clampIdx_eq_clamp w _ hw]
  have e : (2 * (r : Int) + 1) = ((2 * r + 1 : Nat) : Int) := by push_cast; ring
  rw [e]
  exact uint8_tdiv_cast _ _ (sum_div_lt _ (2 * r) (fun k => hg _ y c))

theorem blurV_eq_mean (r h : Nat) (g : Grid) (hg : ∀ x y c, g x y c < 256) (hh : 0 < h)
    (x y c : Nat) :
    blurV r h g x y c
      = (∑ k in Finset.range (2 * r + 1),
          g x (clamp ((y : Int) + (k : Int) - (r : Int)) 0 ((h : Int) - 1)).toNat c) / (2 * r + 1) := by
  unfold blurV
  rw [winSum_cast (fun j => g x j c) r h (y : Int)]
  simp only [clampIdx_eq_clamp h _ hh]
  have e : (2 * (r : Int) + 1) = ((2 * r + 1 : Nat) : Int) := by push_cast; ring
  rw [e]
  exact uint8_tdiv_cast _ _ (sum_div_lt _ (2 * r) (fun k => hg x _ c))

/-! ## C1, C2: the two passes compute the truncated mean of the clamped window -/

/-- C1: for a well-formed source and a different well-formed destination of
width `w ≥ 2r+1` and height `h ≥ 1`, `boxBlurH dst src r` returns normally,
changes only the bytes of the destination, and afterwards the destination
sample of every pixel `x < w`, `y < h` and channel `c < 4` is the truncated
mean of the `2r+1` source samples of row `y` around column `x`, the row being
extended by repeating its first and last column. -/
theorem boxBlurH_truncated_mean (hp : Heap) (dst src : Nat) (d s : RGBA) (r w h : Nat)
    (hs : hp[src]? = some s) (hd : hp[dst]? = some d) (hne : dst ≠ src)
    (wfs : s.WF w h) (wfd : d.WF w h) (hw : 2 * r + 1 ≤ w) (hh : 1 ≤ h) :
    ∃ d1 : RGBA, boxBlurH dst src (r : Int) hp = (Except.ok (), hp.set dst d1) ∧
      d1.Stride = d.Stride ∧ d1.Rect = d.Rect ∧
      ∀ x y c, x < w → y < h → c < 4 → d1.sample x y c = boxMeanH s r w x y c := by
  have _ := hh
  refine ⟨{ d with Pix := pixAfterH d s r w h }, ?_, rfl, rfl, ?_⟩
  · exact boxBlurH_run hp dst src d s r w h hs hd hne wfs.fits wfd.fits hw
  · intro x y c hx hy hc
    rw [pixAfterH_sample d s r w h wfd.fits x y c hx hy hc,
      blurH_eq_mean r w s.sample (s.sample_lt wfs.bytes) (by omega)]
    rfl

theorem boxBlurH_truncated_mean_witness :
    ∃ d1 : RGBA, boxBlurH 1 0 ((1 : Nat) : Int) heap33 = (Except.ok (), heap33.set 1 d1) ∧
      d1.Stride = (mkRGBA 3 3 (fun _ => 0)).Stride ∧ d1.Rect = (mkRGBA 3 3 (fun _ => 0)).Rect ∧
      ∀ x y c, x < 3 → y < 3 → c < 4 →
        d1.sample x y c = boxMeanH (mkRGBA 3 3 (fun i => 7 * i)) 1 3 x y c :=
  boxBlurH_truncated_mean heap33 1 0 (mkRGBA 3 3 (fun _ => 0)) (mkRGBA 3 3 (fun i => 7 * i))
    1 3 3 rfl rfl (by decide)
    ⟨⟨rfl, rfl, by decide, by decide⟩, by decide⟩
    ⟨⟨rfl, rfl, by decide, by decide⟩, by decide⟩ (by decide) (by decide)

/-- C2: for a well-formed source and a different well-formed destination of
height `h ≥ 2r+1` and width `w ≥ 1` (the strides may differ and may exceed
`4 * w`), `boxBlurV dst src r` returns normally, changes only the bytes of the
destination, and afterwards the destination sample of every pixel `x < w`,
`y < h` and channel `c < 4` is the truncated mean of the `2r+1` source samples
of column `x` around row `y`, the column being extended by repeating its first
and last row. -/
theorem boxBlurV_truncated_mean (hp : Heap) (dst src : Nat) (d s : RGBA) (r w h : Nat)
    (hs : hp[src]? = some s) (hd : hp[dst]? = some d) (hne : dst ≠ src)
    (wfs : s.WF w h) (wfd : d.WF w h) (hh : 2 * r + 1 ≤ h) (hw : 1 ≤ w) :
    ∃ d1 : RGBA, boxBlurV dst src (r : Int) hp = (Except.ok (), hp.set dst d1) ∧
      d1.Stride = d.Stride ∧ d1.Rect = d.Rect ∧
      ∀ x y c, x < w → y < h → c < 4 → d1.sample x y c = boxMeanV s r h x y c := by
  have _ := hw
  refine ⟨{ d with Pix := pixAfterV d s r w h }, ?_, rfl, rfl, ?_⟩
  · exact boxBlurV_run hp dst src d s r w h hs hd hne wfs.fits wfd.fits hh
  · intro x y c hx hy hc
    rw [pixAfterV_sample d s r w h wfd.fits x y c hx hy hc,
      blurV_eq_mean r h s.sample (s.sample_lt wfs.bytes) (by omega)]
    rfl

theorem boxBlurV_truncated_mean_witness :
    ∃ d1 : RGBA, boxBlurV 1 0 ((1 : Nat) : Int) heap33 = (Except.ok (), heap33.set 1 d1) ∧
      d1.Stride = (mkRGBA 3 3 (fun _ => 0)).Stride ∧ d1.Rect = (mkRGBA 3 3 (fun _ => 0)).Rect ∧
      ∀ x y c, x < 3 → y < 3 → c < 4 →
        d1.sample x y c = boxMeanV (mkRGBA 3 3 (fun i => 7 * i)) 1 3 x y c :=
  boxBlurV_truncated_mean heap33 1 0 (mkRGBA 3 3 (fun _ => 0)) (mkRGBA 3 3 (fun i => 7 * i))
    1 3 3 rfl rfl (by decide)
    ⟨⟨rfl, rfl, by decide, by decide⟩, by decide⟩
    ⟨⟨rfl, rfl, by decide, by decide⟩, by decide⟩ (by decide) (by decide)

/-! ## The box-size solver -/

theorem floorSqrt_natCast (n : Nat) : floorSqrt (n : ℚ) = (Nat.sqrt n : Int) := by
  unfold floorSqrt
  rw [Int.floor_natCast, Int.toNat_ofNat]

theorem determineBoxes_zero : determineBoxes 0 3 = [1, 1, 1] := by
  have h1 : floorSqrt (12 * (0 : ℚ) * 0 / ((3 : Nat) : ℚ) + 1) = 1 := by
    have : (12 * (0 : ℚ) * 0 / ((3 : Nat) : ℚ) + 1) = ((1 : Nat) : ℚ) := by norm_num
    rw [this, floorSqrt_natCast]
    rfl
  have h2 : ¬ (1 : Int).tmod 2 = 0 := by decide
  have h3 : (12 * (0 : ℚ) * 0
      - ((((3 : Nat) : Int) * 1 * 1 + 4 * ((3 : Nat) : Int) * 1 + 3 * ((3 : Nat) : Int) : Int) : ℚ))
      / (-4 * ((1 : Int) : ℚ) - 4) + 1 / 2 = 7 / 2 := by
    norm_num
  have h4 : ⌊(7 / 2 : ℚ)⌋ = 3 := by
    rw [Int.floor_eq_iff]
    norm_num
  unfold determineBoxes
  simp only [h1, h2, if_false, h3, h4]
  decide

theorem determineBoxes_nat (r : Nat) (hr : 1 ≤ r) :
    determineBoxes (r : ℚ) 3 = [2 * (r : Int) - 1, 2 * (r : Int) - 1, 2 * (r : Int) + 1] := by
  have h1 : floorSqrt (12 * (r : ℚ) * (r : ℚ) / ((3 : Nat) : ℚ) + 1) = 2 * (r : Int) := by
    have : (12 * (r : ℚ) * (r : ℚ) / ((3 : Nat) : ℚ) + 1) = ((2 * r * (2 * r) + 1 : Nat) : ℚ) := by
      push_cast; ring
    rw [this, floorSqrt_natCast, Nat.sqrt_add_eq (2 * r) (by omega)]
    push_cast; ring
  have h2 : (2 * (r : Int)).tmod 2 = 0 := by
    rw [Int.mul_tmod_right]
  have hr' : (r : ℚ) ≠ 0 := by
    have : (0 : ℚ) < r := by exact_mod_cast hr
    exact ne_of_gt this
  have h3 : (12 * (r : ℚ) * (r : ℚ)
      - ((((3 : Nat) : Int) * (2 * (r : Int) - 1) * (2 * (r : Int) - 1)
          + 4 * ((3 : Nat) : Int) * (2 * (r : Int) - 1) + 3 * ((3 : Nat) : Int) : Int) : ℚ))
      / (-4 * ((2 * (r : Int) - 1 : Int) : ℚ) - 4) + 1 / 2 = 2 := by
    have hnum : (12 * (r : ℚ) * (r : ℚ)
        - ((((3 : Nat) : Int) * (2 * (r : Int) - 1) * (2 * (r : Int) - 1)
            + 4 * ((3 : Nat) : Int) * (2 * (r : Int) - 1) + 3 * ((3 : Nat) : Int) : Int) : ℚ))
        = -12 * (r : ℚ) := by
      push_cast; ring
    have hden : (-4 * ((2 * (r : Int) - 1 : Int) : ℚ) - 4) = -8 * (r : ℚ) := by
      push_cast; ring
    rw [hnum, hden]
    field_simp
    ring
  unfold determineBoxes
  simp only [h1, h2, if_true, h3]
  norm_num [List.range_succ]
  omega

theorem floorSqrt_eq_floor_sqrt (x : ℚ) (hx : 0 ≤ x) :
    floorSqrt x = ⌊Real.sqrt (x : ℝ)⌋ := by
  unfold floorSqrt
  symm
  rw [Int.floor_eq_iff]
  have hfl : (0 : Int) ≤ ⌊x⌋ := Int.floor_nonneg.mpr hx
  set m : Nat := ⌊x⌋.toNat with hm
  have hmx : ((m : Int) : ℚ) ≤ x := by
    have : (m : Int) = ⌊x⌋ := by omega
    rw [this]
    exact Int.floor_le x
  have hxm : x < ((m : Int) : ℚ) + 1 := by
    have : (m : Int) = ⌊x⌋ := by omega
    rw [this]
    exact Int.lt_floor_add_one x
  have h1 : Nat.sqrt m * Nat.sqrt m ≤ m := Nat.sqrt_le m
  have h2 : m < (Nat.sqrt m + 1) * (Nat.sqrt m + 1) := Nat.lt_succ_sqrt m
  have hxr : ((m : ℝ)) ≤ (x : ℝ) := by
    have : ((m : ℚ)) ≤ x := by simpa using hmx
    exact_mod_cast this
  have hxr2 : (x : ℝ) < (m : ℝ) + 1 := by
    have : x < (m : ℚ) + 1 := by simpa using hxm
    exact_mod_cast this
  constructor
  · apply Real.le_sqrt_of_sq_le
    have : ((Nat.sqrt m * Nat.sqrt m : Nat) : ℝ) ≤ (m : ℝ) := by exact_mod_cast h1
    push_cast at this ⊢
    nlinarith
  · rw [Real.sqrt_lt' (by positivity)]
    have : ((m + 1 : Nat) : ℝ) ≤ (((Nat.sqrt m + 1) * (Nat.sqrt m + 1) : Nat) : ℝ) := by
      exact_mod_cast h2
    push_cast at this ⊢
    nlinarith

/-! ## C9, C10: images narrower than the window -/

theorem determineBoxes_two : determineBoxes ((2 : Int) : ℚ) 3 = [3, 3, 5] := by
  have h := determineBoxes_nat 2 (by decide)
  norm_num at h ⊢
  exact h

/-- C9, at the failing input: on the tightly packed 4 by 4 image whose pixels
are all `(128, 128, 128, 255)`, `Gaussian` with radius 2 does not return: under
either option it panics with an index out of range (the third pass has radius
2, and a window of 5 pixels does not fit in a row of 4). -/
theorem Gaussian_gray44_radius2_panics :
    (Gaussian (Image.rgba 0) 2 BlurOption.KeepSrc [gray44]).1 = Except.error Panic.index ∧
    (Gaussian (Image.rgba 0) 2 BlurOption.ReuseSrc [gray44]).1 = Except.error Panic.index := by
  unfold Gaussian gaussianBlur
  simp only [determineBoxes_two]
  constructor <;> decide!

/-- C10, at the failing inputs: with radius 1, `boxBlur3` panics with an index
out of range on a well-formed image one pixel wide and three pixels high (in
the horizontal pass, which reads past the last row of the source), and also on
one three pixels wide and one pixel high (in the vertical pass). -/
theorem boxBlur3_single_pixel_wide_panics :
    (boxBlur3 2 1 0 1 heap13).1 = Except.error Panic.index ∧
    (boxBlur3 2 1 0 1 heap31).1 = Except.error Panic.index := by
  decide!

/-! ## C3: Gaussian is three chained separable passes -/

theorem boxBlur3_eq_sepPass (img tmp : Nat) (r : Int) (h : img ≠ tmp) :
    boxBlur3 img tmp img r = sepPass img tmp r := by
  unfold boxBlur3 sepPass
  simp [h]

theorem getElem?_lt_length {hp : Heap} {p : Nat} {o : RGBA} (h : hp[p]? = some o) :
    p < hp.length := by
  rcases Nat.lt_or_ge p hp.length with h1 | h1
  · exact h1
  · rw [List.getElem?_eq_none h1] at h; cases h

theorem gaussianBlur_eq (p : Nat) (radius : Int) :
    gaussianBlur p p radius = (do
      let d ← deref p
      let tmp ← NewRGBA d.Bounds
      sepPass p tmp (passRadius radius 0)
      sepPass p tmp (passRadius radius 1)
      sepPass p tmp (passRadius radius 2)) := by
  funext hp
  unfold gaussianBlur
  simp only [Exec.bind_apply]
  rcases h : hp[p]? with _ | o
  · simp [deref, h]
  · have hlt := getElem?_lt_length h
    rw [deref_eq hp p o h]
    simp only []
    unfold NewRGBA
    by_cases hb : o.Bounds.Dx < 0 ∨ o.Bounds.Dy < 0
    · simp only [hb, if_true]
    · simp only [hb, if_false]
      rw [boxBlur3_eq_sepPass p hp.length _ (by omega), boxBlur3_eq_sepPass p hp.length _ (by omega),
        boxBlur3_eq_sepPass p hp.length _ (by omega)]
      rfl

/-- C3: for every image, radius and option, `Gaussian` is the buffer
acquisition followed by exactly three separable passes `P(r1)`, `P(r2)`,
`P(r3)` on the acquired buffer with one scratch buffer, each pass being
`boxBlurH` then `boxBlurV`, with `ri = (bi - 1) / 2` for
`[b1, b2, b3] = determineBoxes radius 3`; the two computations agree on the
value returned, on the heap reached, and on every panic. -/
theorem Gaussian_three_passes (im : Image) (radius : Int) (option : BlurOption) :
    Gaussian im radius option = (do
      let rgba ← acquire im option
      let d ← deref rgba
      let tmp ← NewRGBA d.Bounds
      sepPass rgba tmp (passRadius radius 0)
      sepPass rgba tmp (passRadius radius 1)
      sepPass rgba tmp (passRadius radius 2)
      pure rgba) := by
  have h : Gaussian im radius option = (do
      let rgba ← acquire im option
      gaussianBlur rgba rgba radius
      pure rgba) := by
    cases im <;> cases option <;> simp only [Gaussian, acquire, bind_assoc, pure_bind]
  rw [h]
  simp only [gaussianBlur_eq, bind_assoc]

/-! ## Separable passes on a buffer and its scratch buffer -/

theorem clampIdx_lt (n : Nat) (j : Int) (hn : 0 < n) : clampIdx n j < n := by
  unfold clampIdx
  omega

theorem blurH_congr (r w : Nat) (g1 g2 : Grid) (x y c : Nat) (hw : 0 < w)
    (h : ∀ j, j < w → g1 j y c = g2 j y c) : blurH r w g1 x y c = blurH r w g2 x y c := by
  unfold blurH winSum
  congr 2
  apply Finset.sum_congr rfl
  intro k _
  show ((g1 (clampIdx w _) y c : Nat) : Int) = ((g2 (clampIdx w _) y c : Nat) : Int)
  rw [h _ (clampIdx_lt w _ hw)]

theorem blurV_congr (r h : Nat) (g1 g2 : Grid) (x y c : Nat) (hh : 0 < h)
    (hg : ∀ j, j < h → g1 x j c = g2 x j c) : blurV r h g1 x y c = blurV r h g2 x y c := by
  unfold blurV winSum
  congr 2
  apply Finset.sum_congr rfl
  intro k _
  show ((g1 x (clampIdx h _) c : Nat) : Int) = ((g2 x (clampIdx h _) c : Nat) : Int)
  rw [hg _ (clampIdx_lt h _ hh)]

theorem sepGrid_congr (r w h : Nat) (g1 g2 : Grid) (x y c : Nat) (hx : x < w) (hy : y < h)
    (hg : ∀ i j, i < w → j < h → g1 i j c = g2 i j c) :
    sepGrid r w h g1 x y c = sepGrid r w h g2 x y c := by
  unfold sepGrid
  apply blurV_congr r h _ _ x y c (by omega)
  intro j hj
  apply blurH_congr r w _ _ x j c (by omega)
  intro i hi
  exact hg i j hi hj

theorem RGBA.Fits.of_eq {p q : RGBA} {w h : Nat} (hf : p.Fits w h) (hS : q.Stride = p.Stride)
    (hR : q.Rect = p.Rect) (hL : q.Pix.length = p.Pix.length) : q.Fits w h :=
  ⟨by rw [hR]; exact hf.dx, by rw [hR]; exact hf.dy, by rw [hS]; exact hf.stride,
    by rw [hS, hL]; exact hf.len⟩

theorem passTmp_fits (o t : RGBA) (r w h : Nat) (ft : t.Fits w h) :
    (passTmp o t r w h).Fits w h :=
  ft.of_eq rfl rfl (pixAfterH_length t o r w h)

theorem passImg_fits (o t : RGBA) (r w h : Nat) (fo : o.Fits w h) :
    (passImg o t r w h).Fits w h :=
  fo.of_eq rfl rfl (pixAfterV_length o _ r w h)

theorem passImg_sample (o t : RGBA) (r w h : Nat) (fo : o.Fits w h) (ft : t.Fits w h)
    (x y c : Nat) (hx : x < w) (hy : y < h) (hc : c < 4) :
    (passImg o t r w h).sample x y c = sepGrid r w h o.sample x y c := by
  unfold passImg sepGrid
  rw [pixAfterV_sample o _ r w h fo x y c hx hy hc]
  apply blurV_congr r h _ _ x y c (by omega)
  intro j hj
  exact pixAfterH_sample t o r w h ft x j c hx hj hc

theorem list_set_self {α : Type} (l : List α) (i : Nat) (a : α) (h : l[i]? = some a) :
    l.set i a = l := by
  apply List.ext_getElem?
  intro j
  by_cases hij : i = j
  · subst hij
    rw [List.getElem?_set_self (by
      rcases Nat.lt_or_ge i l.length with h1 | h1
      · exact h1
      · rw [List.getElem?_eq_none h1] at h; cases h), h]
  · rw [List.getElem?_set_ne hij]

theorem append_set_last {α : Type} (l : List α) (a b : α) :
    (l ++ [a]).set l.length b = l ++ [b] := by
  rw [List.set_append_right _ _ (Nat.le_refl _)]
  simp

theorem sepPass_run (hp : Heap) (p : Nat) (o t : RGBA) (r w h : Nat) (hlt : p < hp.length)
    (fo : o.Fits w h) (ft : t.Fits w h) (hw : 2 * r + 1 ≤ w) (hh : 2 * r + 1 ≤ h) :
    sepPass p hp.length (r : Int) ((hp ++ [t]).set p o)
      = (Except.ok (), (hp ++ [passTmp o t r w h]).set p (passImg o t r w h)) := by
  have hne : p ≠ hp.length := by omega
  have hlen : ((hp ++ [t]).set p o).length = hp.length + 1 := by simp
  have g1 : ((hp ++ [t]).set p o)[p]? = some o := by
    rw [List.getElem?_set_self (by simp; omega)]
  have g2 : ((hp ++ [t]).set p o)[hp.length]? = some t := by
    rw [List.getElem?_set_ne hne]
    simp
  have e1 := boxBlurH_run _ hp.length p t o r w h g1 g2 (Ne.symm hne) fo ft hw
  have s1 : withPix ((hp ++ [t]).set p o) hp.length t (pixAfterH t o r w h)
      = (hp ++ [passTmp o t r w h]).set p o := by
    unfold withPix
    rw [List.set_comm _ _ _ hne, append_set_last]
    rfl
  rw [s1] at e1
  have g3 : ((hp ++ [passTmp o t r w h]).set p o)[p]? = some o := by
    rw [List.getElem?_set_self (by simp; omega)]
  have g4 : ((hp ++ [passTmp o t r w h]).set p o)[hp.length]? = some (passTmp o t r w h) := by
    rw [List.getElem?_set_ne hne]
    simp
  have e2 := boxBlurV_run _ p hp.length o (passTmp o t r w h) r w h g4 g3 hne
    (passTmp_fits o t r w h ft) fo hh
  have s2 : withPix ((hp ++ [passTmp o t r w h]).set p o) p o
        (pixAfterV o (passTmp o t r w h) r w h)
      = (hp ++ [passTmp o t r w h]).set p (passImg o t r w h) := by
    unfold withPix
    rw [List.set_set]
    rfl
  rw [s2] at e2
  unfold sepPass
  rw [Exec.bind_ok e1]
  exact e2

/-! ## The orchestrator on a well-formed buffer -/

theorem newObj_fits (b : Rectangle) (w h : Nat) (hx : b.Dx = (w : Int)) (hy : b.Dy = (h : Int)) :
    (newObj b).Fits w h := by
  refine ⟨hx, hy, ?_, ?_⟩
  · show 4 * (w : Int) ≤ 4 * b.Dx
    rw [hx]
  · intro _
    show ((h : Int) - 1) * (4 * b.Dx) + 4 * (w : Int)
      ≤ ((List.replicate (4 * b.Dx * b.Dy).toNat 0).length : Int)
    rw [List.length_replicate, hx, hy]
    have h0 : (0 : Int) ≤ 4 * (w : Int) * (h : Int) := by positivity
    rw [Int.toNat_of_nonneg h0]
    apply le_of_eq
    ring

theorem NewRGBA_eq (b : Rectangle) (hp : Heap) (hx : 0 ≤ b.Dx) (hy : 0 ≤ b.Dy) :
    NewRGBA b hp = (Except.ok hp.length, hp ++ [newObj b]) := by
  unfold NewRGBA newObj
  have : ¬ (b.Dx < 0 ∨ b.Dy < 0) := by omega
  simp only [this, if_false]

theorem passRadius_nat (n : Nat) :
    passRadius (n : Int) 0 = ((n - 1 : Nat) : Int) ∧ passRadius (n : Int) 1 = ((n - 1 : Nat) : Int) ∧
      passRadius (n : Int) 2 = (n : Int) := by
  unfold passRadius
  rw [Int.cast_natCast]
  rcases Nat.eq_zero_or_pos n with h | h
  · subst h
    rw [Nat.cast_zero, determineBoxes_zero]
    decide
  · rw [determineBoxes_nat n h]
    simp only [List.getD_cons_zero, List.getD_cons_succ]
    refine ⟨?_, ?_, ?_⟩
    · rw [Int.tdiv_eq_ediv (by omega) (by omega)]; omega
    · rw [Int.tdiv_eq_ediv (by omega) (by omega)]; omega
    · rw [Int.tdiv_eq_ediv (by omega) (by omega)]; omega

theorem passPair_fits (ot : RGBA × RGBA) (r w h : Nat) (f1 : ot.1.Fits w h) (f2 : ot.2.Fits w h) :
    (passPair ot r w h).1.Fits w h ∧ (passPair ot r w h).2.Fits w h :=
  ⟨passImg_fits _ _ r w h f1, passTmp_fits _ _ r w h f2⟩

theorem gaussianBlur_run (hp : Heap) (p : Nat) (o : RGBA) (n w h : Nat)
    (ho : hp[p]? = some o) (fo : o.Fits w h) (hw : 2 * n + 1 ≤ w) (hh : 2 * n + 1 ≤ h) :
    gaussianBlur p p (n : Int) hp
      = (Except.ok (), (hp ++ [(blurPair o n w h).2]).set p (blurPair o n w h).1) := by
  have hlt := getElem?_lt_length ho
  obtain ⟨r0, r1, r2⟩ := passRadius_nat n
  have ft := newObj_fits o.Rect w h fo.dx fo.dy
  have hb1 : (0 : Int) ≤ o.Bounds.Dx := by
    have : o.Bounds.Dx = (w : Int) := fo.dx
    omega
  have hb2 : (0 : Int) ≤ o.Bounds.Dy := by
    have : o.Bounds.Dy = (h : Int) := fo.dy
    omega
  have f1 := passPair_fits (o, newObj o.Rect) (n - 1) w h fo ft
  have f2 := passPair_fits _ (n - 1) w h f1.1 f1.2
  have e1 := sepPass_run hp p o (newObj o.Rect) (n - 1) w h hlt fo ft (by omega) (by omega)
  have e2 := sepPass_run hp p _ _ (n - 1) w h hlt f1.1 f1.2 (by omega) (by omega)
  have e3 := sepPass_run hp p _ _ n w h hlt f2.1 f2.2 hw hh
  have s0 : hp ++ [newObj o.Bounds] = (hp ++ [newObj o.Rect]).set p o := by
    rw [list_set_self]
    · rfl
    · rw [List.getElem?_append_left hlt]
      exact ho
  rw [gaussianBlur_eq, Exec.bind_ok (deref_eq hp p o ho), Exec.bind_ok (NewRGBA_eq _ hp hb1 hb2),
    r0, r1, r2, s0, Exec.bind_ok e1]
  exact (Exec.bind_ok e2).trans e3

theorem blurPair_props (o : RGBA) (n w h : Nat) (fo : o.Fits w h) :
    (blurPair o n w h).1.Stride = o.Stride ∧ (blurPair o n w h).1.Rect = o.Rect ∧
      (blurPair o n w h).1.Pix.length = o.Pix.length ∧ (blurPair o n w h).1.Fits w h ∧
      (blurPair o n w h).2.Rect = o.Rect := by
  have ft := newObj_fits o.Rect w h fo.dx fo.dy
  have f1 := passPair_fits (o, newObj o.Rect) (n - 1) w h fo ft
  have f2 := passPair_fits _ (n - 1) w h f1.1 f1.2
  refine ⟨rfl, rfl, ?_, (passPair_fits _ n w h f2.1 f2.2).1, rfl⟩
  show (pixAfterV _ _ _ _ _).length = _
  rw [pixAfterV_length]
  show (pixAfterV _ _ _ _ _).length = _
  rw [pixAfterV_length]
  show (pixAfterV _ _ _ _ _).length = _
  rw [pixAfterV_length]

theorem blurPair_sample (o : RGBA) (n w h : Nat) (fo : o.Fits w h) (x y c : Nat)
    (hx : x < w) (hy : y < h) (hc : c < 4) :
    (blurPair o n w h).1.sample x y c = gaussGrid n w h o.sample x y c := by
  have ft := newObj_fits o.Rect w h fo.dx fo.dy
  have f1 := passPair_fits (o, newObj o.Rect) (n - 1) w h fo ft
  have f2 := passPair_fits _ (n - 1) w h f1.1 f1.2
  unfold blurPair gaussGrid
  show (passImg _ _ n w h).sample x y c = _
  rw [passImg_sample _ _ n w h f2.1 f2.2 x y c hx hy hc]
  apply sepGrid_congr n w h _ _ x y c hx hy
  intro i j hi hj
  show (passImg _ _ (n - 1) w h).sample i j c = _
  rw [passImg_sample _ _ (n - 1) w h f1.1 f1.2 i j c hi hj hc]
  apply sepGrid_congr (n - 1) w h _ _ i j c hi hj
  intro i1 j1 hi1 hj1
  exact passImg_sample _ _ (n - 1) w h fo ft i1 j1 c hi1 hj1 hc

/-! ## The copy made by the preserve-source policy -/

theorem Frame.loadRow_eq {hp : Heap} {dst src : Nat} {d s : RGBA} (F : Frame hp dst src d s)
    (P : List Nat) (lo n : Int) (h0 : 0 ≤ lo) (h1 : 0 ≤ n) (h2 : (lo + n).toNat ≤ s.Pix.length) :
    loadRow src lo n (withPix hp dst d P)
      = (Except.ok ((s.Pix.drop lo.toNat).take n.toNat), withPix hp dst d P) := by
  unfold loadRow
  simp only [F.get_src P, h0, h1, h2, and_self, if_true]

theorem Frame.storeRow_eq {hp : Heap} {dst src : Nat} {d s : RGBA} (F : Frame hp dst src d s)
    (P : List Nat) (lo : Int) (row : List Nat) (h0 : 0 ≤ lo)
    (h1 : lo.toNat + row.length ≤ P.length) :
    storeRow dst lo row (withPix hp dst d P)
      = (Except.ok (), withPix hp dst d
          (P.take lo.toNat ++ row ++ P.drop (lo.toNat + row.length))) := by
  unfold storeRow
  simp only [F.get_dst P, h0, h1, and_self, if_true, withPix_set]

theorem copyRow_length (P row : List Nat) (a : Nat) (h : a + row.length ≤ P.length) :
    (P.take a ++ row ++ P.drop (a + row.length)).length = P.length := by
  simp only [List.length_append, List.length_take, List.length_drop]
  omega

theorem copyRow_get_before (P row : List Nat) (a i : Nat) (h : a + row.length ≤ P.length)
    (hi : i < a) : (P.take a ++ row ++ P.drop (a + row.length))[i]? = P[i]? := by
  rw [List.append_assoc, List.getElem?_append_left (by rw [List.length_take]; omega),
    List.getElem?_take_of_lt hi]

theorem copyRow_get_in (P row : List Nat) (a j : Nat) (h : a + row.length ≤ P.length)
    (hj : j < row.length) : (P.take a ++ row ++ P.drop (a + row.length))[a + j]? = row[j]? := by
  have hl : (P.take a).length = a := by rw [List.length_take]; omega
  rw [List.append_assoc, List.getElem?_append_right (by omega), hl,
    List.getElem?_append_left (by omega)]
  congr 1
  omega

theorem row_get (S : List Nat) (a n j : Nat) (hj : j < n) :
    ((S.drop a).take n)[j]? = S[a + j]? := by
  rw [List.getElem?_take_of_lt hj, List.getElem?_drop]

theorem row_length (S : List Nat) (a n : Nat) (h : a + n ≤ S.length) :
    ((S.drop a).take n).length = n := by
  rw [List.length_take, List.length_drop]
  omega

theorem drawSrc_rgba_run (hp : Heap) (q p : Nat) (d o : RGBA) (w h : Nat)
    (F : Frame hp q p d o) (fd : d.Fits w h) (fo : o.Fits w h) :
    ∃ P : List Nat, drawSrc q (Image.rgba p) hp = (Except.ok (), withPix hp q d P) ∧
      P.length = d.Pix.length ∧
      ∀ y j : Nat, y < h → j < 4 * w →
        P[((y : Int) * d.Stride).toNat + j]? = o.Pix[((y : Int) * o.Stride).toNat + j]? := by
  have e1 : d.Bounds.Dx = (w : Int) := fd.dx
  have e2 : d.Bounds.Dy = (h : Int) := fd.dy
  have hds := fd.stride
  have hos := fo.stride
  unfold drawSrc
  rw [Exec.bind_ok (deref_eq hp q d F.hd), e1, e2]
  by_cases hwh : (w : Int) ≤ 0 ∨ (h : Int) ≤ 0
  · simp only [hwh, if_true]
    refine ⟨d.Pix, ?_, rfl, ?_⟩
    · rw [F.withPix_self]; rfl
    · intro y j hy hj
      omega
  · simp only [hwh, if_false]
    rw [Exec.bind_ok (deref_eq hp p o F.hs)]
    obtain ⟨⟨d1, s1⟩, P1, e, _, _, h3, h4⟩ :=
      forTo_inv hp q d (fun ((d0, s0) : Int × Int) => do
          let row ← loadRow p s0 (4 * (w : Int))
          storeRow q d0 row
          pure (d0 + d.Stride, s0 + o.Stride)) 0 (h : Int) h (by omega)
        (fun k (st : Int × Int) P =>
          st.1 = (k : Int) * d.Stride ∧ st.2 = (k : Int) * o.Stride ∧
          P.length = d.Pix.length ∧
          ∀ y j : Nat, y < k → j < 4 * w →
            P[((y : Int) * d.Stride).toNat + j]? = o.Pix[((y : Int) * o.Stride).toNat + j]?)
        (by
          rintro k hk ⟨d0, s0⟩ P ⟨hd0, hs0, hlen, hrows⟩
          simp only at hd0 hs0
          subst hd0
          subst hs0
          have b1 := row_bound o.Stride k h (by omega) hk
          have b2 := fo.len (by omega)
          have b3 := row_bound d.Stride k h (by omega) hk
          have b4 := fd.len (by omega)
          have hrl : ((o.Pix.drop ((k : Int) * o.Stride).toNat).take (4 * (w : Int)).toNat).length
              = 4 * w := by
            rw [row_length]
            · omega
            · generalize (k : Int) * o.Stride = a at b1 ⊢
              generalize ((h : Int) - 1) * o.Stride = b at b1 b2
              omega
          have el := F.loadRow_eq P ((k : Int) * o.Stride) (4 * (w : Int)) b1.1 (by omega) (by
            generalize (k : Int) * o.Stride = a at b1 ⊢
            generalize ((h : Int) - 1) * o.Stride = b at b1 b2
            omega)
          have hst : ((k : Int) * d.Stride).toNat
              + ((o.Pix.drop ((k : Int) * o.Stride).toNat).take (4 * (w : Int)).toNat).length
                ≤ P.length := by
            rw [hrl, hlen]
            generalize (k : Int) * d.Stride = a at b3 ⊢
            generalize ((h : Int) - 1) * d.Stride = b at b3 b4
            omega
          have es := F.storeRow_eq P ((k : Int) * d.Stride) _ b3.1 hst
          have hget : ∀ j : Nat, j < 4 * w →
              ((o.Pix.drop ((k : Int) * o.Stride).toNat).take (4 * (w : Int)).toNat)[j]?
                = o.Pix[((k : Int) * o.Stride).toNat + j]? :=
            fun j hj => row_get _ _ _ _ (by omega)
          generalize (o.Pix.drop ((k : Int) * o.Stride).toNat).take (4 * (w : Int)).toNat = row
            at hrl el hst es hget
          refine ⟨((k : Int) * d.Stride + d.Stride, (k : Int) * o.Stride + o.Stride),
            P.take ((k : Int) * d.Stride).toNat ++ row
              ++ P.drop (((k : Int) * d.Stride).toNat + row.length), ?_, ?_, ?_, ?_, ?_⟩
          · simp only []
            rw [Exec.bind_ok el, Exec.bind_ok es]
            rfl
          · simp only []; push_cast; ring
          · simp only []; push_cast; ring
          · rw [copyRow_length _ _ _ hst, hlen]
          · intro y j hy hj
            by_cases hyk : y = k
            · subst hyk
              rw [copyRow_get_in _ _ _ _ hst (by rw [hrl]; exact hj), hget j hj]
            · have hy' : y < k := by omega
              have b5 : ((y : Int) + 1) * d.Stride ≤ (k : Int) * d.Stride :=
                mul_le_mul_of_nonneg_right (by omega) (by omega)
              have b6 : ((y : Int) + 1) * d.Stride = (y : Int) * d.Stride + d.Stride := by ring
              have b7 : 0 ≤ (y : Int) * d.Stride := mul_nonneg (by omega) (by omega)
              rw [copyRow_get_before _ _ _ _ hst (by
                generalize (k : Int) * d.Stride = a at b5 ⊢
                generalize (y : Int) * d.Stride = a1 at b5 b6 b7 ⊢
                omega)]
              exact hrows y j hy' hj)
        (0, 0) d.Pix ⟨by simp, by simp, rfl, by intro y j hy; omega⟩
    refine ⟨P1, ?_, h3, h4⟩
    rw [← F.withPix_self] 
    rw [Exec.bind_ok e]
    rw [F.withPix_self]
    rfl

theorem sample_of_get (p : RGBA) (x y c : Nat) (hst : 0 ≤ p.Stride) :
    p.sample x y c = (p.Pix[((y : Int) * p.Stride).toNat + (4 * x + c)]?).getD 0 := by
  rw [RGBA.sample_eq, List.getD_eq_getElem?_getD]
  have h1 : 0 ≤ (y : Int) * p.Stride := mul_nonneg (by omega) hst
  congr 2
  generalize (y : Int) * p.Stride = a at h1 ⊢
  omega

theorem acquire_keep_run (hp : Heap) (p : Nat) (o : RGBA) (w h : Nat)
    (ho : hp[p]? = some o) (fo : o.Fits w h) :
    ∃ c0 : RGBA, acquire (Image.rgba p) BlurOption.KeepSrc hp
        = (Except.ok hp.length, hp ++ [c0]) ∧
      c0.Fits w h ∧ c0.Rect = o.Rect ∧
      ∀ x y c, x < w → y < h → c < 4 → c0.sample x y c = o.sample x y c := by
  have hlt := getElem?_lt_length ho
  have hb1 : (0 : Int) ≤ o.Bounds.Dx := by
    have : o.Bounds.Dx = (w : Int) := fo.dx
    omega
  have hb2 : (0 : Int) ≤ o.Bounds.Dy := by
    have : o.Bounds.Dy = (h : Int) := fo.dy
    omega
  have fn := newObj_fits o.Rect w h fo.dx fo.dy
  have F : Frame (hp ++ [newObj o.Rect]) hp.length p (newObj o.Rect) o :=
    ⟨by rw [List.getElem?_append_left hlt]; exact ho, by simp, by omega⟩
  obtain ⟨P, e, hlen, hrows⟩ := drawSrc_rgba_run _ hp.length p _ o w h F fn fo
  have hbnd : (Image.rgba p).Bounds hp = (Except.ok o.Bounds, hp) := by
    unfold Image.Bounds
    simp only []
    rw [Exec.bind_ok (deref_eq hp p o ho)]
    rfl
  refine ⟨{ newObj o.Rect with Pix := P }, ?_, fn.of_eq rfl rfl hlen, rfl, ?_⟩
  · unfold acquire
    simp only []
    rw [Exec.bind_ok hbnd, Exec.bind_ok (NewRGBA_eq _ hp hb1 hb2)]
    have e' : drawSrc hp.length (Image.rgba p) (hp ++ [newObj o.Bounds])
        = (Except.ok (), hp ++ [{ newObj o.Rect with Pix := P }]) := by
      have : withPix (hp ++ [newObj o.Rect]) hp.length (newObj o.Rect) P
          = hp ++ [{ newObj o.Rect with Pix := P }] := by
        unfold withPix
        rw [append_set_last]
      rw [← this]
      exact e
    rw [Exec.bind_ok e']
    rfl
  · intro x y c hx hy hc
    have hos := fo.stride
    rw [sample_of_get _ x y c (by show (0 : Int) ≤ 4 * o.Rect.Dx; rw [fo.dx]; omega),
      sample_of_get o x y c (by omega)]
    show (P[_]?).getD 0 = _
    rw [hrows y (4 * x + c) hy (by omega)]

theorem Gaussian_eq_acquire (im : Image) (radius : Int) (option : BlurOption) :
    Gaussian im radius option = (do
      let rgba ← acquire im option
      gaussianBlur rgba rgba radius
      pure rgba) := by
  cases im <;> cases option <;> simp only [Gaussian, acquire, bind_assoc, pure_bind]

theorem Gaussian_reuse_run (hp : Heap) (p : Nat) (o : RGBA) (n w h : Nat)
    (ho : hp[p]? = some o) (fo : o.Fits w h) (hw : 2 * n + 1 ≤ w) (hh : 2 * n + 1 ≤ h) :
    Gaussian (Image.rgba p) (n : Int) BlurOption.ReuseSrc hp
      = (Except.ok p, (hp ++ [(blurPair o n w h).2]).set p (blurPair o n w h).1) := by
  have ea : acquire (Image.rgba p) BlurOption.ReuseSrc hp = (Except.ok p, hp) := rfl
  rw [Gaussian_eq_acquire, Exec.bind_ok ea,
    Exec.bind_ok (gaussianBlur_run hp p o n w h ho fo hw hh)]
  rfl

theorem Gaussian_keep_run (hp : Heap) (p : Nat) (o : RGBA) (n w h : Nat)
    (ho : hp[p]? = some o) (fo : o.Fits w h) (hw : 2 * n + 1 ≤ w) (hh : 2 * n + 1 ≤ h) :
    ∃ c0 : RGBA, c0.Fits w h ∧ c0.Rect = o.Rect ∧
      (∀ x y c, x < w → y < h → c < 4 → c0.sample x y c = o.sample x y c) ∧
      Gaussian (Image.rgba p) (n : Int) BlurOption.KeepSrc hp
        = (Except.ok hp.length,
            (hp ++ [c0] ++ [(blurPair c0 n w h).2]).set hp.length (blurPair c0 n w h).1) := by
  obtain ⟨c0, ea, fc, hr, hsm⟩ := acquire_keep_run hp p o w h ho fo
  refine ⟨c0, fc, hr, hsm, ?_⟩
  have hg := gaussianBlur_run (hp ++ [c0]) hp.length c0 n w h (by simp) fc hw hh
  rw [Gaussian_eq_acquire, Exec.bind_ok ea, Exec.bind_ok hg]
  rfl

/-! ## Radius 0 on pixel grids -/

theorem uint8_natCast (b : Nat) (h : b < 256) : uint8 (b : Int) = b := by
  unfold uint8
  omega

theorem blurH_zero (w : Nat) (g : Grid) (x y c : Nat) (hx : x < w) (hg : g x y c < 256) :
    blurH 0 w g x y c = g x y c := by
  have e : clampIdx w ((x : Int) + ((0 : Nat) : Int) - ((0 : Nat) : Int)) = x := by
    unfold clampIdx; omega
  unfold blurH winSum
  simp only [Nat.mul_zero, Nat.zero_add, Finset.sum_range_one, e]
  rw [show (2 * ((0 : Nat) : Int) + 1) = 1 by simp, Int.tdiv_one]
  exact uint8_natCast _ hg

theorem blurV_zero (h : Nat) (g : Grid) (x y c : Nat) (hy : y < h) (hg : g x y c < 256) :
    blurV 0 h g x y c = g x y c := by
  have e : clampIdx h ((y : Int) + ((0 : Nat) : Int) - ((0 : Nat) : Int)) = y := by
    unfold clampIdx; omega
  unfold blurV winSum
  simp only [Nat.mul_zero, Nat.zero_add, Finset.sum_range_one, e]
  rw [show (2 * ((0 : Nat) : Int) + 1) = 1 by simp, Int.tdiv_one]
  exact uint8_natCast _ hg

theorem sepGrid_zero (w h : Nat) (g : Grid) (x y c : Nat) (hx : x < w) (hy : y < h)
    (hg : g x y c < 256) : sepGrid 0 w h g x y c = g x y c := by
  unfold sepGrid
  rw [blurV_zero h _ x y c hy (by rw [blurH_zero w g x y c hx hg]; exact hg),
    blurH_zero w g x y c hx hg]

theorem gaussGrid_zero (w h : Nat) (g : Grid) (x y c : Nat) (hx : x < w) (hy : y < h)
    (hg : g x y c < 256) : gaussGrid 0 w h g x y c = g x y c := by
  unfold gaussGrid
  have e1 := sepGrid_zero w h g x y c hx hy hg
  have e2 := sepGrid_zero w h (sepGrid 0 w h g) x y c hx hy (by rw [e1]; exact hg)
  rw [sepGrid_zero w h _ x y c hx hy (by rw [e2, e1]; exact hg), e2, e1]

/-! ## C6: the reuse-source policy blurs in place and agrees with the preserve-source policy -/

theorem gaussGrid_congr (n w h : Nat) (g1 g2 : Grid) (x y c : Nat) (hx : x < w) (hy : y < h)
    (hg : ∀ i j, i < w → j < h → g1 i j c = g2 i j c) :
    gaussGrid n w h g1 x y c = gaussGrid n w h g2 x y c := by
  unfold gaussGrid
  apply sepGrid_congr n w h _ _ x y c hx hy
  intro i j hi hj
  apply sepGrid_congr (n - 1) w h _ _ i j c hi hj
  intro i1 j1 hi1 hj1
  exact sepGrid_congr (n - 1) w h _ _ i1 j1 c hi1 hj1 hg

/-- C6: for an RGBA image (a buffer of `w` by `h` pixels at address `p`) with
`w ≥ 2r+1` and `h ≥ 2r+1`, `Gaussian im r ReuseSrc` returns the address `p` of
the image itself, whose object keeps its bounds and stride and afterwards holds
the result of the three passes on the initial samples; `Gaussian im r KeepSrc`
run on the same initial heap returns a fresh address, and every pixel channel
within the bounds is the same in the two results. -/
theorem Gaussian_reuse_agrees_with_keep (hp : Heap) (p : Nat) (o : RGBA) (r w h : Nat)
    (ho : hp[p]? = some o) (fo : o.Fits w h) (hw : 2 * r + 1 ≤ w) (hh : 2 * r + 1 ≤ h) :
    ∃ (hpR hpK : Heap) (oR oK : RGBA),
      Gaussian (Image.rgba p) (r : Int) BlurOption.ReuseSrc hp = (Except.ok p, hpR) ∧
      hpR[p]? = some oR ∧ oR.Rect = o.Rect ∧ oR.Stride = o.Stride ∧
      (∀ x y c, x < w → y < h → c < 4 → oR.sample x y c = gaussGrid r w h o.sample x y c) ∧
      Gaussian (Image.rgba p) (r : Int) BlurOption.KeepSrc hp = (Except.ok hp.length, hpK) ∧
      hpK[hp.length]? = some oK ∧
      ∀ x y c, x < w → y < h → c < 4 → oR.sample x y c = oK.sample x y c := by
  have hlt := getElem?_lt_length ho
  have eR := Gaussian_reuse_run hp p o r w h ho fo hw hh
  obtain ⟨c0, fc, _, hsm, eK⟩ := Gaussian_keep_run hp p o r w h ho fo hw hh
  have pr := blurPair_props o r w h fo
  refine ⟨_, _, (blurPair o r w h).1, (blurPair c0 r w h).1, eR, ?_, pr.2.1, pr.1, ?_, eK, ?_, ?_⟩
  · rw [List.getElem?_set_self (by simp; omega)]
  · intro x y c hx hy hc
    exact blurPair_sample o r w h fo x y c hx hy hc
  · rw [List.getElem?_set_self (by simp)]
  · intro x y c hx hy hc
    rw [blurPair_sample o r w h fo x y c hx hy hc, blurPair_sample c0 r w h fc x y c hx hy hc]
    apply gaussGrid_congr r w h _ _ x y c hx hy
    intro i j hi hj
    exact (hsm i j c hi hj hc).symm

theorem Gaussian_reuse_agrees_with_keep_witness :
    ∃ (hpR hpK : Heap) (oR oK : RGBA),
      Gaussian (Image.rgba 0) ((1 : Nat) : Int) BlurOption.ReuseSrc heap33 = (Except.ok 0, hpR) ∧
      hpR[0]? = some oR ∧ oR.Rect = (mkRGBA 3 3 (fun i => 7 * i)).Rect ∧
      oR.Stride = (mkRGBA 3 3 (fun i => 7 * i)).Stride ∧
      (∀ x y c, x < 3 → y < 3 → c < 4 →
        oR.sample x y c = gaussGrid 1 3 3 (mkRGBA 3 3 (fun i => 7 * i)).sample x y c) ∧
      Gaussian (Image.rgba 0) ((1 : Nat) : Int) BlurOption.KeepSrc heap33
        = (Except.ok heap33.length, hpK) ∧
      hpK[heap33.length]? = some oK ∧
      ∀ x y c, x < 3 → y < 3 → c < 4 → oR.sample x y c = oK.sample x y c :=
  Gaussian_reuse_agrees_with_keep heap33 0 (mkRGBA 3 3 (fun i => 7 * i)) 1 3 3 rfl
    ⟨rfl, rfl, by decide, by decide⟩ (by decide) (by decide)

/-! ## Frame reasoning for every run, panicking or not -/

theorem Stable.refl (n : Nat) (hp : Heap) : Stable n hp hp :=
  ⟨Nat.le_refl _, fun _ _ => rfl, fun _ o h => ⟨o, h, rfl, rfl, rfl⟩⟩

theorem Stable.trans {n : Nat} {a b c : Heap} (h1 : Stable n a b) (h2 : Stable n b c) :
    Stable n a c := by
  refine ⟨Nat.le_trans h1.1 h2.1, fun q hq => (h2.2.1 q hq).trans (h1.2.1 q hq), ?_⟩
  intro q o ho
  obtain ⟨o1, e1, r1, s1, l1⟩ := h1.2.2 q o ho
  obtain ⟨o2, e2, r2, s2, l2⟩ := h2.2.2 q o1 e1
  exact ⟨o2, e2, r2.trans r1, s2.trans s1, l2.trans l1⟩

theorem Safe.pure {α : Type} (n : Nat) (a : α) (Q : α → Prop) (h : Q a) :
    Safe n (Pure.pure a : Exec α) Q := by
  intro hp _
  refine ⟨Stable.refl n hp, ?_⟩
  intro b hb
  have : a = b := by
    have hb' : (Except.ok a : Except Panic α) = Except.ok b := hb
    injection hb'
  exact this ▸ h

theorem Safe.bind {α β : Type} {n : Nat} {m : Exec α} {f : α → Exec β} {Q : α → Prop}
    {R : β → Prop} (hm : Safe n m Q) (hf : ∀ a, Q a → Safe n (f a) R) : Safe n (m >>= f) R := by
  intro hp hn
  obtain ⟨s1, q1⟩ := hm hp hn
  rw [Exec.bind_apply]
  rcases hx : m hp with ⟨a | a, hp1⟩
  · rw [hx] at s1
    refine ⟨s1, ?_⟩
    intro b hb
    cases hb
  · rw [hx] at s1 q1
    have hQ := q1 a rfl
    obtain ⟨s2, q2⟩ := hf a hQ hp1 (Nat.le_trans hn s1.1)
    exact ⟨s1.trans s2, q2⟩

theorem Safe.mono {α : Type} {n : Nat} {m : Exec α} {Q R : α → Prop} (hm : Safe n m Q)
    (h : ∀ a, Q a → R a) : Safe n m R :=
  fun hp hn => ⟨(hm hp hn).1, fun a ha => h a ((hm hp hn).2 a ha)⟩

theorem Safe.of_heap_eq {α : Type} (n : Nat) (m : Exec α) (h : ∀ hp, (m hp).2 = hp) :
    Safe n m (fun _ => True) := by
  intro hp _
  rw [h hp]
  exact ⟨Stable.refl n hp, fun _ _ => trivial⟩

theorem Safe.throwPanic {α : Type} (n : Nat) (e : Panic) (Q : α → Prop) :
    Safe n (throwPanic e : Exec α) Q := by
  intro hp _
  refine ⟨Stable.refl n hp, ?_⟩
  intro a ha
  cases ha

theorem Safe.deref (n p : Nat) : Safe n (deref p) (fun _ => True) := by
  apply Safe.of_heap_eq
  intro hp
  unfold Blur.deref
  split <;> rfl

theorem Safe.readPix (n p : Nat) (i : Int) : Safe n (readPix p i) (fun _ => True) := by
  apply Safe.of_heap_eq
  intro hp
  unfold Blur.readPix
  split
  · rfl
  · split
    · split <;> rfl
    · rfl

theorem Safe.readSlice (n p : Nat) (lo i : Int) : Safe n (readSlice p lo i) (fun _ => True) := by
  apply Safe.of_heap_eq
  intro hp
  unfold Blur.readSlice
  split
  · rfl
  · split
    · split <;> rfl
    · rfl

theorem Safe.sliceFrom (n p : Nat) (lo : Int) : Safe n (sliceFrom p lo) (fun _ => True) := by
  apply Safe.of_heap_eq
  intro hp
  unfold Blur.sliceFrom
  split
  · rfl
  · split <;> rfl

theorem Safe.loadRow (n p : Nat) (lo k : Int) : Safe n (loadRow p lo k) (fun _ => True) := by
  apply Safe.of_heap_eq
  intro hp
  unfold Blur.loadRow
  split
  · rfl
  · split <;> rfl

theorem Stable.set_pix (n : Nat) (hp : Heap) (p : Nat) (o : RGBA) (P : List Nat)
    (hnp : n ≤ p) (ho : hp[p]? = some o) (hl : P.length = o.Pix.length) :
    Stable n hp (hp.set p { o with Pix := P }) := by
  have hlt := getElem?_lt_length ho
  refine ⟨by simp, ?_, ?_⟩
  · intro q hq
    rw [List.getElem?_set_ne (by omega)]
  · intro q o1 ho1
    by_cases hqp : p = q
    · subst hqp
      rw [ho] at ho1
      cases ho1
      exact ⟨_, List.getElem?_set_self hlt, rfl, rfl, hl⟩
    · exact ⟨o1, by rw [List.getElem?_set_ne hqp]; exact ho1, rfl, rfl, rfl⟩

theorem Safe.writePix (n p : Nat) (i v : Int) (hnp : n ≤ p) :
    Safe n (writePix p i v) (fun _ => True) := by
  intro hp _
  refine ⟨?_, fun _ _ => trivial⟩
  unfold Blur.writePix
  rcases h : hp[p]? with _ | o
  · exact Stable.refl n hp
  · simp only []
    split
    · exact Stable.set_pix n hp p o _ hnp h (by simp)
    · exact Stable.refl n hp

theorem Safe.storeRow (n p : Nat) (lo : Int) (row : List Nat) (hnp : n ≤ p) :
    Safe n (storeRow p lo row) (fun _ => True) := by
  intro hp _
  refine ⟨?_, fun _ _ => trivial⟩
  unfold Blur.storeRow
  rcases h : hp[p]? with _ | o
  · exact Stable.refl n hp
  · simp only []
    split
    · rename_i hc
      exact Stable.set_pix n hp p o _ hnp h (copyRow_length _ _ _ hc.2)
    · exact Stable.refl n hp

theorem Safe.NewRGBA (n : Nat) (b : Rectangle) : Safe n (NewRGBA b) (fun q => n ≤ q) := by
  intro hp hn
  unfold Blur.NewRGBA
  split
  · refine ⟨Stable.refl n hp, ?_⟩
    intro a ha
    cases ha
  · refine ⟨⟨by simp, ?_, ?_⟩, ?_⟩
    · intro q hq
      rw [List.getElem?_append_left (by omega)]
    · intro q o ho
      exact ⟨o, by rw [List.getElem?_append_left (getElem?_lt_length ho)]; exact ho, rfl, rfl, rfl⟩
    · intro a ha
      have : hp.length = a := by
        have ha' : (Except.ok hp.length : Except Panic Nat) = Except.ok a := ha
        injection ha'
      omega

theorem Safe.iterate {σ : Type} (n k : Nat) (body : σ → Exec σ)
    (hb : ∀ s, Safe n (body s) (fun _ => True)) (s : σ) :
    Safe n (iterate k body s) (fun _ => True) := by
  induction k generalizing s with
  | zero => exact Safe.pure n s _ trivial
  | succ k ih => exact Safe.bind (hb s) (fun s1 _ => ih s1)

theorem Safe.forTo {σ : Type} (n : Nat) (x hi : Int) (body : σ → Exec σ)
    (hb : ∀ s, Safe n (body s) (fun _ => True)) (s : σ) :
    Safe n (forTo x hi body s) (fun _ => True) :=
  Safe.bind (Safe.iterate n _ body hb s) (fun _ _ => Safe.pure n _ _ trivial)

theorem Safe.forChan {σ : Type} (n : Nat) (body : Nat → σ → Exec σ)
    (hb : ∀ i s, Safe n (body i s) (fun _ => True)) (s : σ) :
    Safe n (forChan body s) (fun _ => True) :=
  Safe.bind (hb 0 s) (fun s1 _ => Safe.bind (hb 1 s1) (fun s2 _ =>
    Safe.bind (hb 2 s2) (fun s3 _ => hb 3 s3)))

theorem Safe.bindT {α β : Type} {n : Nat} {m : Exec α} {f : α → Exec β} {R : β → Prop}
    (hm : Safe n m (fun _ => True)) (hf : ∀ a, Safe n (f a) R) : Safe n (m >>= f) R :=
  Safe.bind hm (fun a _ => hf a)

theorem Safe.fillStep (n src : Nat) (es : Int) (st : Val × Int) :
    Safe n (fillStep src es st) (fun _ => True) := by
  rcases st with ⟨val, rp⟩
  refine Safe.bindT (Safe.forChan n _ (fun i v => ?_) val) (fun _ => Safe.pure n _ _ trivial)
  exact Safe.bindT (Safe.readPix n src _) (fun _ => Safe.pure n _ _ trivial)

theorem Safe.leftStep (n dst src : Nat) (r2 es ds fv : Int) (hn : n ≤ dst) (st : Val × Int × Int) :
    Safe n (leftStep dst src r2 es ds fv st) (fun _ => True) := by
  rcases st with ⟨val, rp, dp⟩
  refine Safe.bindT (Safe.forChan n _ (fun i v => ?_) val) (fun _ => Safe.pure n _ _ trivial)
  exact Safe.bindT (Safe.readPix n src _) (fun _ => Safe.bindT (Safe.readSlice n src _ _)
    (fun _ => Safe.bindT (Safe.writePix n dst _ _ hn) (fun _ => Safe.pure n _ _ trivial)))

theorem Safe.midStep (n dst src : Nat) (r2 es ds : Int) (hn : n ≤ dst)
    (st : Val × Int × Int × Int) :
    Safe n (midStep dst src r2 es ds st) (fun _ => True) := by
  rcases st with ⟨val, lp, rp, dp⟩
  refine Safe.bindT (Safe.forChan n _ (fun i v => ?_) val) (fun _ => Safe.pure n _ _ trivial)
  exact Safe.bindT (Safe.readPix n src _) (fun _ => Safe.bindT (Safe.readPix n src _)
    (fun _ => Safe.bindT (Safe.writePix n dst _ _ hn) (fun _ => Safe.pure n _ _ trivial)))

theorem Safe.rightStep (n dst src : Nat) (r2 es ds lv : Int) (hn : n ≤ dst)
    (st : Val × Int × Int) :
    Safe n (rightStep dst src r2 es ds lv st) (fun _ => True) := by
  rcases st with ⟨val, lp, dp⟩
  refine Safe.bindT (Safe.forChan n _ (fun i v => ?_) val) (fun _ => Safe.pure n _ _ trivial)
  exact Safe.bindT (Safe.readSlice n src _ _) (fun _ => Safe.bindT (Safe.readPix n src _)
    (fun _ => Safe.bindT (Safe.writePix n dst _ _ hn) (fun _ => Safe.pure n _ _ trivial)))

theorem Safe.line1D (n dst src : Nat) (radius nElems sLine sElem dLine dElem : Int)
    (hn : n ≤ dst) (st : Val × Int × Int) :
    Safe n (line1D dst src radius nElems sLine sElem dLine dElem st) (fun _ => True) := by
  rcases st with ⟨val, so, dO⟩
  refine Safe.bindT (Safe.sliceFrom n src _) (fun fv => ?_)
  refine Safe.bindT (Safe.sliceFrom n src _) (fun lv => ?_)
  refine Safe.bindT (Safe.forChan n _ (fun i v => ?_) val) (fun val1 => ?_)
  · exact Safe.bindT (Safe.readSlice n src _ _) (fun _ => Safe.pure n _ _ trivial)
  refine Safe.bindT (Safe.forTo n _ _ _ (Safe.fillStep n src sElem) _) ?_
  rintro ⟨x1, val2, rp2⟩
  refine Safe.bindT (Safe.forTo n _ _ _ (Safe.leftStep n dst src _ sElem dElem fv hn) _) ?_
  rintro ⟨x2, val3, rp3, dp3⟩
  refine Safe.bindT (Safe.forTo n _ _ _ (Safe.midStep n dst src _ sElem dElem hn) _) ?_
  rintro ⟨x3, val4, lp4, rp4, dp4⟩
  refine Safe.bindT (Safe.forTo n _ _ _ (Safe.rightStep n dst src _ sElem dElem lv hn) _) ?_
  rintro ⟨x4, val5, lp5, dp5⟩
  exact Safe.pure n _ _ trivial

theorem Safe.pass1D (n dst src : Nat) (radius nLines nElems sLine sElem dLine dElem so dO : Int)
    (hn : n ≤ dst) :
    Safe n (pass1D dst src radius nLines nElems sLine sElem dLine dElem so dO) (fun _ => True) :=
  Safe.bindT (Safe.forTo n _ _ _ (Safe.line1D n dst src radius nElems sLine sElem dLine dElem hn) _)
    (fun _ => Safe.pure n _ _ trivial)

theorem Safe.boxBlurH (n dst src : Nat) (radius : Int) (hn : n ≤ dst) :
    Safe n (boxBlurH dst src radius) (fun _ => True) := by
  rw [boxBlurH_eq]
  exact Safe.bindT (Safe.deref n src) (fun _ => Safe.bindT (Safe.deref n dst)
    (fun _ => Safe.pass1D n dst src _ _ _ _ _ _ _ _ _ hn))

theorem Safe.boxBlurV (n dst src : Nat) (radius : Int) (hn : n ≤ dst) :
    Safe n (boxBlurV dst src radius) (fun _ => True) := by
  rw [boxBlurV_eq]
  exact Safe.bindT (Safe.deref n src) (fun _ => Safe.bindT (Safe.deref n dst)
    (fun _ => Safe.pass1D n dst src _ _ _ _ _ _ _ _ _ hn))

theorem Safe.boxBlur3 (n dst scratch src : Nat) (radius : Int) (hd : n ≤ dst)
    (hs : n ≤ scratch) : Safe n (boxBlur3 dst scratch src radius) (fun _ => True) := by
  unfold Blur.boxBlur3
  split
  · exact Safe.throwPanic n _ _
  · exact Safe.bindT (Safe.boxBlurH n scratch src radius hs)
      (fun _ => Safe.boxBlurV n dst scratch radius hd)

theorem Safe.gaussianBlur (n dst src : Nat) (radius : Int) (hd : n ≤ dst) :
    Safe n (gaussianBlur dst src radius) (fun _ => True) := by
  unfold Blur.gaussianBlur
  refine Safe.bindT (Safe.deref n dst) (fun d => ?_)
  refine Safe.bind (Safe.NewRGBA n d.Bounds) (fun tmp ht => ?_)
  exact Safe.bindT (Safe.boxBlur3 n dst tmp src _ hd ht)
    (fun _ => Safe.bindT (Safe.boxBlur3 n dst tmp dst _ hd ht)
      (fun _ => Safe.boxBlur3 n dst tmp dst _ hd ht))

theorem Safe.drawSrc (n dst : Nat) (im : Image) (hd : n ≤ dst) :
    Safe n (drawSrc dst im) (fun _ => True) := by
  unfold Blur.drawSrc
  refine Safe.bindT (Safe.deref n dst) (fun d => ?_)
  simp only []
  split
  · exact Safe.pure n _ _ trivial
  · cases im with
    | rgba p =>
      refine Safe.bindT (Safe.deref n p) (fun s => ?_)
      refine Safe.bindT (Safe.forTo n _ _ _ ?_ _) (fun _ => Safe.pure n _ _ trivial)
      rintro ⟨d0, s0⟩
      exact Safe.bindT (Safe.loadRow n p _ _) (fun row =>
        Safe.bindT (Safe.storeRow n dst _ row hd) (fun _ => Safe.pure n _ _ trivial))
    | other b px =>
      refine Safe.bindT (Safe.forTo n _ _ _ ?_ _) (fun _ => Safe.pure n _ _ trivial)
      rintro ⟨d0, y⟩
      exact Safe.bindT (Safe.storeRow n dst _ _ hd) (fun _ => Safe.pure n _ _ trivial)

/-! ## C5: the preserve-source policy never mutates the caller's image -/

theorem Gaussian_keep_frame (hp : Heap) (p : Nat) (o : RGBA) (radius : Int)
    (ho : hp[p]? = some o) :
    Stable hp.length hp (Gaussian (Image.rgba p) radius BlurOption.KeepSrc hp).2 ∧
      ∀ q, (Gaussian (Image.rgba p) radius BlurOption.KeepSrc hp).1 = Except.ok q →
        q = hp.length ∧
        ∃ o1 : RGBA, (Gaussian (Image.rgba p) radius BlurOption.KeepSrc hp).2[q]? = some o1 ∧
          o1.Rect = o.Rect := by
  have hbnd : (Image.rgba p).Bounds hp = (Except.ok o.Bounds, hp) := by
    unfold Image.Bounds
    simp only []
    rw [Exec.bind_ok (deref_eq hp p o ho)]
    rfl
  have hG : Gaussian (Image.rgba p) radius BlurOption.KeepSrc hp
      = (NewRGBA o.Bounds >>= fun rgba => do
          drawSrc rgba (Image.rgba p)
          gaussianBlur rgba rgba radius
          pure rgba) hp := by
    rw [Gaussian_eq_acquire]
    unfold acquire
    simp only [bind_assoc, pure_bind]
    rw [Exec.bind_ok hbnd]
  rw [hG]
  by_cases hb : o.Bounds.Dx < 0 ∨ o.Bounds.Dy < 0
  · have e : NewRGBA o.Bounds hp = (Except.error Panic.hugeRect, hp) := by
      unfold NewRGBA
      simp only [hb, if_true]
    rw [Exec.bind_error e]
    refine ⟨Stable.refl _ hp, ?_⟩
    intro q hq
    cases hq
  · have e : NewRGBA o.Bounds hp = (Except.ok hp.length, hp ++ [newObj o.Bounds]) :=
      NewRGBA_eq _ hp (by omega) (by omega)
    rw [Exec.bind_ok e]
    have hsafe : Safe hp.length (do
        drawSrc hp.length (Image.rgba p)
        gaussianBlur hp.length hp.length radius
        pure hp.length : Exec Nat) (fun a => a = hp.length) :=
      Safe.bindT (Safe.drawSrc hp.length hp.length _ (Nat.le_refl _))
        (fun _ => Safe.bindT (Safe.gaussianBlur hp.length hp.length hp.length radius (Nat.le_refl _))
          (fun _ => Safe.pure _ _ _ rfl))
    obtain ⟨st, hq⟩ := hsafe (hp ++ [newObj o.Bounds]) (by simp)
    have st0 : Stable hp.length hp (hp ++ [newObj o.Bounds]) :=
      ⟨by simp, fun q hq => by rw [List.getElem?_append_left hq],
        fun q o1 h1 => ⟨o1, by rw [List.getElem?_append_left (getElem?_lt_length h1)]; exact h1,
          rfl, rfl, rfl⟩⟩
    refine ⟨st0.trans st, ?_⟩
    intro q hq1
    have hq2 := hq q hq1
    subst hq2
    obtain ⟨o1, h1, h2, _⟩ := st.2.2 hp.length (newObj o.Bounds) (by simp)
    exact ⟨rfl, o1, h1, h2⟩

/-- C5: for every RGBA image (an object `o` at address `p`) and every radius,
whether `Gaussian im radius KeepSrc` returns or panics, the heap it reaches
still holds `o` unchanged at `p` (and every other object it started with); a
returned address is fresh, hence different from `p`, and holds an image with
the bounds of `o`; and the call does return when the buffer fits its bounds
`w` by `h` with `w ≥ 2·radius+1` and `h ≥ 2·radius+1`. -/
theorem Gaussian_KeepSrc_preserves_source (hp : Heap) (p : Nat) (o : RGBA) (radius : Int)
    (ho : hp[p]? = some o) :
    (Gaussian (Image.rgba p) radius BlurOption.KeepSrc hp).2[p]? = some o ∧
    (∀ q, q < hp.length →
      (Gaussian (Image.rgba p) radius BlurOption.KeepSrc hp).2[q]? = hp[q]?) ∧
    (∀ q, (Gaussian (Image.rgba p) radius BlurOption.KeepSrc hp).1 = Except.ok q →
      hp.length ≤ q ∧ q ≠ p ∧
      ∃ o1 : RGBA, (Gaussian (Image.rgba p) radius BlurOption.KeepSrc hp).2[q]? = some o1 ∧
        o1.Rect = o.Rect) ∧
    (∀ n w h : Nat, radius = (n : Int) → o.Fits w h → 2 * n + 1 ≤ w → 2 * n + 1 ≤ h →
      (Gaussian (Image.rgba p) radius BlurOption.KeepSrc hp).1 = Except.ok hp.length) := by
  have hlt := getElem?_lt_length ho
  obtain ⟨st, hq⟩ := Gaussian_keep_frame hp p o radius ho
  refine ⟨?_, st.2.1, ?_, ?_⟩
  · rw [st.2.1 p hlt]
    exact ho
  · intro q hq1
    obtain ⟨e, o1, h1, h2⟩ := hq q hq1
    exact ⟨by omega, by omega, o1, h1, h2⟩
  · intro n w h hr fo hw hh
    subst hr
    obtain ⟨c0, _, _, _, e⟩ := Gaussian_keep_run hp p o n w h ho fo hw hh
    rw [e]

theorem Gaussian_KeepSrc_preserves_source_witness :
    (Gaussian (Image.rgba 0) 1 BlurOption.KeepSrc heap33).2[0]?
      = some (mkRGBA 3 3 (fun i => 7 * i)) ∧
    (∀ q, q < heap33.length →
      (Gaussian (Image.rgba 0) 1 BlurOption.KeepSrc heap33).2[q]? = heap33[q]?) ∧
    (∀ q, (Gaussian (Image.rgba 0) 1 BlurOption.KeepSrc heap33).1 = Except.ok q →
      heap33.length ≤ q ∧ q ≠ 0 ∧
      ∃ o1 : RGBA, (Gaussian (Image.rgba 0) 1 BlurOption.KeepSrc heap33).2[q]? = some o1 ∧
        o1.Rect = (mkRGBA 3 3 (fun i => 7 * i)).Rect) ∧
    (∀ n w h : Nat, (1 : Int) = (n : Int) → (mkRGBA 3 3 (fun i => 7 * i)).Fits w h →
      2 * n + 1 ≤ w → 2 * n + 1 ≤ h →
      (Gaussian (Image.rgba 0) 1 BlurOption.KeepSrc heap33).1 = Except.ok heap33.length) :=
  Gaussian_KeepSrc_preserves_source heap33 0 (mkRGBA 3 3 (fun i => 7 * i)) 1 rfl

theorem storeRow_withPix (hp : Heap) (q : Nat) (d : RGBA) (hlt : q < hp.length)
    (P : List Nat) (lo : Int) (row : List Nat) (h0 : 0 ≤ lo)
    (h1 : lo.toNat + row.length ≤ P.length) :
    storeRow q lo row (withPix hp q d P)
      = (Except.ok (), withPix hp q d
          (P.take lo.toNat ++ row ++ P.drop (lo.toNat + row.length))) := by
  have hg : (withPix hp q d P)[q]? = some { d with Pix := P } := by
    unfold withPix
    rw [List.getElem?_set_self hlt]
  unfold storeRow
  simp only [hg, h0, h1, and_self, if_true, withPix_set]

theorem drawSrc_other_run (hp : Heap) (q : Nat) (d : RGBA) (b : Rectangle)
    (px : Int → Int → Nat → Nat) (w h : Nat) (hd : hp[q]? = some d) (fd : d.Fits w h) :
    ∃ P : List Nat, drawSrc q (Image.other b px) hp = (Except.ok (), withPix hp q d P) ∧
      P.length = d.Pix.length ∧
      ∀ y j : Nat, y < h → j < 4 * w →
        P[((y : Int) * d.Stride).toNat + j]?
          = some (px (b.MinX + ((j / 4 : Nat) : Int)) (b.MinY + (y : Int)) (j % 4) % 256) := by
  have hlt := getElem?_lt_length hd
  have e1 : d.Bounds.Dx = (w : Int) := fd.dx
  have e2 : d.Bounds.Dy = (h : Int) := fd.dy
  have hds := fd.stride
  have hself : withPix hp q d d.Pix = hp := by
    unfold withPix
    exact list_set_self hp q d hd
  unfold drawSrc
  rw [Exec.bind_ok (deref_eq hp q d hd), e1, e2]
  by_cases hwh : (w : Int) ≤ 0 ∨ (h : Int) ≤ 0
  · simp only [hwh, if_true]
    refine ⟨d.Pix, ?_, rfl, ?_⟩
    · rw [hself]; rfl
    · intro y j hy hj
      omega
  · simp only [hwh, if_false]
    obtain ⟨⟨d1, y1⟩, P1, e, _, _, h3, h4⟩ :=
      forTo_inv hp q d (fun ((d0, y) : Int × Int) => do
          storeRow q d0
            ((List.range (4 * (w : Int)).toNat).map
              (fun k => px (b.MinX + (k / 4 : Nat)) y (k % 4) % 256))
          pure (d0 + d.Stride, y + 1)) 0 (h : Int) h (by omega)
        (fun k (st : Int × Int) P =>
          st.1 = (k : Int) * d.Stride ∧ st.2 = b.MinY + (k : Int) ∧
          P.length = d.Pix.length ∧
          ∀ y j : Nat, y < k → j < 4 * w →
            P[((y : Int) * d.Stride).toNat + j]?
              = some (px (b.MinX + ((j / 4 : Nat) : Int)) (b.MinY + (y : Int)) (j % 4) % 256))
        (by
          rintro k hk ⟨d0, y0⟩ P ⟨hd0, hy0, hlen, hrows⟩
          simp only at hd0 hy0
          subst hd0
          subst hy0
          have b3 := row_bound d.Stride k h (by omega) hk
          have b4 := fd.len (by omega)
          have hrl : ((List.range (4 * (w : Int)).toNat).map
              (fun k1 => px (b.MinX + (k1 / 4 : Nat)) (b.MinY + (k : Int)) (k1 % 4) % 256)).length
              = 4 * w := by
            rw [List.length_map, List.length_range]
            omega
          have hget : ∀ j : Nat, j < 4 * w →
              ((List.range (4 * (w : Int)).toNat).map
                (fun k1 => px (b.MinX + (k1 / 4 : Nat)) (b.MinY + (k : Int)) (k1 % 4) % 256))[j]?
                = some (px (b.MinX + ((j / 4 : Nat) : Int)) (b.MinY + (k : Int)) (j % 4) % 256) := by
            intro j hj
            rw [List.getElem?_map, List.getElem?_range (by omega)]
            rfl
          have hst : ((k : Int) * d.Stride).toNat
              + ((List.range (4 * (w : Int)).toNat).map
                (fun k1 => px (b.MinX + (k1 / 4 : Nat)) (b.MinY + (k : Int)) (k1 % 4) % 256)).length
                ≤ P.length := by
            rw [hrl, hlen]
            generalize (k : Int) * d.Stride = a at b3 ⊢
            generalize ((h : Int) - 1) * d.Stride = b1 at b3 b4
            omega
          have es := storeRow_withPix hp q d hlt P ((k : Int) * d.Stride) _ b3.1 hst
          generalize hrow : (List.range (4 * (w : Int)).toNat).map
            (fun k1 => px (b.MinX + (k1 / 4 : Nat)) (b.MinY + (k : Int)) (k1 % 4) % 256) = row
            at hrl hst es hget
          refine ⟨((k : Int) * d.Stride + d.Stride, b.MinY + (k : Int) + 1),
            P.take ((k : Int) * d.Stride).toNat ++ row
              ++ P.drop (((k : Int) * d.Stride).toNat + row.length), ?_, ?_, ?_, ?_, ?_⟩
          · simp only []
            rw [hrow, Exec.bind_ok es]
            rfl
          · simp only []; push_cast; ring
          · simp only []; push_cast; ring
          · rw [copyRow_length _ _ _ hst, hlen]
          · intro y j hy hj
            by_cases hyk : y = k
            · subst hyk
              rw [copyRow_get_in _ _ _ _ hst (by rw [hrl]; exact hj), hget j hj]
            · have hy' : y < k := by omega
              have b5 : ((y : Int) + 1) * d.Stride ≤ (k : Int) * d.Stride :=
                mul_le_mul_of_nonneg_right (by omega) (by omega)
              have b6 : ((y : Int) + 1) * d.Stride = (y : Int) * d.Stride + d.Stride := by ring
              have b7 : 0 ≤ (y : Int) * d.Stride := mul_nonneg (by omega) (by omega)
              rw [copyRow_get_before _ _ _ _ hst (by
                generalize (k : Int) * d.Stride = a at b5 ⊢
                generalize (y : Int) * d.Stride = a1 at b5 b6 b7 ⊢
                omega)]
              exact hrows y j hy' hj)
        (0, b.MinY) d.Pix ⟨by simp, by simp, rfl, by intro y j hy; omega⟩
    refine ⟨P1, ?_, h3, h4⟩
    rw [← hself, Exec.bind_ok e, hself]
    rfl

/-! ## C4: radius 0 is the identity, for every image type -/

theorem acquire_other_run (hp : Heap) (b : Rectangle) (px : Int → Int → Nat → Nat)
    (option : BlurOption) (w h : Nat) (hx : b.Dx = (w : Int)) (hy : b.Dy = (h : Int)) :
    ∃ c0 : RGBA, acquire (Image.other b px) option hp = (Except.ok hp.length, hp ++ [c0]) ∧
      c0.Fits w h ∧ c0.Rect = b ∧
      ∀ x y c, x < w → y < h → c < 4 →
        c0.sample x y c = px (b.MinX + (x : Int)) (b.MinY + (y : Int)) c % 256 := by
  have fn := newObj_fits b w h hx hy
  obtain ⟨P, e, hlen, hrows⟩ :=
    drawSrc_other_run (hp ++ [newObj b]) hp.length (newObj b) b px w h (by simp) fn
  refine ⟨{ newObj b with Pix := P }, ?_, fn.of_eq rfl rfl hlen, rfl, ?_⟩
  · have ea : acquire (Image.other b px) option hp = (do
        let bb ← (Image.other b px).Bounds
        let rgba ← NewRGBA bb
        drawSrc rgba (Image.other b px)
        pure rgba) hp := by
      cases option <;> rfl
    have hbnd : (Image.other b px).Bounds hp = (Except.ok b, hp) := rfl
    rw [ea, Exec.bind_ok hbnd, Exec.bind_ok (NewRGBA_eq b hp (by omega) (by omega))]
    have e' : drawSrc hp.length (Image.other b px) (hp ++ [newObj b])
        = (Except.ok (), hp ++ [{ newObj b with Pix := P }]) := by
      have : withPix (hp ++ [newObj b]) hp.length (newObj b) P
          = hp ++ [{ newObj b with Pix := P }] := by
        unfold withPix
        rw [append_set_last]
      rw [← this]
      exact e
    rw [Exec.bind_ok e']
    rfl
  · intro x y c hx1 hy1 hc
    rw [sample_of_get _ x y c (by show (0 : Int) ≤ 4 * b.Dx; rw [hx]; omega)]
    show (P[_]?).getD 0 = _
    rw [hrows y (4 * x + c) hy1 (by omega)]
    have h1 : (4 * x + c) / 4 = x := by omega
    have h2 : (4 * x + c) % 4 = c := by omega
    rw [h1, h2]
    rfl

theorem Gaussian_fresh_run (hp : Heap) (im : Image) (option : BlurOption) (c0 : RGBA)
    (n w h : Nat) (ea : acquire im option hp = (Except.ok hp.length, hp ++ [c0]))
    (fc : c0.Fits w h) (hw : 2 * n + 1 ≤ w) (hh : 2 * n + 1 ≤ h) :
    Gaussian im (n : Int) option hp
      = (Except.ok hp.length,
          (hp ++ [c0] ++ [(blurPair c0 n w h).2]).set hp.length (blurPair c0 n w h).1) := by
  have hg := gaussianBlur_run (hp ++ [c0]) hp.length c0 n w h (by simp) fc hw hh
  rw [Gaussian_eq_acquire, Exec.bind_ok ea, Exec.bind_ok hg]
  rfl

/-- C4: `determineBoxes 0 3 = [1, 1, 1]`, and for every well-formed image of
width `w ≥ 1` and height `h ≥ 1` (an RGBA buffer or an image of another type),
under either option, `Gaussian im 0 option` returns an image of `w` by `h`
pixels whose every pixel channel equals the corresponding channel of the
input. -/
theorem Gaussian_radius_zero_identity (hp : Heap) (im : Image) (w h : Nat)
    (option : BlurOption) (wf : im.WF hp w h) (hw : 1 ≤ w) (hh : 1 ≤ h) :
    determineBoxes 0 3 = [1, 1, 1] ∧
    ∃ (q : Nat) (hp1 : Heap) (o1 : RGBA),
      Gaussian im 0 option hp = (Except.ok q, hp1) ∧ hp1[q]? = some o1 ∧
      o1.Rect.Dx = (w : Int) ∧ o1.Rect.Dy = (h : Int) ∧
      ∀ x y c, x < w → y < h → c < 4 → o1.sample x y c = im.sampleIn hp x y c := by
  refine ⟨determineBoxes_zero, ?_⟩
  have fresh : ∀ (c0 : RGBA), acquire im option hp = (Except.ok hp.length, hp ++ [c0]) →
      c0.Fits w h →
      (∀ x y c, x < w → y < h → c < 4 → c0.sample x y c = im.sampleIn hp x y c) →
      (∀ x y c, x < w → y < h → c < 4 → im.sampleIn hp x y c < 256) →
      ∃ (q : Nat) (hp1 : Heap) (o1 : RGBA),
        Gaussian im 0 option hp = (Except.ok q, hp1) ∧ hp1[q]? = some o1 ∧
        o1.Rect.Dx = (w : Int) ∧ o1.Rect.Dy = (h : Int) ∧
        ∀ x y c, x < w → y < h → c < 4 → o1.sample x y c = im.sampleIn hp x y c := by
    intro c0 ea fc hsm hlt
    have e := Gaussian_fresh_run hp im option c0 0 w h ea fc (by omega) (by omega)
    rw [Nat.cast_zero] at e
    have pr := blurPair_props c0 0 w h fc
    refine ⟨hp.length, _, (blurPair c0 0 w h).1, e, ?_, pr.2.2.2.1.dx, pr.2.2.2.1.dy, ?_⟩
    · rw [List.getElem?_set_self (by simp)]
    · intro x y c hx hy hc
      rw [blurPair_sample c0 0 w h fc x y c hx hy hc,
        gaussGrid_zero w h _ x y c hx hy (by rw [hsm x y c hx hy hc]; exact hlt x y c hx hy hc),
        hsm x y c hx hy hc]
  cases im with
  | rgba p =>
    obtain ⟨o, ho, wfo⟩ := wf
    have hlt := getElem?_lt_length ho
    have hin : ∀ x y c, (Image.rgba p).sampleIn hp x y c = o.sample x y c := by
      intro x y c
      unfold Image.sampleIn
      simp only [ho]
    cases option with
    | ReuseSrc =>
      have e := Gaussian_reuse_run hp p o 0 w h ho wfo.fits (by omega) (by omega)
      rw [Nat.cast_zero] at e
      have pr := blurPair_props o 0 w h wfo.fits
      refine ⟨p, _, (blurPair o 0 w h).1, e, ?_, pr.2.2.2.1.dx, pr.2.2.2.1.dy, ?_⟩
      · rw [List.getElem?_set_self (by simp; omega)]
      · intro x y c hx hy hc
        rw [blurPair_sample o 0 w h wfo.fits x y c hx hy hc,
          gaussGrid_zero w h _ x y c hx hy (o.sample_lt wfo.bytes x y c), hin]
    | KeepSrc =>
      obtain ⟨c0, ea, fc, _, hsm⟩ := acquire_keep_run hp p o w h ho wfo.fits
      exact fresh c0 ea fc (fun x y c hx hy hc => by rw [hin]; exact hsm x y c hx hy hc)
        (fun x y c _ _ _ => by rw [hin]; exact o.sample_lt wfo.bytes x y c)
  | other b px =>
    obtain ⟨c0, ea, fc, _, hsm⟩ := acquire_other_run hp b px option w h wf.1 wf.2
    exact fresh c0 ea fc hsm (fun x y c _ _ _ => Nat.mod_lt _ (by decide))

theorem Gaussian_radius_zero_identity_witness :
    determineBoxes 0 3 = [1, 1, 1] ∧
    ∃ (q : Nat) (hp1 : Heap) (o1 : RGBA),
      Gaussian (Image.rgba 0) 0 BlurOption.KeepSrc heap33 = (Except.ok q, hp1) ∧
      hp1[q]? = some o1 ∧ o1.Rect.Dx = ((3 : Nat) : Int) ∧ o1.Rect.Dy = ((3 : Nat) : Int) ∧
      ∀ x y c, x < 3 → y < 3 → c < 4 →
        o1.sample x y c = (Image.rgba 0).sampleIn heap33 x y c :=
  Gaussian_radius_zero_identity heap33 (Image.rgba 0) 3 3 BlurOption.KeepSrc
    ⟨mkRGBA 3 3 (fun i => 7 * i), rfl, ⟨rfl, rfl, by decide, by decide⟩, by decide⟩
    (by decide) (by decide)

/-! ## The separable pass on three buffers -/

theorem boxBlur3_run (hp : Heap) (dst scratch src : Nat) (d t s : RGBA) (r w h : Nat)
    (hs : hp[src]? = some s) (ht : hp[scratch]? = some t) (hd : hp[dst]? = some d)
    (h1 : src ≠ scratch) (h2 : dst ≠ scratch)
    (fs : s.Fits w h) (ft : t.Fits w h) (fd : d.Fits w h)
    (hw : 2 * r + 1 ≤ w) (hh : 2 * r + 1 ≤ h) :
    boxBlur3 dst scratch src (r : Int) hp
      = (Except.ok (), box3Heap hp dst scratch d t s r w h) := by
  have e1 := boxBlurH_run hp scratch src t s r w h hs ht (Ne.symm h1) fs ft hw
  have hlt := getElem?_lt_length ht
  have g1 : (withPix hp scratch t (pixAfterH t s r w h))[scratch]? = some (passTmp s t r w h) := by
    unfold withPix
    rw [List.getElem?_set_self hlt]
    rfl
  have g2 : (withPix hp scratch t (pixAfterH t s r w h))[dst]? = some d := by
    unfold withPix
    rw [List.getElem?_set_ne (Ne.symm h2)]
    exact hd
  have e2 := boxBlurV_run _ dst scratch d (passTmp s t r w h) r w h g1 g2 h2
    (passTmp_fits s t r w h ft) fd hh
  unfold boxBlur3
  have hna : ¬ (src = scratch ∨ dst = scratch) := by
    rintro (h | h)
    · exact h1 h
    · exact h2 h
  rw [if_neg hna, Exec.bind_ok e1]
  exact e2

theorem box3Dst_sample (d t s : RGBA) (r w h : Nat) (fd : d.Fits w h) (ft : t.Fits w h)
    (x y c : Nat) (hx : x < w) (hy : y < h) (hc : c < 4) :
    (box3Dst d t s r w h).sample x y c = sepGrid r w h s.sample x y c := by
  unfold box3Dst sepGrid
  rw [pixAfterV_sample d _ r w h fd x y c hx hy hc]
  apply blurV_congr r h _ _ x y c (by omega)
  intro j hj
  exact pixAfterH_sample t s r w h ft x j c hx hj hc

theorem box3Heap_dst (hp : Heap) (dst scratch : Nat) (d t s : RGBA) (r w h : Nat)
    (hd : hp[dst]? = some d) :
    (box3Heap hp dst scratch d t s r w h)[dst]? = some (box3Dst d t s r w h) := by
  unfold box3Heap
  rw [List.getElem?_set_self (by rw [List.length_set]; exact getElem?_lt_length hd)]

theorem box3Dst_fits (d t s : RGBA) (r w h : Nat) (fd : d.Fits w h) :
    (box3Dst d t s r w h).Fits w h :=
  fd.of_eq rfl rfl (pixAfterV_length d _ r w h)

/-! ## C11: the passes are the identity at radius 0 -/

/-- C11: for a well-formed source of width `w ≥ 1` and height `h ≥ 1` and
a well-formed destination of the same dimensions, `boxBlurH dst src 0` and
`boxBlurV dst src 0` (destination different from the source) return normally
and leave every in-bounds sample of the destination equal to the sample of the
source; and `boxBlur3 dst scratch src 0`, for a scratch buffer different from
both, returns normally and leaves every in-bounds sample of the destination
equal to the sample the source had (the destination may be the source). -/
theorem passes_identity_at_radius_zero (hp : Heap) (dst scratch src : Nat) (d t s : RGBA)
    (w h : Nat) (hs : hp[src]? = some s) (ht : hp[scratch]? = some t) (hd : hp[dst]? = some d)
    (wfs : s.WF w h) (wft : t.WF w h) (wfd : d.WF w h) (hw : 1 ≤ w) (hh : 1 ≤ h) :
    (dst ≠ src → ∃ d1 : RGBA, boxBlurH dst src 0 hp = (Except.ok (), hp.set dst d1) ∧
      ∀ x y c, x < w → y < h → c < 4 → d1.sample x y c = s.sample x y c) ∧
    (dst ≠ src → ∃ d1 : RGBA, boxBlurV dst src 0 hp = (Except.ok (), hp.set dst d1) ∧
      ∀ x y c, x < w → y < h → c < 4 → d1.sample x y c = s.sample x y c) ∧
    (src ≠ scratch → dst ≠ scratch → ∃ (hp1 : Heap) (d1 : RGBA),
      boxBlur3 dst scratch src 0 hp = (Except.ok (), hp1) ∧ hp1[dst]? = some d1 ∧
      ∀ x y c, x < w → y < h → c < 4 → d1.sample x y c = s.sample x y c) := by
  refine ⟨?_, ?_, ?_⟩
  · intro hne
    refine ⟨{ d with Pix := pixAfterH d s 0 w h }, ?_, ?_⟩
    · have e := boxBlurH_run hp dst src d s 0 w h hs hd hne wfs.fits wfd.fits (by omega)
      rw [Nat.cast_zero] at e
      exact e
    · intro x y c hx hy hc
      rw [pixAfterH_sample d s 0 w h wfd.fits x y c hx hy hc]
      exact blurH_zero w _ x y c hx (s.sample_lt wfs.bytes x y c)
  · intro hne
    refine ⟨{ d with Pix := pixAfterV d s 0 w h }, ?_, ?_⟩
    · have e := boxBlurV_run hp dst src d s 0 w h hs hd hne wfs.fits wfd.fits (by omega)
      rw [Nat.cast_zero] at e
      exact e
    · intro x y c hx hy hc
      rw [pixAfterV_sample d s 0 w h wfd.fits x y c hx hy hc]
      exact blurV_zero h _ x y c hy (s.sample_lt wfs.bytes x y c)
  · intro h1 h2
    refine ⟨box3Heap hp dst scratch d t s 0 w h, box3Dst d t s 0 w h, ?_,
      box3Heap_dst hp dst scratch d t s 0 w h hd, ?_⟩
    · have e := boxBlur3_run hp dst scratch src d t s 0 w h hs ht hd h1 h2
        wfs.fits wft.fits wfd.fits (by omega) (by omega)
      rw [Nat.cast_zero] at e
      exact e
    · intro x y c hx hy hc
      rw [box3Dst_sample d t s 0 w h wfd.fits wft.fits x y c hx hy hc]
      exact sepGrid_zero w h _ x y c hx hy (s.sample_lt wfs.bytes x y c)

theorem passes_identity_at_radius_zero_witness :
    (∃ d1 : RGBA, boxBlurH 2 0 0 heap333 = (Except.ok (), heap333.set 2 d1) ∧
      ∀ x y c, x < 3 → y < 3 → c < 4 →
        d1.sample x y c = (mkRGBA 3 3 (fun i => 7 * i)).sample x y c) ∧
    (∃ d1 : RGBA, boxBlurV 2 0 0 heap333 = (Except.ok (), heap333.set 2 d1) ∧
      ∀ x y c, x < 3 → y < 3 → c < 4 →
        d1.sample x y c = (mkRGBA 3 3 (fun i => 7 * i)).sample x y c) ∧
    (∃ (hp1 : Heap) (d1 : RGBA),
      boxBlur3 2 1 0 0 heap333 = (Except.ok (), hp1) ∧ hp1[2]? = some d1 ∧
      ∀ x y c, x < 3 → y < 3 → c < 4 →
        d1.sample x y c = (mkRGBA 3 3 (fun i => 7 * i)).sample x y c) :=
  have T := passes_identity_at_radius_zero heap333 2 1 0 (mkRGBA 3 3 (fun _ => 0))
    (mkRGBA 3 3 (fun _ => 0)) (mkRGBA 3 3 (fun i => 7 * i)) 3 3 rfl rfl rfl
    ⟨⟨rfl, rfl, by decide, by decide⟩, by decide⟩
    ⟨⟨rfl, rfl, by decide, by decide⟩, by decide⟩
    ⟨⟨rfl, rfl, by decide, by decide⟩, by decide⟩ (by decide) (by decide)
  ⟨T.1 (by decide), T.2.1 (by decide), T.2.2 (by decide) (by decide)⟩

/-! ## C12: the scratch buffer must not alias the source or the destination -/

theorem boxBlur3_alias (hp : Heap) (dst scratch src : Nat) (radius : Int)
    (ha : src = scratch ∨ dst = scratch) :
    boxBlur3 dst scratch src radius hp = (Except.error Panic.scratchAlias, hp) := by
  unfold boxBlur3
  rw [if_pos ha]
  rfl

/-- C12: for buffers of `w ≥ 2r+1` by `h ≥ 2r+1` pixels, `boxBlur3 dst scratch
src r` panics if and only if the scratch buffer is the source or the
destination; in that case the panic is the scratch-aliasing panic and the heap
is the one the call started with, so no byte of any buffer was written;
otherwise the call returns normally, also when the destination is the source. -/
theorem boxBlur3_panics_iff_scratch_aliased (hp : Heap) (dst scratch src : Nat) (d t s : RGBA)
    (r w h : Nat) (hs : hp[src]? = some s) (ht : hp[scratch]? = some t)
    (hd : hp[dst]? = some d) (fs : s.Fits w h) (ft : t.Fits w h) (fd : d.Fits w h)
    (hw : 2 * r + 1 ≤ w) (hh : 2 * r + 1 ≤ h) :
    ((∃ e : Panic, (boxBlur3 dst scratch src (r : Int) hp).1 = Except.error e)
      ↔ (src = scratch ∨ dst = scratch)) ∧
    ((src = scratch ∨ dst = scratch) →
      boxBlur3 dst scratch src (r : Int) hp = (Except.error Panic.scratchAlias, hp)) ∧
    (src ≠ scratch → dst ≠ scratch →
      (boxBlur3 dst scratch src (r : Int) hp).1 = Except.ok ()) := by
  have hok : src ≠ scratch → dst ≠ scratch →
      (boxBlur3 dst scratch src (r : Int) hp).1 = Except.ok () := by
    intro h1 h2
    rw [boxBlur3_run hp dst scratch src d t s r w h hs ht hd h1 h2 fs ft fd hw hh]
  refine ⟨⟨?_, ?_⟩, boxBlur3_alias hp dst scratch src r, hok⟩
  · rintro ⟨e, he⟩
    by_contra hna
    rw [hok (fun h => hna (Or.inl h)) (fun h => hna (Or.inr h))] at he
    cases he
  · intro ha
    exact ⟨Panic.scratchAlias, by rw [boxBlur3_alias hp dst scratch src r ha]⟩

theorem boxBlur3_panics_iff_scratch_aliased_witness :
    ((∃ e : Panic, (boxBlur3 0 1 0 ((1 : Nat) : Int) heap33).1 = Except.error e)
      ↔ (0 = 1 ∨ 0 = 1)) ∧
    (boxBlur3 0 1 0 ((1 : Nat) : Int) heap33).1 = Except.ok () :=
  have T := boxBlur3_panics_iff_scratch_aliased heap33 0 1 0 (mkRGBA 3 3 (fun i => 7 * i))
    (mkRGBA 3 3 (fun _ => 0)) (mkRGBA 3 3 (fun i => 7 * i)) 1 3 3 rfl rfl rfl
    ⟨rfl, rfl, by decide, by decide⟩ ⟨rfl, rfl, by decide, by decide⟩
    ⟨rfl, rfl, by decide, by decide⟩ (by decide) (by decide)
  ⟨T.1, T.2.2 (by decide) (by decide)⟩

/-! ## The orchestrator on every image, in pixel-grid form -/

theorem Gaussian_run_grid (hp : Heap) (im : Image) (option : BlurOption) (n w h : Nat)
    (wf : im.WF hp w h) (hw : 2 * n + 1 ≤ w) (hh : 2 * n + 1 ≤ h) :
    ∃ (q : Nat) (hp1 : Heap) (o1 : RGBA),
      Gaussian im (n : Int) option hp = (Except.ok q, hp1) ∧ hp1[q]? = some o1 ∧
      o1.Fits w h ∧ im.Bounds hp = (Except.ok o1.Bounds, hp) ∧
      ∀ x y c, x < w → y < h → c < 4 →
        o1.sample x y c = gaussGrid n w h (im.sampleIn hp) x y c := by
  have fresh : ∀ (c0 : RGBA), acquire im option hp = (Except.ok hp.length, hp ++ [c0]) →
      c0.Fits w h → im.Bounds hp = (Except.ok c0.Rect, hp) →
      (∀ x y c, x < w → y < h → c < 4 → c0.sample x y c = im.sampleIn hp x y c) →
      ∃ (q : Nat) (hp1 : Heap) (o1 : RGBA),
        Gaussian im (n : Int) option hp = (Except.ok q, hp1) ∧ hp1[q]? = some o1 ∧
        o1.Fits w h ∧ im.Bounds hp = (Except.ok o1.Bounds, hp) ∧
        ∀ x y c, x < w → y < h → c < 4 →
          o1.sample x y c = gaussGrid n w h (im.sampleIn hp) x y c := by
    intro c0 ea fc hb hsm
    have e := Gaussian_fresh_run hp im option c0 n w h ea fc hw hh
    have pr := blurPair_props c0 n w h fc
    refine ⟨hp.length, _, (blurPair c0 n w h).1, e, ?_, pr.2.2.2.1, ?_, ?_⟩
    · rw [List.getElem?_set_self (by simp)]
    · rw [hb]
      show _ = (Except.ok (blurPair c0 n w h).1.Rect, hp)
      rw [pr.2.1]
    · intro x y c hx hy hc
      rw [blurPair_sample c0 n w h fc x y c hx hy hc]
      exact gaussGrid_congr n w h _ _ x y c hx hy (fun i j hi hj => hsm i j c hi hj hc)
  cases im with
  | rgba p =>
    obtain ⟨o, ho, wfo⟩ := wf
    have hlt := getElem?_lt_length ho
    have hin : (Image.rgba p).sampleIn hp = o.sample := by
      funext x y c
      unfold Image.sampleIn
      simp only [ho]
    have hbnd : (Image.rgba p).Bounds hp = (Except.ok o.Rect, hp) := by
      unfold Image.Bounds
      simp only []
      rw [Exec.bind_ok (deref_eq hp p o ho)]
      rfl
    cases option with
    | ReuseSrc =>
      have e := Gaussian_reuse_run hp p o n w h ho wfo.fits hw hh
      have pr := blurPair_props o n w h wfo.fits
      refine ⟨p, _, (blurPair o n w h).1, e, ?_, pr.2.2.2.1, ?_, ?_⟩
      · rw [List.getElem?_set_self (by simp; omega)]
      · rw [hbnd]
        show _ = (Except.ok (blurPair o n w h).1.Rect, hp)
        rw [pr.2.1]
      · intro x y c hx hy hc
        rw [blurPair_sample o n w h wfo.fits x y c hx hy hc, hin]
    | KeepSrc =>
      obtain ⟨c0, ea, fc, hr, hsm⟩ := acquire_keep_run hp p o w h ho wfo.fits
      exact fresh c0 ea fc (by rw [hbnd, hr])
        (fun x y c hx hy hc => by rw [hin]; exact hsm x y c hx hy hc)
  | other b px =>
    obtain ⟨c0, ea, fc, hr, hsm⟩ := acquire_other_run hp b px option w h wf.1 wf.2
    exact fresh c0 ea fc (by rw [hr]; rfl) hsm

/-! ## C15: uniform images are fixed points -/

theorem winSum_const (a : Nat → Int) (r n : Nat) (x v : Int) (hn : 0 < n)
    (ha : ∀ j, j < n → a j = v) : winSum a r n x = (2 * (r : Int) + 1) * v := by
  unfold winSum
  rw [Finset.sum_congr rfl (fun k _ => ha _ (clampIdx_lt n _ hn))]
  simp only [Finset.sum_const, Finset.card_range, nsmul_eq_mul]
  push_cast
  ring

theorem uint8_mean_const (r v : Nat) (hv : v < 256) :
    uint8 (((2 * (r : Int) + 1) * (v : Int)).tdiv (2 * (r : Int) + 1)) = v := by
  rw [Int.mul_tdiv_cancel_left _ (by omega)]
  exact uint8_natCast v hv

theorem blurH_const (r w : Nat) (g : Grid) (x y c v : Nat) (hw : 0 < w) (hv : v < 256)
    (hg : ∀ j, j < w → g j y c = v) : blurH r w g x y c = v := by
  unfold blurH
  rw [winSum_const _ r w _ (v : Int) hw (fun j hj => by rw [hg j hj])]
  exact uint8_mean_const r v hv

theorem blurV_const (r h : Nat) (g : Grid) (x y c v : Nat) (hh : 0 < h) (hv : v < 256)
    (hg : ∀ j, j < h → g x j c = v) : blurV r h g x y c = v := by
  unfold blurV
  rw [winSum_const _ r h _ (v : Int) hh (fun j hj => by rw [hg j hj])]
  exact uint8_mean_const r v hv

theorem sepGrid_const (r w h : Nat) (g : Grid) (x y c v : Nat) (hx : x < w) (hy : y < h)
    (hv : v < 256) (hg : ∀ i j, i < w → j < h → g i j c = v) : sepGrid r w h g x y c = v := by
  unfold sepGrid
  apply blurV_const r h _ x y c v (by omega) hv
  intro j hj
  exact blurH_const r w g x j c v (by omega) hv (fun i hi => hg i j hi hj)

theorem gaussGrid_const (n w h : Nat) (g : Grid) (x y c v : Nat) (hx : x < w) (hy : y < h)
    (hv : v < 256) (hg : ∀ i j, i < w → j < h → g i j c = v) :
    gaussGrid n w h g x y c = v := by
  unfold gaussGrid
  apply sepGrid_const n w h _ x y c v hx hy hv
  intro i j hi hj
  apply sepGrid_const (n - 1) w h _ i j c v hi hj hv
  intro i1 j1 hi1 hj1
  exact sepGrid_const (n - 1) w h _ i1 j1 c v hi1 hj1 hv hg

/-- C15: let `px 0 .. px 3` be a pixel value (four bytes) and `w ≥ 2r+1`,
`h ≥ 2r+1`. If every pixel of a source buffer of `w` by `h` pixels is `px`, then
`boxBlurH dst src r` and `boxBlurV dst src r` return normally and every
in-bounds pixel of the destination is `px`; and if every pixel of a
well-formed image (an RGBA buffer or an image of another type) is `px`, then
`Gaussian im r option` returns an image every pixel of which is `px`. -/
theorem uniform_image_fixed_point (hp : Heap) (r w h : Nat) (px : Nat → Nat)
    (dst src : Nat) (d s : RGBA) (im : Image) (option : BlurOption)
    (hpx : ∀ c, c < 4 → px c < 256) (hw : 2 * r + 1 ≤ w) (hh : 2 * r + 1 ≤ h)
    (hs : hp[src]? = some s) (hd : hp[dst]? = some d) (hne : dst ≠ src)
    (fs : s.Fits w h) (fd : d.Fits w h)
    (hu : ∀ x y c, x < w → y < h → c < 4 → s.sample x y c = px c)
    (wf : im.WF hp w h)
    (hui : ∀ x y c, x < w → y < h → c < 4 → im.sampleIn hp x y c = px c) :
    (∃ d1 : RGBA, boxBlurH dst src (r : Int) hp = (Except.ok (), hp.set dst d1) ∧
      ∀ x y c, x < w → y < h → c < 4 → d1.sample x y c = px c) ∧
    (∃ d1 : RGBA, boxBlurV dst src (r : Int) hp = (Except.ok (), hp.set dst d1) ∧
      ∀ x y c, x < w → y < h → c < 4 → d1.sample x y c = px c) ∧
    (∃ (q : Nat) (hp1 : Heap) (o1 : RGBA),
      Gaussian im (r : Int) option hp = (Except.ok q, hp1) ∧ hp1[q]? = some o1 ∧
      ∀ x y c, x < w → y < h → c < 4 → o1.sample x y c = px c) := by
  refine ⟨⟨{ d with Pix := pixAfterH d s r w h },
    boxBlurH_run hp dst src d s r w h hs hd hne fs fd hw, ?_⟩,
    ⟨{ d with Pix := pixAfterV d s r w h },
    boxBlurV_run hp dst src d s r w h hs hd hne fs fd hh, ?_⟩, ?_⟩
  · intro x y c hx hy hc
    rw [pixAfterH_sample d s r w h fd x y c hx hy hc]
    exact blurH_const r w _ x y c (px c) (by omega) (hpx c hc) (fun j hj => hu j y c hj hy hc)
  · intro x y c hx hy hc
    rw [pixAfterV_sample d s r w h fd x y c hx hy hc]
    exact blurV_const r h _ x y c (px c) (by omega) (hpx c hc) (fun j hj => hu x j c hx hj hc)
  · obtain ⟨q, hp1, o1, e, hq, _, _, hsm⟩ := Gaussian_run_grid hp im option r w h wf hw hh
    refine ⟨q, hp1, o1, e, hq, ?_⟩
    intro x y c hx hy hc
    rw [hsm x y c hx hy hc]
    exact gaussGrid_const r w h _ x y c (px c) hx hy (hpx c hc)
      (fun i j hi hj => hui i j c hi hj hc)

theorem uniform_image_fixed_point_witness :
    (∃ d1 : RGBA, boxBlurH 1 0 ((1 : Nat) : Int) heapUni = (Except.ok (), heapUni.set 1 d1) ∧
      ∀ x y c, x < 3 → y < 3 → c < 4 →
        d1.sample x y c = (fun c => if c = 3 then 255 else 10 * (c + 1)) c) ∧
    (∃ d1 : RGBA, boxBlurV 1 0 ((1 : Nat) : Int) heapUni = (Except.ok (), heapUni.set 1 d1) ∧
      ∀ x y c, x < 3 → y < 3 → c < 4 →
        d1.sample x y c = (fun c => if c = 3 then 255 else 10 * (c + 1)) c) ∧
    (∃ (q : Nat) (hp1 : Heap) (o1 : RGBA),
      Gaussian (Image.rgba 0) ((1 : Nat) : Int) BlurOption.KeepSrc heapUni
        = (Except.ok q, hp1) ∧ hp1[q]? = some o1 ∧
      ∀ x y c, x < 3 → y < 3 → c < 4 →
        o1.sample x y c = (fun c => if c = 3 then 255 else 10 * (c + 1)) c) :=
  uniform_image_fixed_point heapUni 1 3 3 (fun c => if c = 3 then 255 else 10 * (c + 1))
    1 0 (mkRGBA 3 3 (fun _ => 0))
    (mkRGBA 3 3 (fun i => if i % 4 = 3 then 255 else 10 * (i % 4 + 1)))
    (Image.rgba 0) BlurOption.KeepSrc
    (by decide) (by decide) (by decide) rfl rfl (by decide)
    ⟨rfl, rfl, by decide, by decide⟩ ⟨rfl, rfl, by decide, by decide⟩
    (fun x y c hx hy hc =>
      (by decide : ∀ x, x < 3 → ∀ y, y < 3 → ∀ c, c < 4 →
        (mkRGBA 3 3 (fun i => if i % 4 = 3 then 255 else 10 * (i % 4 + 1))).sample x y c
          = (fun c => if c = 3 then 255 else 10 * (c + 1)) c) x hx y hy c hc)
    ⟨mkRGBA 3 3 (fun i => if i % 4 = 3 then 255 else 10 * (i % 4 + 1)), rfl,
      ⟨rfl, rfl, by decide, by decide⟩, by decide⟩
    (fun x y c hx hy hc =>
      (by decide : ∀ x, x < 3 → ∀ y, y < 3 → ∀ c, c < 4 →
        (Image.rgba 0).sampleIn heapUni x y c
          = (fun c => if c = 3 then 255 else 10 * (c + 1)) c) x hx y hy c hc)

/-! ## C16: a pass writes only the pixels of the destination rectangle -/

theorem RGBA.sampleIndex_eq (p : RGBA) (x y c : Nat) :
    p.sampleIndex x y c = ((y : Int) * p.Stride + (x : Int) * 4 + (c : Int)).toNat := by
  unfold RGBA.sampleIndex RGBA.PixOffset
  congr 1
  ring

theorem pixAfterH_get_out (d s : RGBA) (r w h : Nat) (fd : d.Fits w h) (j : Nat)
    (hj : ∀ x y c, x < w → y < h → c < 4 → j ≠ d.sampleIndex x y c) :
    (pixAfterH d s r w h)[j]? = d.Pix[j]? := by
  have hst : 0 ≤ d.Stride := by have := fd.stride; omega
  unfold pixAfterH
  apply gridWrite_get_out
  intro L hL e he
  show j < lineAddr _ _ _ ∨ lineAddr _ _ _ + 4 ≤ j
  unfold lineAddr
  have h1 := row_bound d.Stride L h hst hL
  by_contra hcon
  have hlo : (0 + (L : Int) * d.Stride + (e : Int) * 4).toNat ≤ j := by omega
  have hhi : j < (0 + (L : Int) * d.Stride + (e : Int) * 4).toNat + 4 := by omega
  apply hj e L (j - (0 + (L : Int) * d.Stride + (e : Int) * 4).toNat) he hL (by omega)
  rw [RGBA.sampleIndex_eq]
  generalize (L : Int) * d.Stride = a at h1 hlo hhi ⊢
  omega

theorem pixAfterV_get_out (d s : RGBA) (r w h : Nat) (fd : d.Fits w h) (j : Nat)
    (hj : ∀ x y c, x < w → y < h → c < 4 → j ≠ d.sampleIndex x y c) :
    (pixAfterV d s r w h)[j]? = d.Pix[j]? := by
  have hst : 0 ≤ d.Stride := by have := fd.stride; omega
  unfold pixAfterV
  apply gridWrite_get_out
  intro L hL e he
  show j < lineAddr _ _ _ ∨ lineAddr _ _ _ + 4 ≤ j
  unfold lineAddr
  have h1 := row_bound d.Stride e h hst he
  by_contra hcon
  have hlo : (0 + (L : Int) * 4 + (e : Int) * d.Stride).toNat ≤ j := by omega
  have hhi : j < (0 + (L : Int) * 4 + (e : Int) * d.Stride).toNat + 4 := by omega
  apply hj L e (j - (0 + (L : Int) * 4 + (e : Int) * d.Stride).toNat) hL he (by omega)
  rw [RGBA.sampleIndex_eq]
  generalize (e : Int) * d.Stride = a at h1 hlo hhi ⊢
  omega

/-- C16: for a source and a different destination of `w ≥ 2r+1` by
`h ≥ 2r+1` pixels, `boxBlurH dst src r` and likewise `boxBlurV dst src r`
return normally with a heap that differs from the initial one only in the
object at `dst`: the source object (every byte of it) and every other object
are unchanged, the destination keeps its bounds, its stride and its number of
bytes, and every byte of the destination whose index is not the index of a
sample of a pixel `(x, y)` with `x < w`, `y < h` is unchanged. -/
theorem pass_writes_only_destination_rectangle (hp : Heap) (dst src : Nat) (d s : RGBA)
    (r w h : Nat) (hs : hp[src]? = some s) (hd : hp[dst]? = some d) (hne : dst ≠ src)
    (fs : s.Fits w h) (fd : d.Fits w h) (hw : 2 * r + 1 ≤ w) (hh : 2 * r + 1 ≤ h) :
    (∃ d1 : RGBA, boxBlurH dst src (r : Int) hp = (Except.ok (), hp.set dst d1) ∧
      (hp.set dst d1)[src]? = some s ∧ (∀ q, q ≠ dst → (hp.set dst d1)[q]? = hp[q]?) ∧
      d1.Rect = d.Rect ∧ d1.Stride = d.Stride ∧ d1.Pix.length = d.Pix.length ∧
      ∀ j, (∀ x y c, x < w → y < h → c < 4 → j ≠ d.sampleIndex x y c) →
        d1.Pix[j]? = d.Pix[j]?) ∧
    (∃ d1 : RGBA, boxBlurV dst src (r : Int) hp = (Except.ok (), hp.set dst d1) ∧
      (hp.set dst d1)[src]? = some s ∧ (∀ q, q ≠ dst → (hp.set dst d1)[q]? = hp[q]?) ∧
      d1.Rect = d.Rect ∧ d1.Stride = d.Stride ∧ d1.Pix.length = d.Pix.length ∧
      ∀ j, (∀ x y c, x < w → y < h → c < 4 → j ≠ d.sampleIndex x y c) →
        d1.Pix[j]? = d.Pix[j]?) := by
  refine ⟨⟨{ d with Pix := pixAfterH d s r w h },
      boxBlurH_run hp dst src d s r w h hs hd hne fs fd hw, ?_, ?_, rfl, rfl,
      pixAfterH_length d s r w h, pixAfterH_get_out d s r w h fd⟩,
    ⟨{ d with Pix := pixAfterV d s r w h },
      boxBlurV_run hp dst src d s r w h hs hd hne fs fd hh, ?_, ?_, rfl, rfl,
      pixAfterV_length d s r w h, pixAfterV_get_out d s r w h fd⟩⟩
  · rw [List.getElem?_set_ne hne]
    exact hs
  · intro q hq
    rw [List.getElem?_set_ne (Ne.symm hq)]
  · rw [List.getElem?_set_ne hne]
    exact hs
  · intro q hq
    rw [List.getElem?_set_ne (Ne.symm hq)]

theorem pass_writes_only_destination_rectangle_witness :
    (∃ d1 : RGBA, boxBlurH 1 0 ((1 : Nat) : Int) heapPad = (Except.ok (), heapPad.set 1 d1) ∧
      (heapPad.set 1 d1)[0]? = some (mkRGBA 3 3 (fun i => 7 * i)) ∧
      (∀ q, q ≠ 1 → (heapPad.set 1 d1)[q]? = heapPad[q]?) ∧
      d1.Rect = (⟨List.replicate 80 9, 20, ⟨0, 0, 3, 3⟩⟩ : RGBA).Rect ∧
      d1.Stride = (⟨List.replicate 80 9, 20, ⟨0, 0, 3, 3⟩⟩ : RGBA).Stride ∧
      d1.Pix.length = (⟨List.replicate 80 9, 20, ⟨0, 0, 3, 3⟩⟩ : RGBA).Pix.length ∧
      ∀ j, (∀ x y c, x < 3 → y < 3 → c < 4 →
          j ≠ (⟨List.replicate 80 9, 20, ⟨0, 0, 3, 3⟩⟩ : RGBA).sampleIndex x y c) →
        d1.Pix[j]? = (⟨List.replicate 80 9, 20, ⟨0, 0, 3, 3⟩⟩ : RGBA).Pix[j]?) ∧
    (∃ d1 : RGBA, boxBlurV 1 0 ((1 : Nat) : Int) heapPad = (Except.ok (), heapPad.set 1 d1) ∧
      (heapPad.set 1 d1)[0]? = some (mkRGBA 3 3 (fun i => 7 * i)) ∧
      (∀ q, q ≠ 1 → (heapPad.set 1 d1)[q]? = heapPad[q]?) ∧
      d1.Rect = (⟨List.replicate 80 9, 20, ⟨0, 0, 3, 3⟩⟩ : RGBA).Rect ∧
      d1.Stride = (⟨List.replicate 80 9, 20, ⟨0, 0, 3, 3⟩⟩ : RGBA).Stride ∧
      d1.Pix.length = (⟨List.replicate 80 9, 20, ⟨0, 0, 3, 3⟩⟩ : RGBA).Pix.length ∧
      ∀ j, (∀ x y c, x < 3 → y < 3 → c < 4 →
          j ≠ (⟨List.replicate 80 9, 20, ⟨0, 0, 3, 3⟩⟩ : RGBA).sampleIndex x y c) →
        d1.Pix[j]? = (⟨List.replicate 80 9, 20, ⟨0, 0, 3, 3⟩⟩ : RGBA).Pix[j]?) :=
  pass_writes_only_destination_rectangle heapPad 1 0 ⟨List.replicate 80 9, 20, ⟨0, 0, 3, 3⟩⟩
    (mkRGBA 3 3 (fun i => 7 * i)) 1 3 3 rfl rfl (by decide)
    ⟨rfl, rfl, by decide, by decide⟩ ⟨rfl, rfl, by decide, by decide⟩ (by decide) (by decide)

/-! ## C17: the result of the separable pass depends on the source pixels only -/

/-- C17: let two calls `boxBlur3 dstA scratchA srcA r` and `boxBlur3 dstB
scratchB srcB r` start on heaps whose buffers have `w ≥ 2r+1` by `h ≥ 2r+1`
pixels, the scratch buffer of each call being different from its source and
its destination, and let the two sources agree on every in-bounds sample. Then
both calls return normally and the two destinations agree on every in-bounds
sample, whatever the destinations and the scratch buffers held before (the
common value is the separable pass `sepGrid r` of the source samples). The
destination of either call may be its source, so a call in place gives the
pixels of a call into a fresh buffer from a copy of the source. -/
theorem boxBlur3_depends_only_on_source (hpA hpB : Heap)
    (dstA scratchA srcA dstB scratchB srcB : Nat) (dA tA sA dB tB sB : RGBA) (r w h : Nat)
    (hsA : hpA[srcA]? = some sA) (htA : hpA[scratchA]? = some tA) (hdA : hpA[dstA]? = some dA)
    (hsB : hpB[srcB]? = some sB) (htB : hpB[scratchB]? = some tB) (hdB : hpB[dstB]? = some dB)
    (a1 : srcA ≠ scratchA) (a2 : dstA ≠ scratchA) (b1 : srcB ≠ scratchB) (b2 : dstB ≠ scratchB)
    (fsA : sA.Fits w h) (ftA : tA.Fits w h) (fdA : dA.Fits w h)
    (fsB : sB.Fits w h) (ftB : tB.Fits w h) (fdB : dB.Fits w h)
    (hw : 2 * r + 1 ≤ w) (hh : 2 * r + 1 ≤ h)
    (hsame : ∀ x y c, x < w → y < h → c < 4 → sA.sample x y c = sB.sample x y c) :
    ∃ (hpA1 hpB1 : Heap) (dA1 dB1 : RGBA),
      boxBlur3 dstA scratchA srcA (r : Int) hpA = (Except.ok (), hpA1) ∧
      boxBlur3 dstB scratchB srcB (r : Int) hpB = (Except.ok (), hpB1) ∧
      hpA1[dstA]? = some dA1 ∧ hpB1[dstB]? = some dB1 ∧
      ∀ x y c, x < w → y < h → c < 4 →
        dA1.sample x y c = dB1.sample x y c ∧
        dA1.sample x y c = sepGrid r w h sA.sample x y c := by
  refine ⟨box3Heap hpA dstA scratchA dA tA sA r w h, box3Heap hpB dstB scratchB dB tB sB r w h,
    box3Dst dA tA sA r w h, box3Dst dB tB sB r w h,
    boxBlur3_run hpA dstA scratchA srcA dA tA sA r w h hsA htA hdA a1 a2 fsA ftA fdA hw hh,
    boxBlur3_run hpB dstB scratchB srcB dB tB sB r w h hsB htB hdB b1 b2 fsB ftB fdB hw hh,
    box3Heap_dst hpA dstA scratchA dA tA sA r w h hdA,
    box3Heap_dst hpB dstB scratchB dB tB sB r w h hdB, ?_⟩
  intro x y c hx hy hc
  rw [box3Dst_sample dA tA sA r w h fdA ftA x y c hx hy hc,
    box3Dst_sample dB tB sB r w h fdB ftB x y c hx hy hc]
  exact ⟨sepGrid_congr r w h _ _ x y c hx hy (fun i j hi hj => hsame i j c hi hj hc), rfl⟩

theorem boxBlur3_depends_only_on_source_witness :
    ∃ (hpA1 hpB1 : Heap) (dA1 dB1 : RGBA),
      boxBlur3 0 1 0 ((1 : Nat) : Int) heap333 = (Except.ok (), hpA1) ∧
      boxBlur3 2 1 0 ((1 : Nat) : Int) heap333 = (Except.ok (), hpB1) ∧
      hpA1[0]? = some dA1 ∧ hpB1[2]? = some dB1 ∧
      ∀ x y c, x < 3 → y < 3 → c < 4 →
        dA1.sample x y c = dB1.sample x y c ∧
        dA1.sample x y c = sepGrid 1 3 3 (mkRGBA 3 3 (fun i => 7 * i)).sample x y c :=
  boxBlur3_depends_only_on_source heap333 heap333 0 1 0 2 1 0
    (mkRGBA 3 3 (fun i => 7 * i)) (mkRGBA 3 3 (fun _ => 0)) (mkRGBA 3 3 (fun i => 7 * i))
    (mkRGBA 3 3 (fun _ => 0)) (mkRGBA 3 3 (fun _ => 0)) (mkRGBA 3 3 (fun i => 7 * i))
    1 3 3 rfl rfl rfl rfl rfl rfl (by decide) (by decide) (by decide) (by decide)
    ⟨rfl, rfl, by decide, by decide⟩ ⟨rfl, rfl, by decide, by decide⟩
    ⟨rfl, rfl, by decide, by decide⟩ ⟨rfl, rfl, by decide, by decide⟩
    ⟨rfl, rfl, by decide, by decide⟩ ⟨rfl, rfl, by decide, by decide⟩
    (by decide) (by decide) (fun _ _ _ _ _ _ => rfl)

/-! ## The recorded passes are instances of the recorded common pass -/

theorem boxBlurVT_eq (dst src : Nat) (radius : Int) (tr : Trace) :
    boxBlurVT dst src radius tr = (do
      let s ← deref src
      let d ← deref dst
      pass1DT dst src radius d.Bounds.Dx d.Bounds.Dy 4 s.Stride 4 d.Stride
        (s.PixOffset s.Bounds.MinX s.Bounds.MinY) (d.PixOffset d.Bounds.MinX d.Bounds.MinY)
        tr) := rfl

theorem boxBlurHT_eq (dst src : Nat) (radius : Int) (tr : Trace) :
    boxBlurHT dst src radius tr = (do
      let s ← deref src
      let d ← deref dst
      pass1DT dst src radius d.Bounds.Dy d.Bounds.Dx s.Stride 4 d.Stride 4
        (s.PixOffset s.Bounds.MinX s.Bounds.MinY) (d.PixOffset d.Bounds.MinX d.Bounds.MinY)
        tr) := by
  unfold boxBlurHT pass1DT line1DT fillStepT leftStepT midStepT rightStepT
  simp only [forChan, bind_assoc, pure_bind, nRGBAchan]
  simp [add_assoc]

/-! ## Recorded primitive statements -/

theorem Frame.readPixT_eq {hp : Heap} {dst src : Nat} {d s : RGBA} (F : Frame hp dst src d s)
    (P : List Nat) (i : Int) (tr : Trace) (h0 : 0 ≤ i) (h1 : i.toNat < s.Pix.length) :
    readPixT src i tr (withPix hp dst d P)
      = (Except.ok (srcByte s i, tr ++ [Event.rd src i]), withPix hp dst d P) := by
  unfold readPixT
  rw [Exec.bind_ok (F.readPix_eq P i h0 h1)]
  rfl

theorem Frame.writeDivT_eq {hp : Heap} {dst src : Nat} {d s : RGBA} (F : Frame hp dst src d s)
    (P : List Nat) (i v r2 : Int) (tr : Trace) (h0 : 0 ≤ i) (h1 : i.toNat < P.length) :
    writeDivT dst i v r2 tr (withPix hp dst d P)
      = (Except.ok (tr ++ [Event.wr dst i v]),
          withPix hp dst d (P.set i.toNat (uint8 (v.tdiv r2)))) := by
  unfold writeDivT
  rw [Exec.bind_ok (F.writePix_eq P i _ h0 h1)]
  rfl

theorem readSliceT_eq_readPixT (p : Nat) (lo : Int) (h : 0 ≤ lo) (i : Nat) (tr : Trace) :
    readSliceT p lo (i : Int) tr = readPixT p (lo + (i : Int)) tr := by
  unfold readSliceT readPixT
  rw [readSlice_eq_readPix p lo h i]

/-! ## Recorded channel loops -/

theorem Frame.initChanT {hp : Heap} {dst src : Nat} {d s : RGBA} (F : Frame hp dst src d s)
    (P : List Nat) (radius fv : Int) (val : Val) (tr : Trace) (hfv0 : 0 ≤ fv)
    (hfv : ∀ c : Nat, c < 4 → 0 ≤ fv + c ∧ (fv + c).toNat < s.Pix.length) :
    forChan (fun i ((val, tr) : Val × Trace) => do
        let (f, tr) ← readSliceT src fv i tr
        pure (val.set i ((radius + 1) * f), tr)) (val, tr) (withPix hp dst d P)
      = (Except.ok (set4 val (fun c => (radius + 1) * srcByte s (fv + c)), tr ++ readEv src fv),
          withPix hp dst d P) := by
  have e0 := hfv 0 (by omega)
  have e1 := hfv 1 (by omega)
  have e2 := hfv 2 (by omega)
  have e3 := hfv 3 (by omega)
  unfold forChan
  simp only [readSliceT_eq_readPixT src fv hfv0, Exec.bind_apply, Exec.pure_apply,
    F.readPixT_eq P _ _ e0.1 e0.2, F.readPixT_eq P _ _ e1.1 e1.2, F.readPixT_eq P _ _ e2.1 e2.2,
    F.readPixT_eq P _ _ e3.1 e3.2, List.append_assoc, List.singleton_append]
  rfl

theorem Frame.accChanT {hp : Heap} {dst src : Nat} {d s : RGBA} (F : Frame hp dst src d s)
    (P : List Nat) (rp : Int) (val : Val) (tr : Trace)
    (hrp : ∀ c : Nat, c < 4 → 0 ≤ rp + c ∧ (rp + c).toNat < s.Pix.length) :
    forChan (fun i ((val, tr) : Val × Trace) => do
        let (a, tr) ← readPixT src (rp + i) tr
        pure (val.set i (val i + a), tr)) (val, tr) (withPix hp dst d P)
      = (Except.ok (set4 val (fun c => val c + srcByte s (rp + c)), tr ++ readEv src rp),
          withPix hp dst d P) := by
  have e0 := hrp 0 (by omega)
  have e1 := hrp 1 (by omega)
  have e2 := hrp 2 (by omega)
  have e3 := hrp 3 (by omega)
  unfold forChan
  simp only [Exec.bind_apply, Exec.pure_apply,
    F.readPixT_eq P _ _ e0.1 e0.2, F.readPixT_eq P _ _ e1.1 e1.2, F.readPixT_eq P _ _ e2.1 e2.2,
    F.readPixT_eq P _ _ e3.1 e3.2, List.append_assoc, List.singleton_append]
  rfl

theorem Frame.updChanT {hp : Heap} {dst src : Nat} {d s : RGBA} (F : Frame hp dst src d s)
    (P : List Nat) (r2 pa pb dp : Int) (val : Val) (tr : Trace)
    (hpa : ∀ c : Nat, c < 4 → 0 ≤ pa + c ∧ (pa + c).toNat < s.Pix.length)
    (hpb : ∀ c : Nat, c < 4 → 0 ≤ pb + c ∧ (pb + c).toNat < s.Pix.length)
    (hdp0 : 0 ≤ dp) (hdp : dp.toNat + 4 ≤ P.length) :
    forChan (fun i ((val, tr) : Val × Trace) => do
        let (a, tr) ← readPixT src (pa + i) tr
        let (b, tr) ← readPixT src (pb + i) tr
        let v := val i + (a - b)
        let tr ← writeDivT dst (dp + i) v r2 tr
        pure (val.set i v, tr)) (val, tr) (withPix hp dst d P)
      = (Except.ok (set4 val (fun c => val c + (srcByte s (pa + c) - srcByte s (pb + c))),
            tr ++ elemEv src dst pa pb dp
              (fun c => val c + (srcByte s (pa + c) - srcByte s (pb + c)))),
          withPix hp dst d (write4 P dp.toNat
            (fun c => uint8 ((val c + (srcByte s (pa + c) - srcByte s (pb + c))).tdiv r2)))) := by
  have a0 := hpa 0 (by omega)
  have a1 := hpa 1 (by omega)
  have a2 := hpa 2 (by omega)
  have a3 := hpa 3 (by omega)
  have b0 := hpb 0 (by omega)
  have b1 := hpb 1 (by omega)
  have b2 := hpb 2 (by omega)
  have b3 := hpb 3 (by omega)
  have t0 : (dp + ((0 : Nat) : Int)).toNat = dp.toNat := by omega
  have t1 : (dp + ((1 : Nat) : Int)).toNat = dp.toNat + 1 := by omega
  have t2 : (dp + ((2 : Nat) : Int)).toNat = dp.toNat + 2 := by omega
  have t3 : (dp + ((3 : Nat) : Int)).toNat = dp.toNat + 3 := by omega
  have R : ∀ (Q : List Nat) (i : Int) (t : Trace) (h0 : 0 ≤ i) (h1 : i.toNat < s.Pix.length),
      readPixT src i t (withPix hp dst d Q)
        = (Except.ok (srcByte s i, t ++ [Event.rd src i]), withPix hp dst d Q) :=
    fun Q i t h0 h1 => F.readPixT_eq Q i t h0 h1
  unfold forChan
  simp only [Exec.bind_apply, Exec.pure_apply, R _ _ _ a0.1 a0.2, R _ _ _ b0.1 b0.2]
  rw [F.writeDivT_eq P _ _ _ _ (by omega) (by omega)]
  simp only [Exec.bind_apply, Exec.pure_apply, R _ _ _ a1.1 a1.2, R _ _ _ b1.1 b1.2]
  rw [F.writeDivT_eq _ _ _ _ _ (by omega) (by rw [List.length_set]; omega)]
  simp only [Exec.bind_apply, Exec.pure_apply, R _ _ _ a2.1 a2.2, R _ _ _ b2.1 b2.2]
  rw [F.writeDivT_eq _ _ _ _ _ (by omega) (by rw [List.length_set, List.length_set]; omega)]
  simp only [Exec.bind_apply, Exec.pure_apply, R _ _ _ a3.1 a3.2, R _ _ _ b3.1 b3.2]
  rw [F.writeDivT_eq _ _ _ _ _ (by omega)
    (by rw [List.length_set, List.length_set, List.length_set]; omega)]
  simp only [t0, t1, t2, t3, List.append_assoc, List.singleton_append]
  rfl

/-! ## One recorded line of the pass -/

theorem elemEv_congr (src dst : Nat) (pa pb dp pa1 pb1 dp1 : Int) (v v1 : Nat → Int)
    (h1 : pa = pa1) (h2 : pb = pb1) (h3 : dp = dp1) (hv : ∀ c : Nat, c < 4 → v c = v1 c) :
    elemEv src dst pa pb dp v = elemEv src dst pa1 pb1 dp1 v1 := by
  subst h1
  subst h2
  subst h3
  unfold elemEv chanEv
  rw [hv 0 (by omega), hv 1 (by omega), hv 2 (by omega), hv 3 (by omega)]

theorem Frame.fillStepT_eq {hp : Heap} {dst src : Nat} {d s : RGBA} (F : Frame hp dst src d s)
    (P : List Nat) (es rp : Int) (val : Val) (tr : Trace)
    (hrp : ∀ c : Nat, c < 4 → 0 ≤ rp + c ∧ (rp + c).toNat < s.Pix.length) :
    fillStepT src es (val, rp, tr) (withPix hp dst d P)
      = (Except.ok (set4 val (fun c => val c + srcByte s (rp + c)), rp + es,
            tr ++ readEv src rp),
          withPix hp dst d P) := by
  unfold fillStepT
  simp only []
  rw [Exec.bind_ok (F.accChanT P rp val tr hrp)]
  rfl

theorem Frame.leftStepT_eq {hp : Heap} {dst src : Nat} {d s : RGBA} (F : Frame hp dst src d s)
    (P : List Nat) (r2 es ds fv rp dp : Int) (val : Val) (tr : Trace)
    (hfv0 : 0 ≤ fv)
    (hrp : ∀ c : Nat, c < 4 → 0 ≤ rp + c ∧ (rp + c).toNat < s.Pix.length)
    (hfv : ∀ c : Nat, c < 4 → 0 ≤ fv + c ∧ (fv + c).toNat < s.Pix.length)
    (hdp0 : 0 ≤ dp) (hdp : dp.toNat + 4 ≤ P.length) :
    leftStepT dst src r2 es ds fv (val, rp, dp, tr) (withPix hp dst d P)
      = (Except.ok (set4 val (fun c => val c + (srcByte s (rp + c) - srcByte s (fv + c))),
            rp + es, dp + ds,
            tr ++ elemEv src dst rp fv dp
              (fun c => val c + (srcByte s (rp + c) - srcByte s (fv + c)))),
          withPix hp dst d (write4 P dp.toNat
            (fun c => uint8 ((val c + (srcByte s (rp + c) - srcByte s (fv + c))).tdiv r2)))) := by
  unfold leftStepT
  simp only [readSliceT_eq_readPixT src fv hfv0]
  rw [Exec.bind_ok (F.updChanT P r2 rp fv dp val tr hrp hfv hdp0 hdp)]
  rfl

theorem Frame.midStepT_eq {hp : Heap} {dst src : Nat} {d s : RGBA} (F : Frame hp dst src d s)
    (P : List Nat) (r2 es ds lp rp dp : Int) (val : Val) (tr : Trace)
    (hrp : ∀ c : Nat, c < 4 → 0 ≤ rp + c ∧ (rp + c).toNat < s.Pix.length)
    (hlp : ∀ c : Nat, c < 4 → 0 ≤ lp + c ∧ (lp + c).toNat < s.Pix.length)
    (hdp0 : 0 ≤ dp) (hdp : dp.toNat + 4 ≤ P.length) :
    midStepT dst src r2 es ds (val, lp, rp, dp, tr) (withPix hp dst d P)
      = (Except.ok (set4 val (fun c => val c + (srcByte s (rp + c) - srcByte s (lp + c))),
            lp + es, rp + es, dp + ds,
            tr ++ elemEv src dst rp lp dp
              (fun c => val c + (srcByte s (rp + c) - srcByte s (lp + c)))),
          withPix hp dst d (write4 P dp.toNat
            (fun c => uint8 ((val c + (srcByte s (rp + c) - srcByte s (lp + c))).tdiv r2)))) := by
  unfold midStepT
  simp only []
  rw [Exec.bind_ok (F.updChanT P r2 rp lp dp val tr hrp hlp hdp0 hdp)]
  rfl

theorem Frame.rightStepT_eq {hp : Heap} {dst src : Nat} {d s : RGBA}
    (F : Frame hp dst src d s)
    (P : List Nat) (r2 es ds lv lp dp : Int) (val : Val) (tr : Trace)
    (hlv0 : 0 ≤ lv)
    (hlv : ∀ c : Nat, c < 4 → 0 ≤ lv + c ∧ (lv + c).toNat < s.Pix.length)
    (hlp : ∀ c : Nat, c < 4 → 0 ≤ lp + c ∧ (lp + c).toNat < s.Pix.length)
    (hdp0 : 0 ≤ dp) (hdp : dp.toNat + 4 ≤ P.length) :
    rightStepT dst src r2 es ds lv (val, lp, dp, tr) (withPix hp dst d P)
      = (Except.ok (set4 val (fun c => val c + (srcByte s (lv + c) - srcByte s (lp + c))),
            lp + es, dp + ds,
            tr ++ elemEv src dst lv lp dp
              (fun c => val c + (srcByte s (lv + c) - srcByte s (lp + c)))),
          withPix hp dst d (write4 P dp.toNat
            (fun c => uint8 ((val c + (srcByte s (lv + c) - srcByte s (lp + c))).tdiv r2)))) := by
  unfold rightStepT
  simp only [readSliceT_eq_readPixT src lv hlv0]
  rw [Exec.bind_ok (F.updChanT P r2 lv lp dp val tr hlv hlp hdp0 hdp)]
  rfl

theorem Frame.fill_loopT {hp : Heap} {dst src : Nat} {d s : RGBA} (F : Frame hp dst src d s)
    (P : List Nat) (r n : Nat) (es so : Int) (val : Val) (T : Trace) (hrn : r ≤ n)
    (hS : ∀ e : Nat, e < n → ∀ c : Nat, c < 4 →
      0 ≤ so + (e : Int) * es + c ∧ (so + (e : Int) * es + c).toNat < s.Pix.length) :
    ∃ val1 : Val,
      forTo 0 (r : Int) (fillStepT src es) (val, so, T) (withPix hp dst d P)
        = (Except.ok (max 0 (r : Int), val1, so + (r : Int) * es,
              T ++ catUpTo (fun k => readEv src (so + (k : Int) * es)) r),
            withPix hp dst d P) ∧
      ∀ c : Nat, c < 4 → val1 c = val c + ∑ j in Finset.range r, lineSrc s so es c j := by
  obtain ⟨⟨val1, rp1, tr1⟩, P1, e1, h1, h2, h3, h4⟩ :=
    forTo_inv hp dst d (fillStepT src es) 0 (r : Int) r (by omega)
      (fun k (st : Val × Int × Trace) Q => st.2.1 = so + (k : Int) * es ∧ Q = P ∧
        st.2.2 = T ++ catUpTo (fun k => readEv src (so + (k : Int) * es)) k ∧
        ∀ c : Nat, c < 4 → st.1 c = val c + ∑ j in Finset.range k, lineSrc s so es c j)
      (by
        rintro k hk ⟨v, rp, tr⟩ Q ⟨hrp, hQ, htr, hv⟩
        simp only at hrp hv htr
        subst hQ
        subst hrp
        subst htr
        refine ⟨_, _, F.fillStepT_eq Q es _ v _ (hS k (by omega)), ?_, rfl, ?_, ?_⟩
        · simp only []; push_cast; ring
        · show _ ++ _ = T ++ (catUpTo _ k ++ _)
          rw [List.append_assoc]
        · intro c hc
          simp only []
          rw [set4_apply _ _ c hc, hv c hc, Finset.sum_range_succ, add_assoc]
          rfl)
      (val, so, T) P ⟨by simp, rfl, by simp [catUpTo], by simp⟩
  simp only at h1 h3 h4
  subst h1
  subst h2
  subst h3
  exact ⟨val1, e1, h4⟩

theorem Frame.left_loopT {hp : Heap} {dst src : Nat} {d s : RGBA} (F : Frame hp dst src d s)
    (P : List Nat) (r n : Nat) (es ds so dO : Int) (val : Val) (T : Trace) (h2r : 2 * r + 1 ≤ n)
    (hS : ∀ e : Nat, e < n → ∀ c : Nat, c < 4 →
      0 ≤ so + (e : Int) * es + c ∧ (so + (e : Int) * es + c).toNat < s.Pix.length)
    (hD : ∀ e : Nat, e < n → 0 ≤ dO + (e : Int) * ds ∧ (dO + (e : Int) * ds).toNat + 4 ≤ P.length)
    (hval : ∀ c : Nat, c < 4 → val c = winSum (lineSrc s so es c) r n (-1)) :
    ∃ val1 : Val,
      forTo 0 ((r : Int) + 1) (leftStepT dst src (2 * (r : Int) + 1) es ds so)
          (val, so + (r : Int) * es, dO, T) (withPix hp dst d P)
        = (Except.ok (max 0 ((r : Int) + 1), val1, so + ((2 * r + 1 : Nat) : Int) * es,
              dO + ((r + 1 : Nat) : Int) * ds,
              T ++ catUpTo (lineEv src dst s so es dO ds r n) (r + 1)),
            withPix hp dst d (lineWrite P (lineAddr dO ds) (lineOut s so es r n) (r + 1))) ∧
      ∀ c : Nat, c < 4 → val1 c = winSum (lineSrc s so es c) r n (r : Int) := by
  have hso : ∀ c : Nat, c < 4 → 0 ≤ so + c ∧ (so + c).toNat < s.Pix.length := by
    intro c hc
    have := hS 0 (by omega) c hc
    simpa using this
  have hso0 : 0 ≤ so := by
    have := (hso 0 (by omega)).1
    simpa using this
  obtain ⟨⟨val1, rp1, dp1, tr1⟩, P1, e1, h1, h2, h3, h4, h5⟩ :=
    forTo_inv hp dst d (leftStepT dst src (2 * (r : Int) + 1) es ds so) 0 ((r : Int) + 1) (r + 1)
      (by omega)
      (fun k (st : Val × Int × Int × Trace) Q =>
        st.2.1 = so + ((r + k : Nat) : Int) * es ∧ st.2.2.1 = dO + (k : Int) * ds ∧
        Q = lineWrite P (lineAddr dO ds) (lineOut s so es r n) k ∧
        st.2.2.2 = T ++ catUpTo (lineEv src dst s so es dO ds r n) k ∧
        ∀ c : Nat, c < 4 → st.1 c = winSum (lineSrc s so es c) r n ((k : Int) - 1))
      (by
        rintro k hk ⟨v, rp, dp, tr⟩ Q ⟨hrp, hdp, hQ, htr, hv⟩
        simp only at hrp hdp hv htr
        subst hQ
        subst hrp
        subst hdp
        subst htr
        have hd := hD k (by omega)
        have key : ∀ c : Nat, c < 4 →
            v c + (srcByte s (so + ((r + k : Nat) : Int) * es + c) - srcByte s (so + c))
              = winSum (lineSrc s so es c) r n (k : Int) := by
          intro c hc
          rw [hv c hc, winSum_step (lineSrc s so es c) r n ((k : Int) - 1) (k : Int) (r + k) 0
            (by ring) (by unfold clampIdx; omega) (by unfold clampIdx; omega)]
          simp [lineSrc]
        have cA : clampIdx n ((k : Int) + (r : Int)) = r + k := by unfold clampIdx; omega
        have cB : clampIdx n ((k : Int) - (r : Int) - 1) = 0 := by unfold clampIdx; omega
        refine ⟨_, _, F.leftStepT_eq _ _ es ds so _ _ v _ hso0 (hS (r + k) (by omega)) hso hd.1
          (by rw [lineWrite_length]; exact hd.2), ?_, ?_, ?_, ?_, ?_⟩
        · simp only []; push_cast; ring
        · simp only []; push_cast; ring
        · show _ = write4 _ _ _
          apply write4_congr
          intro c hc
          show uint8 _ = uint8 _
          rw [key c hc]
        · show _ ++ _ = T ++ (catUpTo _ k ++ _)
          rw [List.append_assoc]
          congr 2
          unfold lineEv
          rw [cA, cB]
          exact elemEv_congr src dst _ _ _ _ _ _ _ _ rfl (by simp) rfl key
        · intro c hc
          simp only []
          rw [set4_apply _ _ c hc, key c hc]
          congr 1
          omega)
      (val, so + (r : Int) * es, dO, T) P
      ⟨by simp, by simp, rfl, by simp [catUpTo], by simpa using hval⟩
  simp only at h1 h2 h4 h5
  subst h1
  subst h2
  subst h3
  subst h4
  refine ⟨val1, ?_, ?_⟩
  · rw [e1, show r + (r + 1) = 2 * r + 1 by omega]
  · intro c hc
    rw [h5 c hc]
    congr 1
    omega

theorem Frame.mid_loopT {hp : Heap} {dst src : Nat} {d s : RGBA} (F : Frame hp dst src d s)
    (P Q0 : List Nat) (r n : Nat) (es ds so dO x0 : Int) (val : Val) (T T0 : Trace)
    (h2r : 2 * r + 1 ≤ n) (hx0 : x0 = (r : Int) + 1)
    (hS : ∀ e : Nat, e < n → ∀ c : Nat, c < 4 →
      0 ≤ so + (e : Int) * es + c ∧ (so + (e : Int) * es + c).toNat < s.Pix.length)
    (hD : ∀ e : Nat, e < n → 0 ≤ dO + (e : Int) * ds ∧ (dO + (e : Int) * ds).toNat + 4 ≤ P.length)
    (hQ0 : Q0 = lineWrite P (lineAddr dO ds) (lineOut s so es r n) (r + 1))
    (hT0 : T0 = T ++ catUpTo (lineEv src dst s so es dO ds r n) (r + 1))
    (hval : ∀ c : Nat, c < 4 → val c = winSum (lineSrc s so es c) r n (r : Int)) :
    ∃ val1 rp1,
      forTo x0 ((n : Int) - (r : Int)) (midStepT dst src (2 * (r : Int) + 1) es ds)
          (val, so, so + ((2 * r + 1 : Nat) : Int) * es, dO + ((r + 1 : Nat) : Int) * ds, T0)
          (withPix hp dst d Q0)
        = (Except.ok ((n : Int) - (r : Int), val1, so + ((n - (2 * r + 1) : Nat) : Int) * es, rp1,
              dO + ((n - r : Nat) : Int) * ds,
              T ++ catUpTo (lineEv src dst s so es dO ds r n) (n - r)),
            withPix hp dst d (lineWrite P (lineAddr dO ds) (lineOut s so es r n) (n - r))) ∧
      ∀ c : Nat, c < 4 → val1 c = winSum (lineSrc s so es c) r n (((n - r : Nat) : Int) - 1) := by
  obtain ⟨⟨val1, lp1, rp1, dp1, tr1⟩, P1, e1, h1, h2, h3, h4, h5, h6⟩ :=
    forTo_inv hp dst d (midStepT dst src (2 * (r : Int) + 1) es ds) x0 ((n : Int) - (r : Int))
      (n - (2 * r + 1)) (by omega)
      (fun k (st : Val × Int × Int × Int × Trace) Q =>
        st.2.1 = so + (k : Int) * es ∧ st.2.2.1 = so + ((2 * r + 1 + k : Nat) : Int) * es ∧
        st.2.2.2.1 = dO + ((r + 1 + k : Nat) : Int) * ds ∧
        Q = lineWrite P (lineAddr dO ds) (lineOut s so es r n) (r + 1 + k) ∧
        st.2.2.2.2 = T ++ catUpTo (lineEv src dst s so es dO ds r n) (r + 1 + k) ∧
        ∀ c : Nat, c < 4 → st.1 c = winSum (lineSrc s so es c) r n (((r + 1 + k : Nat) : Int) - 1))
      (by
        rintro k hk ⟨v, lp, rp, dp, tr⟩ Q ⟨hlp, hrp, hdp, hQ, htr, hv⟩
        simp only at hlp hrp hdp hv htr
        subst hQ
        subst hrp
        subst hdp
        subst hlp
        subst htr
        have hd := hD (r + 1 + k) (by omega)
        have key : ∀ c : Nat, c < 4 →
            v c + (srcByte s (so + ((2 * r + 1 + k : Nat) : Int) * es + c)
              - srcByte s (so + (k : Int) * es + c))
              = winSum (lineSrc s so es c) r n ((r + 1 + k : Nat) : Int) := by
          intro c hc
          rw [hv c hc, winSum_step (lineSrc s so es c) r n (((r + 1 + k : Nat) : Int) - 1)
            ((r + 1 + k : Nat) : Int) (2 * r + 1 + k) k
            (by ring) (by unfold clampIdx; omega) (by unfold clampIdx; omega)]
          rfl
        have cA : clampIdx n (((r + 1 + k : Nat) : Int) + (r : Int)) = 2 * r + 1 + k := by
          unfold clampIdx; omega
        have cB : clampIdx n (((r + 1 + k : Nat) : Int) - (r : Int) - 1) = k := by
          unfold clampIdx; omega
        refine ⟨_, _, F.midStepT_eq _ _ es ds _ _ _ v _ (hS (2 * r + 1 + k) (by omega))
          (hS k (by omega)) hd.1 (by rw [lineWrite_length]; exact hd.2), ?_, ?_, ?_, ?_, ?_, ?_⟩
        · simp only []; push_cast; ring
        · simp only []; push_cast; ring
        · simp only []; push_cast; ring
        · show _ = write4 _ _ _
          apply write4_congr
          intro c hc
          show uint8 _ = uint8 _
          rw [key c hc]
          rfl
        · show _ ++ _ = T ++ (catUpTo _ (r + 1 + k) ++ lineEv src dst s so es dO ds r n (r + 1 + k))
          rw [List.append_assoc]
          congr 2
          unfold lineEv
          rw [cA, cB]
          exact elemEv_congr src dst _ _ _ _ _ _ _ _ rfl rfl rfl key
        · intro c hc
          simp only []
          rw [set4_apply _ _ c hc, key c hc]
          congr 1
          omega)
      (val, so, so + ((2 * r + 1 : Nat) : Int) * es, dO + ((r + 1 : Nat) : Int) * ds, T0) Q0
      ⟨by simp, by simp, by simp, by simpa using hQ0, by simpa using hT0, by
        intro c hc
        simp only []
        rw [hval c hc]
        congr 1
        omega⟩
  simp only at h1 h2 h3 h5 h6
  subst h1
  subst h2
  subst h3
  subst h4
  subst h5
  refine ⟨val1, so + ((2 * r + 1 + (n - (2 * r + 1)) : Nat) : Int) * es, ?_, ?_⟩
  · rw [e1, show r + 1 + (n - (2 * r + 1)) = n - r by omega, show max x0 ((n : Int) - (r : Int)) = (n : Int) - (r : Int) by omega]
  · intro c hc
    rw [h6 c hc, show r + 1 + (n - (2 * r + 1)) = n - r by omega]

theorem Frame.right_loopT {hp : Heap} {dst src : Nat} {d s : RGBA} (F : Frame hp dst src d s)
    (P Q0 : List Nat) (r n : Nat) (es ds so dO x0 : Int) (val : Val) (T T0 : Trace)
    (h2r : 2 * r + 1 ≤ n) (hx0 : x0 = (n : Int) - (r : Int))
    (hS : ∀ e : Nat, e < n → ∀ c : Nat, c < 4 →
      0 ≤ so + (e : Int) * es + c ∧ (so + (e : Int) * es + c).toNat < s.Pix.length)
    (hD : ∀ e : Nat, e < n → 0 ≤ dO + (e : Int) * ds ∧ (dO + (e : Int) * ds).toNat + 4 ≤ P.length)
    (hQ0 : Q0 = lineWrite P (lineAddr dO ds) (lineOut s so es r n) (n - r))
    (hT0 : T0 = T ++ catUpTo (lineEv src dst s so es dO ds r n) (n - r))
    (hval : ∀ c : Nat, c < 4 → val c = winSum (lineSrc s so es c) r n (((n - r : Nat) : Int) - 1)) :
    ∃ (val1 : Val) (lp1 dp1 : Int),
      forTo x0 (n : Int) (rightStepT dst src (2 * (r : Int) + 1) es ds (so + ((n : Int) - 1) * es))
          (val, so + ((n - (2 * r + 1) : Nat) : Int) * es, dO + ((n - r : Nat) : Int) * ds, T0)
          (withPix hp dst d Q0)
        = (Except.ok ((n : Int), val1, lp1, dp1,
              T ++ catUpTo (lineEv src dst s so es dO ds r n) n),
            withPix hp dst d (lineWrite P (lineAddr dO ds) (lineOut s so es r n) n)) := by
  have hn1 : ((n : Int) - 1) = ((n - 1 : Nat) : Int) := by omega
  have hlv : ∀ c : Nat, c < 4 → 0 ≤ so + ((n : Int) - 1) * es + c ∧
      (so + ((n : Int) - 1) * es + c).toNat < s.Pix.length := by
    intro c hc
    rw [hn1]
    exact hS (n - 1) (by omega) c hc
  have hlv0 : 0 ≤ so + ((n : Int) - 1) * es := by
    have := (hlv 0 (by omega)).1
    simpa using this
  obtain ⟨⟨val1, lp1, dp1, tr1⟩, P1, e1, h1, h2, h3, h4, h5⟩ :=
    forTo_inv hp dst d (rightStepT dst src (2 * (r : Int) + 1) es ds (so + ((n : Int) - 1) * es))
      x0 (n : Int) r (by omega)
      (fun k (st : Val × Int × Int × Trace) Q =>
        st.2.1 = so + ((n - (2 * r + 1) + k : Nat) : Int) * es ∧
        st.2.2.1 = dO + ((n - r + k : Nat) : Int) * ds ∧
        Q = lineWrite P (lineAddr dO ds) (lineOut s so es r n) (n - r + k) ∧
        st.2.2.2 = T ++ catUpTo (lineEv src dst s so es dO ds r n) (n - r + k) ∧
        ∀ c : Nat, c < 4 → st.1 c = winSum (lineSrc s so es c) r n (((n - r + k : Nat) : Int) - 1))
      (by
        rintro k hk ⟨v, lp, dp, tr⟩ Q ⟨hlp, hdp, hQ, htr, hv⟩
        simp only at hlp hdp hv htr
        subst hQ
        subst hdp
        subst hlp
        subst htr
        have hd := hD (n - r + k) (by omega)
        have key : ∀ c : Nat, c < 4 →
            v c + (srcByte s (so + ((n : Int) - 1) * es + c)
              - srcByte s (so + ((n - (2 * r + 1) + k : Nat) : Int) * es + c))
              = winSum (lineSrc s so es c) r n ((n - r + k : Nat) : Int) := by
          intro c hc
          rw [hv c hc, winSum_step (lineSrc s so es c) r n (((n - r + k : Nat) : Int) - 1)
            ((n - r + k : Nat) : Int) (n - 1) (n - (2 * r + 1) + k)
            (by ring) (by unfold clampIdx; omega) (by unfold clampIdx; omega), hn1]
          rfl
        have cA : clampIdx n (((n - r + k : Nat) : Int) + (r : Int)) = n - 1 := by
          unfold clampIdx; omega
        have cB : clampIdx n (((n - r + k : Nat) : Int) - (r : Int) - 1)
            = n - (2 * r + 1) + k := by
          unfold clampIdx; omega
        refine ⟨_, _, F.rightStepT_eq _ _ es ds _ _ _ v _ hlv0 hlv
          (hS (n - (2 * r + 1) + k) (by omega)) hd.1 (by rw [lineWrite_length]; exact hd.2),
          ?_, ?_, ?_, ?_, ?_⟩
        · simp only []; push_cast; ring
        · simp only []; push_cast; ring
        · show _ = write4 _ _ _
          apply write4_congr
          intro c hc
          show uint8 _ = uint8 _
          rw [key c hc]
          rfl
        · show _ ++ _ = T ++ (catUpTo _ (n - r + k) ++ lineEv src dst s so es dO ds r n (n - r + k))
          rw [List.append_assoc]
          congr 2
          unfold lineEv
          rw [cA, cB]
          exact elemEv_congr src dst _ _ _ _ _ _ _ _ (by rw [hn1]) rfl rfl key
        · intro c hc
          simp only []
          rw [set4_apply _ _ c hc, key c hc]
          congr 1
          omega)
      (val, so + ((n - (2 * r + 1) : Nat) : Int) * es, dO + ((n - r : Nat) : Int) * ds, T0) Q0
      ⟨by simp, by simp, by simpa using hQ0, by simpa using hT0, by simpa using hval⟩
  subst h3
  simp only at h4
  subst h4
  refine ⟨val1, lp1, dp1, ?_⟩
  rw [e1, show n - r + r = n by omega, show max x0 (n : Int) = (n : Int) by omega]

theorem Frame.line1DT_spec {hp : Heap} {dst src : Nat} {d s : RGBA} (F : Frame hp dst src d s)
    (P : List Nat) (r n : Nat) (sL es dL ds so dO : Int) (val0 : Val) (T : Trace)
    (h2r : 2 * r + 1 ≤ n)
    (hS : ∀ e : Nat, e < n → ∀ c : Nat, c < 4 →
      0 ≤ so + (e : Int) * es + c ∧ (so + (e : Int) * es + c).toNat < s.Pix.length)
    (hD : ∀ e : Nat, e < n →
      0 ≤ dO + (e : Int) * ds ∧ (dO + (e : Int) * ds).toNat + 4 ≤ P.length) :
    ∃ val1 : Val,
      line1DT dst src (r : Int) (n : Int) sL es dL ds (val0, so, dO, T) (withPix hp dst d P)
        = (Except.ok (val1, so + sL, dO + dL, T ++ lineTrace src dst s so es dO ds r n),
            withPix hp dst d (lineWrite P (lineAddr dO ds) (lineOut s so es r n) n)) := by
  have hso : ∀ c : Nat, c < 4 → 0 ≤ so + c ∧ (so + c).toNat < s.Pix.length := by
    intro c hc
    have := hS 0 (by omega) c hc
    simpa using this
  have hso0 : 0 ≤ so := by
    have := (hso 0 (by omega)).1
    simpa using this
  have hn1 : ((n : Int) - 1) = ((n - 1 : Nat) : Int) := by omega
  have hlv := hS (n - 1) (by omega) 0 (by omega)
  rw [← hn1] at hlv
  simp only [Nat.cast_zero, add_zero] at hlv
  obtain ⟨val1, e1, hv1⟩ := F.fill_loopT P r n es so
    (set4 val0 (fun c => ((r : Int) + 1) * srcByte s (so + c))) (T ++ readEv src so)
    (by omega) hS
  have hv1' : ∀ c : Nat, c < 4 → val1 c = winSum (lineSrc s so es c) r n (-1) := by
    intro c hc
    rw [hv1 c hc, set4_apply _ _ c hc, winSum_pre _ r n (by omega)]
    simp [lineSrc]
  obtain ⟨val2, e2, hv2⟩ := F.left_loopT P r n es ds so dO val1
    (T ++ readEv src so ++ catUpTo (fun k => readEv src (so + (k : Int) * es)) r) h2r hS hD hv1'
  obtain ⟨val3, rp3, e3, hv3⟩ := F.mid_loopT P _ r n es ds so dO (max 0 ((r : Int) + 1)) val2
    (T ++ readEv src so ++ catUpTo (fun k => readEv src (so + (k : Int) * es)) r) _ h2r
    (by omega) hS hD rfl rfl hv2
  obtain ⟨val4, lp4, dp4, e4⟩ := F.right_loopT P _ r n es ds so dO ((n : Int) - (r : Int)) val3
    (T ++ readEv src so ++ catUpTo (fun k => readEv src (so + (k : Int) * es)) r) _ h2r rfl
    hS hD rfl rfl hv3
  refine ⟨val4, ?_⟩
  unfold line1DT
  simp only []
  have hsl := (hso 0 (by omega)).2
  simp only [Nat.cast_zero, add_zero] at hsl
  rw [Exec.bind_ok (F.sliceFrom_eq P so hso0 (by omega))]
  rw [Exec.bind_ok (F.sliceFrom_eq P _ hlv.1 (by omega))]
  rw [Exec.bind_ok (F.initChanT P (r : Int) so val0 T hso0 hso)]
  rw [Exec.bind_ok e1]
  rw [Exec.bind_ok e2]
  rw [Exec.bind_ok e3]
  rw [Exec.bind_ok e4]
  unfold lineTrace
  simp only [List.append_assoc]
  rfl

/-! ## The whole recorded pass -/

theorem Frame.pass1DT_spec {hp : Heap} {dst src : Nat} {d s : RGBA} (F : Frame hp dst src d s)
    (P : List Nat) (r nL n : Nat) (sL es dL ds so0 dO0 : Int) (T : Trace) (h2r : 2 * r + 1 ≤ n)
    (hS : ∀ L : Nat, L < nL → ∀ e : Nat, e < n → ∀ c : Nat, c < 4 →
      0 ≤ so0 + (L : Int) * sL + (e : Int) * es + c ∧
        (so0 + (L : Int) * sL + (e : Int) * es + c).toNat < s.Pix.length)
    (hD : ∀ L : Nat, L < nL → ∀ e : Nat, e < n →
      0 ≤ dO0 + (L : Int) * dL + (e : Int) * ds ∧
        (dO0 + (L : Int) * dL + (e : Int) * ds).toNat + 4 ≤ P.length) :
    pass1DT dst src (r : Int) (nL : Int) (n : Int) sL es dL ds so0 dO0 T (withPix hp dst d P)
      = (Except.ok (T ++ gridTrace src dst s so0 sL es dO0 dL ds r n nL),
          withPix hp dst d (gridWrite P (fun L => lineAddr (dO0 + (L : Int) * dL) ds)
            (fun L => lineOut s (so0 + (L : Int) * sL) es r n) n nL)) := by
  obtain ⟨⟨val1, so1, dO1, tr1⟩, P1, e1, _, _, h3, h4⟩ :=
    forTo_inv hp dst d (line1DT dst src (r : Int) (n : Int) sL es dL ds) 0 (nL : Int) nL
      (by omega)
      (fun L (st : Val × Int × Int × Trace) Q =>
        st.2.1 = so0 + (L : Int) * sL ∧ st.2.2.1 = dO0 + (L : Int) * dL ∧
        Q = gridWrite P (fun L => lineAddr (dO0 + (L : Int) * dL) ds)
            (fun L => lineOut s (so0 + (L : Int) * sL) es r n) n L ∧
        st.2.2.2 = T ++ gridTrace src dst s so0 sL es dO0 dL ds r n L)
      (by
        rintro L hL ⟨v, so, dO, tr⟩ Q ⟨hso, hdO, hQ, htr⟩
        simp only at hso hdO htr
        subst hQ
        subst hso
        subst hdO
        subst htr
        obtain ⟨v1, e⟩ := F.line1DT_spec _ r n sL es dL ds _ _ v
          (T ++ gridTrace src dst s so0 sL es dO0 dL ds r n L) h2r (hS L hL)
          (fun e he => by rw [gridWrite_length]; exact hD L hL e he)
        refine ⟨_, _, e, ?_, ?_, rfl, ?_⟩
        · simp only []; push_cast; ring
        · simp only []; push_cast; ring
        · show _ ++ _ = T ++ (catUpTo _ L ++ _)
          rw [List.append_assoc]
          rfl)
      ((fun _ => 0), so0, dO0, T) P ⟨by simp, by simp, rfl, by simp [gridTrace, catUpTo]⟩
  subst h3
  simp only at h4
  subst h4
  unfold pass1DT
  rw [Exec.bind_ok e1]
  rfl

theorem boxBlurHT_run (hp : Heap) (dst src : Nat) (d s : RGBA) (r w h : Nat) (T : Trace)
    (hs : hp[src]? = some s) (hd : hp[dst]? = some d) (hne : dst ≠ src)
    (wfs : s.Fits w h) (wfd : d.Fits w h) (hw : 2 * r + 1 ≤ w) :
    boxBlurHT dst src (r : Int) T hp
      = (Except.ok (T ++ traceH src dst s d r w h),
          withPix hp dst d (pixAfterH d s r w h)) := by
  have F : Frame hp dst src d s := ⟨hs, hd, Ne.symm hne⟩
  have hS : ∀ L : Nat, L < h → ∀ e : Nat, e < w → ∀ c : Nat, c < 4 →
      0 ≤ 0 + (L : Int) * s.Stride + (e : Int) * 4 + c ∧
        (0 + (L : Int) * s.Stride + (e : Int) * 4 + c).toNat < s.Pix.length := by
    intro L hL e he c hc
    have h1 := row_bound s.Stride L h (by have := wfs.stride; omega) hL
    have h2 := wfs.len (by omega)
    generalize (L : Int) * s.Stride = a at h1 ⊢
    generalize ((h : Int) - 1) * s.Stride = b at h1 h2
    omega
  have hD : ∀ L : Nat, L < h → ∀ e : Nat, e < w →
      0 ≤ 0 + (L : Int) * d.Stride + (e : Int) * 4 ∧
        (0 + (L : Int) * d.Stride + (e : Int) * 4).toNat + 4 ≤ d.Pix.length := by
    intro L hL e he
    have h1 := row_bound d.Stride L h (by have := wfd.stride; omega) hL
    have h2 := wfd.len (by omega)
    generalize (L : Int) * d.Stride = a at h1 ⊢
    generalize ((h : Int) - 1) * d.Stride = b at h1 h2
    omega
  have e := F.pass1DT_spec d.Pix r h w s.Stride 4 d.Stride 4 0 0 T hw hS hD
  rw [F.withPix_self] at e
  rw [boxBlurHT_eq, Exec.bind_ok (deref_eq hp src s hs), Exec.bind_ok (deref_eq hp dst d hd),
    RGBA.PixOffset_min, RGBA.PixOffset_min]
  have e1 : d.Bounds.Dy = (h : Int) := wfd.dy
  have e2 : d.Bounds.Dx = (w : Int) := wfd.dx
  rw [e1, e2]
  exact e

theorem boxBlurVT_run (hp : Heap) (dst src : Nat) (d s : RGBA) (r w h : Nat) (T : Trace)
    (hs : hp[src]? = some s) (hd : hp[dst]? = some d) (hne : dst ≠ src)
    (wfs : s.Fits w h) (wfd : d.Fits w h) (hh : 2 * r + 1 ≤ h) :
    boxBlurVT dst src (r : Int) T hp
      = (Except.ok (T ++ traceV src dst s d r w h),
          withPix hp dst d (pixAfterV d s r w h)) := by
  have F : Frame hp dst src d s := ⟨hs, hd, Ne.symm hne⟩
  have hS : ∀ L : Nat, L < w → ∀ e : Nat, e < h → ∀ c : Nat, c < 4 →
      0 ≤ 0 + (L : Int) * 4 + (e : Int) * s.Stride + c ∧
        (0 + (L : Int) * 4 + (e : Int) * s.Stride + c).toNat < s.Pix.length := by
    intro L hL e he c hc
    have h1 := row_bound s.Stride e h (by have := wfs.stride; omega) he
    have h2 := wfs.len (by omega)
    generalize (e : Int) * s.Stride = a at h1 ⊢
    generalize ((h : Int) - 1) * s.Stride = b at h1 h2
    omega
  have hD : ∀ L : Nat, L < w → ∀ e : Nat, e < h →
      0 ≤ 0 + (L : Int) * 4 + (e : Int) * d.Stride ∧
        (0 + (L : Int) * 4 + (e : Int) * d.Stride).toNat + 4 ≤ d.Pix.length := by
    intro L hL e he
    have h1 := row_bound d.Stride e h (by have := wfd.stride; omega) he
    have h2 := wfd.len (by omega)
    generalize (e : Int) * d.Stride = a at h1 ⊢
    generalize ((h : Int) - 1) * d.Stride = b at h1 h2
    omega
  have e := F.pass1DT_spec d.Pix r w h 4 s.Stride 4 d.Stride 0 0 T hh hS hD
  rw [F.withPix_self] at e
  rw [boxBlurVT_eq, Exec.bind_ok (deref_eq hp src s hs), Exec.bind_ok (deref_eq hp dst d hd),
    RGBA.PixOffset_min, RGBA.PixOffset_min]
  have e1 : d.Bounds.Dy = (h : Int) := wfd.dy
  have e2 : d.Bounds.Dx = (w : Int) := wfd.dx
  rw [e1, e2]
  exact e

/-! ## Traces as lists -/

theorem mem_catUpTo (f : Nat → Trace) (k : Nat) (e : Event) :
    e ∈ catUpTo f k ↔ ∃ j, j < k ∧ e ∈ f j := by
  induction k with
  | zero => simp [catUpTo]
  | succ k ih =>
    show e ∈ catUpTo f k ++ f k ↔ _
    rw [List.mem_append, ih]
    constructor
    · rintro (⟨j, hj, he⟩ | he)
      · exact ⟨j, by omega, he⟩
      · exact ⟨k, by omega, he⟩
    · rintro ⟨j, hj, he⟩
      by_cases h : j = k
      · subst h
        exact Or.inr he
      · exact Or.inl ⟨j, by omega, he⟩

theorem length_catUpTo (f : Nat → Trace) (k m : Nat) (h : ∀ j, j < k → (f j).length = m) :
    (catUpTo f k).length = k * m := by
  induction k with
  | zero => simp [catUpTo]
  | succ k ih =>
    show (catUpTo f k ++ f k).length = _
    rw [List.length_append, ih (fun j hj => h j (by omega)), h k (by omega)]
    ring

theorem countP_catUpTo_const (p : Event → Bool) (f : Nat → Trace) (k m : Nat)
    (h : ∀ j, j < k → (f j).countP p = m) : (catUpTo f k).countP p = k * m := by
  induction k with
  | zero => simp [catUpTo]
  | succ k ih =>
    show (catUpTo f k ++ f k).countP p = _
    rw [List.countP_append, ih (fun j hj => h j (by omega)), h k (by omega)]
    ring

theorem countP_catUpTo_single (p : Event → Bool) (f : Nat → Trace) (k j0 : Nat) (hj : j0 < k)
    (h1 : (f j0).countP p = 1) (h0 : ∀ j, j < k → j ≠ j0 → (f j).countP p = 0) :
    (catUpTo f k).countP p = 1 := by
  induction k with
  | zero => omega
  | succ k ih =>
    show (catUpTo f k ++ f k).countP p = _
    rw [List.countP_append]
    by_cases h : j0 = k
    · subst h
      rw [countP_catUpTo_const p f j0 0 (fun j hj1 => h0 j (by omega) (by omega)), h1]
      omega
    · rw [ih (by omega) (fun j hj1 hne => h0 j (by omega) hne), h0 k (by omega) (Ne.symm h)]

theorem mem_readEv (src : Nat) (pa : Int) (e : Event) (h : e ∈ readEv src pa) :
    ∃ c : Nat, c < 4 ∧ e = Event.rd src (pa + (c : Int)) := by
  unfold readEv at h
  simp only [List.mem_cons, List.mem_singleton, List.not_mem_nil, or_false] at h
  rcases h with h | h | h | h
  · exact ⟨0, by omega, h⟩
  · exact ⟨1, by omega, h⟩
  · exact ⟨2, by omega, h⟩
  · exact ⟨3, by omega, h⟩

theorem mem_chanEv (src dst : Nat) (pa pb dp : Int) (v : Nat → Int) (c : Nat) (e : Event)
    (h : e ∈ chanEv src dst pa pb dp v c) :
    e = Event.rd src (pa + (c : Int)) ∨ e = Event.rd src (pb + (c : Int)) ∨
      e = Event.wr dst (dp + (c : Int)) (v c) := by
  unfold chanEv at h
  simpa only [List.mem_cons, List.mem_singleton, List.not_mem_nil, or_false] using h

theorem mem_elemEv (src dst : Nat) (pa pb dp : Int) (v : Nat → Int) (e : Event)
    (h : e ∈ elemEv src dst pa pb dp v) :
    ∃ c : Nat, c < 4 ∧ (e = Event.rd src (pa + (c : Int)) ∨ e = Event.rd src (pb + (c : Int)) ∨
      e = Event.wr dst (dp + (c : Int)) (v c)) := by
  unfold elemEv at h
  simp only [List.mem_append] at h
  rcases h with ((h | h) | h) | h
  · exact ⟨0, by omega, mem_chanEv _ _ _ _ _ _ _ _ h⟩
  · exact ⟨1, by omega, mem_chanEv _ _ _ _ _ _ _ _ h⟩
  · exact ⟨2, by omega, mem_chanEv _ _ _ _ _ _ _ _ h⟩
  · exact ⟨3, by omega, mem_chanEv _ _ _ _ _ _ _ _ h⟩

theorem mem_lineTrace (src dst : Nat) (s : RGBA) (so es dO ds : Int) (r n : Nat) (hrn : r < n)
    (e : Event) (h : e ∈ lineTrace src dst s so es dO ds r n) :
    (∃ x c : Nat, x < n ∧ c < 4 ∧ e = Event.rd src (so + (x : Int) * es + (c : Int))) ∨
    (∃ x c : Nat, x < n ∧ c < 4 ∧
      e = Event.wr dst (dO + (x : Int) * ds + (c : Int))
        (winSum (lineSrc s so es c) r n (x : Int))) := by
  unfold lineTrace at h
  simp only [List.mem_append, mem_catUpTo] at h
  rcases h with (h | ⟨k, hk, h⟩) | ⟨x, hx, h⟩
  · obtain ⟨c, hc, he⟩ := mem_readEv _ _ _ h
    exact Or.inl ⟨0, c, by omega, hc, by rw [he]; simp⟩
  · obtain ⟨c, hc, he⟩ := mem_readEv _ _ _ h
    exact Or.inl ⟨k, c, by omega, hc, he⟩
  · unfold lineEv at h
    obtain ⟨c, hc, he | he | he⟩ := mem_elemEv _ _ _ _ _ _ _ h
    · exact Or.inl ⟨_, c, clampIdx_lt n _ (by omega), hc, he⟩
    · exact Or.inl ⟨_, c, clampIdx_lt n _ (by omega), hc, he⟩
    · exact Or.inr ⟨x, c, hx, hc, he⟩

theorem length_lineTrace (src dst : Nat) (s : RGBA) (so es dO ds : Int) (r n : Nat) :
    (lineTrace src dst s so es dO ds r n).length = 4 + 4 * r + 12 * n := by
  unfold lineTrace
  rw [List.length_append, List.length_append,
    length_catUpTo (fun k => readEv src (so + (k : Int) * es)) r 4 (fun _ _ => rfl),
    length_catUpTo (lineEv src dst s so es dO ds r n) n 12 (fun _ _ => rfl)]
  show 4 + r * 4 + n * 12 = _
  ring

theorem length_gridTrace (src dst : Nat) (s : RGBA) (so0 sL es dO0 dL ds : Int) (r n nL : Nat) :
    (gridTrace src dst s so0 sL es dO0 dL ds r n nL).length = nL * (4 + 4 * r + 12 * n) :=
  length_catUpTo _ nL _ (fun _ _ => length_lineTrace _ _ _ _ _ _ _ _ _)

theorem countP_isWrite_lineTrace (src dst : Nat) (s : RGBA) (so es dO ds : Int) (r n : Nat) :
    (lineTrace src dst s so es dO ds r n).countP Event.isWrite = 4 * n := by
  unfold lineTrace
  rw [List.countP_append, List.countP_append,
    countP_catUpTo_const Event.isWrite (fun k => readEv src (so + (k : Int) * es)) r 0
      (fun _ _ => rfl),
    countP_catUpTo_const Event.isWrite (lineEv src dst s so es dO ds r n) n 4 (fun _ _ => rfl)]
  show 0 + r * 0 + n * 4 = _
  ring

theorem countP_isWrite_gridTrace (src dst : Nat) (s : RGBA) (so0 sL es dO0 dL ds : Int)
    (r n nL : Nat) :
    (gridTrace src dst s so0 sL es dO0 dL ds r n nL).countP Event.isWrite = nL * (4 * n) :=
  countP_catUpTo_const _ _ nL _ (fun _ _ => countP_isWrite_lineTrace _ _ _ _ _ _ _ _ _)

theorem countP_isRead_lineTrace (src dst : Nat) (s : RGBA) (so es dO ds : Int) (r n : Nat) :
    (lineTrace src dst s so es dO ds r n).countP Event.isRead = 4 + 4 * r + 8 * n := by
  unfold lineTrace
  rw [List.countP_append, List.countP_append,
    countP_catUpTo_const Event.isRead (fun k => readEv src (so + (k : Int) * es)) r 4
      (fun _ _ => rfl),
    countP_catUpTo_const Event.isRead (lineEv src dst s so es dO ds r n) n 8 (fun _ _ => rfl)]
  show 4 + r * 4 + n * 8 = _
  ring

theorem countP_isRead_gridTrace (src dst : Nat) (s : RGBA) (so0 sL es dO0 dL ds : Int)
    (r n nL : Nat) :
    (gridTrace src dst s so0 sL es dO0 dL ds r n nL).countP Event.isRead
      = nL * (4 + 4 * r + 8 * n) :=
  countP_catUpTo_const _ _ nL _ (fun _ _ => countP_isRead_lineTrace _ _ _ _ _ _ _ _ _)

theorem countP_isWriteAt_chanEv (src dst : Nat) (pa pb dp j : Int) (v : Nat → Int) (c : Nat) :
    (chanEv src dst pa pb dp v c).countP (Event.isWriteAt dst j)
      = if dp + (c : Int) = j then 1 else 0 := by
  unfold chanEv
  simp only [List.countP_cons, List.countP_nil, Event.isWriteAt, true_and]
  by_cases h : dp + (c : Int) = j
  · simp [h]
  · simp [h]

theorem countP_isWriteAt_elemEv_in (src dst : Nat) (pa pb dp : Int) (v : Nat → Int) (c : Nat)
    (hc : c < 4) :
    (elemEv src dst pa pb dp v).countP (Event.isWriteAt dst (dp + (c : Int))) = 1 := by
  unfold elemEv
  simp only [List.countP_append, countP_isWriteAt_chanEv]
  interval_cases c <;> simp

theorem countP_isWriteAt_elemEv_out (src dst : Nat) (pa pb dp j : Int) (v : Nat → Int)
    (h : j < dp ∨ dp + 4 ≤ j) :
    (elemEv src dst pa pb dp v).countP (Event.isWriteAt dst j) = 0 := by
  unfold elemEv
  simp only [List.countP_append, countP_isWriteAt_chanEv]
  have h0 : ¬ dp + ((0 : Nat) : Int) = j := by omega
  have h1 : ¬ dp + ((1 : Nat) : Int) = j := by omega
  have h2 : ¬ dp + ((2 : Nat) : Int) = j := by omega
  have h3 : ¬ dp + ((3 : Nat) : Int) = j := by omega
  rw [if_neg h0, if_neg h1, if_neg h2, if_neg h3]

theorem countP_isWriteAt_readEv (src dst : Nat) (pa j : Int) :
    (readEv src pa).countP (Event.isWriteAt dst j) = 0 := rfl

theorem countP_isWriteAt_lineTrace_in (src dst : Nat) (s : RGBA) (so es dO ds : Int)
    (r n x c : Nat) (hx : x < n) (hc : c < 4)
    (hdis : ∀ x1, x1 < n → x1 ≠ x →
      dO + (x1 : Int) * ds + 4 ≤ dO + (x : Int) * ds ∨
        dO + (x : Int) * ds + 4 ≤ dO + (x1 : Int) * ds) :
    (lineTrace src dst s so es dO ds r n).countP
      (Event.isWriteAt dst (dO + (x : Int) * ds + (c : Int))) = 1 := by
  unfold lineTrace
  rw [List.countP_append, List.countP_append, countP_isWriteAt_readEv,
    countP_catUpTo_const _ (fun k => readEv src (so + (k : Int) * es)) r 0
      (fun _ _ => countP_isWriteAt_readEv _ _ _ _),
    countP_catUpTo_single _ (lineEv src dst s so es dO ds r n) n x hx
      (countP_isWriteAt_elemEv_in _ _ _ _ _ _ c hc)
      (fun x1 h1 hne => countP_isWriteAt_elemEv_out _ _ _ _ _ _ _ (by
        have := hdis x1 h1 hne
        omega))]
  omega

theorem countP_isWriteAt_lineTrace_out (src dst : Nat) (s : RGBA) (so es dO ds : Int)
    (r n : Nat) (j : Int)
    (hout : ∀ x1, x1 < n → j < dO + (x1 : Int) * ds ∨ dO + (x1 : Int) * ds + 4 ≤ j) :
    (lineTrace src dst s so es dO ds r n).countP (Event.isWriteAt dst j) = 0 := by
  unfold lineTrace
  rw [List.countP_append, List.countP_append, countP_isWriteAt_readEv,
    countP_catUpTo_const _ (fun k => readEv src (so + (k : Int) * es)) r 0
      (fun _ _ => countP_isWriteAt_readEv _ _ _ _),
    countP_catUpTo_const _ (lineEv src dst s so es dO ds r n) n 0
      (fun x1 h1 => countP_isWriteAt_elemEv_out _ _ _ _ _ _ _ (hout x1 h1))]
  omega

theorem countP_isWriteAt_gridTrace (src dst : Nat) (s : RGBA) (so0 sL es dO0 dL ds : Int)
    (r n nL L x c : Nat) (hL : L < nL) (hx : x < n) (hc : c < 4)
    (hdis : ∀ L1, L1 < nL → ∀ x1, x1 < n → (L1 ≠ L ∨ x1 ≠ x) →
      dO0 + (L1 : Int) * dL + (x1 : Int) * ds + 4 ≤ dO0 + (L : Int) * dL + (x : Int) * ds ∨
        dO0 + (L : Int) * dL + (x : Int) * ds + 4 ≤ dO0 + (L1 : Int) * dL + (x1 : Int) * ds) :
    (gridTrace src dst s so0 sL es dO0 dL ds r n nL).countP
      (Event.isWriteAt dst (dO0 + (L : Int) * dL + (x : Int) * ds + (c : Int))) = 1 := by
  unfold gridTrace
  apply countP_catUpTo_single _ _ nL L hL
  · exact countP_isWriteAt_lineTrace_in _ _ _ _ _ _ _ _ _ x c hx hc
      (fun x1 h1 hne => hdis L hL x1 h1 (Or.inr hne))
  · intro L1 h1 hne
    apply countP_isWriteAt_lineTrace_out
    intro x1 hx1
    have := hdis L1 h1 x1 hx1 (Or.inl hne)
    omega

/-! ## C13: the number of accesses of a pass -/

theorem RGBA.sampleIndex_cast (p : RGBA) (w h : Nat) (fp : p.Fits w h) (x y c : Nat)
    (hy : y < h) :
    ((p.sampleIndex x y c : Nat) : Int) = (y : Int) * p.Stride + (x : Int) * 4 + (c : Int) := by
  have h1 := row_bound p.Stride y h (by have := fp.stride; omega) hy
  rw [RGBA.sampleIndex_eq]
  generalize (y : Int) * p.Stride = a at h1 ⊢
  omega

theorem traceH_write_once (src dst : Nat) (s d : RGBA) (r w h : Nat) (fd : d.Fits w h)
    (x y c : Nat) (hx : x < w) (hy : y < h) (hc : c < 4) :
    (traceH src dst s d r w h).countP
      (Event.isWriteAt dst ((d.sampleIndex x y c : Nat) : Int)) = 1 := by
  have hst := fd.stride
  have e : ((d.sampleIndex x y c : Nat) : Int)
      = 0 + (y : Int) * d.Stride + (x : Int) * 4 + (c : Int) := by
    rw [RGBA.sampleIndex_cast d w h fd x y c hy]
    ring
  rw [e]
  unfold traceH
  apply countP_isWriteAt_gridTrace _ _ _ _ _ _ _ _ _ _ _ _ y x c hy hx hc
  intro L1 hL1 x1 hx1 hne
  have h4 := cells_disjoint d.Stride w hst x y x1 L1 hx hx1 hne
  omega

theorem traceV_write_once (src dst : Nat) (s d : RGBA) (r w h : Nat) (fd : d.Fits w h)
    (x y c : Nat) (hx : x < w) (hy : y < h) (hc : c < 4) :
    (traceV src dst s d r w h).countP
      (Event.isWriteAt dst ((d.sampleIndex x y c : Nat) : Int)) = 1 := by
  have hst := fd.stride
  have e : ((d.sampleIndex x y c : Nat) : Int)
      = 0 + (x : Int) * 4 + (y : Int) * d.Stride + (c : Int) := by
    rw [RGBA.sampleIndex_cast d w h fd x y c hy]
    ring
  rw [e]
  unfold traceV
  apply countP_isWriteAt_gridTrace _ _ _ _ _ _ _ _ _ _ _ _ x y c hx hy hc
  intro L1 hL1 x1 hx1 hne
  have h4 := cells_disjoint d.Stride w hst x y L1 x1 hx hL1 (Or.symm hne)
  omega

/-- C13: on buffers of `w ≥ 2r+1` by `h ≥ 2r+1` pixels, the recorded pass
`boxBlurHT` returns normally with the heap of `boxBlurH` and a trace of exactly
`h * (12 w + 4 r + 4)` accesses: `h * (8 w + 4 r + 4)` reads of source samples
and `4 w h` writes of destination samples. The trace has at most
`4 * (4 w h)` accesses and at most `3 * (4 w h)` reads, bounds that do not
depend on `r`, and every in-bounds sample of the destination is written
exactly once. Likewise for `boxBlurVT` and `boxBlurV`, with
`w * (12 h + 4 r + 4)` accesses. -/
theorem pass_cost_independent_of_radius (hp : Heap) (dst src : Nat) (d s : RGBA)
    (r w h : Nat) (hs : hp[src]? = some s) (hd : hp[dst]? = some d) (hne : dst ≠ src)
    (fs : s.Fits w h) (fd : d.Fits w h) (hw : 2 * r + 1 ≤ w) (hh : 2 * r + 1 ≤ h) :
    (∃ (tr : Trace) (hp1 : Heap),
      boxBlurHT dst src (r : Int) [] hp = (Except.ok tr, hp1) ∧
      boxBlurH dst src (r : Int) hp = (Except.ok (), hp1) ∧
      tr.length = h * (12 * w + 4 * r + 4) ∧
      tr.countP Event.isRead = h * (8 * w + 4 * r + 4) ∧
      tr.countP Event.isWrite = 4 * w * h ∧
      tr.length ≤ 4 * (4 * w * h) ∧ tr.countP Event.isRead ≤ 3 * (4 * w * h) ∧
      ∀ x y c, x < w → y < h → c < 4 →
        tr.countP (Event.isWriteAt dst ((d.sampleIndex x y c : Nat) : Int)) = 1) ∧
    (∃ (tr : Trace) (hp1 : Heap),
      boxBlurVT dst src (r : Int) [] hp = (Except.ok tr, hp1) ∧
      boxBlurV dst src (r : Int) hp = (Except.ok (), hp1) ∧
      tr.length = w * (12 * h + 4 * r + 4) ∧
      tr.countP Event.isRead = w * (8 * h + 4 * r + 4) ∧
      tr.countP Event.isWrite = 4 * w * h ∧
      tr.length ≤ 4 * (4 * w * h) ∧ tr.countP Event.isRead ≤ 3 * (4 * w * h) ∧
      ∀ x y c, x < w → y < h → c < 4 →
        tr.countP (Event.isWriteAt dst ((d.sampleIndex x y c : Nat) : Int)) = 1) := by
  have lenH : (traceH src dst s d r w h).length = h * (12 * w + 4 * r + 4) := by
    unfold traceH
    rw [length_gridTrace]
    ring
  have rdH : (traceH src dst s d r w h).countP Event.isRead = h * (8 * w + 4 * r + 4) := by
    unfold traceH
    rw [countP_isRead_gridTrace]
    ring
  have wrH : (traceH src dst s d r w h).countP Event.isWrite = 4 * w * h := by
    unfold traceH
    rw [countP_isWrite_gridTrace]
    ring
  have lenV : (traceV src dst s d r w h).length = w * (12 * h + 4 * r + 4) := by
    unfold traceV
    rw [length_gridTrace]
    ring
  have rdV : (traceV src dst s d r w h).countP Event.isRead = w * (8 * h + 4 * r + 4) := by
    unfold traceV
    rw [countP_isRead_gridTrace]
    ring
  have wrV : (traceV src dst s d r w h).countP Event.isWrite = 4 * w * h := by
    unfold traceV
    rw [countP_isWrite_gridTrace]
    ring
  have b1 : h * (12 * w + 4 * r + 4) ≤ 4 * (4 * w * h) := by
    have : h * (12 * w + 4 * r + 4) ≤ h * (16 * w) := Nat.mul_le_mul_left h (by omega)
    calc h * (12 * w + 4 * r + 4) ≤ h * (16 * w) := this
      _ = 4 * (4 * w * h) := by ring
  have b2 : h * (8 * w + 4 * r + 4) ≤ 3 * (4 * w * h) := by
    have : h * (8 * w + 4 * r + 4) ≤ h * (12 * w) := Nat.mul_le_mul_left h (by omega)
    calc h * (8 * w + 4 * r + 4) ≤ h * (12 * w) := this
      _ = 3 * (4 * w * h) := by ring
  have b3 : w * (12 * h + 4 * r + 4) ≤ 4 * (4 * w * h) := by
    have : w * (12 * h + 4 * r + 4) ≤ w * (16 * h) := Nat.mul_le_mul_left w (by omega)
    calc w * (12 * h + 4 * r + 4) ≤ w * (16 * h) := this
      _ = 4 * (4 * w * h) := by ring
  have b4 : w * (8 * h + 4 * r + 4) ≤ 3 * (4 * w * h) := by
    have : w * (8 * h + 4 * r + 4) ≤ w * (12 * h) := Nat.mul_le_mul_left w (by omega)
    calc w * (8 * h + 4 * r + 4) ≤ w * (12 * h) := this
      _ = 3 * (4 * w * h) := by ring
  refine ⟨⟨traceH src dst s d r w h, _,
      boxBlurHT_run hp dst src d s r w h [] hs hd hne fs fd hw,
      boxBlurH_run hp dst src d s r w h hs hd hne fs fd hw,
      lenH, rdH, wrH, by rw [lenH]; exact b1, by rw [rdH]; exact b2,
      traceH_write_once src dst s d r w h fd⟩,
    ⟨traceV src dst s d r w h, _,
      boxBlurVT_run hp dst src d s r w h [] hs hd hne fs fd hh,
      boxBlurV_run hp dst src d s r w h hs hd hne fs fd hh,
      lenV, rdV, wrV, by rw [lenV]; exact b3, by rw [rdV]; exact b4,
      traceV_write_once src dst s d r w h fd⟩⟩

theorem pass_cost_independent_of_radius_witness :
    (∃ (tr : Trace) (hp1 : Heap),
      boxBlurHT 1 0 ((1 : Nat) : Int) [] heap33 = (Except.ok tr, hp1) ∧
      boxBlurH 1 0 ((1 : Nat) : Int) heap33 = (Except.ok (), hp1) ∧
      tr.length = 3 * (12 * 3 + 4 * 1 + 4) ∧
      tr.countP Event.isRead = 3 * (8 * 3 + 4 * 1 + 4) ∧
      tr.countP Event.isWrite = 4 * 3 * 3 ∧
      tr.length ≤ 4 * (4 * 3 * 3) ∧ tr.countP Event.isRead ≤ 3 * (4 * 3 * 3) ∧
      ∀ x y c, x < 3 → y < 3 → c < 4 →
        tr.countP (Event.isWriteAt 1
          (((mkRGBA 3 3 (fun _ => 0)).sampleIndex x y c : Nat) : Int)) = 1) ∧
    (∃ (tr : Trace) (hp1 : Heap),
      boxBlurVT 1 0 ((1 : Nat) : Int) [] heap33 = (Except.ok tr, hp1) ∧
      boxBlurV 1 0 ((1 : Nat) : Int) heap33 = (Except.ok (), hp1) ∧
      tr.length = 3 * (12 * 3 + 4 * 1 + 4) ∧
      tr.countP Event.isRead = 3 * (8 * 3 + 4 * 1 + 4) ∧
      tr.countP Event.isWrite = 4 * 3 * 3 ∧
      tr.length ≤ 4 * (4 * 3 * 3) ∧ tr.countP Event.isRead ≤ 3 * (4 * 3 * 3) ∧
      ∀ x y c, x < 3 → y < 3 → c < 4 →
        tr.countP (Event.isWriteAt 1
          (((mkRGBA 3 3 (fun _ => 0)).sampleIndex x y c : Nat) : Int)) = 1) :=
  pass_cost_independent_of_radius heap33 1 0 (mkRGBA 3 3 (fun _ => 0))
    (mkRGBA 3 3 (fun i => 7 * i)) 1 3 3 rfl rfl (by decide)
    ⟨rfl, rfl, by decide, by decide⟩ ⟨rfl, rfl, by decide, by decide⟩ (by decide) (by decide)

/-! ## C14: no access outside the line being processed -/

theorem RGBA.sampleIndex_lt (p : RGBA) (w h : Nat) (fp : p.Fits w h) (x y c : Nat)
    (hx : x < w) (hy : y < h) (hc : c < 4) : p.sampleIndex x y c < p.Pix.length := by
  have h1 := row_bound p.Stride y h (by have := fp.stride; omega) hy
  have h2 := fp.len (by omega)
  have h3 := RGBA.sampleIndex_cast p w h fp x y c hy
  generalize (y : Int) * p.Stride = a at h1 h3
  generalize ((h : Int) - 1) * p.Stride = b at h1 h2
  omega

theorem rowTraceH_atPixel (src dst : Nat) (s d : RGBA) (r w h : Nat) (fs : s.Fits w h)
    (fd : d.Fits w h) (hw : 2 * r + 1 ≤ w) (y : Nat) (hy : y < h) (e : Event)
    (he : e ∈ rowTraceH src dst s d r w y) :
    ∃ x : Nat, x < w ∧ e.atPixel src dst s d x y := by
  unfold rowTraceH at he
  rcases mem_lineTrace _ _ _ _ _ _ _ r w (by omega) e he with ⟨x, c, hx, hc, h1⟩ | ⟨x, c, hx, hc, h1⟩
  · refine ⟨x, hx, Or.inl ⟨c, hc, ?_⟩⟩
    rw [h1, RGBA.sampleIndex_cast s w h fs x y c hy]
    congr 1
    ring
  · refine ⟨x, hx, Or.inr ⟨c, winSum (lineSrc s (0 + (y : Int) * s.Stride) 4 c) r w (x : Int),
      hc, ?_⟩⟩
    rw [h1, RGBA.sampleIndex_cast d w h fd x y c hy]
    congr 1
    ring

theorem colTraceV_atPixel (src dst : Nat) (s d : RGBA) (r w h : Nat) (fs : s.Fits w h)
    (fd : d.Fits w h) (hh : 2 * r + 1 ≤ h) (x : Nat) (e : Event)
    (he : e ∈ colTraceV src dst s d r h x) :
    ∃ y : Nat, y < h ∧ e.atPixel src dst s d x y := by
  unfold colTraceV at he
  rcases mem_lineTrace _ _ _ _ _ _ _ r h (by omega) e he with ⟨y, c, hy, hc, h1⟩ | ⟨y, c, hy, hc, h1⟩
  · refine ⟨y, hy, Or.inl ⟨c, hc, ?_⟩⟩
    rw [h1, RGBA.sampleIndex_cast s w h fs x y c hy]
    congr 1
    ring
  · refine ⟨y, hy, Or.inr ⟨c, winSum (lineSrc s (0 + (x : Int) * 4) s.Stride c) r h (y : Int),
      hc, ?_⟩⟩
    rw [h1, RGBA.sampleIndex_cast d w h fd x y c hy]
    congr 1
    ring

/-- C14: for every radius `r` and every well-formed image of `w ≥ 2r+1` by
`h ≥ 2r+1` pixels (for an RGBA buffer: stride at least `4 w`, bytes covering
every row), `Gaussian im r option` returns normally (no index or slice panic)
an image whose bounds are the bounds of `im`. For buffers of these dimensions
every sample index of an in-bounds pixel is inside `Pix`, the recorded passes
reach the heaps of `boxBlurH` and `boxBlurV`, the trace of
`boxBlurHT` is the traces of the rows `0 .. h-1` one after the other, every
access in the trace of row `y` being to a sample of a pixel `(x, y)` with
`x < w`, and the trace of `boxBlurVT` is the traces of the columns
`0 .. w-1`, every access in the trace of column `x` being to a sample of a
pixel `(x, y)` with `y < h`. -/
theorem Gaussian_no_out_of_range_access (hp : Heap) (im : Image) (option : BlurOption)
    (dst src : Nat) (d s : RGBA) (r w h : Nat) (wf : im.WF hp w h)
    (hs : hp[src]? = some s) (hd : hp[dst]? = some d) (hne : dst ≠ src)
    (fs : s.Fits w h) (fd : d.Fits w h) (hw : 2 * r + 1 ≤ w) (hh : 2 * r + 1 ≤ h) :
    (∃ (q : Nat) (hp1 : Heap) (o1 : RGBA),
      Gaussian im (r : Int) option hp = (Except.ok q, hp1) ∧ hp1[q]? = some o1 ∧
      im.Bounds hp = (Except.ok o1.Bounds, hp)) ∧
    (∀ x y c, x < w → y < h → c < 4 →
      s.sampleIndex x y c < s.Pix.length ∧ d.sampleIndex x y c < d.Pix.length) ∧
    (∃ hp1 : Heap,
      boxBlurHT dst src (r : Int) [] hp
        = (Except.ok (catUpTo (rowTraceH src dst s d r w) h), hp1) ∧
      boxBlurH dst src (r : Int) hp = (Except.ok (), hp1) ∧
      ∀ y, y < h → ∀ e ∈ rowTraceH src dst s d r w y,
        ∃ x : Nat, x < w ∧ e.atPixel src dst s d x y) ∧
    (∃ hp1 : Heap,
      boxBlurVT dst src (r : Int) [] hp
        = (Except.ok (catUpTo (colTraceV src dst s d r h) w), hp1) ∧
      boxBlurV dst src (r : Int) hp = (Except.ok (), hp1) ∧
      ∀ x, x < w → ∀ e ∈ colTraceV src dst s d r h x,
        ∃ y : Nat, y < h ∧ e.atPixel src dst s d x y) := by
  refine ⟨?_, ?_, ?_, ?_⟩
  · obtain ⟨q, hp1, o1, e, hq, _, hb, _⟩ := Gaussian_run_grid hp im option r w h wf hw hh
    exact ⟨q, hp1, o1, e, hq, hb⟩
  · intro x y c hx hy hc
    exact ⟨RGBA.sampleIndex_lt s w h fs x y c hx hy hc,
      RGBA.sampleIndex_lt d w h fd x y c hx hy hc⟩
  · exact ⟨_, boxBlurHT_run hp dst src d s r w h [] hs hd hne fs fd hw,
      boxBlurH_run hp dst src d s r w h hs hd hne fs fd hw,
      fun y hy e he => rowTraceH_atPixel src dst s d r w h fs fd hw y hy e he⟩
  · exact ⟨_, boxBlurVT_run hp dst src d s r w h [] hs hd hne fs fd hh,
      boxBlurV_run hp dst src d s r w h hs hd hne fs fd hh,
      fun x _ e he => colTraceV_atPixel src dst s d r w h fs fd hh x e he⟩

theorem Gaussian_no_out_of_range_access_witness :
    (∃ (q : Nat) (hp1 : Heap) (o1 : RGBA),
      Gaussian (Image.rgba 0) ((1 : Nat) : Int) BlurOption.ReuseSrc heap33
        = (Except.ok q, hp1) ∧ hp1[q]? = some o1 ∧
      (Image.rgba 0).Bounds heap33 = (Except.ok o1.Bounds, heap33)) ∧
    (∀ x y c, x < 3 → y < 3 → c < 4 →
      (mkRGBA 3 3 (fun i => 7 * i)).sampleIndex x y c < (mkRGBA 3 3 (fun i => 7 * i)).Pix.length ∧
      (mkRGBA 3 3 (fun _ => 0)).sampleIndex x y c < (mkRGBA 3 3 (fun _ => 0)).Pix.length) ∧
    (∃ hp1 : Heap,
      boxBlurHT 1 0 ((1 : Nat) : Int) [] heap33
        = (Except.ok (catUpTo (rowTraceH 0 1 (mkRGBA 3 3 (fun i => 7 * i))
            (mkRGBA 3 3 (fun _ => 0)) 1 3) 3), hp1) ∧
      boxBlurH 1 0 ((1 : Nat) : Int) heap33 = (Except.ok (), hp1) ∧
      ∀ y, y < 3 → ∀ e ∈ rowTraceH 0 1 (mkRGBA 3 3 (fun i => 7 * i))
          (mkRGBA 3 3 (fun _ => 0)) 1 3 y,
        ∃ x : Nat, x < 3 ∧ e.atPixel 0 1 (mkRGBA 3 3 (fun i => 7 * i))
          (mkRGBA 3 3 (fun _ => 0)) x y) ∧
    (∃ hp1 : Heap,
      boxBlurVT 1 0 ((1 : Nat) : Int) [] heap33
        = (Except.ok (catUpTo (colTraceV 0 1 (mkRGBA 3 3 (fun i => 7 * i))
            (mkRGBA 3 3 (fun _ => 0)) 1 3) 3), hp1) ∧
      boxBlurV 1 0 ((1 : Nat) : Int) heap33 = (Except.ok (), hp1) ∧
      ∀ x, x < 3 → ∀ e ∈ colTraceV 0 1 (mkRGBA 3 3 (fun i => 7 * i))
          (mkRGBA 3 3 (fun _ => 0)) 1 3 x,
        ∃ y : Nat, y < 3 ∧ e.atPixel 0 1 (mkRGBA 3 3 (fun i => 7 * i))
          (mkRGBA 3 3 (fun _ => 0)) x y) :=
  Gaussian_no_out_of_range_access heap33 (Image.rgba 0) BlurOption.ReuseSrc 1 0
    (mkRGBA 3 3 (fun _ => 0)) (mkRGBA 3 3 (fun i => 7 * i)) 1 3 3
    ⟨mkRGBA 3 3 (fun i => 7 * i), rfl, ⟨rfl, rfl, by decide, by decide⟩, by decide⟩
    rfl rfl (by decide) ⟨rfl, rfl, by decide, by decide⟩ ⟨rfl, rfl, by decide, by decide⟩
    (by decide) (by decide)

/-! ## C19: the running sum stays in the byte range -/

theorem srcByte_bounds (s : RGBA) (hb : s.bytesOK) (i : Int) :
    0 ≤ srcByte s i ∧ srcByte s i ≤ 255 := by
  unfold srcByte
  rw [List.getD_eq_getElem?_getD]
  rcases h : s.Pix[i.toNat]? with _ | b
  · simp
  · simp only [Option.getD_some]
    have := hb b (List.getElem?_mem h)
    omega

theorem winSum_bounds (a : Nat → Int) (r n : Nat) (x : Int)
    (ha : ∀ j, 0 ≤ a j ∧ a j ≤ 255) :
    0 ≤ winSum a r n x ∧ winSum a r n x ≤ 255 * (2 * (r : Int) + 1) := by
  unfold winSum
  constructor
  · exact Finset.sum_nonneg (fun k _ => (ha _).1)
  · have h : ∑ k in Finset.range (2 * r + 1), a (clampIdx n (x + (k : Int) - (r : Int)))
        ≤ ∑ _k in Finset.range (2 * r + 1), (255 : Int) :=
      Finset.sum_le_sum (fun k _ => (ha _).2)
    simp only [Finset.sum_const, Finset.card_range, nsmul_eq_mul] at h
    push_cast at h
    linarith

theorem tdiv_byte (v : Int) (r : Nat) (h0 : 0 ≤ v) (h1 : v ≤ 255 * (2 * (r : Int) + 1)) :
    0 ≤ v.tdiv (2 * (r : Int) + 1) ∧ v.tdiv (2 * (r : Int) + 1) ≤ 255 ∧
      ((uint8 (v.tdiv (2 * (r : Int) + 1)) : Nat) : Int) = v.tdiv (2 * (r : Int) + 1) := by
  have hm : (0 : Int) < 2 * (r : Int) + 1 := by omega
  have e : v.tdiv (2 * (r : Int) + 1) = v / (2 * (r : Int) + 1) :=
    Int.tdiv_eq_ediv h0 (by omega)
  have q0 : 0 ≤ v / (2 * (r : Int) + 1) := Int.ediv_nonneg h0 (by omega)
  have q1 : v / (2 * (r : Int) + 1) ≤ 255 := by
    have : v / (2 * (r : Int) + 1) < 256 := by
      apply Int.ediv_lt_of_lt_mul hm
      linarith
    omega
  rw [e]
  refine ⟨q0, q1, ?_⟩
  unfold uint8
  generalize v / (2 * (r : Int) + 1) = q at q0 q1
  omega

theorem mean_between (f : Nat → Nat) (m lo hi : Nat)
    (h : ∀ k, k < m + 1 → lo ≤ f k ∧ f k ≤ hi) :
    lo ≤ (∑ k in Finset.range (m + 1), f k) / (m + 1) ∧
      (∑ k in Finset.range (m + 1), f k) / (m + 1) ≤ hi := by
  have h1 : ∑ _k in Finset.range (m + 1), lo ≤ ∑ k in Finset.range (m + 1), f k :=
    Finset.sum_le_sum (fun k hk => (h k (Finset.mem_range.mp hk)).1)
  have h2 : ∑ k in Finset.range (m + 1), f k ≤ ∑ _k in Finset.range (m + 1), hi :=
    Finset.sum_le_sum (fun k hk => (h k (Finset.mem_range.mp hk)).2)
  simp only [Finset.sum_const, Finset.card_range, smul_eq_mul] at h1 h2
  constructor
  · rw [Nat.le_div_iff_mul_le (by omega)]
    rw [Nat.mul_comm]
    exact h1
  · apply Nat.div_le_of_le_mul
    exact h2

theorem traceH_write_bounds (src dst : Nat) (s d : RGBA) (r w h : Nat) (hb : s.bytesOK)
    (hw : 2 * r + 1 ≤ w) (p : Nat) (i v : Int)
    (he : Event.wr p i v ∈ traceH src dst s d r w h) :
    0 ≤ v ∧ v ≤ 255 * (2 * (r : Int) + 1) := by
  unfold traceH gridTrace at he
  rw [mem_catUpTo] at he
  obtain ⟨L, _, he⟩ := he
  rcases mem_lineTrace _ _ _ _ _ _ _ r w (by omega) _ he with ⟨x, c, _, _, h1⟩ | ⟨x, c, _, _, h1⟩
  · cases h1
  · injection h1 with _ _ h3
    rw [h3]
    exact winSum_bounds _ r w _ (fun j => srcByte_bounds s hb _)

theorem traceV_write_bounds (src dst : Nat) (s d : RGBA) (r w h : Nat) (hb : s.bytesOK)
    (hh : 2 * r + 1 ≤ h) (p : Nat) (i v : Int)
    (he : Event.wr p i v ∈ traceV src dst s d r w h) :
    0 ≤ v ∧ v ≤ 255 * (2 * (r : Int) + 1) := by
  unfold traceV gridTrace at he
  rw [mem_catUpTo] at he
  obtain ⟨L, _, he⟩ := he
  rcases mem_lineTrace _ _ _ _ _ _ _ r h (by omega) _ he with ⟨x, c, _, _, h1⟩ | ⟨x, c, _, _, h1⟩
  · cases h1
  · injection h1 with _ _ h3
    rw [h3]
    exact winSum_bounds _ r h _ (fun j => srcByte_bounds s hb _)

/-- C19: for a well-formed source and a destination of `w ≥ 2r+1` by
`h ≥ 2r+1` pixels, the recorded pass `boxBlurHT` (resp. `boxBlurVT`) reaches
the heap of `boxBlurH` (resp. `boxBlurV`), and at every write it records the
accumulator `v = val[c]` satisfies `0 ≤ v ≤ 255 * (2r+1)`, so the quotient
`v / (2r+1)` lies in `0 .. 255` and `uint8` returns it unchanged; and every
in-bounds sample of the destination after the pass lies between any lower and
upper bound of the `2r+1` source samples of its clamped window (hence between
their minimum and their maximum). -/
theorem accumulator_stays_in_byte_range (hp : Heap) (dst src : Nat) (d s : RGBA)
    (r w h : Nat) (hs : hp[src]? = some s) (hd : hp[dst]? = some d) (hne : dst ≠ src)
    (wfs : s.WF w h) (fd : d.Fits w h) (hw : 2 * r + 1 ≤ w) (hh : 2 * r + 1 ≤ h) :
    (∃ (tr : Trace) (d1 : RGBA),
      boxBlurHT dst src (r : Int) [] hp = (Except.ok tr, hp.set dst d1) ∧
      boxBlurH dst src (r : Int) hp = (Except.ok (), hp.set dst d1) ∧
      (∀ (p : Nat) (i v : Int), Event.wr p i v ∈ tr →
        0 ≤ v ∧ v ≤ 255 * (2 * (r : Int) + 1) ∧
        0 ≤ v.tdiv (2 * (r : Int) + 1) ∧ v.tdiv (2 * (r : Int) + 1) ≤ 255 ∧
        ((uint8 (v.tdiv (2 * (r : Int) + 1)) : Nat) : Int) = v.tdiv (2 * (r : Int) + 1)) ∧
      ∀ x y c, x < w → y < h → c < 4 → ∀ lo hi : Nat,
        (∀ k, k < 2 * r + 1 →
          lo ≤ s.sample (clamp ((x : Int) + (k : Int) - (r : Int)) 0 ((w : Int) - 1)).toNat y c ∧
          s.sample (clamp ((x : Int) + (k : Int) - (r : Int)) 0 ((w : Int) - 1)).toNat y c ≤ hi) →
        lo ≤ d1.sample x y c ∧ d1.sample x y c ≤ hi) ∧
    (∃ (tr : Trace) (d1 : RGBA),
      boxBlurVT dst src (r : Int) [] hp = (Except.ok tr, hp.set dst d1) ∧
      boxBlurV dst src (r : Int) hp = (Except.ok (), hp.set dst d1) ∧
      (∀ (p : Nat) (i v : Int), Event.wr p i v ∈ tr →
        0 ≤ v ∧ v ≤ 255 * (2 * (r : Int) + 1) ∧
        0 ≤ v.tdiv (2 * (r : Int) + 1) ∧ v.tdiv (2 * (r : Int) + 1) ≤ 255 ∧
        ((uint8 (v.tdiv (2 * (r : Int) + 1)) : Nat) : Int) = v.tdiv (2 * (r : Int) + 1)) ∧
      ∀ x y c, x < w → y < h → c < 4 → ∀ lo hi : Nat,
        (∀ k, k < 2 * r + 1 →
          lo ≤ s.sample x (clamp ((y : Int) + (k : Int) - (r : Int)) 0 ((h : Int) - 1)).toNat c ∧
          s.sample x (clamp ((y : Int) + (k : Int) - (r : Int)) 0 ((h : Int) - 1)).toNat c ≤ hi) →
        lo ≤ d1.sample x y c ∧ d1.sample x y c ≤ hi) := by
  refine ⟨⟨traceH src dst s d r w h, { d with Pix := pixAfterH d s r w h },
      boxBlurHT_run hp dst src d s r w h [] hs hd hne wfs.fits fd hw,
      boxBlurH_run hp dst src d s r w h hs hd hne wfs.fits fd hw, ?_, ?_⟩,
    ⟨traceV src dst s d r w h, { d with Pix := pixAfterV d s r w h },
      boxBlurVT_run hp dst src d s r w h [] hs hd hne wfs.fits fd hh,
      boxBlurV_run hp dst src d s r w h hs hd hne wfs.fits fd hh, ?_, ?_⟩⟩
  · intro p i v he
    have b := traceH_write_bounds src dst s d r w h wfs.bytes hw p i v he
    exact ⟨b.1, b.2, tdiv_byte v r b.1 b.2⟩
  · intro x y c hx hy hc lo hi hwin
    rw [pixAfterH_sample d s r w h fd x y c hx hy hc,
      blurH_eq_mean r w s.sample (s.sample_lt wfs.bytes) (by omega)]
    exact mean_between _ (2 * r) lo hi hwin
  · intro p i v he
    have b := traceV_write_bounds src dst s d r w h wfs.bytes hh p i v he
    exact ⟨b.1, b.2, tdiv_byte v r b.1 b.2⟩
  · intro x y c hx hy hc lo hi hwin
    rw [pixAfterV_sample d s r w h fd x y c hx hy hc,
      blurV_eq_mean r h s.sample (s.sample_lt wfs.bytes) (by omega)]
    exact mean_between _ (2 * r) lo hi hwin

theorem accumulator_stays_in_byte_range_witness :
    (∃ (tr : Trace) (d1 : RGBA),
      boxBlurHT 1 0 ((1 : Nat) : Int) [] heap33 = (Except.ok tr, heap33.set 1 d1) ∧
      boxBlurH 1 0 ((1 : Nat) : Int) heap33 = (Except.ok (), heap33.set 1 d1) ∧
      (∀ (p : Nat) (i v : Int), Event.wr p i v ∈ tr →
        0 ≤ v ∧ v ≤ 255 * (2 * ((1 : Nat) : Int) + 1) ∧
        0 ≤ v.tdiv (2 * ((1 : Nat) : Int) + 1) ∧ v.tdiv (2 * ((1 : Nat) : Int) + 1) ≤ 255 ∧
        ((uint8 (v.tdiv (2 * ((1 : Nat) : Int) + 1)) : Nat) : Int)
          = v.tdiv (2 * ((1 : Nat) : Int) + 1)) ∧
      ∀ x y c : Nat, x < 3 → y < 3 → c < 4 → ∀ lo hi : Nat,
        (∀ k : Nat, k < 2 * 1 + 1 →
          lo ≤ (mkRGBA 3 3 (fun i => 7 * i)).sample
            (clamp ((x : Int) + (k : Int) - ((1 : Nat) : Int)) 0 (((3 : Nat) : Int) - 1)).toNat y c ∧
          (mkRGBA 3 3 (fun i => 7 * i)).sample
            (clamp ((x : Int) + (k : Int) - ((1 : Nat) : Int)) 0 (((3 : Nat) : Int) - 1)).toNat y c
              ≤ hi) →
        lo ≤ d1.sample x y c ∧ d1.sample x y c ≤ hi) ∧
    (∃ (tr : Trace) (d1 : RGBA),
      boxBlurVT 1 0 ((1 : Nat) : Int) [] heap33 = (Except.ok tr, heap33.set 1 d1) ∧
      boxBlurV 1 0 ((1 : Nat) : Int) heap33 = (Except.ok (), heap33.set 1 d1) ∧
      (∀ (p : Nat) (i v : Int), Event.wr p i v ∈ tr →
        0 ≤ v ∧ v ≤ 255 * (2 * ((1 : Nat) : Int) + 1) ∧
        0 ≤ v.tdiv (2 * ((1 : Nat) : Int) + 1) ∧ v.tdiv (2 * ((1 : Nat) : Int) + 1) ≤ 255 ∧
        ((uint8 (v.tdiv (2 * ((1 : Nat) : Int) + 1)) : Nat) : Int)
          = v.tdiv (2 * ((1 : Nat) : Int) + 1)) ∧
      ∀ x y c : Nat, x < 3 → y < 3 → c < 4 → ∀ lo hi : Nat,
        (∀ k : Nat, k < 2 * 1 + 1 →
          lo ≤ (mkRGBA 3 3 (fun i => 7 * i)).sample x
            (clamp ((y : Int) + (k : Int) - ((1 : Nat) : Int)) 0 (((3 : Nat) : Int) - 1)).toNat c ∧
          (mkRGBA 3 3 (fun i => 7 * i)).sample x
            (clamp ((y : Int) + (k : Int) - ((1 : Nat) : Int)) 0 (((3 : Nat) : Int) - 1)).toNat c
              ≤ hi) →
        lo ≤ d1.sample x y c ∧ d1.sample x y c ≤ hi) :=
  accumulator_stays_in_byte_range heap33 1 0 (mkRGBA 3 3 (fun _ => 0))
    (mkRGBA 3 3 (fun i => 7 * i)) 1 3 3 rfl rfl (by decide)
    ⟨⟨rfl, rfl, by decide, by decide⟩, by decide⟩ ⟨rfl, rfl, by decide, by decide⟩
    (by decide) (by decide)

/-! ## Binary exponents -/

theorem nlog2_spec (fuel n : Nat) (h1 : 1 ≤ n) (h2 : n ≤ fuel) :
    2 ^ nlog2 fuel n ≤ n ∧ n < 2 ^ (nlog2 fuel n + 1) := by
  induction fuel generalizing n with
  | zero => omega
  | succ fuel ih =>
    unfold nlog2
    by_cases h : n < 2
    · rw [if_pos h]
      simp
      omega
    · rw [if_neg h]
      obtain ⟨i1, i2⟩ := ih (n / 2) (by omega) (by omega)
      have e1 : 2 ^ (nlog2 fuel (n / 2) + 1) = 2 * 2 ^ nlog2 fuel (n / 2) := by ring
      have e2 : 2 ^ (nlog2 fuel (n / 2) + 1 + 1) = 4 * 2 ^ nlog2 fuel (n / 2) := by ring
      rw [e1] at i2
      rw [e1, e2]
      generalize 2 ^ nlog2 fuel (n / 2) = p at i1 i2 ⊢
      omega

theorem two_zpow_pos (e : Int) : (0 : ℚ) < (2 : ℚ) ^ e := zpow_pos (by norm_num) e

theorem two_zpow_le {a b : Int} (h : a ≤ b) : (2 : ℚ) ^ a ≤ (2 : ℚ) ^ b :=
  zpow_le_zpow_right₀ (by norm_num) h

theorem two_zpow_lt_iff {a b : Int} : (2 : ℚ) ^ a < (2 : ℚ) ^ b ↔ a < b :=
  zpow_lt_zpow_iff_right₀ (by norm_num)

theorem two_zpow_succ (e : Int) : (2 : ℚ) ^ (e + 1) = 2 * (2 : ℚ) ^ e := by
  rw [zpow_add₀ (by norm_num), zpow_one, mul_comm]

theorem log2Floor_spec (q : ℚ) (hq : 0 < q) :
    (2 : ℚ) ^ log2Floor q ≤ q ∧ q < (2 : ℚ) ^ (log2Floor q + 1) := by
  have hnum : 0 < q.num := Rat.num_pos.mpr hq
  have ha1 : 1 ≤ q.num.natAbs := by omega
  have hb1 : 1 ≤ q.den := q.den_pos
  obtain ⟨a1, a2⟩ := nlog2_spec q.num.natAbs q.num.natAbs ha1 (le_refl _)
  obtain ⟨b1, b2⟩ := nlog2_spec q.den q.den hb1 (le_refl _)
  have h2 : (q.num : ℚ) = ((q.num.natAbs : Nat) : ℚ) := by
    have h3 : q.num = ((q.num.natAbs : Nat) : Int) :=
      (Int.natAbs_of_nonneg (le_of_lt hnum)).symm
    conv_lhs => rw [h3]
    exact Int.cast_natCast _
  have hqe : q = ((q.num.natAbs : Nat) : ℚ) / (q.den : ℚ) := by
    rw [← h2]
    exact (Rat.num_div_den q).symm
  unfold log2Floor
  simp only []
  generalize q.num.natAbs = a at a1 a2 hqe ⊢
  generalize q.den = b at b1 b2 hqe hb1 ⊢
  have hb0 : (0 : ℚ) < (b : ℚ) := by exact_mod_cast hb1
  have A1 : (2 : ℚ) ^ ((nlog2 a a : Nat) : Int) ≤ (a : ℚ) := by
    rw [zpow_natCast]; exact_mod_cast a1
  have A2 : (a : ℚ) < 2 * (2 : ℚ) ^ ((nlog2 a a : Nat) : Int) := by
    rw [zpow_natCast]
    have : a < 2 * 2 ^ nlog2 a a := by rw [pow_succ] at a2; omega
    exact_mod_cast this
  have B1 : (2 : ℚ) ^ ((nlog2 b b : Nat) : Int) ≤ (b : ℚ) := by
    rw [zpow_natCast]; exact_mod_cast b1
  have B2 : (b : ℚ) < 2 * (2 : ℚ) ^ ((nlog2 b b : Nat) : Int) := by
    rw [zpow_natCast]
    have : b < 2 * 2 ^ nlog2 b b := by rw [pow_succ] at b2; omega
    exact_mod_cast this
  have hsub : (2 : ℚ) ^ (((nlog2 a a : Nat) : Int) - ((nlog2 b b : Nat) : Int))
      = (2 : ℚ) ^ ((nlog2 a a : Nat) : Int) / (2 : ℚ) ^ ((nlog2 b b : Nat) : Int) :=
    zpow_sub₀ (by norm_num) _ _
  have hsub1 : (2 : ℚ) ^ (((nlog2 a a : Nat) : Int) - ((nlog2 b b : Nat) : Int) - 1)
      = (2 : ℚ) ^ (((nlog2 a a : Nat) : Int) - ((nlog2 b b : Nat) : Int)) / 2 := by
    rw [zpow_sub₀ (by norm_num), zpow_one]
  have pa := two_zpow_pos ((nlog2 a a : Nat) : Int)
  have pb := two_zpow_pos ((nlog2 b b : Nat) : Int)
  generalize (2 : ℚ) ^ ((nlog2 a a : Nat) : Int) = A at A1 A2 hsub pa
  generalize (2 : ℚ) ^ ((nlog2 b b : Nat) : Int) = B at B1 B2 hsub pb
  have hlo : A / B / 2 < q := by
    rw [hqe, div_div, div_lt_div_iff₀ (by positivity) hb0]
    nlinarith
  have hhi : q < 2 * (A / B) := by
    rw [hqe, ← mul_div_assoc, div_lt_div_iff₀ hb0 pb]
    nlinarith
  by_cases hc : q < (2 : ℚ) ^ (((nlog2 a a : Nat) : Int) - ((nlog2 b b : Nat) : Int))
  · rw [if_pos hc, sub_add_cancel]
    refine ⟨?_, hc⟩
    rw [hsub1, hsub]
    exact le_of_lt hlo
  · rw [if_neg hc, two_zpow_succ, hsub]
    exact ⟨by rw [← hsub]; exact not_lt.mp hc, hhi⟩

theorem log2Floor_eq (q : ℚ) (e : Int) (h1 : (2 : ℚ) ^ e ≤ q) (h2 : q < (2 : ℚ) ^ (e + 1)) :
    log2Floor q = e := by
  have hq : 0 < q := lt_of_lt_of_le (two_zpow_pos e) h1
  obtain ⟨s1, s2⟩ := log2Floor_spec q hq
  have c1 : e < log2Floor q + 1 := two_zpow_lt_iff.mp (lt_of_le_of_lt h1 s2)
  have c2 : log2Floor q < e + 1 := two_zpow_lt_iff.mp (lt_of_le_of_lt s1 h2)
  omega

/-! ## Rounding to binary64 -/

theorem roundHalfEven_int (n : Int) : roundHalfEven (n : ℚ) = n := by
  unfold roundHalfEven
  simp only [Int.floor_intCast, sub_self]
  norm_num

theorem roundHalfEven_ge (x : ℚ) (n : Int) (h : (n : ℚ) ≤ x) : n ≤ roundHalfEven x := by
  have hf : n ≤ ⌊x⌋ := Int.le_floor.mpr h
  unfold roundHalfEven
  simp only []
  split_ifs <;> omega

theorem roundHalfEven_le (x : ℚ) (n : Int) (h : x ≤ (n : ℚ)) : roundHalfEven x ≤ n := by
  have hf : ⌊x⌋ ≤ n := by
    have := Int.floor_le x
    exact_mod_cast (le_trans this h : ((⌊x⌋ : Int) : ℚ) ≤ (n : ℚ))
  have hstep : 0 < x - (⌊x⌋ : ℚ) → ⌊x⌋ + 1 ≤ n := by
    intro hd
    have h1 : ((⌊x⌋ : Int) : ℚ) < (n : ℚ) := by linarith
    have h2 : ⌊x⌋ < n := by exact_mod_cast h1
    omega
  unfold roundHalfEven
  simp only []
  split_ifs with c1 c2 c3
  · exact hf
  · exact hstep (by linarith)
  · exact hf
  · exact hstep (by linarith)

theorem roundHalfEven_half (n : Int) (hn : n % 2 = 0) :
    roundHalfEven ((n : ℚ) + 1 / 2) = n := by
  have hf : ⌊(n : ℚ) + 1 / 2⌋ = n := by
    rw [Int.floor_eq_iff]
    constructor <;> linarith
  unfold roundHalfEven
  simp only [hf]
  have hd : (n : ℚ) + 1 / 2 - (n : ℚ) = 1 / 2 := by ring
  rw [hd]
  simp [hn]

theorem round64_of_binade (q : ℚ) (e : Int) (he : -1022 ≤ e) (h1 : (2 : ℚ) ^ e ≤ q)
    (h2 : q < (2 : ℚ) ^ (e + 1)) :
    round64 q = (roundHalfEven (q / (2 : ℚ) ^ (e - 52)) : ℚ) * (2 : ℚ) ^ (e - 52) := by
  have hq : 0 < q := lt_of_lt_of_le (two_zpow_pos e) h1
  unfold round64
  rw [if_neg (ne_of_gt hq)]
  simp only []
  rw [abs_of_pos hq, log2Floor_eq q e h1 h2, max_eq_left he]

theorem round64_exact (m k : Int) (hm : |m| < 2 ^ 53) (hk : -1074 ≤ k) :
    round64 ((m : ℚ) * (2 : ℚ) ^ k) = (m : ℚ) * (2 : ℚ) ^ k := by
  by_cases h0 : m = 0
  · subst h0
    simp [round64]
  have hq0 : (m : ℚ) * (2 : ℚ) ^ k ≠ 0 :=
    mul_ne_zero (by exact_mod_cast h0) (ne_of_gt (two_zpow_pos k))
  have habs : |(m : ℚ) * (2 : ℚ) ^ k| = (|m| : Int) * (2 : ℚ) ^ k := by
    rw [abs_mul, abs_of_pos (two_zpow_pos k)]
    push_cast
    rfl
  have hpos : 0 < |(m : ℚ) * (2 : ℚ) ^ k| := abs_pos.mpr hq0
  obtain ⟨s1, s2⟩ := log2Floor_spec _ hpos
  have hlt : |(m : ℚ) * (2 : ℚ) ^ k| < (2 : ℚ) ^ (53 + k) := by
    rw [habs, zpow_add₀ (by norm_num : (2 : ℚ) ≠ 0)]
    apply mul_lt_mul_of_pos_right _ (two_zpow_pos k)
    exact_mod_cast hm
  have he : log2Floor |(m : ℚ) * (2 : ℚ) ^ k| < 53 + k :=
    two_zpow_lt_iff.mp (lt_of_le_of_lt s1 hlt)
  unfold round64
  rw [if_neg hq0]
  simp only []
  generalize log2Floor |(m : ℚ) * (2 : ℚ) ^ k| = e at he
  have hj : max e (-1022) - 52 ≤ k := by
    rcases le_total e (-1022) with h | h
    · rw [max_eq_right h]; omega
    · rw [max_eq_left h]; omega
  generalize max e (-1022) - 52 = j at hj
  obtain ⟨n, hn⟩ : ∃ n : Nat, k = j + (n : Int) := ⟨(k - j).toNat, by omega⟩
  have hk2 : (2 : ℚ) ^ k = (2 : ℚ) ^ j * (2 : ℚ) ^ n := by
    rw [hn, zpow_add₀ (by norm_num : (2 : ℚ) ≠ 0), zpow_natCast]
  have hdiv : (m : ℚ) * (2 : ℚ) ^ k / (2 : ℚ) ^ j = ((m * 2 ^ n : Int) : ℚ) := by
    rw [hk2]
    have := two_zpow_pos j
    field_simp
    ring
  rw [hdiv, roundHalfEven_int, hk2]
  push_cast
  ring

theorem round64_natCast (n : Nat) (h : n < 2 ^ 53) : round64 (n : ℚ) = (n : ℚ) := by
  have := round64_exact (n : Int) 0 (by rw [abs_of_nonneg (by omega)]; exact_mod_cast h)
    (by norm_num)
  simpa using this

theorem round64_intCast (z : Int) (h : |z| < 2 ^ 53) : round64 (z : ℚ) = (z : ℚ) := by
  have := round64_exact z 0 h (by norm_num)
  simpa using this

theorem round64_nonneg (q : ℚ) (h : 0 ≤ q) : 0 ≤ round64 q := by
  unfold round64
  split_ifs with h0
  · exact le_refl _
  · simp only []
    apply mul_nonneg _ (le_of_lt (two_zpow_pos _))
    have : (0 : Int) ≤ roundHalfEven (q / (2 : ℚ) ^ (max (log2Floor |q|) (-1022) - 52)) := by
      apply roundHalfEven_ge
      simp only [Int.cast_zero]
      exact div_nonneg h (le_of_lt (two_zpow_pos _))
    exact_mod_cast this

theorem round64_ge (q : ℚ) (E : Int) (hE : -1022 ≤ E) (h : (2 : ℚ) ^ E ≤ q) :
    (2 : ℚ) ^ E ≤ round64 q := by
  have hq : 0 < q := lt_of_lt_of_le (two_zpow_pos E) h
  obtain ⟨s1, s2⟩ := log2Floor_spec q hq
  have hEe : E ≤ log2Floor q := by
    have := two_zpow_lt_iff.mp (lt_of_le_of_lt h s2)
    omega
  rw [round64_of_binade q (log2Floor q) (by omega) s1 s2]
  have hu := two_zpow_pos (log2Floor q - 52)
  have h52 : ((2 ^ 52 : Int) : ℚ) ≤ q / (2 : ℚ) ^ (log2Floor q - 52) := by
    rw [le_div_iff₀ hu]
    have : ((2 ^ 52 : Int) : ℚ) * (2 : ℚ) ^ (log2Floor q - 52) = (2 : ℚ) ^ log2Floor q := by
      rw [zpow_sub₀ (by norm_num : (2 : ℚ) ≠ 0)]
      push_cast
      norm_num
      ring
    rw [this]
    exact s1
  have hr := roundHalfEven_ge _ _ h52
  have hr' : ((2 ^ 52 : Int) : ℚ)
      ≤ (roundHalfEven (q / (2 : ℚ) ^ (log2Floor q - 52)) : ℚ) := by exact_mod_cast hr
  calc (2 : ℚ) ^ E ≤ (2 : ℚ) ^ log2Floor q := two_zpow_le hEe
    _ = ((2 ^ 52 : Int) : ℚ) * (2 : ℚ) ^ (log2Floor q - 52) := by
      rw [zpow_sub₀ (by norm_num : (2 : ℚ) ≠ 0)]
      push_cast
      norm_num
      ring
    _ ≤ _ := mul_le_mul_of_nonneg_right hr' (le_of_lt hu)

theorem round64_le (q : ℚ) (E : Int) (hE : -1021 ≤ E) (h0 : 0 ≤ q) (h : q ≤ (2 : ℚ) ^ E) :
    round64 q ≤ (2 : ℚ) ^ E := by
  rcases eq_or_lt_of_le h0 with hz | hq
  · rw [← hz]
    simp [round64]
    exact le_of_lt (two_zpow_pos E)
  rcases eq_or_lt_of_le h with heq | hlt
  · rw [heq]
    have := round64_exact 1 E (by norm_num) (by omega)
    simp only [Int.cast_one, one_mul] at this
    rw [this]
  obtain ⟨s1, s2⟩ := log2Floor_spec q hq
  have heE : log2Floor q < E := two_zpow_lt_iff.mp (lt_of_le_of_lt s1 hlt)
  unfold round64
  rw [if_neg (ne_of_gt hq)]
  simp only []
  rw [abs_of_pos hq]
  generalize log2Floor q = e at s1 s2 heE
  have hm1 : e ≤ max e (-1022) := le_max_left _ _
  have hm2 : max e (-1022) + 1 ≤ E := by
    rcases le_total e (-1022) with h1 | h1
    · rw [max_eq_right h1]; omega
    · rw [max_eq_left h1]; omega
  generalize max e (-1022) = m at hm1 hm2
  have hu := two_zpow_pos (m - 52)
  have h53 : q / (2 : ℚ) ^ (m - 52) ≤ ((2 ^ 53 : Int) : ℚ) := by
    rw [div_le_iff₀ hu]
    have e1 : ((2 ^ 53 : Int) : ℚ) * (2 : ℚ) ^ (m - 52) = (2 : ℚ) ^ (m + 1) := by
      rw [zpow_sub₀ (by norm_num : (2 : ℚ) ≠ 0), zpow_add₀ (by norm_num : (2 : ℚ) ≠ 0)]
      push_cast
      norm_num
      ring
    rw [e1]
    exact le_of_lt (lt_of_lt_of_le s2 (two_zpow_le (by omega)))
  have hr := roundHalfEven_le _ _ h53
  have hr' : (roundHalfEven (q / (2 : ℚ) ^ (m - 52)) : ℚ) ≤ ((2 ^ 53 : Int) : ℚ) := by
    exact_mod_cast hr
  calc (roundHalfEven (q / (2 : ℚ) ^ (m - 52)) : ℚ) * (2 : ℚ) ^ (m - 52)
      ≤ ((2 ^ 53 : Int) : ℚ) * (2 : ℚ) ^ (m - 52) :=
        mul_le_mul_of_nonneg_right hr' (le_of_lt hu)
    _ = (2 : ℚ) ^ (m + 1) := by
      rw [zpow_sub₀ (by norm_num : (2 : ℚ) ≠ 0), zpow_add₀ (by norm_num : (2 : ℚ) ≠ 0)]
      push_cast
      norm_num
      ring
    _ ≤ (2 : ℚ) ^ E := two_zpow_le hm2

theorem roundHalfEven_mono (x y : ℚ) (h : x ≤ y) : roundHalfEven x ≤ roundHalfEven y := by
  have hf : ⌊x⌋ ≤ ⌊y⌋ := Int.floor_mono h
  rcases eq_or_lt_of_le hf with heq | hlt
  · unfold roundHalfEven
    simp only []
    rw [heq]
    generalize ⌊y⌋ = f
    have hd : x - (f : ℚ) ≤ y - (f : ℚ) := by linarith
    split_ifs <;> first | omega | (exfalso; linarith)
  · have h1 : roundHalfEven x ≤ ⌊x⌋ + 1 := by
      apply roundHalfEven_le
      push_cast
      exact le_of_lt (Int.lt_floor_add_one x)
    have h2 : ⌊y⌋ ≤ roundHalfEven y := roundHalfEven_ge y ⌊y⌋ (Int.floor_le y)
    omega

theorem round64_pos_eq (q : ℚ) (hq : 0 < q) :
    round64 q = (roundHalfEven (q / (2 : ℚ) ^ (max (log2Floor q) (-1022) - 52)) : ℚ)
      * (2 : ℚ) ^ (max (log2Floor q) (-1022) - 52) := by
  unfold round64
  rw [if_neg (ne_of_gt hq)]
  simp only []
  rw [abs_of_pos hq]

theorem round64_mono (q p : ℚ) (h0 : 0 ≤ q) (h : q ≤ p) : round64 q ≤ round64 p := by
  rcases eq_or_lt_of_le h0 with hz | hq
  · rw [← hz]
    have : round64 0 = 0 := by simp [round64]
    rw [this]
    exact round64_nonneg p (le_trans h0 h)
  have hp : 0 < p := lt_of_lt_of_le hq h
  obtain ⟨s1, s2⟩ := log2Floor_spec q hq
  obtain ⟨t1, t2⟩ := log2Floor_spec p hp
  have hee : log2Floor q ≤ log2Floor p := by
    have := two_zpow_lt_iff.mp (lt_of_le_of_lt (le_trans s1 h) t2)
    omega
  rcases eq_or_lt_of_le (max_le_max hee (le_refl (-1022 : Int))) with hm | hm
  · rw [round64_pos_eq q hq, round64_pos_eq p hp, hm]
    have hu := two_zpow_pos (max (log2Floor p) (-1022) - 52)
    apply mul_le_mul_of_nonneg_right _ (le_of_lt hu)
    have := roundHalfEven_mono _ _ (div_le_div_of_nonneg_right h (le_of_lt hu))
    exact_mod_cast this
  · have hm1 : log2Floor q ≤ max (log2Floor q) (-1022) := le_max_left _ _
    have hm2 : (-1022 : Int) ≤ max (log2Floor q) (-1022) := le_max_right _ _
    have hp1 : max (log2Floor p) (-1022) = log2Floor p := by
      rcases le_total (log2Floor p) (-1022) with c | c
      · rw [max_eq_right c] at hm
        omega
      · exact max_eq_left c
    rw [hp1] at hm
    generalize max (log2Floor q) (-1022) = m at hm hm1 hm2
    have a1 : round64 q ≤ (2 : ℚ) ^ (m + 1) :=
      round64_le q (m + 1) (by omega) h0
        (le_of_lt (lt_of_lt_of_le s2 (two_zpow_le (by omega))))
    have a2 : (2 : ℚ) ^ log2Floor p ≤ round64 p := round64_ge p _ (by omega) t1
    exact le_trans a1 (le_trans (two_zpow_le (by omega)) a2)

/-! ## The square root in binary64 -/

theorem isqrtAux_spec (y : Nat) : ∀ (i r : Nat), r * r ≤ y → y < (r + 2 ^ i) * (r + 2 ^ i) →
    isqrtAux y i r * isqrtAux y i r ≤ y ∧ y < (isqrtAux y i r + 1) * (isqrtAux y i r + 1)
  | 0, r, h1, h2 => by
    simp only [isqrtAux]
    exact ⟨h1, by simpa using h2⟩
  | i + 1, r, h1, h2 => by
    have e : r + 2 ^ i + 2 ^ i = r + 2 ^ (i + 1) := by rw [pow_succ]; ring
    simp only [isqrtAux]
    split_ifs with c
    · exact isqrtAux_spec y i (r + 2 ^ i) c (by rw [e]; exact h2)
    · exact isqrtAux_spec y i r h1 (by omega)

theorem sqrt64_core (x : ℚ) (hx : 0 < x) :
    ∃ n : Nat, 2 ^ 52 ≤ n ∧ n < 2 ^ 53 ∧
      (n : ℚ) ^ 2 * ((2 : ℚ) ^ (log2Floor x / 2 - 52)) ^ 2 ≤ x ∧
      x < ((n : ℚ) + 1) ^ 2 * ((2 : ℚ) ^ (log2Floor x / 2 - 52)) ^ 2 ∧
      ((sqrt64 x = (n : ℚ) * (2 : ℚ) ^ (log2Floor x / 2 - 52) ∧
          x ≤ ((n : ℚ) + 1 / 2) ^ 2 * ((2 : ℚ) ^ (log2Floor x / 2 - 52)) ^ 2) ∨
        (sqrt64 x = ((n : ℚ) + 1) * (2 : ℚ) ^ (log2Floor x / 2 - 52) ∧
          ((n : ℚ) + 1 / 2) ^ 2 * ((2 : ℚ) ^ (log2Floor x / 2 - 52)) ^ 2 ≤ x)) := by
  obtain ⟨s1, s2⟩ := log2Floor_spec x hx
  have hu := two_zpow_pos (log2Floor x / 2 - 52)
  have huu : (0 : ℚ) < (2 : ℚ) ^ (log2Floor x / 2 - 52) * (2 : ℚ) ^ (log2Floor x / 2 - 52) :=
    mul_pos hu hu
  have e104 : ((2 ^ 104 : Nat) : ℚ) * ((2 : ℚ) ^ (log2Floor x / 2 - 52)
      * (2 : ℚ) ^ (log2Floor x / 2 - 52)) = (2 : ℚ) ^ (2 * (log2Floor x / 2)) := by
    rw [← zpow_add₀ (by norm_num : (2 : ℚ) ≠ 0)]
    have : ((2 ^ 104 : Nat) : ℚ) = (2 : ℚ) ^ (104 : Int) := by norm_num
    rw [this, ← zpow_add₀ (by norm_num : (2 : ℚ) ≠ 0)]
    congr 1
    ring
  have e106 : ((2 ^ 106 : Nat) : ℚ) * ((2 : ℚ) ^ (log2Floor x / 2 - 52)
      * (2 : ℚ) ^ (log2Floor x / 2 - 52)) = (2 : ℚ) ^ (2 * (log2Floor x / 2) + 2) := by
    rw [← zpow_add₀ (by norm_num : (2 : ℚ) ≠ 0)]
    have : ((2 ^ 106 : Nat) : ℚ) = (2 : ℚ) ^ (106 : Int) := by norm_num
    rw [this, ← zpow_add₀ (by norm_num : (2 : ℚ) ≠ 0)]
    congr 1
    ring
  have y1 : ((2 ^ 104 : Nat) : ℚ) ≤ x / ((2 : ℚ) ^ (log2Floor x / 2 - 52)
      * (2 : ℚ) ^ (log2Floor x / 2 - 52)) := by
    rw [le_div_iff₀ huu, e104]
    exact le_trans (two_zpow_le (by omega)) s1
  have y2 : x / ((2 : ℚ) ^ (log2Floor x / 2 - 52) * (2 : ℚ) ^ (log2Floor x / 2 - 52))
      < ((2 ^ 106 : Nat) : ℚ) := by
    rw [div_lt_iff₀ huu, e106]
    exact lt_of_lt_of_le s2 (two_zpow_le (by omega))
  generalize hy : x / ((2 : ℚ) ^ (log2Floor x / 2 - 52) * (2 : ℚ) ^ (log2Floor x / 2 - 52)) = y
    at y1 y2
  have hxy : x = y * ((2 : ℚ) ^ (log2Floor x / 2 - 52)) ^ 2 := by
    rw [← hy, sq]
    exact (div_mul_cancel₀ x (ne_of_gt huu)).symm
  have hy0 : 0 ≤ y := le_trans (by positivity) y1
  have hfl0 : 0 ≤ ⌊y⌋ := Int.floor_nonneg.mpr hy0
  have hY1 : ((⌊y⌋.toNat : Nat) : ℚ) ≤ y := by
    have := Int.floor_le y
    have e : ((⌊y⌋.toNat : Nat) : ℚ) = ((⌊y⌋ : Int) : ℚ) := by
      have : ((⌊y⌋.toNat : Nat) : Int) = ⌊y⌋ := Int.toNat_of_nonneg hfl0
      exact_mod_cast congrArg (fun z : Int => (z : ℚ)) this
    rw [e]
    exact this
  have hY2 : y < ((⌊y⌋.toNat : Nat) : ℚ) + 1 := by
    have := Int.lt_floor_add_one y
    have e : ((⌊y⌋.toNat : Nat) : ℚ) = ((⌊y⌋ : Int) : ℚ) := by
      have : ((⌊y⌋.toNat : Nat) : Int) = ⌊y⌋ := Int.toNat_of_nonneg hfl0
      exact_mod_cast congrArg (fun z : Int => (z : ℚ)) this
    rw [e]
    exact this
  have hYlo : 2 ^ 104 ≤ ⌊y⌋.toNat := by
    have : ((2 ^ 104 : Nat) : ℚ) < ((⌊y⌋.toNat : Nat) : ℚ) + 1 := lt_of_le_of_lt y1 hY2
    have : (2 ^ 104 : Nat) < ⌊y⌋.toNat + 1 := by exact_mod_cast this
    omega
  have hYhi : ⌊y⌋.toNat < 2 ^ 106 := by
    have : ((⌊y⌋.toNat : Nat) : ℚ) < ((2 ^ 106 : Nat) : ℚ) := lt_of_le_of_lt hY1 y2
    exact_mod_cast this
  have hsp := isqrtAux_spec ⌊y⌋.toNat 53 0 (by omega) (by
    have : (0 + 2 ^ 53) * (0 + 2 ^ 53) = 2 ^ 106 := by norm_num
    rw [this]
    exact hYhi)
  have hdef : sqrt64 x =
      (if y < ((isqrtAux ⌊y⌋.toNat 53 0 : ℚ) + 1 / 2) * ((isqrtAux ⌊y⌋.toNat 53 0 : ℚ) + 1 / 2)
        then (isqrtAux ⌊y⌋.toNat 53 0 : ℚ) * (2 : ℚ) ^ (log2Floor x / 2 - 52)
      else if ((isqrtAux ⌊y⌋.toNat 53 0 : ℚ) + 1 / 2) * ((isqrtAux ⌊y⌋.toNat 53 0 : ℚ) + 1 / 2) < y
        then ((isqrtAux ⌊y⌋.toNat 53 0 : ℚ) + 1) * (2 : ℚ) ^ (log2Floor x / 2 - 52)
      else if isqrtAux ⌊y⌋.toNat 53 0 % 2 = 0
        then (isqrtAux ⌊y⌋.toNat 53 0 : ℚ) * (2 : ℚ) ^ (log2Floor x / 2 - 52)
        else ((isqrtAux ⌊y⌋.toNat 53 0 : ℚ) + 1) * (2 : ℚ) ^ (log2Floor x / 2 - 52)) := by
    unfold sqrt64
    rw [if_neg (not_le.mpr hx)]
    simp only []
    rw [hy]
  generalize isqrtAux ⌊y⌋.toNat 53 0 = n at hsp hdef
  generalize ⌊y⌋.toNat = Y at hY1 hY2 hYlo hYhi hsp
  obtain ⟨p1, p2⟩ := hsp
  have hn1 : 2 ^ 52 ≤ n := by
    by_contra hc
    have h1 : n + 1 ≤ 2 ^ 52 := by omega
    have := Nat.mul_le_mul h1 h1
    have e : (2 ^ 52 : Nat) * 2 ^ 52 = 2 ^ 104 := by norm_num
    omega
  have hn2 : n < 2 ^ 53 := by
    by_contra hc
    have h1 : 2 ^ 53 ≤ n := by omega
    have := Nat.mul_le_mul h1 h1
    have e : (2 ^ 53 : Nat) * 2 ^ 53 = 2 ^ 106 := by norm_num
    omega
  have q1 : (n : ℚ) ^ 2 ≤ y := by
    have : ((n * n : Nat) : ℚ) ≤ (Y : ℚ) := by exact_mod_cast p1
    push_cast at this
    rw [sq]
    exact le_trans this hY1
  have q2 : y < ((n : ℚ) + 1) ^ 2 := by
    have : ((Y + 1 : Nat) : ℚ) ≤ (((n + 1) * (n + 1) : Nat) : ℚ) := by exact_mod_cast p2
    push_cast at this
    rw [sq]
    exact lt_of_lt_of_le hY2 this
  have hu2 : (0 : ℚ) < ((2 : ℚ) ^ (log2Floor x / 2 - 52)) ^ 2 := by positivity
  have hle : ∀ a b : ℚ, a ≤ b → a * ((2 : ℚ) ^ (log2Floor x / 2 - 52)) ^ 2
      ≤ b * ((2 : ℚ) ^ (log2Floor x / 2 - 52)) ^ 2 :=
    fun a b hab => mul_le_mul_of_nonneg_right hab (le_of_lt hu2)
  refine ⟨n, hn1, hn2, ?_, ?_, ?_⟩
  · calc _ ≤ y * ((2 : ℚ) ^ (log2Floor x / 2 - 52)) ^ 2 := hle _ _ q1
      _ = x := hxy.symm
  · calc x = y * ((2 : ℚ) ^ (log2Floor x / 2 - 52)) ^ 2 := hxy
      _ < _ := mul_lt_mul_of_pos_right q2 hu2
  · rw [hdef]
    split_ifs with c1 c2 c3
    · left
      refine ⟨rfl, ?_⟩
      calc x = y * ((2 : ℚ) ^ (log2Floor x / 2 - 52)) ^ 2 := hxy
        _ ≤ _ := hle _ _ (by rw [sq]; exact le_of_lt c1)
    · right
      refine ⟨rfl, ?_⟩
      calc _ ≤ y * ((2 : ℚ) ^ (log2Floor x / 2 - 52)) ^ 2 :=
            hle _ _ (by rw [sq]; exact le_of_lt c2)
        _ = x := hxy.symm
    · left
      refine ⟨rfl, ?_⟩
      calc x = y * ((2 : ℚ) ^ (log2Floor x / 2 - 52)) ^ 2 := hxy
        _ ≤ _ := hle _ _ (by rw [sq]; exact le_of_not_lt c2)
    · right
      refine ⟨rfl, ?_⟩
      calc _ ≤ y * ((2 : ℚ) ^ (log2Floor x / 2 - 52)) ^ 2 :=
            hle _ _ (by rw [sq]; exact le_of_not_lt c1)
        _ = x := hxy.symm

theorem le_of_sq_le_sq (a b : ℚ) (hb : 0 ≤ b) (h : a ^ 2 ≤ b ^ 2) : a ≤ b := by
  by_contra hc
  have := mul_self_lt_mul_self hb (not_le.mp hc)
  rw [sq, sq] at h
  linarith

theorem lt_of_sq_lt_sq (a b : ℚ) (hb : 0 ≤ b) (h : a ^ 2 < b ^ 2) : a < b := by
  by_contra hc
  have := mul_self_le_mul_self hb (not_lt.mp hc)
  rw [sq, sq] at h
  linarith

theorem sqrt64_ge_one (x : ℚ) (hx : 1 ≤ x) : 1 ≤ sqrt64 x := by
  have hx0 : 0 < x := lt_of_lt_of_le one_pos hx
  obtain ⟨s1, s2⟩ := log2Floor_spec x hx0
  have he : 0 ≤ log2Floor x := by
    have h1 : (2 : ℚ) ^ (0 : Int) ≤ x := by simpa using hx
    have := two_zpow_lt_iff.mp (lt_of_le_of_lt h1 s2)
    omega
  obtain ⟨n, hn1, hn2, c1, c2, c3⟩ := sqrt64_core x hx0
  have hu := two_zpow_pos (log2Floor x / 2 - 52)
  have hf : (1 : ℚ) ≤ ((2 ^ 52 : Nat) : ℚ) * (2 : ℚ) ^ (log2Floor x / 2 - 52) := by
    have e : ((2 ^ 52 : Nat) : ℚ) = (2 : ℚ) ^ (52 : Int) := by norm_num
    rw [e, ← zpow_add₀ (by norm_num : (2 : ℚ) ≠ 0)]
    have : (1 : ℚ) = (2 : ℚ) ^ (0 : Int) := by simp
    rw [this]
    exact two_zpow_le (by omega)
  have hn : ((2 ^ 52 : Nat) : ℚ) ≤ (n : ℚ) := by exact_mod_cast hn1
  have hnu : (1 : ℚ) ≤ (n : ℚ) * (2 : ℚ) ^ (log2Floor x / 2 - 52) :=
    le_trans hf (mul_le_mul_of_nonneg_right hn (le_of_lt hu))
  rcases c3 with ⟨e, _⟩ | ⟨e, _⟩
  · rw [e]
    exact hnu
  · rw [e]
    have : (n : ℚ) * (2 : ℚ) ^ (log2Floor x / 2 - 52)
        ≤ ((n : ℚ) + 1) * (2 : ℚ) ^ (log2Floor x / 2 - 52) :=
      mul_le_mul_of_nonneg_right (by linarith) (le_of_lt hu)
    linarith

theorem sqrt64_le (x : ℚ) (M : Nat) (j : Int) (hM : M < 2 ^ 53) (hx : 0 < x)
    (h : x ≤ ((M : ℚ) * (2 : ℚ) ^ j) ^ 2) : sqrt64 x ≤ (M : ℚ) * (2 : ℚ) ^ j := by
  obtain ⟨s1, s2⟩ := log2Floor_spec x hx
  have hj := two_zpow_pos j
  have hMq : (M : ℚ) < ((2 ^ 53 : Nat) : ℚ) := by exact_mod_cast hM
  have hM0 : (0 : ℚ) ≤ (M : ℚ) := Nat.cast_nonneg M
  have hfj : log2Floor x / 2 - 52 ≤ j := by
    have e53 : ((2 ^ 53 : Nat) : ℚ) * (2 : ℚ) ^ j = (2 : ℚ) ^ (53 + j) := by
      have e : ((2 ^ 53 : Nat) : ℚ) = (2 : ℚ) ^ (53 : Int) := by norm_num
      rw [e, ← zpow_add₀ (by norm_num : (2 : ℚ) ≠ 0)]
    have a1 : (M : ℚ) * (2 : ℚ) ^ j < (2 : ℚ) ^ (53 + j) := by
      rw [← e53]
      exact mul_lt_mul_of_pos_right hMq hj
    have a2 : ((M : ℚ) * (2 : ℚ) ^ j) ^ 2 < ((2 : ℚ) ^ (53 + j)) ^ 2 := by
      rw [sq, sq]
      exact mul_self_lt_mul_self (mul_nonneg hM0 (le_of_lt hj)) a1
    have a3 : ((2 : ℚ) ^ (53 + j)) ^ 2 = (2 : ℚ) ^ (106 + 2 * j) := by
      rw [sq, ← zpow_add₀ (by norm_num : (2 : ℚ) ≠ 0)]
      congr 1
      ring
    rw [a3] at a2
    have := two_zpow_lt_iff.mp (lt_of_le_of_lt s1 (lt_of_le_of_lt h a2))
    omega
  obtain ⟨n, hn1, hn2, c1, c2, c3⟩ := sqrt64_core x hx
  generalize log2Floor x / 2 - 52 = g at hfj c1 c2 c3
  have hu := two_zpow_pos g
  have hu2 : (0 : ℚ) < ((2 : ℚ) ^ g) ^ 2 := by positivity
  obtain ⟨k, hk⟩ : ∃ k : Nat, j = g + (k : Int) := ⟨(j - g).toNat, by omega⟩
  have hjk : (2 : ℚ) ^ j = (2 : ℚ) ^ k * (2 : ℚ) ^ g := by
    rw [hk, zpow_add₀ (by norm_num : (2 : ℚ) ≠ 0), zpow_natCast, mul_comm]
  have hT : (M : ℚ) * (2 : ℚ) ^ j = ((M * 2 ^ k : Nat) : ℚ) * (2 : ℚ) ^ g := by
    rw [hjk]
    push_cast
    ring
  rw [hT] at h ⊢
  generalize M * 2 ^ k = T at h
  have hT0 : (0 : ℚ) ≤ (T : ℚ) := Nat.cast_nonneg T
  rw [mul_pow] at h
  rcases c3 with ⟨e, _⟩ | ⟨e, c4⟩
  · rw [e]
    apply mul_le_mul_of_nonneg_right _ (le_of_lt hu)
    apply le_of_sq_le_sq _ _ hT0
    exact le_of_mul_le_mul_right (le_trans c1 h) hu2
  · rw [e]
    apply mul_le_mul_of_nonneg_right _ (le_of_lt hu)
    have h5 : (n : ℚ) + 1 / 2 ≤ (T : ℚ) :=
      le_of_sq_le_sq _ _ hT0 (le_of_mul_le_mul_right (le_trans c4 h) hu2)
    have h6 : (n : ℚ) < (T : ℚ) := by linarith
    have h7 : n < T := by exact_mod_cast h6
    have h8 : n + 1 ≤ T := h7
    exact_mod_cast h8

theorem floor_sqrt64 (x : ℚ) (m : Nat) (hm : 1 ≤ m) (h1 : (m : ℚ) ^ 2 ≤ x)
    (h2 : x < ((m : ℚ) + 1 / 2) ^ 2) (h3 : x < (2 : ℚ) ^ (106 : Int)) :
    ⌊sqrt64 x⌋ = (m : Int) := by
  have hm1 : (1 : ℚ) ≤ (m : ℚ) := by exact_mod_cast hm
  have hx1 : 1 ≤ x := by nlinarith
  have hx0 : 0 < x := lt_of_lt_of_le one_pos hx1
  obtain ⟨s1, s2⟩ := log2Floor_spec x hx0
  have he0 : 0 ≤ log2Floor x := by
    have h1 : (2 : ℚ) ^ (0 : Int) ≤ x := by simpa using hx1
    have := two_zpow_lt_iff.mp (lt_of_le_of_lt h1 s2)
    omega
  have he1 : log2Floor x < 106 := two_zpow_lt_iff.mp (lt_of_le_of_lt s1 h3)
  obtain ⟨n, hn1, hn2, c1, c2, c3⟩ := sqrt64_core x hx0
  obtain ⟨k, hk⟩ : ∃ k : Nat, log2Floor x / 2 - 52 = -(k : Int) :=
    ⟨(52 - log2Floor x / 2).toNat, by omega⟩
  rw [hk] at c1 c2 c3
  have hK : (0 : ℚ) < (2 : ℚ) ^ k := by positivity
  have hK1 : (1 : ℚ) ≤ (2 : ℚ) ^ k := one_le_pow₀ (by norm_num)
  have hu : (2 : ℚ) ^ (-(k : Int)) = 1 / (2 : ℚ) ^ k := by
    rw [zpow_neg, zpow_natCast, one_div]
  rw [hu] at c1 c2 c3
  generalize hU : 1 / (2 : ℚ) ^ k = u at c1 c2 c3
  have hu0 : 0 < u := by rw [← hU]; positivity
  have hu1 : u ≤ 1 := by
    rw [← hU, div_le_one hK]
    exact hK1
  have huK : (2 : ℚ) ^ k * u = 1 := by
    rw [← hU]
    field_simp
  have hn0 : (0 : ℚ) ≤ (n : ℚ) := Nat.cast_nonneg n
  have hm0 : (0 : ℚ) ≤ (m : ℚ) := Nat.cast_nonneg m
  -- m ≤ n * u
  have b1 : (m : ℚ) < ((n : ℚ) + 1) * u := by
    apply lt_of_sq_lt_sq _ _ (mul_nonneg (by linarith) (le_of_lt hu0))
    rw [mul_pow]
    exact lt_of_le_of_lt h1 c2
  have b2 : (m : ℚ) * (2 : ℚ) ^ k < (n : ℚ) + 1 := by
    have := mul_lt_mul_of_pos_right b1 hK
    have e : ((n : ℚ) + 1) * u * (2 : ℚ) ^ k = (n : ℚ) + 1 := by
      rw [mul_assoc, mul_comm u, huK, mul_one]
    rw [e] at this
    exact this
  have b3 : m * 2 ^ k < n + 1 := by exact_mod_cast b2
  have b4 : m * 2 ^ k ≤ n := by omega
  have b5 : (m : ℚ) * (2 : ℚ) ^ k ≤ (n : ℚ) := by exact_mod_cast b4
  have b6 : (m : ℚ) ≤ (n : ℚ) * u := by
    have := mul_le_mul_of_nonneg_right b5 (le_of_lt hu0)
    rw [mul_assoc, huK, mul_one] at this
    exact this
  rw [Int.floor_eq_iff]
  push_cast
  rcases c3 with ⟨e, _⟩ | ⟨e, c4⟩
  · rw [e]
    refine ⟨b6, ?_⟩
    have b7 : (n : ℚ) * u < (m : ℚ) + 1 / 2 := by
      apply lt_of_sq_lt_sq _ _ (by linarith)
      rw [mul_pow]
      exact lt_of_le_of_lt c1 h2
    linarith
  · rw [e]
    constructor
    · have : (n : ℚ) * u ≤ ((n : ℚ) + 1) * u :=
        mul_le_mul_of_nonneg_right (by linarith) (le_of_lt hu0)
      linarith
    · have b7 : ((n : ℚ) + 1 / 2) * u < (m : ℚ) + 1 / 2 := by
        apply lt_of_sq_lt_sq _ _ (by linarith)
        rw [mul_pow]
        exact lt_of_le_of_lt c4 h2
      have e2 : ((n : ℚ) + 1) * u = ((n : ℚ) + 1 / 2) * u + u / 2 := by ring
      rw [e2]
      linarith

/-! ## Conversions and wrap-around -/

theorem wrap64_id (z : Int) (h1 : -2 ^ 63 ≤ z) (h2 : z < 2 ^ 63) : wrap64 z = z := by
  unfold wrap64
  omega

theorem toInt64_intCast (z : Int) (h1 : -2 ^ 63 ≤ z) (h2 : z < 2 ^ 63) :
    toInt64 (z : ℚ) = z := by
  have a : -(2 : ℚ) ^ 63 ≤ (z : ℚ) := by
    have : ((-2 ^ 63 : Int) : ℚ) ≤ (z : ℚ) := by exact_mod_cast h1
    simpa using this
  have b : (z : ℚ) < (2 : ℚ) ^ 63 := by
    have : (z : ℚ) < ((2 ^ 63 : Int) : ℚ) := by exact_mod_cast h2
    simpa using this
  unfold toInt64
  rw [if_pos ⟨a, b⟩]
  split_ifs
  · exact Int.floor_intCast z
  · exact Int.ceil_intCast z

/-! ## The solver in machine arithmetic: the widths -/

theorem round64_three : round64 ((3 : Nat) : ℚ) = 3 := by
  have := round64_natCast 3 (by norm_num)
  simpa using this

theorem float64_le_of_lt (s : ℚ) (hrep : round64 s = s) (hlt : s < (2 : ℚ) ^ 62) :
    s ≤ (2 : ℚ) ^ 62 - 2 ^ 9 := by
  rcases le_or_lt s ((2 : ℚ) ^ 61) with h | h
  · have : (2 : ℚ) ^ 61 ≤ (2 : ℚ) ^ 62 - 2 ^ 9 := by norm_num
    linarith
  · have e := round64_of_binade s 61 (by norm_num) (by exact_mod_cast le_of_lt h)
      (by exact_mod_cast hlt)
    rw [hrep] at e
    have e9 : (2 : ℚ) ^ ((61 : Int) - 52) = 512 := by norm_num
    rw [e9] at e
    generalize roundHalfEven (s / 512) = k at e
    have h1 : (k : ℚ) * 512 < ((2 ^ 53 : Int) : ℚ) * 512 := by
      rw [← e]
      have : ((2 ^ 53 : Int) : ℚ) * 512 = (2 : ℚ) ^ 62 := by norm_num
      rw [this]
      exact hlt
    have h2 : (k : ℚ) < ((2 ^ 53 : Int) : ℚ) := lt_of_mul_lt_mul_right h1 (by norm_num)
    have h3 : k < 2 ^ 53 := by exact_mod_cast h2
    have h4 : k ≤ 2 ^ 53 - 1 := by omega
    have h5 : (k : ℚ) ≤ ((2 ^ 53 - 1 : Int) : ℚ) := by exact_mod_cast h4
    rw [e]
    have : (2 : ℚ) ^ 62 - 2 ^ 9 = ((2 ^ 53 - 1 : Int) : ℚ) * 512 := by norm_num
    rw [this]
    exact mul_le_mul_of_nonneg_right h5 (by norm_num)

theorem float64OfInt_le (r : Int) (h0 : 0 ≤ r) (h : r ≤ 2 ^ 62 - 257) :
    0 ≤ float64OfInt r ∧ float64OfInt r ≤ (2 : ℚ) ^ 62 - 2 ^ 9 := by
  have h0q : (0 : ℚ) ≤ (r : ℚ) := by exact_mod_cast h0
  have hq : (r : ℚ) ≤ ((2 ^ 62 - 257 : Int) : ℚ) := by exact_mod_cast h
  have e : round64 ((2 ^ 62 - 257 : Int) : ℚ) = (2 : ℚ) ^ 62 - 2 ^ 9 := by decide!
  unfold float64OfInt
  refine ⟨round64_nonneg _ h0q, ?_⟩
  rw [← e]
  exact round64_mono _ _ h0q hq

theorem idealWeight64_bounds (s : ℚ) (h0 : 0 ≤ s) (hS : s ≤ (2 : ℚ) ^ 62 - 2 ^ 9) :
    1 ≤ idealWeight64 s 3 ∧
      idealWeight64 s 3 ≤ ((2 ^ 53 - 1 : Nat) : ℚ) * (2 : ℚ) ^ (10 : Int) := by
  have hS0 : (0 : ℚ) ≤ (2 : ℚ) ^ 62 - 2 ^ 9 := by norm_num
  have a0 : 0 ≤ round64 (12 * s) := round64_nonneg _ (by linarith)
  have a1 : round64 (12 * s) ≤ round64 (12 * ((2 : ℚ) ^ 62 - 2 ^ 9)) :=
    round64_mono _ _ (by linarith) (by linarith)
  have b0 : 0 ≤ round64 (12 * s) * s := mul_nonneg a0 h0
  have b1 : round64 (12 * s) * s
      ≤ round64 (12 * ((2 : ℚ) ^ 62 - 2 ^ 9)) * ((2 : ℚ) ^ 62 - 2 ^ 9) :=
    mul_le_mul a1 hS h0 (le_trans a0 a1)
  have b2 := round64_mono _ _ b0 b1
  have b3 : 0 ≤ round64 (round64 (12 * s) * s) := round64_nonneg _ b0
  have c0 : 0 ≤ round64 (round64 (12 * s) * s) / round64 ((3 : Nat) : ℚ) := by
    rw [round64_three]
    exact div_nonneg b3 (by norm_num)
  have c1 : round64 (round64 (12 * s) * s) / round64 ((3 : Nat) : ℚ)
      ≤ round64 (round64 (12 * ((2 : ℚ) ^ 62 - 2 ^ 9)) * ((2 : ℚ) ^ 62 - 2 ^ 9))
        / round64 ((3 : Nat) : ℚ) := by
    rw [round64_three]
    exact div_le_div_of_nonneg_right b2 (by norm_num)
  have c2 := round64_mono _ _ c0 c1
  have c3 := round64_nonneg _ c0
  have d1 := round64_mono _ _ (by linarith : (0 : ℚ) ≤ round64 (round64 (round64 (12 * s) * s)
    / round64 ((3 : Nat) : ℚ)) + 1) (add_le_add_right c2 1)
  have d2 : (1 : ℚ) ≤ round64 (round64 (round64 (round64 (12 * s) * s)
      / round64 ((3 : Nat) : ℚ)) + 1) := by
    have := round64_ge (round64 (round64 (round64 (12 * s) * s)
      / round64 ((3 : Nat) : ℚ)) + 1) 0 (by norm_num) (by simp only [zpow_zero]; linarith)
    simpa using this
  have dmax : round64 (round64 (round64 (round64 (12 * ((2 : ℚ) ^ 62 - 2 ^ 9))
      * ((2 : ℚ) ^ 62 - 2 ^ 9)) / round64 ((3 : Nat) : ℚ)) + 1)
      ≤ (((2 ^ 53 - 1 : Nat) : ℚ) * (2 : ℚ) ^ (10 : Int)) ^ 2 := by decide!
  unfold idealWeight64
  exact ⟨sqrt64_ge_one _ d2,
    sqrt64_le _ _ _ (by norm_num) (by linarith) (le_trans d1 dmax)⟩

theorem boxWlo64_bounds (s : ℚ) (h0 : 0 ≤ s) (hS : s ≤ (2 : ℚ) ^ 62 - 2 ^ 9) :
    1 ≤ boxWlo64 s 3 ∧ boxWlo64 s 3 ≤ 2 ^ 63 - 1025 ∧ boxWlo64 s 3 % 2 = 1 := by
  obtain ⟨w1, w2⟩ := idealWeight64_bounds s h0 hS
  have f1 : (1 : Int) ≤ ⌊idealWeight64 s 3⌋ := Int.le_floor.mpr (by simpa using w1)
  have f2 : ⌊idealWeight64 s 3⌋ ≤ 2 ^ 63 - 1024 := by
    have h1 : ((⌊idealWeight64 s 3⌋ : Int) : ℚ) ≤ ((2 ^ 63 - 1024 : Int) : ℚ) := by
      have e : ((2 ^ 63 - 1024 : Int) : ℚ) = ((2 ^ 53 - 1 : Nat) : ℚ) * (2 : ℚ) ^ (10 : Int) := by
        norm_num
      rw [e]
      exact le_trans (Int.floor_le _) w2
    exact_mod_cast h1
  unfold boxWlo64
  simp only []
  rw [toInt64_intCast _ (by omega) (by omega)]
  generalize ⌊idealWeight64 s 3⌋ = a at f1 f2
  have hmod : a.tmod 2 = a % 2 := Int.tmod_eq_emod (by omega) (by omega)
  rw [hmod]
  split_ifs with c
  · rw [wrap64_id _ (by omega) (by omega)]
    omega
  · omega

theorem boxWup64_eq (s : ℚ) (h0 : 0 ≤ s) (hS : s ≤ (2 : ℚ) ^ 62 - 2 ^ 9) :
    boxWup64 s 3 = boxWlo64 s 3 + 2 := by
  obtain ⟨w1, w2, _⟩ := boxWlo64_bounds s h0 hS
  unfold boxWup64
  exact wrap64_id _ (by omega) (by omega)

theorem determineBoxes64_eq (s : ℚ) (h0 : 0 ≤ s) (hS : s ≤ (2 : ℚ) ^ 62 - 2 ^ 9) :
    determineBoxes64 s 3 = some
      [if 0 < boxMedian64 s 3 then boxWlo64 s 3 else boxWlo64 s 3 + 2,
        if 1 < boxMedian64 s 3 then boxWlo64 s 3 else boxWlo64 s 3 + 2,
        if 2 < boxMedian64 s 3 then boxWlo64 s 3 else boxWlo64 s 3 + 2] := by
  have hs : |s| < (2 : ℚ) ^ 500 := by
    rw [abs_of_nonneg h0]
    have : (2 : ℚ) ^ 62 - 2 ^ 9 < (2 : ℚ) ^ 500 := by norm_num
    linarith
  unfold determineBoxes64
  rw [if_pos hs, boxWup64_eq s h0 hS]
  rfl

theorem determineBoxes64_widths (s : ℚ) (h0 : 0 ≤ s) (hS : s ≤ (2 : ℚ) ^ 62 - 2 ^ 9) :
    ∃ ws : List Int, determineBoxes64 s 3 = some ws ∧ ws.length = 3 ∧
      (∀ w ∈ ws, 1 ≤ w ∧ w % 2 = 1) ∧
      List.Pairwise (fun a b : Int => a ≤ b) ws ∧
      ∃ a : Int, ∀ b ∈ ws, b = a ∨ b = a + 2 := by
  obtain ⟨w1, w2, w3⟩ := boxWlo64_bounds s h0 hS
  refine ⟨_, determineBoxes64_eq s h0 hS, rfl, ?_, ?_, boxWlo64 s 3, ?_⟩
  · intro w hw
    simp only [List.mem_cons, List.mem_singleton, List.not_mem_nil, or_false] at hw
    rcases hw with h | h | h <;> (rw [h]; split_ifs <;> omega)
  · refine List.Pairwise.cons ?_ (List.Pairwise.cons ?_ (List.Pairwise.cons ?_
      List.Pairwise.nil))
    · intro b hb
      simp only [List.mem_cons, List.mem_singleton, List.not_mem_nil, or_false] at hb
      rcases hb with h | h <;> (rw [h]; split_ifs <;> omega)
    · intro b hb
      simp only [List.mem_singleton] at hb
      rw [hb]
      split_ifs <;> omega
    · intro b hb
      cases hb
  · intro b hb
    simp only [List.mem_cons, List.mem_singleton, List.not_mem_nil, or_false] at hb
    rcases hb with h | h | h <;> (rw [h]; split_ifs <;> omega)

/-! ## The solver in machine arithmetic: integer radii up to 54794158 -/

theorem float64OfInt_natCast (r : Nat) (h : r < 2 ^ 53) : float64OfInt (r : Int) = (r : ℚ) := by
  unfold float64OfInt
  rw [Int.cast_natCast]
  exact round64_natCast r h

theorem sq_radius_le (r : Nat) (h2 : r ≤ 54794158) : r * r ≤ 3002399751025928 := by
  have := Nat.mul_le_mul h2 h2
  norm_num at this
  omega

theorem round64_twelve_mul (r : Nat) (h2 : r ≤ 54794158) :
    round64 (12 * (r : ℚ)) = 12 * (r : ℚ) := by
  have := round64_natCast (12 * r) (by omega)
  push_cast at this
  exact this

theorem round64_twelve_sq (r : Nat) (h2 : r ≤ 54794158) :
    round64 (12 * (r : ℚ) * (r : ℚ)) = 12 * (r : ℚ) * (r : ℚ) := by
  have hq := sq_radius_le r h2
  have := round64_exact ((3 * (r * r) : Nat) : Int) 2
    (by rw [abs_of_nonneg (by omega)]; omega) (by norm_num)
  have e : (((3 * (r * r) : Nat) : Int) : ℚ) * (2 : ℚ) ^ (2 : Int) = 12 * (r : ℚ) * (r : ℚ) := by
    push_cast
    norm_num
    ring
  rw [e] at this
  exact this

theorem round64_four_sq (r : Nat) (h2 : r ≤ 54794158) :
    round64 (12 * (r : ℚ) * (r : ℚ) / 3) = 4 * (r : ℚ) * (r : ℚ) := by
  have hq := sq_radius_le r h2
  have := round64_exact ((r * r : Nat) : Int) 2
    (by rw [abs_of_nonneg (by omega)]; omega) (by norm_num)
  have e : (((r * r : Nat) : Int) : ℚ) * (2 : ℚ) ^ (2 : Int) = 12 * (r : ℚ) * (r : ℚ) / 3 := by
    push_cast
    norm_num
    ring
  have e2 : (((r * r : Nat) : Int) : ℚ) * (2 : ℚ) ^ (2 : Int) = 4 * (r : ℚ) * (r : ℚ) := by
    push_cast
    norm_num
    ring
  rw [e] at this
  rw [this, ← e, e2]

theorem round64_four_sq_succ (r : Nat) (h2 : r ≤ 54794158) :
    round64 (4 * (r : ℚ) * (r : ℚ) + 4) = 4 * (r : ℚ) * (r : ℚ) + 4 := by
  have hq := sq_radius_le r h2
  have := round64_exact ((r * r + 1 : Nat) : Int) 2
    (by rw [abs_of_nonneg (by omega)]; omega) (by norm_num)
  have e : (((r * r + 1 : Nat) : Int) : ℚ) * (2 : ℚ) ^ (2 : Int) = 4 * (r : ℚ) * (r : ℚ) + 4 := by
    push_cast
    norm_num
    ring
  rw [e] at this
  exact this

theorem idealWeight64_floor_nat (r : Nat) (h1 : 1 ≤ r) (h2 : r ≤ 54794158) :
    ⌊idealWeight64 (r : ℚ) 3⌋ = 2 * (r : Int) := by
  rcases Nat.eq_or_lt_of_le h1 with h | h
  · subst h
    decide!
  have hq := sq_radius_le r h2
  have hr : (2 : ℚ) ≤ (r : ℚ) := by exact_mod_cast h
  have hsq : (0 : ℚ) ≤ (r : ℚ) * (r : ℚ) := mul_self_nonneg _
  have f4 : round64 (4 * (r : ℚ) * (r : ℚ)) = 4 * (r : ℚ) * (r : ℚ) := by
    have := round64_four_sq r h2
    have e : 12 * (r : ℚ) * (r : ℚ) / 3 = 4 * (r : ℚ) * (r : ℚ) := by ring
    rw [e] at this
    exact this
  have d1 : 4 * (r : ℚ) * (r : ℚ) ≤ round64 (4 * (r : ℚ) * (r : ℚ) + 1) := by
    have := round64_mono (4 * (r : ℚ) * (r : ℚ)) (4 * (r : ℚ) * (r : ℚ) + 1) (by linarith)
      (by linarith)
    rw [f4] at this
    exact this
  have d2 : round64 (4 * (r : ℚ) * (r : ℚ) + 1) ≤ 4 * (r : ℚ) * (r : ℚ) + 4 := by
    have := round64_mono (4 * (r : ℚ) * (r : ℚ) + 1) (4 * (r : ℚ) * (r : ℚ) + 4) (by linarith)
      (by linarith)
    rw [round64_four_sq_succ r h2] at this
    exact this
  have hqq : (r : ℚ) * (r : ℚ) ≤ 3002399751025928 := by
    have : ((r * r : Nat) : ℚ) ≤ ((3002399751025928 : Nat) : ℚ) := by exact_mod_cast hq
    push_cast at this
    exact this
  unfold idealWeight64
  rw [round64_twelve_mul r h2, round64_twelve_sq r h2, round64_three, round64_four_sq r h2]
  have := floor_sqrt64 (round64 (4 * (r : ℚ) * (r : ℚ) + 1)) (2 * r) (by omega)
    (by push_cast; linarith) (by push_cast; nlinarith)
    (by
      have : (4 : ℚ) * (r : ℚ) * (r : ℚ) + 4 < (2 : ℚ) ^ (106 : Int) := by
        have e : (2 : ℚ) ^ (106 : Int) = 81129638414606681695789005144064 := by norm_num
        rw [e]
        linarith
      linarith)
  rw [this]
  push_cast
  rfl

theorem boxWlo64_nat (r : Nat) (h1 : 1 ≤ r) (h2 : r ≤ 54794158) :
    boxWlo64 (r : ℚ) 3 = 2 * (r : Int) - 1 := by
  unfold boxWlo64
  simp only []
  rw [idealWeight64_floor_nat r h1 h2, toInt64_intCast _ (by omega) (by omega),
    if_pos (Int.mul_tmod_right 2 _)]
  exact wrap64_id _ (by omega) (by omega)

theorem boxWup64_nat (r : Nat) (h1 : 1 ≤ r) (h2 : r ≤ 54794158) :
    boxWup64 (r : ℚ) 3 = 2 * (r : Int) + 1 := by
  unfold boxWup64
  rw [boxWlo64_nat r h1 h2, wrap64_id _ (by omega) (by omega)]
  ring

theorem boxSum64_nat (r : Nat) (h1 : 1 ≤ r) (h2 : r ≤ 54794158) :
    wrap64 (wrap64 (wrap64 (wrap64 (((3 : Nat) : Int) * (2 * (r : Int) - 1)) * (2 * (r : Int) - 1))
        + wrap64 (wrap64 (4 * ((3 : Nat) : Int)) * (2 * (r : Int) - 1)))
      + wrap64 (3 * ((3 : Nat) : Int)))
      = 12 * ((r : Int) * (r : Int)) + 12 * (r : Int) := by
  have hq : (r : Int) * (r : Int) ≤ 3002399751025928 := by
    have := sq_radius_le r h2
    exact_mod_cast this
  have hq0 : 0 ≤ (r : Int) * (r : Int) := mul_self_nonneg _
  have e1 : ((3 : Nat) : Int) * (2 * (r : Int) - 1) * (2 * (r : Int) - 1)
      = 12 * ((r : Int) * (r : Int)) - 12 * (r : Int) + 3 := by
    push_cast
    ring
  generalize (r : Int) * (r : Int) = q at hq hq0 e1
  rw [wrap64_id (((3 : Nat) : Int) * (2 * (r : Int) - 1)) (by omega) (by omega), e1,
    wrap64_id (12 * q - 12 * (r : Int) + 3) (by omega) (by omega),
    wrap64_id (4 * ((3 : Nat) : Int)) (by omega) (by omega),
    wrap64_id (4 * ((3 : Nat) : Int) * (2 * (r : Int) - 1)) (by omega) (by omega),
    wrap64_id (3 * ((3 : Nat) : Int)) (by omega) (by omega),
    wrap64_id (12 * q - 12 * (r : Int) + 3 + 4 * ((3 : Nat) : Int) * (2 * (r : Int) - 1))
      (by omega) (by omega),
    wrap64_id _ (by omega) (by omega)]
  omega

theorem round64_boxSum (r : Nat) (h2 : r ≤ 54794158) :
    round64 (((12 * ((r : Int) * (r : Int)) + 12 * (r : Int) : Int) : ℚ))
      = 12 * (r : ℚ) * (r : ℚ) + 12 * (r : ℚ) := by
  obtain ⟨t, ht⟩ : ∃ t : Nat, 2 * t = r * (r + 1) :=
    ⟨r * (r + 1) / 2, Nat.two_mul_div_two_of_even (Nat.even_mul_succ_self r)⟩
  have hq := sq_radius_le r h2
  have hr : r * (r + 1) = r * r + r := by ring
  have := round64_exact ((3 * t : Nat) : Int) 3
    (by rw [abs_of_nonneg (by omega)]; omega) (by norm_num)
  have e : (((3 * t : Nat) : Int) : ℚ) * (2 : ℚ) ^ (3 : Int)
      = 12 * (r : ℚ) * (r : ℚ) + 12 * (r : ℚ) := by
    have h : ((2 * t : Nat) : ℚ) = ((r * (r + 1) : Nat) : ℚ) := by rw [ht]
    push_cast at h
    push_cast
    norm_num
    linear_combination 12 * h
  have e2 : (((12 * ((r : Int) * (r : Int)) + 12 * (r : Int) : Int) : ℚ))
      = 12 * (r : ℚ) * (r : ℚ) + 12 * (r : ℚ) := by
    push_cast
    ring
  rw [e2, ← e]
  exact this

theorem idealMedian64_nat (r : Nat) (h1 : 1 ≤ r) (h2 : r ≤ 54794158) :
    idealMedian64 (r : ℚ) 3 = 3 / 2 := by
  have hr0 : (r : ℚ) ≠ 0 := by
    have : (0 : ℚ) < (r : ℚ) := by exact_mod_cast h1
    exact ne_of_gt this
  have n1 : round64 (12 * (r : ℚ) * (r : ℚ) - (12 * (r : ℚ) * (r : ℚ) + 12 * (r : ℚ)))
      = -12 * (r : ℚ) := by
    have := round64_intCast (-12 * (r : Int)) (by rw [abs_of_nonpos (by omega)]; omega)
    push_cast at this
    rw [← this]
    congr 1
    ring
  have n2 : round64 (((2 * (r : Int) - 1 : Int) : ℚ)) = 2 * (r : ℚ) - 1 := by
    have := round64_intCast (2 * (r : Int) - 1) (by rw [abs_of_nonneg (by omega)]; omega)
    push_cast at this
    push_cast
    exact this
  have n3 : round64 (-4 * (2 * (r : ℚ) - 1)) = -4 * (2 * (r : ℚ) - 1) := by
    have := round64_intCast (-4 * (2 * (r : Int) - 1))
      (by rw [abs_of_nonpos (by omega)]; omega)
    push_cast at this
    exact this
  have n4 : round64 (-4 * (2 * (r : ℚ) - 1) - 4) = -8 * (r : ℚ) := by
    have := round64_intCast (-8 * (r : Int)) (by rw [abs_of_nonpos (by omega)]; omega)
    push_cast at this
    rw [← this]
    congr 1
    ring
  have n5 : -12 * (r : ℚ) / (-8 * (r : ℚ)) = 3 / 2 := by
    field_simp
    ring
  have n6 : round64 (3 / 2 : ℚ) = 3 / 2 := by decide!
  unfold idealMedian64
  simp only []
  rw [boxWlo64_nat r h1 h2, boxSum64_nat r h1 h2, round64_twelve_mul r h2,
    round64_twelve_sq r h2, round64_boxSum r h2, n1, n2, n3, n4, n5, n6]

theorem boxMedian64_nat (r : Nat) (h1 : 1 ≤ r) (h2 : r ≤ 54794158) :
    boxMedian64 (r : ℚ) 3 = 2 := by
  unfold boxMedian64
  rw [idealMedian64_nat r h1 h2]
  decide!

theorem determineBoxes64_nat (r : Nat) (h1 : 1 ≤ r) (h2 : r ≤ 54794158) :
    determineBoxes64 (r : ℚ) 3
      = some [2 * (r : Int) - 1, 2 * (r : Int) - 1, 2 * (r : Int) + 1] := by
  have hs : |(r : ℚ)| < (2 : ℚ) ^ 500 := by
    rw [abs_of_nonneg (Nat.cast_nonneg r)]
    have : (r : ℚ) ≤ ((54794158 : Nat) : ℚ) := by exact_mod_cast h2
    have e : ((54794158 : Nat) : ℚ) < (2 : ℚ) ^ 500 := by norm_num
    linarith
  unfold determineBoxes64
  rw [if_pos hs, boxMedian64_nat r h1 h2, boxWlo64_nat r h1 h2, boxWup64_nat r h1 h2]
  rfl

theorem gaussBoxes64_zero : gaussBoxes64 0 = some [1, 1, 1] := by decide!

theorem gaussBoxes64_nat (r : Nat) (h1 : 1 ≤ r) (h2 : r ≤ 54794158) :
    gaussBoxes64 (r : Int) = some [2 * (r : Int) - 1, 2 * (r : Int) - 1, 2 * (r : Int) + 1] := by
  unfold gaussBoxes64
  rw [float64OfInt_natCast r (by omega)]
  exact determineBoxes64_nat r h1 h2

theorem gaussBoxes64_eq_determineBoxes (r : Nat) (h2 : r ≤ 54794158) :
    gaussBoxes64 (r : Int) = some (determineBoxes (((r : Nat) : Int) : ℚ) 3) := by
  rcases Nat.eq_zero_or_pos r with h | h
  · subst h
    rw [Nat.cast_zero, Int.cast_zero, determineBoxes_zero]
    exact gaussBoxes64_zero
  · rw [gaussBoxes64_nat r h h2, Int.cast_natCast, determineBoxes_nat r h]

theorem width_radius (w : Int) (h1 : 1 ≤ w) (h2 : w % 2 = 1) :
    0 ≤ (w - 1).tdiv 2 ∧ 2 * ((w - 1).tdiv 2) + 1 = w := by
  have hd : (w - 1).tdiv 2 = (w - 1) / 2 := Int.tdiv_eq_ediv (by omega) (by omega)
  rw [hd]
  omega

theorem determineBoxes64_odd (s : ℚ) (h0 : 0 ≤ s) (hS : s ≤ (2 : ℚ) ^ 62 - 2 ^ 9) :
    ∃ ws : List Int, determineBoxes64 s 3 = some ws ∧ ws.length = 3 ∧
      ∀ w ∈ ws, 1 ≤ w ∧ w % 2 = 1 ∧ 0 ≤ (w - 1).tdiv 2 ∧ 2 * ((w - 1).tdiv 2) + 1 = w := by
  obtain ⟨ws, e, hl, hw, _⟩ := determineBoxes64_widths s h0 hS
  refine ⟨ws, e, hl, ?_⟩
  intro w hmem
  obtain ⟨a, b⟩ := hw w hmem
  obtain ⟨c, d⟩ := width_radius w a b
  exact ⟨a, b, c, d⟩

/-! ## C7: the box widths are three positive odd integers -/

/-- C7, as amended: for every float64 value `σ` with `0 ≤ σ < 2^62`, and for
`σ = float64(r)` of every integer radius `0 ≤ r ≤ 2^62 - 257`,
`determineBoxes(σ, 3)` computed in float64 and int64 arithmetic returns a list
of exactly three integers, each odd and at least 1, so each derived radius
`(w - 1) / 2` is a non-negative integer with `2 * radius + 1 = w`. -/
theorem determineBoxes64_three_positive_odd (sigma : ℚ) (r : Int)
    (hrep : round64 sigma = sigma) (h0 : 0 ≤ sigma) (hlt : sigma < (2 : ℚ) ^ 62)
    (hr0 : 0 ≤ r) (hr : r ≤ 2 ^ 62 - 257) :
    (∃ ws : List Int, determineBoxes64 sigma 3 = some ws ∧ ws.length = 3 ∧
      ∀ w ∈ ws, 1 ≤ w ∧ w % 2 = 1 ∧ 0 ≤ (w - 1).tdiv 2 ∧ 2 * ((w - 1).tdiv 2) + 1 = w) ∧
    (∃ ws : List Int, gaussBoxes64 r = some ws ∧ ws.length = 3 ∧
      ∀ w ∈ ws, 1 ≤ w ∧ w % 2 = 1 ∧ 0 ≤ (w - 1).tdiv 2 ∧ 2 * ((w - 1).tdiv 2) + 1 = w) := by
  constructor
  · exact determineBoxes64_odd sigma h0 (float64_le_of_lt sigma hrep hlt)
  · obtain ⟨a, b⟩ := float64OfInt_le r hr0 hr
    exact determineBoxes64_odd (float64OfInt r) a b

theorem determineBoxes64_three_positive_odd_witness :
    (∃ ws : List Int, determineBoxes64 (5 / 2) 3 = some ws ∧ ws.length = 3 ∧
      ∀ w ∈ ws, 1 ≤ w ∧ w % 2 = 1 ∧ 0 ≤ (w - 1).tdiv 2 ∧ 2 * ((w - 1).tdiv 2) + 1 = w) ∧
    (∃ ws : List Int, gaussBoxes64 7 = some ws ∧ ws.length = 3 ∧
      ∀ w ∈ ws, 1 ≤ w ∧ w % 2 = 1 ∧ 0 ≤ (w - 1).tdiv 2 ∧ 2 * ((w - 1).tdiv 2) + 1 = w) :=
  determineBoxes64_three_positive_odd (5 / 2) 7 (by decide!) (by norm_num) (by norm_num)
    (by decide) (by decide)

/-- C7, as stated, fails: the radius `2^62` is a float64 value (`float64(2^62)
= 2^62`), and `determineBoxes(2^62, 3)` computed in float64 and int64
arithmetic returns three widths `-9223372036854775807`, none of them at least
1; the same holds at the integer radius `2^62 - 256`, whose float64 is `2^62`. -/
theorem determineBoxes64_negative_widths :
    round64 ((2 : ℚ) ^ 62) = (2 : ℚ) ^ 62 ∧ (0 : ℚ) ≤ (2 : ℚ) ^ 62 ∧
    determineBoxes64 ((2 : ℚ) ^ 62) 3
      = some [-9223372036854775807, -9223372036854775807, -9223372036854775807] ∧
    gaussBoxes64 (2 ^ 62)
      = some [-9223372036854775807, -9223372036854775807, -9223372036854775807] ∧
    gaussBoxes64 (2 ^ 62 - 256)
      = some [-9223372036854775807, -9223372036854775807, -9223372036854775807] ∧
    ¬ (1 : Int) ≤ -9223372036854775807 := by
  refine ⟨?_, ?_, ?_, ?_, ?_, ?_⟩ <;> decide!

/-! ## C8: the variance of the boxes against the target variance -/

theorem boxVariance_closed_form (r : Int) :
    boxVariance [2 * r - 1, 2 * r - 1, 2 * r + 1] = (r : ℚ) ^ 2 - (r : ℚ) / 3 := by
  simp only [boxVariance, List.map_cons, List.map_nil, List.sum_cons, List.sum_nil]
  push_cast
  ring

/-- C8, as amended: for every integer `0 ≤ σ ≤ 54794158` the widths
`determineBoxes(float64(σ), 3)`, computed in float64 and int64 arithmetic,
satisfy `|Σ (w² - 1) / 12 - σ²| = σ / 3` (the sum and the difference in exact
rational arithmetic): the distance is a third of `σ`, not a constant
independent of `σ`. -/
theorem boxVariance64_error (n : Nat) (hn : n ≤ 54794158) :
    ∃ ws : List Int, gaussBoxes64 (n : Int) = some ws ∧
      |boxVariance ws - (n : ℚ) ^ 2| = (n : ℚ) / 3 := by
  rcases Nat.eq_zero_or_pos n with h | h
  · subst h
    refine ⟨[1, 1, 1], gaussBoxes64_zero, ?_⟩
    norm_num [boxVariance]
  · refine ⟨_, gaussBoxes64_nat n h hn, ?_⟩
    rw [boxVariance_closed_form]
    have h3 : (0 : ℚ) ≤ (n : ℚ) / 3 := by positivity
    rw [Int.cast_natCast,
      show (n : ℚ) ^ 2 - (n : ℚ) / 3 - (n : ℚ) ^ 2 = -((n : ℚ) / 3) by ring, abs_neg,
      abs_of_nonneg h3]

theorem boxVariance64_error_witness :
    (6 : Nat) ≤ 54794158 ∧ ∃ ws : List Int, gaussBoxes64 ((6 : Nat) : Int) = some ws ∧
      |boxVariance ws - ((6 : Nat) : ℚ) ^ 2| = ((6 : Nat) : ℚ) / 3 :=
  ⟨by decide, boxVariance64_error 6 (by decide)⟩

/-- C8, as stated, fails: the distance between the variance of the widths and
`σ²` is not within a tolerance independent of `σ`.  It is 1 at `σ = 3`,
`1000000` at `σ = 3000000`, `18264719 + 1/3` at `σ = 54794158` and
`2^30 = 1073741824` at `σ = 2^30` (where the widths are three times
`2^31 + 1`). -/
theorem boxVariance64_error_grows :
    gaussBoxes64 3 = some [5, 5, 7] ∧
    |boxVariance [5, 5, 7] - (3 : ℚ) ^ 2| = 1 ∧
    gaussBoxes64 3000000 = some [5999999, 5999999, 6000001] ∧
    |boxVariance [5999999, 5999999, 6000001] - (3000000 : ℚ) ^ 2| = 1000000 ∧
    gaussBoxes64 54794158 = some [109588315, 109588315, 109588317] ∧
    |boxVariance [109588315, 109588315, 109588317] - (54794158 : ℚ) ^ 2| = 18264719 + 1 / 3 ∧
    gaussBoxes64 (2 ^ 30) = some [2147483649, 2147483649, 2147483649] ∧
    |boxVariance [2147483649, 2147483649, 2147483649] - ((2 : ℚ) ^ 30) ^ 2| = 2 ^ 30 := by
  refine ⟨?_, ?_, ?_, ?_, ?_, ?_, ?_, ?_⟩ <;> decide!

/-! ## C18: the solver in closed form for an integer radius -/

/-- C18, as amended: `determineBoxes(float64(0), 3) = [1, 1, 1]`, and for every
integer radius `1 ≤ r ≤ 54794158`, `determineBoxes(float64(r), 3)` computed in
float64 and int64 arithmetic is `[2r-1, 2r-1, 2r+1]` with the split point
`median = 2`; the solver in exact arithmetic returns the same list, so
`Gaussian` with radius `r` is the buffer acquisition followed by the three
separable passes of the radii `r-1`, `r-1` and `r`, in that order; for every
integer radius `0 ≤ n ≤ 2^62 - 257` the widths are non-decreasing and each is
one of two values that differ by 2. -/
theorem gaussBoxes64_integer_closed_form (r : Nat) (n : Int) (hr : 1 ≤ r) (hr2 : r ≤ 54794158)
    (hn0 : 0 ≤ n) (hn : n ≤ 2 ^ 62 - 257) (im : Image) (option : BlurOption) :
    gaussBoxes64 0 = some [1, 1, 1] ∧
    gaussBoxes64 (r : Int) = some [2 * (r : Int) - 1, 2 * (r : Int) - 1, 2 * (r : Int) + 1] ∧
    boxMedian64 (float64OfInt (r : Int)) 3 = 2 ∧
    determineBoxes (((r : Nat) : Int) : ℚ) 3
      = [2 * (r : Int) - 1, 2 * (r : Int) - 1, 2 * (r : Int) + 1] ∧
    Gaussian im (r : Int) option = (do
      let rgba ← acquire im option
      let d ← deref rgba
      let tmp ← NewRGBA d.Bounds
      sepPass rgba tmp ((r : Int) - 1)
      sepPass rgba tmp ((r : Int) - 1)
      sepPass rgba tmp (r : Int)
      pure rgba) ∧
    ∃ ws : List Int, gaussBoxes64 n = some ws ∧
      List.Pairwise (fun a b : Int => a ≤ b) ws ∧
      ∃ a : Int, ∀ b ∈ ws, b = a ∨ b = a + 2 := by
  refine ⟨gaussBoxes64_zero, gaussBoxes64_nat r hr hr2, ?_, ?_, ?_, ?_⟩
  · rw [float64OfInt_natCast r (by omega)]
    exact boxMedian64_nat r hr hr2
  · rw [Int.cast_natCast]
    exact determineBoxes_nat r hr
  · obtain ⟨r0, r1, r2⟩ := passRadius_nat r
    have e : ((r - 1 : Nat) : Int) = (r : Int) - 1 := by omega
    rw [e] at r0 r1
    rw [Gaussian_eq_acquire]
    simp only [gaussianBlur_eq, bind_assoc, r0, r1, r2]
  · obtain ⟨a, b⟩ := float64OfInt_le n hn0 hn
    obtain ⟨ws, e, _, _, hp, ht⟩ := determineBoxes64_widths (float64OfInt n) a b
    exact ⟨ws, e, hp, ht⟩

theorem gaussBoxes64_integer_closed_form_witness :
    gaussBoxes64 0 = some [1, 1, 1] ∧
    gaussBoxes64 ((3 : Nat) : Int)
      = some [2 * ((3 : Nat) : Int) - 1, 2 * ((3 : Nat) : Int) - 1, 2 * ((3 : Nat) : Int) + 1] ∧
    boxMedian64 (float64OfInt ((3 : Nat) : Int)) 3 = 2 ∧
    determineBoxes ((((3 : Nat) : Nat) : Int) : ℚ) 3
      = [2 * ((3 : Nat) : Int) - 1, 2 * ((3 : Nat) : Int) - 1, 2 * ((3 : Nat) : Int) + 1] ∧
    Gaussian (Image.rgba 0) ((3 : Nat) : Int) BlurOption.ReuseSrc = (do
      let rgba ← acquire (Image.rgba 0) BlurOption.ReuseSrc
      let d ← deref rgba
      let tmp ← NewRGBA d.Bounds
      sepPass rgba tmp (((3 : Nat) : Int) - 1)
      sepPass rgba tmp (((3 : Nat) : Int) - 1)
      sepPass rgba tmp ((3 : Nat) : Int)
      pure rgba) ∧
    ∃ ws : List Int, gaussBoxes64 100 = some ws ∧
      List.Pairwise (fun a b : Int => a ≤ b) ws ∧
      ∃ a : Int, ∀ b ∈ ws, b = a ∨ b = a + 2 :=
  gaussBoxes64_integer_closed_form 3 100 (by decide) (by decide) (by decide) (by decide)
    (Image.rgba 0) BlurOption.ReuseSrc

/-- C18, as stated, fails: at the integer radius `r = 54794159` the product
`12 * σ * σ` is no longer exact in float64, the split point is 1 instead of 2,
and `determineBoxes(float64(r), 3)` is `[2r-1, 2r+1, 2r+1]`, not
`[2r-1, 2r-1, 2r+1]`; at `r = 2^30` the int64 product wraps around and the
result is `[2r+1, 2r+1, 2r+1]`. -/
theorem gaussBoxes64_closed_form_fails :
    gaussBoxes64 54794159 = some [109588317, 109588319, 109588319] ∧
    boxMedian64 (float64OfInt 54794159) 3 = 1 ∧
    gaussBoxes64 54794159
      ≠ some [2 * (54794159 : Int) - 1, 2 * (54794159 : Int) - 1, 2 * (54794159 : Int) + 1] ∧
    gaussBoxes64 (2 ^ 30) = some [2147483649, 2147483649, 2147483649] ∧
    gaussBoxes64 (2 ^ 30)
      ≠ some [2 * (2 ^ 30 : Int) - 1, 2 * (2 ^ 30 : Int) - 1, 2 * (2 ^ 30 : Int) + 1] := by
  refine ⟨?_, ?_, ?_, ?_, ?_⟩ <;> decide!

end Blur
